import Mathlib

/-!
# parrp / omptr analyzer: reachability engine and sharing classifier

A shallow embedding of `omptr/analyzer/analyzer.cc` and `analyzer.hh`.

* `Graph` models `boost::adjacency_list<vecS, vecS, directedS>`: vertices are
  `0 .. num_vertices - 1`, every vertex owns the vector of its out-edge targets
  in insertion order.
* `ComponentsMap` models `std::vector<std::vector<bool>>`.
* Loops that the C++ code runs until a container is empty take a fuel argument
  and return `none` when the fuel is exhausted.
-/

set_option maxRecDepth 100000

namespace Parrp

/-! ## Data model -/

abbrev Vertex := Nat

abbrev Addr := Nat

abbrev Tid := Int

/-- Graph type `boost::adjacency_list<vecS, vecS, directedS>`: the out-edge
target vector of every vertex, in insertion order. -/
structure Graph where
  out : List (List Vertex)
deriving DecidableEq, Repr

/-- Number of vertices, `boost::num_vertices(g)`. -/
def num_vertices (g : Graph) : Nat := g.out.length

/-- Targets of `boost::out_edges(u, g)`, in iteration order. -/
def out_edges (g : Graph) (u : Vertex) : List Vertex := g.out.getD u []

/-- Every edge target is a vertex of the graph (an invariant of the boost
container: `add_edge` grows the vertex set to cover both end points). -/
def Graph.wf (g : Graph) : Prop :=
  ∀ es ∈ g.out, ∀ v ∈ es, v < g.out.length

instance (g : Graph) : Decidable g.wf := by
  unfold Graph.wf; infer_instance

/-- Matrix type `std::vector<std::vector<bool>>`. -/
abbrev ComponentsMap := List (List Bool)

/-- Read `c_map[u][v]`. -/
def cget (m : ComponentsMap) (u v : Vertex) : Bool := (m.getD u []).getD v false

/-- Write `c_map[u][v] = true`. -/
def cset (m : ComponentsMap) (u v : Vertex) : ComponentsMap :=
  m.set u ((m.getD u []).set v true)

/-- The value `ComponentsMap(n, std::vector<bool>(n, false))`. -/
def emptyMap (n : Nat) : ComponentsMap := List.replicate n (List.replicate n false)

/-! ## connected_components -/

/-- Loop state of `connected_components`; the head of `dfs_stack` is its top. -/
structure CCState where
  dfs_stack : List Vertex
  discovered : List Bool
  done : List Bool
  c_map : ComponentsMap
deriving DecidableEq, Repr

/-- First inner loop: push every out-edge target that is not discovered yet and
mark it discovered. -/
def pushUndiscovered (es : List Vertex) (st : List Vertex × List Bool) :
    List Vertex × List Bool :=
  es.foldl (fun acc t =>
    if acc.2.getD t false = false then (t :: acc.1, acc.2.set t true) else acc) st

/-- Second inner loop: `is_done` holds iff every out-edge target is done. -/
def allDone (es : List Vertex) (done : List Bool) : Bool :=
  es.all (fun t => done.getD t false)

/-- Body of the third loop for one out-edge: mark the target, then copy every
set entry of the target's row into the row of the current vertex. -/
def mergeRow (n : Nat) (cur t : Vertex) (m : ComponentsMap) : ComponentsMap :=
  (List.range n).foldl (fun acc i => if cget acc t i = true then cset acc cur i else acc)
    (cset m cur t)

/-- Third inner loop, run when the current vertex is done. -/
def processDone (n : Nat) (cur : Vertex) (es : List Vertex) (m : ComponentsMap) :
    ComponentsMap :=
  es.foldl (fun acc t => mergeRow n cur t acc) m

/-- One iteration of the `while (!dfs_stack.empty())` loop, on a non-empty
stack whose top is `cur`. -/
def cc_step (g : Graph) (cur : Vertex) (s : CCState) : CCState :=
  let es := out_edges g cur
  let pushed := pushUndiscovered es (s.dfs_stack, s.discovered)
  if allDone es s.done = true then
    { dfs_stack := pushed.1.tail
      discovered := pushed.2
      done := s.done.set cur true
      c_map := processDone (num_vertices g) cur es s.c_map }
  else
    { dfs_stack := pushed.1
      discovered := pushed.2
      done := s.done
      c_map := s.c_map }

/-- The `while` loop of `connected_components`, bounded by `fuel` iterations. -/
def cc_loop (g : Graph) : Nat → CCState → Option ComponentsMap
  | 0, _ => none
  | fuel + 1, s =>
    match s.dfs_stack with
    | [] => some s.c_map
    | cur :: _ => cc_loop g fuel (cc_step g cur s)

/-- State on entry to the loop: the root is pushed and discovered. -/
def cc_init (g : Graph) (root : Vertex) (c_map : ComponentsMap) : CCState :=
  { dfs_stack := [root]
    discovered := (List.replicate (num_vertices g) false).set root true
    done := List.replicate (num_vertices g) false
    c_map := c_map }

/-- Function `connected_components(g, root, c_map)`; `none` when the loop is
still running after `fuel` iterations. -/
def connected_components (g : Graph) (root : Vertex) (c_map : ComponentsMap)
    (fuel : Nat) : Option ComponentsMap :=
  cc_loop g fuel (cc_init g root c_map)

/-! ## Memory statistics -/

/-- Enumeration `DataRegion`. -/
inductive DataRegion where
  | GLOBAL
  | STACK
  | HEAP
deriving DecidableEq, Repr

/-- Record type `AddrAccessStats`. -/
structure AddrAccessStats where
  bb_id : Int
  thread_id : Tid
  address : Addr
  line_address : Addr
  is_ifetch : Bool
  num_local_l1_hit : Nat
  num_remote_l1_hit : Nat
  num_l2_hit : Nat
  num_memory_access : Nat
  data_region : DataRegion
  is_shared : Bool
deriving DecidableEq, Repr

/-- Container `std::map<Addr, AddrAccessStats>`: the entries in iteration
order, that is by ascending key. -/
abbrev AddrMap := List (Addr × AddrAccessStats)

/-- Container `MemStats = std::vector<std::map<Addr, AddrAccessStats>>`. -/
abbrev MemStats := List AddrMap

/-- Keys of a `std::map` are strictly ascending in iteration order. -/
def AddrMap.wf (m : AddrMap) : Prop := (m.map Prod.fst).Pairwise (fun a b => a < b)

instance (m : AddrMap) : Decidable m.wf := by
  unfold AddrMap.wf; infer_instance

/-- Every per-vertex map is a well-formed `std::map`. -/
def MemStats.wf (ms : MemStats) : Prop := ∀ m ∈ ms, AddrMap.wf m

instance (ms : MemStats) : Decidable ms.wf := by
  unfold MemStats.wf; infer_instance

/-- Lookup `m.find(a)`: the record stored under key `a`, if any. -/
def mfind : AddrMap → Addr → Option AddrAccessStats
  | [], _ => none
  | (k, r) :: m, a => if k = a then some r else mfind m a

/-- Assignment `it->second.is_shared = b` for the entry found under key `a`. -/
def msetShared : AddrMap → Addr → Bool → AddrMap
  | [], _, _ => []
  | (k, r) :: m, a, b =>
    if k = a then (k, { r with is_shared := b }) :: m else (k, r) :: msetShared m a b

/-- Assignment to the `is_shared` flag of `mem_stats[v][a]`. -/
def setShared (ms : MemStats) (v : Vertex) (a : Addr) (b : Bool) : MemStats :=
  ms.set v (msetShared (ms.getD v []) a b)

/-- The cast `(Vertex)pair.second.bb_id` from `int` to a 64-bit unsigned. -/
def toVertex (i : Int) : Nat := (i % 2 ^ 64).toNat

/-- Thread id taken from `begin()` of a map; `dflt` when the map is empty. -/
def firstTid (m : AddrMap) (dflt : Tid) : Tid :=
  match m with
  | [] => dflt
  | e :: _ => e.2.thread_id

/-! ## analyze_shared_access -/

/-- The vector `parallel_vertices` built for vertex `u`. -/
def parallel_vertices (n : Nat) (c : ComponentsMap) (u : Vertex) : List Vertex :=
  (List.range n).filter
    (fun v => decide (u ≠ v) && (cget c u v == false) && (cget c v u == false))

/-- Check of one record against the guess vertex `gv`. -/
def guessCheck (ms : MemStats) (gv : Vertex) (tid : Tid) (is_ifetch : Bool) (a : Addr) :
    Bool :=
  match ms.getD gv [] with
  | [] => false
  | e :: m =>
    if (!(!is_ifetch && decide (tid = e.2.thread_id))) = true then (mfind (e :: m) a).isSome
    else false

/-- Scan over the parallel vertices; the result is the vertex at which the
loop breaks, or `none` when it runs to the end. -/
def scanParallel (ms : MemStats) (tid : Tid) (is_ifetch : Bool) (a : Addr) :
    List Vertex → Option Vertex
  | [] => none
  | p :: ps =>
    match ms.getD p [] with
    | [] => scanParallel ms tid is_ifetch a ps
    | e :: m =>
      if (!is_ifetch && decide (tid = e.2.thread_id)) = true then
        scanParallel ms tid is_ifetch a ps
      else if (mfind (e :: m) a).isSome = true then some p
      else scanParallel ms tid is_ifetch a ps

/-- Body of the loop over the records of `u`, for the record under key `a`;
the state is the statistics and the guess vertex. `none` is a failed `assert`. -/
def classifyRecord (u : Vertex) (tid : Tid) (par : List Vertex)
    (st : MemStats × Vertex) (a : Addr) : Option (MemStats × Vertex) :=
  match mfind (st.1.getD u []) a with
  | none => none
  | some r =>
    if toVertex r.bb_id ≠ u then none
    else if r.thread_id ≠ tid then none
    else if r.is_shared = true then some st
    else if guessCheck st.1 st.2 tid r.is_ifetch a = true then
      some (setShared st.1 u a true, st.2)
    else
      match scanParallel st.1 tid r.is_ifetch a par with
      | some p => some (setShared (setShared st.1 p a true) u a true, p)
      | none => some (setShared st.1 u a false, st.2)

/-- Loop `for (auto& pair : addr_stats)` over the keys of `mem_stats[u]`. -/
def classifyRecords (u : Vertex) (tid : Tid) (par : List Vertex) :
    List Addr → MemStats × Vertex → Option (MemStats × Vertex)
  | [], st => some st
  | a :: as, st =>
    match classifyRecord u tid par st a with
    | none => none
    | some st' => classifyRecords u tid par as st'

/-- Body of the loop over the vertices; the state is the statistics and the
variable `tid`, which keeps its value when the vertex has no record. -/
def classifyVertex (n : Nat) (c : ComponentsMap) (st : MemStats × Tid) (u : Vertex) :
    Option (MemStats × Tid) :=
  let tid := firstTid (st.1.getD u []) st.2
  match parallel_vertices n c u with
  | [] => some (st.1, tid)
  | g0 :: ps =>
    match classifyRecords u tid (g0 :: ps) ((st.1.getD u []).map Prod.fst) (st.1, g0) with
    | none => none
    | some r => some (r.1, tid)

/-- Loop `for (auto& addr_stats : mem_stats)` with the counter `u`. -/
def classifyAll (n : Nat) (c : ComponentsMap) :
    List Vertex → MemStats × Tid → Option (MemStats × Tid)
  | [], st => some st
  | u :: us, st =>
    match classifyVertex n c st u with
    | none => none
    | some st' => classifyAll n c us st'

/-- The post-condition asserts on the components map. -/
def checkComponents (n : Nat) (c : ComponentsMap) (r e : Vertex) : Bool :=
  (List.range n).all
    (fun u => (decide (u = r) || cget c r u) && (decide (u = e) || cget c u e))

/-- The classification part of `analyze_shared_access`, for a given
components map. -/
def classify (n : Nat) (c : ComponentsMap) (mem_stats : MemStats) : Option MemStats :=
  (classifyAll n c (List.range mem_stats.length) (mem_stats, 0)).map Prod.fst

/-- Function `analyze_shared_access(mem_stats, g, r, e)`. The result is the
updated statistics; `none` stands for a failed `assert`, for an out-of-range
root (undefined behaviour in C++), or for a reachability loop that is still
running after `fuel` iterations. -/
def analyze_shared_access (mem_stats : MemStats) (g : Graph) (r e : Vertex) (fuel : Nat) :
    Option MemStats :=
  if num_vertices g ≠ mem_stats.length then none
  else if ¬ r < num_vertices g then none
  else
    match connected_components g r (emptyMap (num_vertices g)) fuel with
    | none => none
    | some c_map =>
      if checkComponents (num_vertices g) c_map r e = true then
        classify (num_vertices g) c_map mem_stats
      else none

/-! ## Depth-first search of the graph library

`boost::depth_first_search` is library code; it is modelled after its
documented behaviour (the iterative `depth_first_visit_impl`): a stack of
frames, each a vertex with the out-edges it has not examined yet. -/

deriving instance DecidableEq for Except

/-- Vertex colours of the search. -/
inductive Color where
  | white
  | gray
  | black
deriving DecidableEq, Repr

/-- The visitor events used by this repository, acting on a visitor state `σ`;
an event may throw an exception `ε`. -/
structure DfsVisitor (σ ε : Type) where
  discover_vertex : Vertex → σ → Except ε σ
  back_edge : Vertex → Vertex → σ → Except ε σ
  finish_vertex : Vertex → σ → Except ε σ

/-- Why a search stopped early: a visitor threw, or the fuel ran out. -/
inductive DfsStop (ε : Type) where
  | raised (e : ε)
  | fuel
deriving DecidableEq, Repr

/-- The main loop of `depth_first_visit_impl`; the head of the frame list is
the top of the stack. -/
def dfs_loop {σ ε : Type} (g : Graph) (vis : DfsVisitor σ ε) :
    Nat → List (Vertex × List Vertex) → List Color × σ → Except (DfsStop ε) (List Color × σ)
  | 0, _, _ => .error .fuel
  | _ + 1, [], st => .ok st
  | fuel + 1, (u, []) :: rest, st =>
    match vis.finish_vertex u st.2 with
    | .error e => .error (.raised e)
    | .ok s => dfs_loop g vis fuel rest (st.1.set u .black, s)
  | fuel + 1, (u, v :: es) :: rest, st =>
    match st.1.getD v .white with
    | .white =>
      match vis.discover_vertex v st.2 with
      | .error e => .error (.raised e)
      | .ok s => dfs_loop g vis fuel ((v, out_edges g v) :: (u, es) :: rest) (st.1.set v .gray, s)
    | .gray =>
      match vis.back_edge u v st.2 with
      | .error e => .error (.raised e)
      | .ok s => dfs_loop g vis fuel ((u, es) :: rest) (st.1, s)
    | .black => dfs_loop g vis fuel ((u, es) :: rest) st

/-- Fuel that covers one complete visit: every vertex is finished at most once
and every edge is examined at most once. -/
def dfsFuel (g : Graph) : Nat := num_vertices g + (g.out.map List.length).sum + 1

/-- Function `depth_first_visit_impl(g, u, vis, color)`. -/
def depth_first_visit {σ ε : Type} (g : Graph) (vis : DfsVisitor σ ε) (u : Vertex)
    (st : List Color × σ) : Except (DfsStop ε) (List Color × σ) :=
  match vis.discover_vertex u st.2 with
  | .error e => .error (.raised e)
  | .ok s => dfs_loop g vis (dfsFuel g) [(u, out_edges g u)] (st.1.set u .gray, s)

/-- The loop of `depth_first_search` that starts a visit at every vertex that
is still white. -/
def dfs_roots {σ ε : Type} (g : Graph) (vis : DfsVisitor σ ε) :
    List Vertex → List Color × σ → Except (DfsStop ε) (List Color × σ)
  | [], st => .ok st
  | u :: us, st =>
    if st.1.getD u .white = .white then
      match depth_first_visit g vis u st with
      | .error e => .error e
      | .ok st' => dfs_roots g vis us st'
    else dfs_roots g vis us st

/-- Function `depth_first_search(g, visitor(vis).root_vertex(start))`: all
vertices white, a visit from `start`, then a visit from every vertex that is
still white. -/
def depth_first_search {σ ε : Type} (g : Graph) (vis : DfsVisitor σ ε) (start : Vertex)
    (s : σ) : Except (DfsStop ε) σ :=
  if num_vertices g = 0 then .ok s
  else
    match dfs_roots g vis (start :: List.range (num_vertices g))
        (List.replicate (num_vertices g) .white, s) with
    | .error e => .error e
    | .ok st => .ok st.2

/-! ## connected_components_slow -/

/-- What the visitor `ConnectedComponentRecorder` throws: `StopSearch`, or the
failure of `assert(false)` on a back edge. Both carry the map as it is at the
time of the throw (the map is held by reference). -/
inductive RecorderStop where
  | stop_search (c_map : ComponentsMap)
  | assert_failed
deriving DecidableEq, Repr

/-- Visitor `ConnectedComponentRecorder(c_map, src)`. -/
def ConnectedComponentRecorder (src : Vertex) : DfsVisitor ComponentsMap RecorderStop where
  discover_vertex := fun u c_map => .ok (if u ≠ src then cset c_map src u else c_map)
  back_edge := fun _ _ _ => .error .assert_failed
  finish_vertex := fun u c_map => if u = src then .error (.stop_search c_map) else .ok c_map

/-- Loop of `connected_components_slow` over the vertices `us`. `none` is a
failed assertion (or exhausted fuel). -/
def slow_loop (g : Graph) : List Vertex → ComponentsMap → Option ComponentsMap
  | [], c_map => some c_map
  | u :: us, c_map =>
    match depth_first_search g (ConnectedComponentRecorder u) u c_map with
    | .ok c_map' => slow_loop g us c_map'
    | .error (.raised (.stop_search c_map')) => slow_loop g us c_map'
    | .error (.raised .assert_failed) => none
    | .error .fuel => none

/-- Function `connected_components_slow(g, c_map)`. -/
def connected_components_slow (g : Graph) (c_map : ComponentsMap) : Option ComponentsMap :=
  slow_loop g (List.range (num_vertices g)) c_map

/-! ## topological_sort -/

/-- Exception `boost::not_a_dag`. -/
inductive NotADag where
  | not_a_dag
deriving DecidableEq, Repr

/-- Visitor `topo_sort_visitor`: a back edge throws `not_a_dag`, a finished
vertex is appended to the output. -/
def topo_sort_visitor : DfsVisitor (List Vertex) NotADag where
  discover_vertex := fun _ out => .ok out
  back_edge := fun _ _ _ => .error .not_a_dag
  finish_vertex := fun u out => .ok (out ++ [u])

/-- Function `boost::topological_sort(g, std::back_inserter(container))`: the
vertices in the order in which the search finishes them. -/
def topological_sort (g : Graph) : Except (DfsStop NotADag) (List Vertex) :=
  depth_first_search g topo_sort_visitor 0 []

/-! ## parse_dag -/

/-- Record type `BasicBlock` of the analyzer. -/
structure BasicBlock where
  ID : Int
  taskID : Int
  nodeID : Int
  taskCreated : Int
  numTasksWaitingFor : Int
  waitFor : List Int
deriving DecidableEq, Repr

/-- The comparison `BasicBlock::operator<`. -/
def BasicBlock.lt (a b : BasicBlock) : Prop :=
  if a.taskID = b.taskID then a.nodeID < b.nodeID else a.taskID < b.taskID

instance (a b : BasicBlock) : Decidable (BasicBlock.lt a b) := by
  unfold BasicBlock.lt; infer_instance

/-- What the call `std::sort(begin, end)` guarantees of the vector it leaves
behind: `sorted` is a rearrangement of the input in ascending `operator<`
order. The order of blocks that compare equal (same task id and node index) is
unspecified, so several lists can be results of one input. -/
def StdSortResult (bbs sorted : List BasicBlock) : Prop :=
  sorted.Perm bbs ∧ sorted.Pairwise (fun a b => ¬ BasicBlock.lt b a)

instance (bbs sorted : List BasicBlock) : Decidable (StdSortResult bbs sorted) := by
  unfold StdSortResult; infer_instance

/-- One result of the call `std::sort(begin, end)`: the blocks in ascending
`operator<` order, blocks that compare equal in their input order. It is the
only result when no two blocks have the same task id and node index. -/
def sortBlocks (bbs : List BasicBlock) : List BasicBlock :=
  bbs.insertionSort (fun a b => ¬ BasicBlock.lt b a)

/-- How `parse_dag` can fail. `out_of_range` stands for an index or vertex id
outside its container, which is undefined behaviour in C++. -/
inductive ParseError where
  | empty_input
  | first_task_not_zero
  | task_gap
  | out_of_range
  | not_a_dag
  | bad_order
  | fuel
deriving DecidableEq, Repr

/-- The grouping loop: `cur` is `current_task_id`, `bbs` the group being
filled and `acc` the vector `basic_blocks_2d`. -/
def groupLoop : List BasicBlock → Int → List BasicBlock → List (List BasicBlock) →
    Except ParseError (List (List BasicBlock))
  | [], _, bbs, acc => .ok (acc ++ [bbs])
  | bb :: rest, cur, bbs, acc =>
    if bb.taskID ≠ cur then
      if bb.taskID = cur + 1 then groupLoop rest bb.taskID [bb] (acc ++ [bbs])
      else .error .task_gap
    else groupLoop rest cur (bbs ++ [bb]) acc

/-- Grouping of the sorted blocks into `basic_blocks_2d`, with its asserts. -/
def groupBlocks (sorted : List BasicBlock) : Except ParseError (List (List BasicBlock)) :=
  match sorted with
  | [] => .error .empty_input
  | b0 :: _ => if b0.taskID = 0 then groupLoop sorted 0 [] [] else .error .first_task_not_zero

/-- Element access `v[i]` with an `int` index. -/
def indexInt {α : Type} (v : List α) (i : Int) : Except ParseError α :=
  if 0 ≤ i then
    match v.get? i.toNat with
    | some x => .ok x
    | none => .error .out_of_range
  else .error .out_of_range

/-- Function `boost::add_edge(u, v, g)` on a `vecS` vertex container: the vertex
set grows to hold both end points, then `v` is appended to the out-edges of
`u`. -/
def add_edge (u v : Vertex) (g : Graph) : Graph :=
  let out := g.out ++ List.replicate (max u v + 1 - g.out.length) []
  ⟨out.set u (out.getD u [] ++ [v])⟩

/-- The call `boost::add_edge(a.ID, b.ID, g)` with `int` ids. -/
def addEdgeInt (a b : Int) (g : Graph) : Except ParseError Graph :=
  if 0 ≤ a ∧ 0 ≤ b then .ok (add_edge a.toNat b.toNat g) else .error .out_of_range

/-- The loop over `bb.waitFor` that adds the synchronisation edges. -/
def addJoinEdges (bbs2d : List (List BasicBlock)) (bb : BasicBlock) :
    List Int → Graph → Except ParseError Graph
  | [], g => .ok g
  | task_id :: rest, g =>
    match indexInt bbs2d task_id with
    | .error e => .error e
    | .ok grp =>
      match grp.getLast? with
      | none => .error .out_of_range
      | some last_bb =>
        match addEdgeInt last_bb.ID bb.ID g with
        | .error e => .error e
        | .ok g' => addJoinEdges bbs2d bb rest g'

/-- The edges added for one block: control flow, task creation, then
synchronisation. -/
def addBlockEdges (bbs2d : List (List BasicBlock)) (bb : BasicBlock) (g : Graph) :
    Except ParseError Graph :=
  let afterControl : Except ParseError Graph :=
    if 1 ≤ bb.nodeID then
      match indexInt bbs2d bb.taskID with
      | .error e => .error e
      | .ok grp =>
        match indexInt grp (bb.nodeID - 1) with
        | .error e => .error e
        | .ok last_bb => addEdgeInt last_bb.ID bb.ID g
    else .ok g
  match afterControl with
  | .error e => .error e
  | .ok g1 =>
    let afterCreate : Except ParseError Graph :=
      if bb.taskCreated ≠ -1 then
        match indexInt bbs2d bb.taskCreated with
        | .error e => .error e
        | .ok grp =>
          match indexInt grp 0 with
          | .error e => .error e
          | .ok created_bb => addEdgeInt bb.ID created_bb.ID g1
      else .ok g1
    match afterCreate with
    | .error e => .error e
    | .ok g2 => addJoinEdges bbs2d bb bb.waitFor g2

/-- The two nested loops that add the edges of every block, in order. -/
def addAllEdges (bbs2d : List (List BasicBlock)) :
    List BasicBlock → Graph → Except ParseError Graph
  | [], g => .ok g
  | bb :: rest, g =>
    match addBlockEdges bbs2d bb g with
    | .error e => .error e
    | .ok g' => addAllEdges bbs2d rest g'

/-- Result of `parse_dag`: the graph, the root, the exit and the task count. -/
structure ParsedDag where
  g : Graph
  r : Vertex
  e : Vertex
  num_tasks : Nat
deriving DecidableEq, Repr

/-- Function `parse_dag` from the statement after `std::sort` on: `sorted` is
the vector `basic_blocks_1d` that the sort left behind (reading the file and
the JSON text is not modelled); the graph is built into an empty graph. -/
def parse_dag_sorted (sorted : List BasicBlock) : Except ParseError ParsedDag :=
  match groupBlocks sorted with
  | .error e => .error e
  | .ok bbs2d =>
    match addAllEdges bbs2d bbs2d.flatten ⟨[]⟩ with
    | .error e => .error e
    | .ok g =>
      match bbs2d.head? with
      | none => .error .empty_input
      | some grp0 =>
        match grp0.head?, grp0.getLast? with
        | some first, some last =>
          match topological_sort g with
          | .error (.raised _) => .error .not_a_dag
          | .error .fuel => .error .fuel
          | .ok container =>
            match container.getLast?, container.head? with
            | some back, some front =>
              if back ≠ toVertex first.ID then .error .bad_order
              else if front ≠ toVertex last.ID then .error .bad_order
              else .ok ⟨g, toVertex first.ID, toVertex last.ID, bbs2d.length⟩
            | _, _ => .error .out_of_range
        | _, _ => .error .empty_input

/-- Function `parse_dag` on the parsed block list, for the run in which
`std::sort` leaves blocks that compare equal in their input order. -/
def parse_dag (basic_blocks_1d : List BasicBlock) : Except ParseError ParsedDag :=
  parse_dag_sorted (sortBlocks basic_blocks_1d)

/-! ## Specification vocabulary -/

/-- There is an edge `u → v`. -/
def Edge (g : Graph) (u v : Vertex) : Prop := v ∈ out_edges g u

instance (g : Graph) (u v : Vertex) : Decidable (Edge g u v) := by
  unfold Edge; infer_instance

/-- A directed path of at least one edge. -/
def Path (g : Graph) : Vertex → Vertex → Prop := Relation.TransGen (Edge g)

/-- A directed path of zero or more edges. -/
def Reach (g : Graph) : Vertex → Vertex → Prop := Relation.ReflTransGen (Edge g)

/-- The graph has no directed cycle. -/
def Acyclic (g : Graph) : Prop := ∀ v, ¬ Path g v v

/-! ## Well-formed maps -/

/-- A square `n × n` matrix. -/
def MapWf (n : Nat) (m : ComponentsMap) : Prop :=
  m.length = n ∧ ∀ row ∈ m, row.length = n

instance (n : Nat) (m : ComponentsMap) : Decidable (MapWf n m) := by
  unfold MapWf; infer_instance

/-! ## The row-merging loop over an index list -/

/-- The inner `for (Vertex i = 0; ...)` loop, over an arbitrary index list. -/
def mergeLoop (cur t : Vertex) (is : List Nat) (m : ComponentsMap) : ComponentsMap :=
  is.foldl (fun acc i => if cget acc t i = true then cset acc cur i else acc) m

/-! ## Invariant of the loop of connected_components -/

/-- Invariant of the `while` loop for the traversal rooted at `r`. -/
structure CCInv (g : Graph) (r : Vertex) (s : CCState) : Prop where
  disc_len : s.discovered.length = num_vertices g
  done_len : s.done.length = num_vertices g
  map_wf : MapWf (num_vertices g) s.c_map
  stack_ok : ∀ v ∈ s.dfs_stack,
    v < num_vertices g ∧ Reach g r v ∧ s.discovered.getD v false = true
  done_ok : ∀ v, s.done.getD v false = true →
    s.discovered.getD v false = true ∧ Reach g r v ∧
    (∀ t, Edge g v t → s.done.getD t false = true) ∧
    ∀ w, Path g v w → cget s.c_map v w = true
  sound : ∀ v w, cget s.c_map v w = true → s.done.getD v false = true ∧ Path g v w
  root_ok : r ∈ s.dfs_stack ∨ s.done.getD r false = true

/-! ## Example graphs -/

/-- A three-vertex DAG: edges `0 → 1`, `0 → 2`, `2 → 1`, the out-edges of
vertex 0 stored in the order `1, 2`. -/
def stuckGraph : Graph := ⟨[[1, 2], [], [1]]⟩

/-- The same DAG with the out-edges of vertex 0 stored in the order `2, 1`. -/
def diamondGraph : Graph := ⟨[[2, 1], [], [1]]⟩

/-- A chain `0 → 1 → 2 → 3` with an extra vertex 4 that the root does not
reach and that points into the chain. -/
def chainGraph : Graph := ⟨[[1], [2], [3], [], [0]]⟩

/-! ## Observations on the statistics -/

/-- A record with its `is_shared` flag cleared. -/
def eraseFlag (r : AddrAccessStats) : AddrAccessStats := { r with is_shared := false }

/-- A map with every `is_shared` flag cleared. -/
def shapeM (m : AddrMap) : AddrMap := m.map (fun e => (e.1, eraseFlag e.2))

/-- Everything in the statistics except the `is_shared` flags. -/
def shape (ms : MemStats) : MemStats := ms.map shapeM

/-- The `is_shared` flag of `mem_stats[v][a]`; `false` when there is no such record. -/
def flag (ms : MemStats) (v : Vertex) (a : Addr) : Bool :=
  match mfind (ms.getD v []) a with
  | some r => r.is_shared
  | none => false

/-- The `is_shared` flag of `mem_stats[v][a]`, `none` when there is no such record. -/
def sharedFlag (ms : MemStats) (v : Vertex) (a : Addr) : Option Bool :=
  (mfind (ms.getD v []) a).map (fun r => r.is_shared)

/-- The test that decides whether vertex `p` yields a hit for a record of a
vertex with thread id `tid`. -/
def cand (ms : MemStats) (tid : Tid) (is_ifetch : Bool) (a : Addr) (p : Vertex) : Bool :=
  match ms.getD p [] with
  | [] => false
  | e :: m => !(!is_ifetch && decide (tid = e.2.thread_id)) && (mfind (e :: m) a).isSome

/-! ## Hits and invariants of the classifier -/

/-- Thread id of a vertex: the thread id of the first record of its map. -/
def vtid (ms : MemStats) (u : Vertex) : Tid := firstTid (ms.getD u []) 0

/-- Vertex `u` is checked against some vertex of its parallel set that yields a
hit for the record `mem_stats[u][a]`. -/
def ownHit (n : Nat) (c : ComponentsMap) (ms : MemStats) (u : Vertex) (a : Addr) : Bool :=
  match mfind (ms.getD u []) a with
  | none => false
  | some r => (parallel_vertices n c u).any (cand ms (vtid ms u) r.is_ifetch a)

/-- Some vertex `u` that has `v` in its parallel set holds a record for `a`
whose check against `v` yields a hit. -/
def otherHit (n : Nat) (c : ComponentsMap) (ms : MemStats) (v : Vertex) (a : Addr) : Prop :=
  ∃ u r, v ∈ parallel_vertices n c u ∧ mfind (ms.getD u []) a = some r ∧
    cand ms (vtid ms u) r.is_ifetch a v = true

/-- State `ms` has the shape of `ms0` and every flag set in `ms` is either set
in `ms0` or justified by a hit. -/
def Sound (n : Nat) (c : ComponentsMap) (ms0 ms : MemStats) : Prop :=
  shape ms = shape ms0 ∧
  ∀ v a, flag ms v a = true →
    flag ms0 v a = true ∨ ownHit n c ms0 v a = true ∨ otherHit n c ms0 v a

/-- Flags only go from private to shared. -/
def Mono (ms ms' : MemStats) : Prop := ∀ v a, flag ms v a = true → flag ms' v a = true

/-- What one vertex contributes: its asserts hold on every record and every
record with an own hit ends shared in state `ms'`. -/
def RecordOK (n : Nat) (c : ComponentsMap) (ms0 ms' : MemStats) (u : Vertex) (a : Addr) :
    Prop :=
  ∃ r0, mfind (ms0.getD u []) a = some r0 ∧ toVertex r0.bb_id = u ∧
    r0.thread_id = vtid ms0 u ∧ (ownHit n c ms0 u a = true → flag ms' u a = true)

/-! ## Parallel vertices of the graph -/

/-- Two distinct vertices are parallel when neither reaches the other. -/
def Parallel (g : Graph) (u v : Vertex) : Prop := u ≠ v ∧ ¬ Path g u v ∧ ¬ Path g v u

/-- Graph-level form of `ownHit`. -/
def OwnG (g : Graph) (ms : MemStats) (u : Vertex) (a : Addr) : Prop :=
  ∃ r p, mfind (ms.getD u []) a = some r ∧ p < num_vertices g ∧ Parallel g u p ∧
    cand ms (vtid ms u) r.is_ifetch a p = true

/-- Graph-level form of `otherHit`. -/
def OtherG (g : Graph) (ms : MemStats) (v : Vertex) (a : Addr) : Prop :=
  ∃ u r, Parallel g u v ∧ mfind (ms.getD u []) a = some r ∧
    cand ms (vtid ms u) r.is_ifetch a v = true

/-! ## Example statistics -/

/-- A record of vertex `bb` with one local hit and a private flag. -/
def mkRecord (bb : Int) (tid : Tid) (a : Addr) (ifetch : Bool) : Addr × AddrAccessStats :=
  (a, ⟨bb, tid, a, a, ifetch, 1, 0, 0, 0, DataRegion.GLOBAL, false⟩)

/-- The same record with the flag set to shared. -/
def mkShared (bb : Int) (tid : Tid) (a : Addr) (ifetch : Bool) : Addr × AddrAccessStats :=
  (a, ⟨bb, tid, a, a, ifetch, 1, 0, 0, 0, DataRegion.GLOBAL, true⟩)

/-- Fork/join graph of Scenario C: `0 → 1`, `0 → 2`, `1 → 3`, `2 → 3`. -/
def forkGraph : Graph := ⟨[[1, 2], [3], [3], []]⟩

/-- The components map of `forkGraph`. -/
def forkMap : ComponentsMap :=
  [[false, true, true, true], [false, false, false, true], [false, false, false, true],
    [false, false, false, false]]

/-- Scenario C with distinct threads: the ancestor 0 and the parallel vertices
1 (thread 1) and 2 (thread 2) all hold a data record for line `0x1000`. -/
def scenarioC : MemStats :=
  [[mkRecord 0 1 4096 false], [mkRecord 1 1 4096 false], [mkRecord 2 2 4096 false], []]

/-- Scenario C with one thread: the parallel vertices 1 and 2 both run on
thread 1 and both hold a data record for line `0x1000`. -/
def scenarioSameThread : MemStats :=
  [[mkRecord 0 1 4096 false], [mkRecord 1 1 4096 false], [mkRecord 2 1 4096 false], []]

/-- Statistics in which the ancestor 0 and vertex 1 hold line `0x1000` while
the vertex parallel to 1 holds another line. -/
def scenarioDisjoint : MemStats :=
  [[mkRecord 0 1 4096 false], [mkRecord 1 1 4096 false], [mkRecord 2 2 8192 false], []]

/-- A root with three parallel children: `0 → 1, 2, 3 → 4`. -/
def fanGraph : Graph := ⟨[[1, 2, 3], [4], [4], [4], []]⟩

/-- The components map of `fanGraph`. -/
def fanMap : ComponentsMap :=
  [[false, true, true, true, true], [false, false, false, false, true],
    [false, false, false, false, true], [false, false, false, false, true],
    [false, false, false, false, false]]

/-- Statistics on `fanGraph`: vertex 1 has no record, vertex 2 holds line
`0x1000` as data and vertex 3 holds it as an instruction fetch, both on
thread 7. -/
def scenarioMixed : MemStats :=
  [[], [], [mkRecord 2 7 4096 false], [mkRecord 3 7 4096 true], []]

/-! ## Fixed points of the classifier -/

/-- The condition under which a run of the classifier is the identity. -/
def Settled (n : Nat) (c : ComponentsMap) (ms : MemStats) : Prop :=
  ∀ u, parallel_vertices n c u ≠ [] → ∀ a r, mfind (ms.getD u []) a = some r →
    toVertex r.bb_id = u ∧ r.thread_id = vtid ms u ∧
    (r.is_shared = false → ownHit n c ms u a = false)

/-! ## Example statistics with an ancestor -/

/-- Two branches below the root: `0 → 1 → 2 → 4` and `0 → 3 → 4`. -/
def branchGraph : Graph := ⟨[[1, 3], [2], [4], [4], []]⟩

/-- The components map of `branchGraph`. -/
def branchMap : ComponentsMap :=
  [[false, true, true, true, true], [false, false, true, false, true],
    [false, false, false, false, true], [false, false, false, false, true],
    [false, false, false, false, false]]

/-- Statistics on `branchGraph`, all on thread 7: vertices 1 and 2 hold line
`0x1000` as data, vertex 3 holds it as an instruction fetch. -/
def scenarioWithAncestor : MemStats :=
  [[], [mkRecord 1 7 4096 false], [mkRecord 2 7 4096 false], [mkRecord 3 7 4096 true], []]

/-- The same statistics without the record of vertex 1. -/
def scenarioWithoutAncestor : MemStats :=
  [[], [], [mkRecord 2 7 4096 false], [mkRecord 3 7 4096 true], []]

/-- Scenario C without the record of the ancestor 0. -/
def scenarioCNoAncestor : MemStats :=
  [[], [mkRecord 1 1 4096 false], [mkRecord 2 2 4096 false], []]

/-! ## Example descriptions -/

/-- A block with the given fields; `numTasksWaitingFor` is the length of
`waitFor`. -/
def mkBlock (id task node created : Int) (waitFor : List Int) : BasicBlock :=
  ⟨id, task, node, created, waitFor.length, waitFor⟩

/-- Fork/join description: block 0 of task 0 creates task 1 (block 1), block 2
of task 0 waits for task 1. -/
def forkJoinBlocks : List BasicBlock :=
  [mkBlock 0 0 0 1 [], mkBlock 2 0 1 (-1) [1], mkBlock 1 1 0 (-1) []]

/-- The result of `parse_dag` on `forkJoinBlocks`. -/
def forkJoinDag : ParsedDag := ⟨⟨[[1, 2], [2], []]⟩, 0, 2, 2⟩

/-- A description with a tie: the blocks 3 and 2 of task 0 both carry node
index 2; block 2 creates task 1 (block 4) and block 3 waits for it. -/
def tieBlocks : List BasicBlock :=
  [mkBlock 0 0 0 (-1) [], mkBlock 1 0 1 (-1) [], mkBlock 3 0 2 (-1) [1], mkBlock 2 0 2 1 [],
    mkBlock 4 1 0 (-1) []]

/-- The blocks of `tieBlocks` in the ascending order that puts block 2 before
block 3. -/
def tieSorted : List BasicBlock :=
  [mkBlock 0 0 0 (-1) [], mkBlock 1 0 1 (-1) [], mkBlock 2 0 2 1 [], mkBlock 3 0 2 (-1) [1],
    mkBlock 4 1 0 (-1) []]

/-- A description whose ids skip 1: task 0 is the chain of block 2 followed by
block 0. -/
def gapBlocks : List BasicBlock :=
  [mkBlock 2 0 0 (-1) [], mkBlock 0 0 1 (-1) []]

/-- A description in which nobody waits for task 1 (block 1), which block 2
creates: task 0 is the chain of block 2 followed by block 0. -/
def unjoinedBlocks : List BasicBlock :=
  [mkBlock 2 0 0 1 [], mkBlock 0 0 1 (-1) [], mkBlock 1 1 0 (-1) []]

/-- A description in which task 1 (block 1) is created by nobody: task 0 is
the chain of block 2 followed by block 0. -/
def orphanBlocks : List BasicBlock :=
  [mkBlock 2 0 0 (-1) [], mkBlock 0 0 1 (-1) [], mkBlock 1 1 0 (-1) []]

/-! ## Invariant of the depth-first visit -/

/-- Colour of a vertex, as the search reads it. -/
def colorOf (col : List Color) (v : Vertex) : Color := col.getD v Color.white

/-- Consecutive frames are linked by an edge from the lower frame's vertex to
the upper frame's vertex (the head of the list is the top of the stack). -/
def FramesChain (g : Graph) : List (Vertex × List Vertex) → Prop
  | [] => True
  | [_] => True
  | top :: below :: rest => Edge g below.1 top.1 ∧ FramesChain g (below :: rest)

/-- Invariant of `dfs_loop` that does not depend on the visitor. -/
structure DfsInv (g : Graph) (frames : List (Vertex × List Vertex)) (col : List Color) :
    Prop where
  len : col.length = num_vertices g
  frame_ok : ∀ f ∈ frames, colorOf col f.1 = Color.gray ∧
    ∃ pre, out_edges g f.1 = pre ++ f.2 ∧ ∀ t ∈ pre, colorOf col t ≠ Color.white
  chain : FramesChain g frames
  gray_in : ∀ w, colorOf col w = Color.gray → w ∈ frames.map Prod.fst
  black_closed : ∀ w, colorOf col w = Color.black → ∀ t, Edge g w t →
    colorOf col t ≠ Color.white
  nodup : (frames.map Prod.fst).Nodup

/-! ## Fuel of the depth-first visit -/

/-- Work left for the white vertices: one finish and one step per out-edge. -/
def whiteWeight (g : Graph) (col : List Color) : Nat :=
  ((List.range (num_vertices g)).map
    (fun w => if colorOf col w = Color.white then 1 + (out_edges g w).length else 0)).sum

/-- Work left for the frames on the stack. -/
def framesWeight (frames : List (Vertex × List Vertex)) : Nat :=
  (frames.map (fun f => 1 + f.2.length)).sum

/-! ## Invariant of the visit of connected_components_slow -/

/-- The bottom frame of the stack belongs to vertex `src`. -/
def BottomIs (src : Vertex) (frames : List (Vertex × List Vertex)) : Prop :=
  (frames.map Prod.fst).getLast? = some src

/-- Invariant of the visit started at `src` by `connected_components_slow`:
`c0` is the map on entry of the visit. -/
structure RecInv (g : Graph) (src : Vertex) (c0 : ComponentsMap) (col : List Color)
    (c : ComponentsMap) : Prop where
  map_wf : MapWf (num_vertices g) c
  row : ∀ a b, cget c a b = true ↔
    (cget c0 a b = true ∨ (a = src ∧ b ≠ src ∧ colorOf col b ≠ Color.white))
  reach : ∀ w, colorOf col w ≠ Color.white → Reach g src w

/-- A description in which task 1 is created by two blocks of task 0. -/
def doubleSpawnBlocks : List BasicBlock :=
  [mkBlock 3 0 0 1 [], mkBlock 2 0 1 1 [], mkBlock 0 0 2 (-1) [], mkBlock 1 1 0 (-1) []]

/-! ## Unsigned 64-bit arithmetic -/

/-- Addition of `size_t` / `uint64_t` values. -/
def add64 (a b : Nat) : Nat := (a + b) % 2 ^ 64

/-- Multiplication of `size_t` / `uint64_t` values. -/
def mul64 (a b : Nat) : Nat := (a * b) % 2 ^ 64

/-- Subtraction of `size_t` values below `2 ^ 64`; it wraps when `a < b`. -/
def sub64 (a b : Nat) : Nat := (a + 2 ^ 64 - b) % 2 ^ 64

/-! ## populate_vertex_weight -/

/-- The latency constants `wcl_l1`, `wcl_llc`, `wcl_mem`. -/
structure Latency where
  wcl_l1 : Nat
  wcl_llc : Nat
  wcl_mem : Nat
deriving DecidableEq, Repr

/-- The `if (num_cores == 2) ... else if (num_cores == 4) ... else ...` table. -/
def selectLatency (num_cores : Int) : Latency :=
  if num_cores = 2 then ⟨1, 87, 568⟩
  else if num_cores = 4 then ⟨1, 175, 1063⟩
  else ⟨1, 431, 2065⟩

/-- The accumulators `bb_wcl_share`, `bb_wcl_color`, `bb_wcl_par` and
`bb_wcl_color_pri_inst`. -/
structure Wcl where
  share : Nat
  color : Nat
  par : Nat
  color_pri_inst : Nat
deriving DecidableEq, Repr

/-- The value `total_access_times` of a record. -/
def totalAccess (r : AddrAccessStats) : Nat :=
  add64 (add64 (add64 r.num_local_l1_hit r.num_remote_l1_hit) r.num_l2_hit) r.num_memory_access

/-- The value `llc_hit_times` of a record. -/
def llcHits (r : AddrAccessStats) : Nat := add64 r.num_remote_l1_hit r.num_l2_hit

/-- The expression `total_access_times * wcl_mem`. -/
def chargeMem (lat : Latency) (r : AddrAccessStats) : Nat := mul64 (totalAccess r) lat.wcl_mem

/-- The expression
`l1_hit_times * wcl_l1 + llc_hit_times * wcl_llc + mem_access_times * wcl_mem`. -/
def chargeObserved (lat : Latency) (r : AddrAccessStats) : Nat :=
  add64 (add64 (mul64 r.num_local_l1_hit lat.wcl_l1) (mul64 (llcHits r) lat.wcl_llc))
    (mul64 r.num_memory_access lat.wcl_mem)

/-- The expression
`(l1_hit_times + llc_hit_times) * wcl_llc + mem_access_times * wcl_mem`. -/
def chargePromoted (lat : Latency) (r : AddrAccessStats) : Nat :=
  add64 (mul64 (add64 r.num_local_l1_hit (llcHits r)) lat.wcl_llc)
    (mul64 r.num_memory_access lat.wcl_mem)

/-- Body of the loop over the records of one vertex: the four `+=` of the
branch selected by `is_ifetch` and `is_shared`. -/
def accumulate (lat : Latency) (acc : Wcl) (r : AddrAccessStats) : Wcl :=
  if r.is_ifetch = true then
    if r.is_shared = true then
      { share := add64 acc.share (chargeMem lat r)
        color := add64 acc.color (chargeMem lat r)
        par := add64 acc.par (chargeObserved lat r)
        color_pri_inst := add64 acc.color_pri_inst (chargeObserved lat r) }
    else
      { share := add64 acc.share (chargeMem lat r)
        color := add64 acc.color (chargeObserved lat r)
        par := add64 acc.par (chargeObserved lat r)
        color_pri_inst := add64 acc.color_pri_inst (chargeObserved lat r) }
  else
    if r.is_shared = true then
      { share := add64 acc.share (chargeMem lat r)
        color := add64 acc.color (chargeMem lat r)
        par := add64 acc.par (chargePromoted lat r)
        color_pri_inst := add64 acc.color_pri_inst (chargeMem lat r) }
    else
      { share := add64 acc.share (chargeMem lat r)
        color := add64 acc.color (chargeObserved lat r)
        par := add64 acc.par (chargeObserved lat r)
        color_pri_inst := add64 acc.color_pri_inst (chargeObserved lat r) }

/-- The vector `weights` of one vertex, indexed by `Configs`: `SHARE`, `COLOR`,
`PAR`, `COLOR_PRIVATE_INST`. -/
def vertexWeights (lat : Latency) (m : AddrMap) (exec_cycles : Nat) : List Nat :=
  let acc := (m.map Prod.snd).foldl (accumulate lat) ⟨0, 0, 0, 0⟩
  [add64 acc.share exec_cycles, add64 acc.color exec_cycles, add64 acc.par exec_cycles,
    add64 acc.color_pri_inst exec_cycles]

/-- Loop over `bb_id`; `none` stands for the read of `exec_cycles_map[bb_id]`
past the end of the vector (undefined behaviour in C++). -/
def populateLoop (lat : Latency) (exec_cycles_map : List Nat) :
    List AddrMap → Nat → Option (List (List Nat))
  | [], _ => some []
  | m :: rest, bb_id =>
    match exec_cycles_map.get? bb_id with
    | none => none
    | some exec_cycles =>
      match populateLoop lat exec_cycles_map rest (bb_id + 1) with
      | none => none
      | some ws => some (vertexWeights lat m exec_cycles :: ws)

/-- Function `populate_vertex_weight`: the resulting `weight_map`. -/
def populate_vertex_weight (mem_stats : MemStats) (exec_cycles_map : List Nat)
    (num_cores : Int) : Option (List (List Nat)) :=
  populateLoop (selectLatency num_cores) exec_cycles_map mem_stats 0

/-- Index of `Configs::SHARE`. -/
def SHARE : Nat := 0

/-- Index of `Configs::COLOR`. -/
def COLOR : Nat := 1

/-- Index of `Configs::PAR`. -/
def PAR : Nat := 2

/-- Index of `Configs::COLOR_PRIVATE_INST`. -/
def COLOR_PRIVATE_INST : Nat := 3

/-- The constant `NUM_CONFIGS`. -/
def NUM_CONFIGS : Nat := 4

/-! ## compute_WCRTs -/

/-- Element `weight_map[v][i]`; `none` when an index is out of range. -/
def weightAt (weight_map : List (List Nat)) (v i : Nat) : Option Nat :=
  match weight_map.get? v with
  | none => none
  | some row => row.get? i

/-- Loop over the out-edges of `vi`:
`longest_path[vi] = max(longest_path[vi], weight_map[vi][i] + longest_path[target])`. -/
def relaxEdges (weight_map : List (List Nat)) (i : Nat) (vi : Vertex) :
    List Vertex → List Nat → Option (List Nat)
  | [], lp => some lp
  | t :: ts, lp =>
    match weightAt weight_map vi i with
    | none => none
    | some w =>
      relaxEdges weight_map i vi ts (lp.set vi (max (lp.getD vi 0) (add64 w (lp.getD t 0))))

/-- Loop over `sorted_vertices`. -/
def longestPathLoop (g : Graph) (weight_map : List (List Nat)) (i : Nat) :
    List Vertex → List Nat → Option (List Nat)
  | [], lp => some lp
  | vi :: rest, lp =>
    match relaxEdges weight_map i vi (out_edges g vi) lp with
    | none => none
    | some lp' => longestPathLoop g weight_map i rest lp'

/-- The vector `longest_path` after the pass for configuration `i`. -/
def longest_path (g : Graph) (weight_map : List (List Nat)) (sorted_vertices : List Vertex)
    (i : Nat) : Option (List Nat) :=
  longestPathLoop g weight_map i sorted_vertices (List.replicate (num_vertices g) 0)

/-- The value pushed to `critical_paths` for configuration `i`: the front of
`longest_path`, with `assert(longest_path.front() != 0)`. -/
def criticalPath (g : Graph) (weight_map : List (List Nat)) (sorted_vertices : List Vertex)
    (i : Nat) : Option Nat :=
  match longest_path g weight_map sorted_vertices i with
  | none => none
  | some lp =>
    match lp.head? with
    | none => none
    | some front => if front = 0 then none else some front

/-- Loop `volumes[i] += weight_map[j][i]` over the rows `j`. -/
def volumeLoop (i : Nat) : List (List Nat) → Nat → Option Nat
  | [], vol => some vol
  | row :: rest, vol =>
    match row.get? i with
    | none => none
    | some w => volumeLoop i rest (add64 vol w)

/-! ### The `double` arithmetic of `compute_WCRTs`

A finite non-negative `double` is represented by a fraction `(num, den)` with
`den` a power of two. Every value that arises in `compute_WCRTs` is zero or a
normal number (integers below `2 ^ 64`, their quotient by a non-zero `int` and
sums of those), so the exponent range of binary64 puts no limit on it; the
only rounding is the one to a significand of 53 bits, to nearest with ties to
even. -/

/-- Number of doublings of `N` (at most the fuel) until `D * 2 ^ 52 ≤ N`. -/
def shiftUp : Nat → Nat → Nat → Nat
  | 0, _, _ => 0
  | fuel + 1, N, D => if D * 2 ^ 52 ≤ N then 0 else shiftUp fuel (2 * N) D + 1

/-- Number of doublings of `D` (at most the fuel) until `N < D * 2 ^ 53`. -/
def shiftDown : Nat → Nat → Nat → Nat
  | 0, _, _ => 0
  | fuel + 1, N, D => if N < D * 2 ^ 53 then 0 else shiftDown fuel N (2 * D) + 1

/-- The integer nearest to `N / D`, the even one of the two when `N / D` lies
halfway between them. -/
def nearestEven (N D : Nat) : Nat :=
  if 2 * (N % D) < D then N / D
  else if D < 2 * (N % D) then N / D + 1
  else if (N / D) % 2 = 0 then N / D
  else N / D + 1

/-- The `double` nearest to the quotient `a / b` of two non-negative integers
(`b ≠ 0`), ties to even: the quotient is scaled by a power of two into
`[2 ^ 52, 2 ^ 53)`, rounded to an integer and scaled back. This is the result
of a conversion of an unsigned integer to `double` (`b = 1`) and of a
division or an addition of `double`s whose exact result is `a / b`. -/
def toDouble (a b : Nat) : Nat × Nat :=
  if a = 0 then (0, 1)
  else
    let up := shiftUp (b + 53) a b
    let down := shiftDown (a + 1) a b
    (nearestEven (a * 2 ^ up) (b * 2 ^ down) * 2 ^ down, 2 ^ up)

/-- The magnitude of the `double` quotient `(double) d / num_cores` for a
`size_t` value `d` and the magnitude `m` of `num_cores` (an `int`, whose
conversion to `double` is exact). -/
def doubleQuot (d m : Nat) : Nat × Nat :=
  toDouble (toDouble d 1).1 ((toDouble d 1).2 * m)

/-- The `double` sum `cp + q` of a `size_t` value `cp`, converted to `double`,
and a non-negative `double` `q`. -/
def doubleSum (cp : Nat) (q : Nat × Nat) : Nat × Nat :=
  toDouble ((toDouble cp 1).1 * q.2 + q.1 * (toDouble cp 1).2) ((toDouble cp 1).2 * q.2)

/-- The conversion `(size_t) x` of a non-negative `double`: the integral part,
undefined (`none`) when it is `2 ^ 64` or more. -/
def toSizeT (x : Nat × Nat) : Option Nat :=
  if x.1 / x.2 < 2 ^ 64 then some (x.1 / x.2) else none

/-- The statements
`double wcrt = critical_paths[i] + (double)(volumes[i] - critical_paths[i]) / num_cores;`
and `(size_t) wcrt`: the unsigned difference is converted to `double`, divided
by `num_cores`, added to the converted critical path, and the sum is truncated
toward zero. `none` stands for a value that has no `size_t` conversion: the
infinity or NaN of a division by zero, a sum of `-1` or less, or a sum of
`2 ^ 64` or more. -/
def wcrtOf (num_cores : Int) (cp vol : Nat) : Option Nat :=
  if num_cores = 0 then none
  else
    let q := doubleQuot (sub64 vol cp) num_cores.natAbs
    if 0 < num_cores then toSizeT (doubleSum cp q)
    else
      let c := toDouble cp 1
      if q.1 * c.2 ≤ c.1 * q.2 then
        toSizeT (toDouble (c.1 * q.2 - q.1 * c.2) (c.2 * q.2))
      else
        let s := toDouble (q.1 * c.2 - c.1 * q.2) (c.2 * q.2)
        if s.1 < s.2 then some 0 else none

/-- A list of optional values, all of which have to be present. -/
def allSome {α : Type} : List (Option α) → Option (List α)
  | [] => some []
  | none :: _ => none
  | some x :: rest =>
    match allSome rest with
    | none => none
    | some xs => some (x :: xs)

/-- Result of `compute_WCRTs`: the vectors `wcrts`, `critical_paths`, `volumes`. -/
structure WcrtResult where
  wcrts : List Nat
  critical_paths : List Nat
  volumes : List Nat
deriving DecidableEq, Repr

/-- Function `compute_WCRTs`. `none` stands for an uncaught `not_a_dag`, a
failed `assert`, or undefined behaviour. -/
def compute_WCRTs (g : Graph) (weight_map : List (List Nat)) (num_cores : Int) :
    Option WcrtResult :=
  match topological_sort g with
  | .error _ => none
  | .ok sorted_vertices =>
    match allSome ((List.range NUM_CONFIGS).map (criticalPath g weight_map sorted_vertices)) with
    | none => none
    | some critical_paths =>
      match allSome ((List.range NUM_CONFIGS).map (fun i => volumeLoop i weight_map 0)) with
      | none => none
      | some volumes =>
        match allSome (List.zipWith (wcrtOf num_cores) critical_paths volumes) with
        | none => none
        | some wcrts => some ⟨wcrts, critical_paths, volumes⟩

/-! ## Exact values of the cost model -/

/-- Total number of accesses of a record: local L1 hits + remote L1 hits +
L2 hits + memory accesses. -/
def totalExact (r : AddrAccessStats) : Nat :=
  r.num_local_l1_hit + r.num_remote_l1_hit + r.num_l2_hit + r.num_memory_access

/-- Observed cost of a record: every access charged at its observed hit level. -/
def observedExact (lat : Latency) (r : AddrAccessStats) : Nat :=
  r.num_local_l1_hit * lat.wcl_l1 + (r.num_remote_l1_hit + r.num_l2_hit) * lat.wcl_llc +
    r.num_memory_access * lat.wcl_mem

/-- Cost of a record with its hits promoted to the last-level latency. -/
def promotedExact (lat : Latency) (r : AddrAccessStats) : Nat :=
  (r.num_local_l1_hit + r.num_remote_l1_hit + r.num_l2_hit) * lat.wcl_llc +
    r.num_memory_access * lat.wcl_mem

/-- Contribution of a record to `weights[COLOR]`. -/
def colorExact (lat : Latency) (r : AddrAccessStats) : Nat :=
  if r.is_shared = true then totalExact r * lat.wcl_mem else observedExact lat r

/-- Contribution of a record to `weights[PAR]`. -/
def parExact (lat : Latency) (r : AddrAccessStats) : Nat :=
  if r.is_shared = true ∧ r.is_ifetch = false then promotedExact lat r else observedExact lat r

/-- The value added to `bb_wcl_color` for a record. -/
def colorCharge (lat : Latency) (r : AddrAccessStats) : Nat :=
  if r.is_shared = true then chargeMem lat r else chargeObserved lat r

/-- The value added to `bb_wcl_par` for a record. -/
def parCharge (lat : Latency) (r : AddrAccessStats) : Nat :=
  if r.is_shared = true ∧ r.is_ifetch = false then chargePromoted lat r
  else chargeObserved lat r

/-- The value added to `bb_wcl_color_pri_inst` for a record. -/
def cpiCharge (lat : Latency) (r : AddrAccessStats) : Nat :=
  if r.is_shared = true ∧ r.is_ifetch = false then chargeMem lat r else chargeObserved lat r

/-- Loop that adds one charge per record to an accumulator. -/
def sumCharges (f : AddrAccessStats → Nat) (rs : List AddrAccessStats) (a0 : Nat) : Nat :=
  rs.foldl (fun a r => add64 a (f r)) a0

/-- The input with the `is_shared` flag of every instruction-fetch record
cleared. -/
def clearInstShared (ms : MemStats) : MemStats :=
  ms.map (fun m => m.map
    (fun e => (e.1, if e.2.is_ifetch = true then { e.2 with is_shared := false } else e.2)))

/-! ## Example input of the cost model -/

/-- One vertex with a private data record and a shared instruction record,
each with one local hit. -/
def costStats : MemStats := [[mkRecord 0 1 4096 false, mkShared 0 1 8192 true]]

/-- A record with its `is_shared` flag cleared when it is an instruction fetch. -/
def clearInstRecord (r : AddrAccessStats) : AddrAccessStats :=
  if r.is_ifetch = true then { r with is_shared := false } else r

/-- One vertex with a shared data record: 3 local hits, 4 remote hits, 5 L2
hits and 6 memory accesses. -/
def sharedDataStats : MemStats :=
  [[(4096, ⟨0, 1, 4096, 4096, false, 3, 4, 5, 6, DataRegion.HEAP, true⟩)]]

/-! ## Examples for compute_WCRTs -/

/-- Scenario A: the chain root 0 → mid 1 → exit 2. -/
def scenarioAGraph : Graph := ⟨[[1], [2], []]⟩

/-- Scenario A: weights 10, 5, 10 in every configuration. -/
def scenarioAWeights : List (List Nat) :=
  [[10, 10, 10, 10], [5, 5, 5, 5], [10, 10, 10, 10]]

/-- A one-task description whose first block carries id 1: the sequence of
blocks is 1, 0, 2. -/
def rootOneBlocks : List BasicBlock :=
  [mkBlock 1 0 0 (-1) [], mkBlock 0 0 1 (-1) [], mkBlock 2 0 2 (-1) []]

/-- The graph built from `rootOneBlocks`: the chain 1 → 0 → 2. -/
def rootOneGraph : Graph := ⟨[[2], [0], []]⟩

/-- Weights 5, 10, 10 of the vertices 0, 1, 2 in every configuration. -/
def rootOneWeights : List (List Nat) :=
  [[5, 5, 5, 5], [10, 10, 10, 10], [10, 10, 10, 10]]

/-- A list of vertices in which each one has an edge to the next. -/
def IsWalk (g : Graph) : List Vertex → Prop
  | [] => True
  | [_] => True
  | u :: v :: rest => Edge g u v ∧ IsWalk g (v :: rest)

instance decIsWalk (g : Graph) : ∀ p : List Vertex, Decidable (IsWalk g p)
  | [] => isTrue trivial
  | [_] => isTrue trivial
  | u :: v :: rest =>
    haveI := decIsWalk g (v :: rest)
    inferInstanceAs (Decidable (Edge g u v ∧ IsWalk g (v :: rest)))

/-- The sum of the configuration-`i` weights of the vertices of `p`. -/
def walkWeight (weight_map : List (List Nat)) (i : Nat) (p : List Vertex) : Nat :=
  (p.map (fun v => (weight_map.getD v []).getD i 0)).sum

/-- Weights 10, 20, 30 of the vertices 0, 1, 2 in every configuration. -/
def graham_weights : List (List Nat) :=
  [[10, 10, 10, 10], [20, 20, 20, 20], [30, 30, 30, 30]]

/-! ## Invariant of topological_sort -/

/-- Every vertex of the second list has all its out-edge targets in `pre` or
earlier in the list. -/
def TopoOrderedFrom (g : Graph) : List Vertex → List Vertex → Prop
  | _, [] => True
  | pre, u :: post => (∀ t, Edge g u t → t ∈ pre) ∧ TopoOrderedFrom g (pre ++ [u]) post

/-- Every vertex of the list comes after all its out-edge targets: the order
produced by `topological_sort` (successors first). -/
def TopoOrdered (g : Graph) (sv : List Vertex) : Prop := TopoOrderedFrom g [] sv

/-- The out-edges that a frame has examined lead to finished vertices, except
that the last one may lead to the vertex of the frame directly above it. -/
def FramesExamined (g : Graph) (out : List Vertex) :
    Option Vertex → List (Vertex × List Vertex) → Prop
  | _, [] => True
  | above, f :: rest =>
    (∃ pre, out_edges g f.1 = pre ++ f.2 ∧ ∀ t ∈ pre, t ∈ out ∨ some t = above) ∧
      FramesExamined g out (some f.1) rest

/-- Invariant of the visit of `topological_sort`: `out` holds the finished
(black) vertices, each once, successors first. -/
structure TopoInv (g : Graph) (frames : List (Vertex × List Vertex)) (col : List Color)
    (out : List Vertex) : Prop where
  black_iff : ∀ v, v ∈ out ↔ colorOf col v = Color.black
  nodup : out.Nodup
  ordered : TopoOrdered g out
  examined : FramesExamined g out none frames

/-- Outcome of a part of the search of `topological_sort` that starts with the
colours `col`: a cycle is reported and the graph has one, or the part ends with
an empty stack, the invariants hold and no vertex has turned white. -/
def TopoOutcome (g : Graph) (col : List Color)
    (r : Except (DfsStop NotADag) (List Color × List Vertex)) : Prop :=
  (r = .error (.raised .not_a_dag) ∧ ¬ Acyclic g) ∨
  ∃ col' out', r = .ok (col', out') ∧ DfsInv g [] col' ∧ TopoInv g [] col' out' ∧
    ∀ w, colorOf col w ≠ Color.white → colorOf col' w ≠ Color.white

/-! ## Invariant of the longest-path pass -/

/-- The value that the loop over the out-edges `ts` of a vertex with weight
`w` leaves in its entry, starting from `init`. -/
def relaxVal (w : Nat) (lp : List Nat) (ts : List Vertex) (init : Nat) : Nat :=
  ts.foldl (fun m t => max m (add64 w (lp.getD t 0))) init

/-- Invariant of `longestPathLoop` for configuration `i` along the order `sv`,
when the vertices `pre` have been processed. -/
structure LpInv (g : Graph) (weight_map : List (List Nat)) (i : Nat) (sv pre : List Vertex)
    (lp : List Nat) : Prop where
  exact : ∀ v ∈ pre, lp.getD v 0 =
    relaxVal ((weight_map.getD v []).getD i 0) lp (out_edges g v) 0
  zero : ∀ v, v ∉ pre → lp.getD v 0 = 0
  upper : ∀ v, lp.getD v 0 ≤ walkWeight weight_map i pre
  nowrap : ∀ v ∈ pre, ∀ t, Edge g v t →
    (weight_map.getD v []).getD i 0 + lp.getD t 0 ≤ walkWeight weight_map i sv
  closed : ∀ v ∈ pre, ∀ t, Edge g v t → t ∈ pre

/-! ## Examples for parse_dag and the critical path -/

/-- A two-block task whose first block carries id 1 and whose last block
carries id 0: the graph is the single edge `1 → 0`. -/
def swappedBlocks : List BasicBlock :=
  [mkBlock 1 0 0 (-1) [], mkBlock 0 0 1 (-1) []]

/-- The one-block program: task 0 consists of the block with id 0. -/
def oneBlock : List BasicBlock := [mkBlock 0 0 0 (-1) []]

/-- A description with a cycle: block 0 waits for task 1, which is created by
the following block 1 of the same task (edges `0 → 1`, `1 → 2`, `2 → 0`). -/
def cyclicBlocks : List BasicBlock :=
  [mkBlock 0 0 0 (-1) [1], mkBlock 1 0 1 1 [], mkBlock 2 1 0 (-1) []]

/-! ## Specification vocabulary of parse_dag -/

/-- The order `¬ (b < a)` by which `std::sort` arranges the blocks. -/
def BasicBlock.le (a b : BasicBlock) : Prop := ¬ BasicBlock.lt b a

/-- The sequence of task `t`: its blocks, in sorted order. -/
def taskSeq (blocks : List BasicBlock) (t : Int) : List BasicBlock :=
  (sortBlocks blocks).filter (fun b => decide (b.taskID = t))

/-- The task ids that occur in the description are exactly `0, 1, …, k - 1`. -/
def TaskIdsAre (blocks : List BasicBlock) (k : Nat) : Prop :=
  ∀ t : Int, (∃ b ∈ blocks, b.taskID = t) ↔ (0 ≤ t ∧ t < k)

/-- The smallest task id of the description is 0. -/
def MinTaskZero (blocks : List BasicBlock) : Prop :=
  (∃ b ∈ blocks, b.taskID = 0) ∧ ∀ b ∈ blocks, 0 ≤ b.taskID

/-- The edges that the loop body of `parse_dag` adds for the block `bb`: the
control-flow edge from `basic_blocks_2d[bb.taskID][bb.nodeID - 1]`, the
task-creation edge to `basic_blocks_2d[bb.taskCreated][0]`, and one
synchronisation edge from `basic_blocks_2d[task_id].back()` for every awaited
task. -/
def BlockEdge (bbs2d : List (List BasicBlock)) (bb : BasicBlock) (u v : Vertex) : Prop :=
  (1 ≤ bb.nodeID ∧ ∃ grp last_bb, indexInt bbs2d bb.taskID = .ok grp ∧
      indexInt grp (bb.nodeID - 1) = .ok last_bb ∧
      (u : Int) = last_bb.ID ∧ (v : Int) = bb.ID) ∨
  (bb.taskCreated ≠ -1 ∧ ∃ grp created_bb, indexInt bbs2d bb.taskCreated = .ok grp ∧
      indexInt grp 0 = .ok created_bb ∧
      (u : Int) = bb.ID ∧ (v : Int) = created_bb.ID) ∨
  (∃ task_id ∈ bb.waitFor, ∃ grp last_bb, indexInt bbs2d task_id = .ok grp ∧
      grp.getLast? = some last_bb ∧ (u : Int) = last_bb.ID ∧ (v : Int) = bb.ID)

/-- The edge set that the description prescribes: a control-flow edge between
consecutive blocks of a task's sequence, a spawn edge from a block to the first
block of the task it creates, and a join edge from the last block of every
awaited task. A block is the vertex numbered by its id. -/
def SpecEdge (blocks : List BasicBlock) (u v : Vertex) : Prop :=
  (∃ (t : Int) (p : Nat) (a b : BasicBlock), (taskSeq blocks t)[p]? = some a ∧
      (taskSeq blocks t)[p + 1]? = some b ∧ (u : Int) = a.ID ∧ (v : Int) = b.ID) ∨
  (∃ b ∈ blocks, b.taskCreated ≠ -1 ∧ ∃ c, (taskSeq blocks b.taskCreated).head? = some c ∧
      (u : Int) = b.ID ∧ (v : Int) = c.ID) ∨
  (∃ b ∈ blocks, ∃ t ∈ b.waitFor, ∃ l, (taskSeq blocks t).getLast? = some l ∧
      (u : Int) = l.ID ∧ (v : Int) = b.ID)

/-- Every block's node index is its position in the sequence of its task. -/
def NodeIsPosition (blocks : List BasicBlock) : Prop :=
  ∀ (t : Int) (p : Nat) (b : BasicBlock), (taskSeq blocks t)[p]? = some b → b.nodeID = p

/-- Within every task the node indices are non-negative and distinct. -/
def NodeIdsDistinct (blocks : List BasicBlock) : Prop :=
  (∀ b ∈ blocks, 0 ≤ b.nodeID) ∧
  blocks.Pairwise (fun a b => a.taskID = b.taskID → a.nodeID ≠ b.nodeID)

instance (blocks : List BasicBlock) : Decidable (NodeIdsDistinct blocks) := by
  unfold NodeIdsDistinct; infer_instance

/-- A task whose blocks carry the node indices -1, 0, 1 (ids 2, 1, 0). -/
def negNodeBlocks : List BasicBlock :=
  [mkBlock 2 0 (-1) (-1) [], mkBlock 1 0 0 (-1) [], mkBlock 0 0 1 (-1) []]

/-- A task with two blocks of node index 0 (ids 2 and 1) and a block of node
index 1 (id 0). -/
def dupNodeBlocks : List BasicBlock :=
  [mkBlock 2 0 0 (-1) [], mkBlock 1 0 0 (-1) [], mkBlock 0 0 1 (-1) []]

/-! ## parse_mem_stats -/

/-- Message type `ProtoMessage::AddrAccessStats` of the statistics stream, with
the fields that `parse_mem_stats` reads through its accessors. -/
structure TraceMsg where
  bb_id : Int
  thread_id : Tid
  line_address : Addr
  is_ifetch : Bool
  num_local_l1_hit : Nat
  num_remote_l1_hit : Nat
  num_l2_hit : Nat
  num_memory_access : Nat
  data_region : DataRegion
  is_metadata : Bool
  exec_cycles : Nat
deriving DecidableEq, Repr

/-- How `parse_mem_stats` can fail: the assertion on the order of the vertex
ids, `assert(false)` on a repeated line address, an index outside `mem_stats`
(undefined behaviour in C++), or the final assertion on the two sizes. -/
inductive IngestError where
  | ordering
  | duplicate
  | out_of_range
  | size_mismatch
deriving DecidableEq, Repr

/-- The record `entry` built from a message. -/
def entryOf (msg : TraceMsg) : AddrAccessStats :=
  { bb_id := msg.bb_id
    thread_id := msg.thread_id
    address := msg.line_address
    line_address := msg.line_address
    is_ifetch := msg.is_ifetch
    num_local_l1_hit := msg.num_local_l1_hit
    num_remote_l1_hit := msg.num_remote_l1_hit
    num_l2_hit := msg.num_l2_hit
    num_memory_access := msg.num_memory_access
    data_region := msg.data_region
    is_shared := false }

/-- The call `m.emplace(a, r)` on a `std::map`: the entry is put at its place
in key order; an existing entry with the same key is kept. -/
def emplace : AddrMap → Addr → AddrAccessStats → AddrMap
  | [], a, r => [(a, r)]
  | (k, x) :: m, a, r =>
    if a < k then (a, r) :: (k, x) :: m
    else if a = k then (k, x) :: m
    else (k, x) :: emplace m a r

/-- The variables of the reading loop. -/
structure IngestState where
  bb_id_counter : Int
  mem_stats : MemStats
  exec_cycles_map : List Nat
deriving DecidableEq, Repr

/-- The statement `if (bb_id == bb_id_counter + 1) { bb_id_counter++;
mem_stats.push_back({}); }`. -/
def advance (st : IngestState) (msg : TraceMsg) : IngestState :=
  if msg.bb_id = st.bb_id_counter + 1 then
    { st with bb_id_counter := st.bb_id_counter + 1, mem_stats := st.mem_stats ++ [[]] }
  else st

/-- Body of the reading loop for one message. -/
def ingestStep (st : IngestState) (msg : TraceMsg) : Except IngestError IngestState :=
  let st1 : IngestState := advance st msg
  if msg.bb_id ≠ st1.bb_id_counter then .error .ordering
  else if msg.is_metadata = true then
    .ok { st1 with exec_cycles_map := st1.exec_cycles_map ++ [msg.exec_cycles] }
  else if msg.bb_id < 0 then .error .out_of_range
  else
    match st1.mem_stats.get? msg.bb_id.toNat with
    | none => .error .out_of_range
    | some m =>
      match mfind m msg.line_address with
      | some _ => .error .duplicate
      | none =>
        .ok { st1 with mem_stats :=
          st1.mem_stats.set msg.bb_id.toNat (emplace m msg.line_address (entryOf msg)) }

/-- The loop `while (in_stream->read(msg))` over the messages of the stream. -/
def ingestLoop : List TraceMsg → IngestState → Except IngestError IngestState
  | [], st => .ok st
  | msg :: rest, st =>
    match ingestStep st msg with
    | .error e => .error e
    | .ok st' => ingestLoop rest st'

/-- The primary `parse_mem_stats` (analyzer.cc), from the messages of the
stream (reading the file is not modelled): `mem_stats` is the vector passed by
reference, `exec_cycles_map` is cleared on entry. -/
def parse_mem_stats (msgs : List TraceMsg) (mem_stats : MemStats) :
    Except IngestError (MemStats × List Nat) :=
  match ingestLoop msgs ⟨-1, mem_stats, []⟩ with
  | .error e => .error e
  | .ok st =>
    if st.mem_stats.length = st.exec_cycles_map.length then
      .ok (st.mem_stats, st.exec_cycles_map)
    else .error .size_mismatch

/-! ## Specification vocabulary of parse_mem_stats -/

/-- Each id equals the previous one (`c` for the first) or the previous one
plus one. -/
def StepsOk : Int → List Int → Prop
  | _, [] => True
  | c, i :: rest => (i = c ∨ i = c + 1) ∧ StepsOk i rest

instance decStepsOk : ∀ (c : Int) (l : List Int), Decidable (StepsOk c l)
  | _, [] => isTrue trivial
  | c, i :: rest =>
    haveI := decStepsOk i rest
    inferInstanceAs (Decidable ((i = c ∨ i = c + 1) ∧ StepsOk i rest))

/-- The vertex ids start at 0 and each next id equals the previous id or the
previous id plus one. -/
def IdsFromZero : List Int → Prop
  | [] => True
  | i :: rest => i = 0 ∧ StepsOk i rest

instance (l : List Int) : Decidable (IdsFromZero l) := by
  cases l with
  | nil => exact isTrue trivial
  | cons i rest => exact inferInstanceAs (Decidable (i = 0 ∧ StepsOk i rest))

/-- Two records of the stream do not claim the same line of the same vertex. -/
def LineDistinct (a b : TraceMsg) : Prop :=
  a.is_metadata = false → b.is_metadata = false → a.bb_id = b.bb_id →
    a.line_address ≠ b.line_address

/-- No two non-metadata records of the stream have the same vertex id and the
same line address. -/
def NoRepeatedLine (msgs : List TraceMsg) : Prop := msgs.Pairwise LineDistinct

instance (a b : TraceMsg) : Decidable (LineDistinct a b) := by
  unfold LineDistinct; infer_instance

instance (msgs : List TraceMsg) : Decidable (NoRepeatedLine msgs) := by
  unfold NoRepeatedLine; infer_instance

/-- The metadata records of the stream. -/
def metadataOf (msgs : List TraceMsg) : List TraceMsg :=
  msgs.filter (fun m => m.is_metadata)

/-- The non-metadata records of vertex `v`. -/
def recordsOf (msgs : List TraceMsg) (v : Nat) : List TraceMsg :=
  msgs.filter (fun m => !m.is_metadata && decide (m.bb_id = (v : Int)))

/-- Invariant of the reading loop of `parse_mem_stats` on a vector that was
empty on entry, after the messages `done`. -/
structure IngestInv (done : List TraceMsg) (st : IngestState) : Prop where
  len : (st.mem_stats.length : Int) = st.bb_id_counter + 1
  ids_le : ∀ m ∈ done, m.bb_id ≤ st.bb_id_counter
  exec : st.exec_cycles_map = (metadataOf done).map (fun m => m.exec_cycles)
  content : ∀ (v : Nat) (a : Addr) (r : AddrAccessStats),
    mfind (st.mem_stats.getD v []) a = some r ↔
      ∃ m ∈ done, m.is_metadata = false ∧ m.bb_id = (v : Int) ∧ m.line_address = a ∧
        r = entryOf m
  count : ∀ v : Nat, (st.mem_stats.getD v []).length = (recordsOf done v).length
  entries : ∀ (v : Nat) (e : Addr × AddrAccessStats), e ∈ st.mem_stats.getD v [] →
    ∃ m ∈ done, m.is_metadata = false ∧ m.bb_id = (v : Int) ∧
      e = (m.line_address, entryOf m)

/-- A metadata record of vertex `v` with `e` execution cycles. -/
def metaMsg (v : Int) (e : Nat) : TraceMsg :=
  ⟨v, 0, 0, false, 0, 0, 0, 0, DataRegion.GLOBAL, true, e⟩

/-- A data record of vertex `v` for the line `a`, with 1, 2, 3 and 4 in the
four counters. -/
def lineMsg (v : Int) (a : Addr) : TraceMsg :=
  ⟨v, 1, a, false, 1, 2, 3, 4, DataRegion.HEAP, false, 0⟩

/-- A stream of two vertices: the metadata record and two records of vertex
0, then the metadata record and one record of vertex 1. -/
def sampleStream : List TraceMsg :=
  [metaMsg 0 10, lineMsg 0 128, lineMsg 0 64, metaMsg 1 20, lineMsg 1 64]

/-! ## collect_statistics -/

/-- The six counters of `collect_statistics`. -/
structure AccessCounts where
  num_private_inst : Nat
  num_private_stack : Nat
  num_private_heap : Nat
  num_shared_inst : Nat
  num_shared_stack : Nat
  num_shared_heap : Nat
deriving DecidableEq, Repr

/-- Body of the inner loop of `collect_statistics` for one record. -/
def countRecord (c : AccessCounts) (r : AddrAccessStats) : AccessCounts :=
  let access_times := totalAccess r
  if r.is_ifetch = true then
    if r.is_shared = true then
      { c with num_shared_inst := add64 c.num_shared_inst access_times }
    else { c with num_private_inst := add64 c.num_private_inst access_times }
  else
    match r.data_region with
    | DataRegion.STACK =>
      if r.is_shared = true then
        { c with num_shared_stack := add64 c.num_shared_stack access_times }
      else { c with num_private_stack := add64 c.num_private_stack access_times }
    | _ =>
      if r.is_shared = true then
        { c with num_shared_heap := add64 c.num_shared_heap access_times }
      else { c with num_private_heap := add64 c.num_private_heap access_times }

/-- The counting loops of `collect_statistics(mem_stats, ...)`: the six
counters after all records (printing and the CSV file are not modelled). -/
def collect_statistics (mem_stats : MemStats) : AccessCounts :=
  mem_stats.foldl (fun c addr_stats => addr_stats.foldl (fun c pair => countRecord c pair.2) c)
    ⟨0, 0, 0, 0, 0, 0⟩

/-- The value `num_total_access` that `collect_statistics` derives from the
six counters. -/
def num_total_access (c : AccessCounts) : Nat :=
  add64 (add64 (add64 (add64 c.num_shared_stack c.num_shared_heap)
    (add64 c.num_private_stack c.num_private_heap)) c.num_shared_inst) c.num_private_inst

/-- The six kinds of access that `collect_statistics` tells apart. -/
inductive AccessClass where
  | private_inst
  | private_stack
  | private_heap
  | shared_inst
  | shared_stack
  | shared_heap
deriving DecidableEq, Repr

/-- The kind of a record, from its `is_ifetch` flag, its `is_shared` flag and
its data region: an instruction record is an instruction access whatever its
region, `STACK` data is a stack access, `GLOBAL` and `HEAP` data a heap
access. -/
def classOf (r : AddrAccessStats) : AccessClass :=
  if r.is_ifetch = true then
    if r.is_shared = true then .shared_inst else .private_inst
  else if r.data_region = DataRegion.STACK then
    if r.is_shared = true then .shared_stack else .private_stack
  else
    if r.is_shared = true then .shared_heap else .private_heap

/-- The counter of a kind of access. -/
def counter (k : AccessClass) (c : AccessCounts) : Nat :=
  match k with
  | .private_inst => c.num_private_inst
  | .private_stack => c.num_private_stack
  | .private_heap => c.num_private_heap
  | .shared_inst => c.num_shared_inst
  | .shared_stack => c.num_shared_stack
  | .shared_heap => c.num_shared_heap

/-- All records of the statistics, vertex by vertex. -/
def recordsIn (mem_stats : MemStats) : List AddrAccessStats :=
  mem_stats.flatten.map Prod.snd

/-- Sum of the total access counts of the records of kind `k`. -/
def classTotal (k : AccessClass) (rs : List AddrAccessStats) : Nat :=
  ((rs.filter (fun r => decide (classOf r = k))).map totalExact).sum

/-- Statistics with one record of each kind but `shared_stack`. -/
def mixedStats : MemStats :=
  [[(64, ⟨0, 1, 64, 64, true, 1, 0, 0, 0, DataRegion.STACK, false⟩),
    (128, ⟨0, 1, 128, 128, true, 0, 2, 0, 0, DataRegion.HEAP, true⟩)],
   [(64, ⟨1, 2, 64, 64, false, 0, 0, 3, 0, DataRegion.STACK, false⟩),
    (128, ⟨1, 2, 128, 128, false, 0, 0, 0, 4, DataRegion.GLOBAL, false⟩),
    (192, ⟨1, 2, 192, 192, false, 5, 0, 0, 0, DataRegion.HEAP, true⟩)]]

/-! ## The checker (`checker.cc`) -/

/-- How a run of the checker ends: `returned` is a normal return of the
function, `exited s` a call `exit(s)` (or `return s` from `main`),
`assert_failed` a failed `assert`, `undefined` the dereference of an end
iterator. -/
inductive Outcome where
  | returned
  | exited (status : Int)
  | assert_failed
  | undefined
deriving DecidableEq, Repr

/-- Function `analyze_shared_access` of `checker.cc`: a line of core 0 found in
the map of another core is marked shared; `none` is the failed assertion on an
empty vector. -/
def Checker.analyze_shared_access (mem_stats : MemStats) : Option MemStats :=
  match mem_stats with
  | [] => none
  | cua_mem_stats :: others =>
    some (cua_mem_stats.map (fun pair =>
      if others.any (fun m => (mfind m pair.1).isSome) = true then
        (pair.1, { pair.2 with is_shared := true })
      else pair) :: others)

/-- Loop body of `compute_wcrt` of `checker.cc` (`num_cores = 8`, so
`wcl_l1 = 1`, `wcl_llc = 431`, `wcl_mem = 2065`); `none` is the failed
assertion `num_remote_l1_hit == 0`. -/
def Checker.wcrtStep (partition_enable : Bool) (wcrt : Nat) (r : AddrAccessStats) :
    Option Nat :=
  let total_access_times := totalAccess r
  let l1_hit_times := r.num_local_l1_hit
  let llc_hit_times := add64 r.num_remote_l1_hit r.num_l2_hit
  if r.num_remote_l1_hit ≠ 0 then none
  else
    let mem_access_times := r.num_memory_access
    if partition_enable = true then
      if r.is_shared = true then
        some (add64 wcrt (add64 (mul64 (add64 l1_hit_times llc_hit_times) 431)
          (mul64 mem_access_times 2065)))
      else
        some (add64 wcrt (add64 (add64 (mul64 l1_hit_times 1) (mul64 llc_hit_times 431))
          (mul64 mem_access_times 2065)))
    else some (add64 wcrt (mul64 total_access_times 2065))

/-- Loop of `compute_wcrt` over the records of core 0. -/
def Checker.wcrtLoop (partition_enable : Bool) : AddrMap → Nat → Option Nat
  | [], wcrt => some wcrt
  | pair :: rest, wcrt =>
    match Checker.wcrtStep partition_enable wcrt pair.2 with
    | none => none
    | some w => Checker.wcrtLoop partition_enable rest w

/-- Function `compute_wcrt` of `checker.cc`: the printed value, `none` when an
assertion fails. -/
def Checker.compute_wcrt (mem_stats : MemStats) (partition_enable : Bool) : Option Nat :=
  match mem_stats with
  | [] => none
  | cua_mem_stats :: _ => Checker.wcrtLoop partition_enable cua_mem_stats 0

/-- First loop of `check`: `true` when every line of the baseline is found in
the candidate with the same total access count. -/
def Checker.sanityLoop (cua_mem_stats : AddrMap) : AddrMap → Bool
  | [] => true
  | pair :: rest =>
    match mfind cua_mem_stats pair.1 with
    | none => false
    | some it =>
      if totalAccess it ≠ totalAccess pair.2 then false
      else Checker.sanityLoop cua_mem_stats rest

/-- The four flags of `check`. -/
structure CheckFlags where
  private_data_detected : Bool
  private_data_check_res : Bool
  shared_data_detected : Bool
  shared_data_check_res : Bool
deriving DecidableEq, Repr

/-- Second loop of `check`; `none` when a line of the baseline is not found in
the candidate. -/
def Checker.propertyLoop (cua_mem_stats : AddrMap) : AddrMap → CheckFlags → Option CheckFlags
  | [], f => some f
  | pair :: rest, f =>
    match mfind cua_mem_stats pair.1 with
    | none => none
    | some it =>
      if it.is_shared = true then
        Checker.propertyLoop cua_mem_stats rest
          { f with
            shared_data_detected := true
            shared_data_check_res :=
              if it.num_memory_access ≠ pair.2.num_memory_access then false
              else f.shared_data_check_res }
      else
        Checker.propertyLoop cua_mem_stats rest
          { f with
            private_data_detected := true
            private_data_check_res :=
              if pair.2.num_local_l1_hit ≠ it.num_local_l1_hit ∨
                  pair.2.num_l2_hit ≠ it.num_l2_hit then false
              else f.private_data_check_res }

/-- Function `check(iso_mem_stats, mem_stats, partition_enable)` of
`checker.cc`. -/
def Checker.check (iso_mem_stats mem_stats : MemStats) (partition_enable : Bool) : Outcome :=
  match mem_stats with
  | [] => .assert_failed
  | cua_mem_stats :: _ =>
    match iso_mem_stats with
    | [] => .assert_failed
    | iso_cua_mem_stats :: _ =>
      if cua_mem_stats.length ≠ iso_cua_mem_stats.length then .exited (-1)
      else if Checker.sanityLoop cua_mem_stats iso_cua_mem_stats = false then .exited (-1)
      else
        match Checker.propertyLoop cua_mem_stats iso_cua_mem_stats ⟨false, true, false, true⟩ with
        | none => .undefined
        | some f =>
          if f.private_data_detected = false then .assert_failed
          else if f.shared_data_detected = false then .assert_failed
          else if f.private_data_check_res = true ∧ f.shared_data_check_res = true then
            if partition_enable = false then .exited 1 else .returned
          else if partition_enable = true then .exited 2
          else .returned

/-- Function `main` of `checker.cc` from the two parsed statistics on:
`analyze_shared_access`, `check`, `compute_wcrt`, `return 0`. -/
def Checker.main (iso_mem_stats mem_stats : MemStats) (partition_enable : Bool) : Outcome :=
  match Checker.analyze_shared_access mem_stats with
  | none => .assert_failed
  | some ms =>
    match Checker.check iso_mem_stats ms partition_enable with
    | .returned =>
      match Checker.compute_wcrt ms partition_enable with
      | none => .assert_failed
      | some _ => .exited 0
    | o => o

/-- The two traces of core 0 match: as many lines, and every line of the
baseline is a line of the candidate with the same total access count (the
64-bit sum of its four counters). -/
def TracesMatch (iso_cua cua : AddrMap) : Prop :=
  cua.length = iso_cua.length ∧
  ∀ p ∈ iso_cua, ∃ it ∈ mfind cua p.1, totalAccess it = totalAccess p.2

instance (iso_cua cua : AddrMap) : Decidable (TracesMatch iso_cua cua) := by
  unfold TracesMatch; infer_instance

/-- Some line of the baseline is shared in the candidate. -/
def HasSharedLine (iso_cua cua : AddrMap) : Prop :=
  ∃ p ∈ iso_cua, ∃ it ∈ mfind cua p.1, it.is_shared = true

instance (iso_cua cua : AddrMap) : Decidable (HasSharedLine iso_cua cua) := by
  unfold HasSharedLine; infer_instance

/-- Some line of the baseline is private in the candidate. -/
def HasPrivateLine (iso_cua cua : AddrMap) : Prop :=
  ∃ p ∈ iso_cua, ∃ it ∈ mfind cua p.1, it.is_shared = false

instance (iso_cua cua : AddrMap) : Decidable (HasPrivateLine iso_cua cua) := by
  unfold HasPrivateLine; infer_instance

/-- Every private line has the same local-L1 and L2 hit counts in both
traces. -/
def PrivateIsolated (iso_cua cua : AddrMap) : Prop :=
  ∀ p ∈ iso_cua, ∀ it ∈ mfind cua p.1, it.is_shared = false →
    it.num_local_l1_hit = p.2.num_local_l1_hit ∧ it.num_l2_hit = p.2.num_l2_hit

instance (iso_cua cua : AddrMap) : Decidable (PrivateIsolated iso_cua cua) := by
  unfold PrivateIsolated; infer_instance

/-- Every shared line has the same memory-access count in both traces. -/
def SharedIsolated (iso_cua cua : AddrMap) : Prop :=
  ∀ p ∈ iso_cua, ∀ it ∈ mfind cua p.1, it.is_shared = true →
    it.num_memory_access = p.2.num_memory_access

instance (iso_cua cua : AddrMap) : Decidable (SharedIsolated iso_cua cua) := by
  unfold SharedIsolated; infer_instance

/-- The isolation property of the two traces of core 0. -/
def IsolationHolds (iso_cua cua : AddrMap) : Prop :=
  PrivateIsolated iso_cua cua ∧ SharedIsolated iso_cua cua

instance (iso_cua cua : AddrMap) : Decidable (IsolationHolds iso_cua cua) := by
  unfold IsolationHolds; infer_instance

/-- A record of a data line with the given local-L1, L2 and memory counts. -/
def lineRec (a l1 l2 mem : Nat) : AddrAccessStats :=
  ⟨0, 0, a, a, false, l1, 0, l2, mem, DataRegion.HEAP, false⟩

/-- Baseline statistics: core 0 touches lines 64 and 128. -/
def isoStats : MemStats := [[(64, lineRec 64 3 1 1), (128, lineRec 128 0 2 2)]]

/-- Candidate statistics with the same counts; line 128 is also touched by
core 1. -/
def candStats : MemStats :=
  [[(64, lineRec 64 3 1 1), (128, lineRec 128 0 2 2)], [(128, lineRec 128 1 0 0)]]

/-- Candidate statistics in which the private line 64 lost L1 hits. -/
def candViolating : MemStats :=
  [[(64, lineRec 64 1 3 1), (128, lineRec 128 0 2 2)], [(128, lineRec 128 1 0 0)]]

/-- Candidate statistics in which line 64 has another total access count. -/
def candMismatch : MemStats :=
  [[(64, lineRec 64 3 1 2), (128, lineRec 128 0 2 2)], [(128, lineRec 128 1 0 0)]]

/-- Core 0 of the baseline `isoStats`. -/
def isoCua : AddrMap := [(64, lineRec 64 3 1 1), (128, lineRec 128 0 2 2)]

/-- Core 0 of `candStats` after `analyze_shared_access`: line 128 is shared. -/
def candCua : AddrMap :=
  [(64, lineRec 64 3 1 1), (128, { lineRec 128 0 2 2 with is_shared := true })]

/-- Core 0 of `candViolating` after `analyze_shared_access`. -/
def violatingCua : AddrMap :=
  [(64, lineRec 64 1 3 1), (128, { lineRec 128 0 2 2 with is_shared := true })]

/-- Core 0 of `candMismatch` after `analyze_shared_access`. -/
def mismatchCua : AddrMap :=
  [(64, lineRec 64 3 1 2), (128, { lineRec 128 0 2 2 with is_shared := true })]

/-- Core 1 of the candidate statistics. -/
def otherCore : AddrMap := [(128, lineRec 128 1 0 0)]

/-! ## The classifier without the guess vertex -/

/-- Body of the record loop with the guess check deleted: the parallel
vertices are always scanned in order, and a hit marks the current record and
the first matching record. -/
def scanRecord (u : Vertex) (tid : Tid) (par : List Vertex) (ms : MemStats) (a : Addr) :
    Option MemStats :=
  match mfind (ms.getD u []) a with
  | none => none
  | some r =>
    if toVertex r.bb_id ≠ u then none
    else if r.thread_id ≠ tid then none
    else if r.is_shared = true then some ms
    else
      match scanParallel ms tid r.is_ifetch a par with
      | some p => some (setShared (setShared ms p a true) u a true)
      | none => some (setShared ms u a false)

/-- Record loop of the classifier without the guess vertex. -/
def scanRecords (u : Vertex) (tid : Tid) (par : List Vertex) :
    List Addr → MemStats → Option MemStats
  | [], ms => some ms
  | a :: as, ms =>
    match scanRecord u tid par ms a with
    | none => none
    | some ms' => scanRecords u tid par as ms'

/-- Vertex loop body of the classifier without the guess vertex. -/
def scanVertex (n : Nat) (c : ComponentsMap) (st : MemStats × Tid) (u : Vertex) :
    Option (MemStats × Tid) :=
  let tid := firstTid (st.1.getD u []) st.2
  match parallel_vertices n c u with
  | [] => some (st.1, tid)
  | g0 :: ps =>
    match scanRecords u tid (g0 :: ps) ((st.1.getD u []).map Prod.fst) st.1 with
    | none => none
    | some ms => some (ms, tid)

/-- Vertex loop of the classifier without the guess vertex. -/
def scanAll (n : Nat) (c : ComponentsMap) :
    List Vertex → MemStats × Tid → Option (MemStats × Tid)
  | [], st => some st
  | u :: us, st =>
    match scanVertex n c st u with
    | none => none
    | some st' => scanAll n c us st'

/-- The classifier named in the specification: `analyze_shared_access` with
the guess check deleted. -/
def analyze_without_guess (mem_stats : MemStats) (g : Graph) (r e : Vertex) (fuel : Nat) :
    Option MemStats :=
  if num_vertices g ≠ mem_stats.length then none
  else if ¬ r < num_vertices g then none
  else
    match connected_components g r (emptyMap (num_vertices g)) fuel with
    | none => none
    | some c_map =>
      if checkComponents (num_vertices g) c_map r e = true then
        (scanAll (num_vertices g) c_map (List.range mem_stats.length) (mem_stats, 0)).map
          Prod.fst
      else none

/-- Statistics on `forkGraph`: the parallel vertices 1 and 2 run on thread 1;
vertex 1 holds line `0x1000` as an instruction fetch, vertex 2 holds it as
data. -/
def guessStats : MemStats :=
  [[], [mkRecord 1 1 4096 true], [mkRecord 2 1 4096 false], []]

/-- Contribution of a record to `weights[COLOR_PRIVATE_INST]`. -/
def cpiExact (lat : Latency) (r : AddrAccessStats) : Nat :=
  if r.is_shared = true ∧ r.is_ifetch = false then totalExact r * lat.wcl_mem
  else observedExact lat r

/-- Weights `2 ^ 63`, `1`, `2 ^ 63` of the vertices 0, 1, 2 in every
configuration: their sum wraps around to 1. -/
def wrapWeights : List (List Nat) :=
  [[9223372036854775808, 9223372036854775808, 9223372036854775808, 9223372036854775808],
    [1, 1, 1, 1],
    [9223372036854775808, 9223372036854775808, 9223372036854775808, 9223372036854775808]]

/-- Weights `2 ^ 53 + 2`, `1`, `0` of the vertices 0, 1, 2 in every
configuration: their sum `2 ^ 53 + 3` is not a `double`. -/
def roundWeights : List (List Nat) :=
  [[9007199254740994, 9007199254740994, 9007199254740994, 9007199254740994],
    [1, 1, 1, 1],
    [0, 0, 0, 0]]

/-- The constant `MAX_NUM_BB`. -/
def MAX_NUM_BB : Nat := 10000

/-- The constant `MAX_NUM_TASK`. -/
def MAX_NUM_TASK : Nat := 10000

/-- The constant `MAX_TASK_CHILDREN`. -/
def MAX_TASK_CHILDREN : Nat := 10000

/-- The struct `BasicBlock` of `omptr.h`; `waitFor` is the array of
`MAX_TASK_CHILDREN` task ids. -/
structure Omptr.BasicBlock where
  taskID : Int
  nodeID : Int
  taskCreated : Int
  numTasksWaitingFor : Int
  waitFor : List Int
deriving DecidableEq, Repr

/-- The struct `OmptrTask`; `children` is the array of `MAX_TASK_CHILDREN`
task ids. -/
structure OmptrTask where
  numChildren : Int
  children : List Int
deriving DecidableEq, Repr

/-- The global variables `BBs`, `Tasks`, `Task_Counter`, `BB_Counter`. -/
structure OmptrState where
  BBs : List Omptr.BasicBlock
  Tasks : List OmptrTask
  Task_Counter : Int
  BB_Counter : Int
deriving DecidableEq, Repr

/-- A cell of `BBs` as `omptr_init` leaves it. The cells of the `waitFor` and
`children` arrays are not initialised by the program; their content before
the first write is 0 in the model. -/
def initBB : Omptr.BasicBlock := ⟨0, 0, -1, 0, List.replicate MAX_TASK_CHILDREN 0⟩

/-- A cell of `Tasks` as `omptr_init` leaves it. -/
def initTask : OmptrTask := ⟨0, List.replicate MAX_TASK_CHILDREN 0⟩

/-- How a call of the producer can stop: `exit(-1)`, or an access to a cell
outside `BBs`, outside `Tasks`, or outside a `children` or `waitFor` array
(undefined behaviour in C), with the offending index. -/
inductive OmptrStop where
  | exited
  | bb_out_of_range (index : Int)
  | task_out_of_range (index : Int)
  | child_out_of_range (index : Int)
deriving DecidableEq, Repr

/-- Function `omptr_init` (both allocations are taken to succeed); it returns
0, the id of the first block. -/
def omptr_init : OmptrState :=
  ⟨List.replicate MAX_NUM_BB initBB, List.replicate MAX_NUM_TASK initTask, 0, 0⟩

/-- An index of a cell of `BBs`. -/
def inBB (i : Int) : Prop := 0 ≤ i ∧ i < MAX_NUM_BB

instance (i : Int) : Decidable (inBB i) := by unfold inBB; infer_instance

/-- An index of a cell of `Tasks`. -/
def inTasks (i : Int) : Prop := 0 ≤ i ∧ i < MAX_NUM_TASK

instance (i : Int) : Decidable (inTasks i) := by unfold inTasks; infer_instance

/-- Function `omptr_task(bb_id_ptr)` with `*bb_id_ptr = bb_id`, the calls
taken one after the other. The result is the new state, the value stored to
`*bb_id_ptr` (the first block of the child task) and the returned value (the
next block of the parent task). -/
def omptr_task (st : OmptrState) (bb_id : Int) : Except OmptrStop (OmptrState × Int × Int) :=
  if ¬ inBB bb_id then .error (.bb_out_of_range bb_id)
  else
    let task_id := (st.BBs.getD bb_id.toNat initBB).taskID
    if ¬ inTasks task_id then .error (.task_out_of_range task_id)
    else
      let new_task_id := st.Task_Counter + 1
      if new_task_id ≥ MAX_NUM_TASK then .error .exited
      else
        let new_task_bb_id := st.BB_Counter + 1
        if ¬ inBB new_task_bb_id then .error (.bb_out_of_range new_task_bb_id)
        else
          let BBs1 := st.BBs.set new_task_bb_id.toNat
            { st.BBs.getD new_task_bb_id.toNat initBB with taskID := new_task_id }
          let new_bb_id := st.BB_Counter + 2
          if new_bb_id ≥ MAX_NUM_BB then .error .exited
          else if ¬ inBB new_bb_id then .error (.bb_out_of_range new_bb_id)
          else
            let bb := BBs1.getD bb_id.toNat initBB
            let BBs2 := BBs1.set new_bb_id.toNat
              { BBs1.getD new_bb_id.toNat initBB with
                taskID := bb.taskID
                nodeID := bb.nodeID + 1 }
            let BBs3 := BBs2.set bb_id.toNat
              { BBs2.getD bb_id.toNat initBB with taskCreated := new_task_id }
            let task := st.Tasks.getD task_id.toNat initTask
            if ¬ (0 ≤ task.numChildren ∧ task.numChildren < MAX_TASK_CHILDREN) then
              .error (.child_out_of_range task.numChildren)
            else
              let task1 : OmptrTask :=
                { numChildren := task.numChildren + 1
                  children := task.children.set task.numChildren.toNat new_task_id }
              if task1.numChildren > MAX_TASK_CHILDREN then .error .exited
              else
                .ok ({ BBs := BBs3
                       Tasks := st.Tasks.set task_id.toNat task1
                       Task_Counter := new_task_id
                       BB_Counter := new_bb_id }, new_task_bb_id, new_bb_id)

/-- Function `omptr_task_wait(bb_id_ptr)` with `*bb_id_ptr = bb_id`. The
result is the new state and the value stored to `*bb_id_ptr`. -/
def omptr_task_wait (st : OmptrState) (bb_id : Int) : Except OmptrStop (OmptrState × Int) :=
  if ¬ inBB bb_id then .error (.bb_out_of_range bb_id)
  else
    let task_id := (st.BBs.getD bb_id.toNat initBB).taskID
    if ¬ inTasks task_id then .error (.task_out_of_range task_id)
    else
      let new_bb_id := st.BB_Counter + 1
      if new_bb_id ≥ MAX_NUM_BB then .error .exited
      else if ¬ inBB new_bb_id then .error (.bb_out_of_range new_bb_id)
      else
        let bb := st.BBs.getD bb_id.toNat initBB
        let task := st.Tasks.getD task_id.toNat initTask
        if task.numChildren > MAX_TASK_CHILDREN then
          .error (.child_out_of_range MAX_TASK_CHILDREN)
        else
          let new_bb : Omptr.BasicBlock :=
            { st.BBs.getD new_bb_id.toNat initBB with
              taskID := bb.taskID
              nodeID := bb.nodeID + 1
              waitFor := task.children.take task.numChildren.toNat ++
                (st.BBs.getD new_bb_id.toNat initBB).waitFor.drop task.numChildren.toNat
              numTasksWaitingFor := task.numChildren }
          .ok ({ st with
                 BBs := st.BBs.set new_bb_id.toNat new_bb
                 Tasks := st.Tasks.set task_id.toNat { task with numChildren := 0 }
                 BB_Counter := new_bb_id }, new_bb_id)

/-- A call of the producer with its argument `*bb_id_ptr`. -/
inductive OmptrCall where
  | task (bb_id : Int)
  | task_wait (bb_id : Int)
deriving DecidableEq, Repr

/-- The block id that a call is given. -/
def OmptrCall.bb_id : OmptrCall → Int
  | .task i => i
  | .task_wait i => i

/-- The state after one call. -/
def omptr_step (st : OmptrState) : OmptrCall → Except OmptrStop OmptrState
  | .task i => (omptr_task st i).map Prod.fst
  | .task_wait i => (omptr_task_wait st i).map Prod.fst

/-- The state after a sequence of calls; an error ends the run. -/
def omptr_run : List OmptrCall → OmptrState → Except OmptrStop OmptrState
  | [], st => .ok st
  | c :: cs, st =>
    match omptr_step st c with
    | .error e => .error e
    | .ok st' => omptr_run cs st'

/-- A run of `k` calls of `omptr_task_wait`, each on the block that the
previous call returned. -/
def waitChain : Nat → OmptrState → Int → Except OmptrStop (OmptrState × Int)
  | 0, st, id => .ok (st, id)
  | k + 1, st, id =>
    match omptr_task_wait st id with
    | .error e => .error e
    | .ok r => waitChain k r.1 r.2

/-- Block `j` of the table. -/
def blockAt (st : OmptrState) (j : Nat) : Omptr.BasicBlock := st.BBs.getD j initBB

/-- Task `t` of the table. -/
def taskAt (st : OmptrState) (t : Nat) : OmptrTask := st.Tasks.getD t initTask

/-- The entries of `waitFor` that `omptr_print` writes for a block. -/
def printedWaitFor (b : Omptr.BasicBlock) : List Int :=
  b.waitFor.take b.numTasksWaitingFor.toNat

/-- Block `i` is the most recently created block of its task: no block of the
table `BBs[0..BB_Counter]` with the same task id has a larger node index. -/
def LatestOfTask (st : OmptrState) (i : Int) : Prop :=
  0 ≤ i ∧ i ≤ st.BB_Counter ∧
  ∀ j : Nat, j < st.BB_Counter.toNat + 1 → (blockAt st j).taskID = (blockAt st i.toNat).taskID →
    (blockAt st j).nodeID ≤ (blockAt st i.toNat).nodeID

instance (st : OmptrState) (i : Int) : Decidable (LatestOfTask st i) := by
  unfold LatestOfTask; infer_instance

/-- Every call of the run is given the most recently created block of a
task, as long as the run goes on. -/
def ValidCalls : List OmptrCall → OmptrState → Prop
  | [], _ => True
  | c :: cs, st =>
    LatestOfTask st c.bb_id ∧
      match omptr_step st c with
      | .error _ => True
      | .ok st' => ValidCalls cs st'

instance decValidCalls : ∀ (cs : List OmptrCall) (st : OmptrState), Decidable (ValidCalls cs st)
  | [], _ => isTrue trivial
  | c :: cs, st => by
    unfold ValidCalls
    cases h : omptr_step st c with
    | error e => simp only; infer_instance
    | ok st' =>
      simp only
      haveI := decValidCalls cs st'
      infer_instance

/-- What the claim says about the table `BBs[0..BB_Counter]`: the task ids are
exactly `0..Task_Counter`; within a task the node indices are non-negative,
pairwise distinct and without a gap; every task other than 0 is the
`taskCreated` of exactly one block; every printed `waitFor` entry is an
existing task. -/
structure TableOK (st : OmptrState) : Prop where
  tid_range : ∀ j : Nat, (j : Int) ≤ st.BB_Counter →
    0 ≤ (blockAt st j).taskID ∧ (blockAt st j).taskID ≤ st.Task_Counter
  tid_all : ∀ t : Int, 0 ≤ t → t ≤ st.Task_Counter →
    ∃ j : Nat, (j : Int) ≤ st.BB_Counter ∧ (blockAt st j).taskID = t
  nid_nonneg : ∀ j : Nat, (j : Int) ≤ st.BB_Counter → 0 ≤ (blockAt st j).nodeID
  nid_inj : ∀ j k : Nat, (j : Int) ≤ st.BB_Counter → (k : Int) ≤ st.BB_Counter →
    (blockAt st j).taskID = (blockAt st k).taskID →
    (blockAt st j).nodeID = (blockAt st k).nodeID → j = k
  nid_down : ∀ j : Nat, (j : Int) ≤ st.BB_Counter → ∀ m : Int, 0 ≤ m → m < (blockAt st j).nodeID →
    ∃ k : Nat, (k : Int) ≤ st.BB_Counter ∧ (blockAt st k).taskID = (blockAt st j).taskID ∧
      (blockAt st k).nodeID = m
  created_one : ∀ t : Int, 1 ≤ t → t ≤ st.Task_Counter →
    ∃ j : Nat, (j : Int) ≤ st.BB_Counter ∧ (blockAt st j).taskCreated = t ∧
      ∀ k : Nat, (k : Int) ≤ st.BB_Counter → (blockAt st k).taskCreated = t → k = j
  wait_range : ∀ j : Nat, (j : Int) ≤ st.BB_Counter → ∀ w ∈ printedWaitFor (blockAt st j),
    0 ≤ w ∧ w ≤ st.Task_Counter

/-- Invariant of the producer: the claim about the table, and what the
functions rely on from one call to the next. -/
structure OmptrInv (st : OmptrState) : Prop where
  table : TableOK st
  len_bb : st.BBs.length = MAX_NUM_BB
  len_task : st.Tasks.length = MAX_NUM_TASK
  bbc : 0 ≤ st.BB_Counter ∧ st.BB_Counter < MAX_NUM_BB
  tc : 0 ≤ st.Task_Counter ∧ st.Task_Counter < MAX_NUM_TASK
  fresh : ∀ j : Nat, st.BB_Counter < (j : Int) → blockAt st j = initBB
  created_range : ∀ j : Nat, (j : Int) ≤ st.BB_Counter →
    (blockAt st j).taskCreated = -1 ∨
      (1 ≤ (blockAt st j).taskCreated ∧ (blockAt st j).taskCreated ≤ st.Task_Counter)
  created_not_latest : ∀ j : Nat, (j : Int) ≤ st.BB_Counter → (blockAt st j).taskCreated ≠ -1 →
    ∃ k : Nat, (k : Int) ≤ st.BB_Counter ∧ (blockAt st k).taskID = (blockAt st j).taskID ∧
      (blockAt st j).nodeID < (blockAt st k).nodeID
  child_len : ∀ t : Nat, (taskAt st t).children.length = MAX_TASK_CHILDREN
  child_count : ∀ t : Nat, 0 ≤ (taskAt st t).numChildren ∧
    (taskAt st t).numChildren ≤ st.Task_Counter
  child_range : ∀ t : Nat, ∀ w ∈ (taskAt st t).children.take (taskAt st t).numChildren.toNat,
    1 ≤ w ∧ w ≤ st.Task_Counter

/-- Invariant of a run of `omptr_task_wait` calls from the initial state: `k`
blocks were added, no task was created, and every block has task id 0. -/
structure WaitInv (k : Nat) (st : OmptrState) : Prop where
  bbc : st.BB_Counter = k
  tc : st.Task_Counter = 0
  tasks : st.Tasks = List.replicate MAX_NUM_TASK initTask
  tid : ∀ j, (blockAt st j).taskID = 0

/-! ## The partitioned replacement policy (`par_rp.cc`) -/

/-- The parameters `par_config` and `num_way` of `Par`. -/
structure ParParams where
  par_config : List Int
  num_way : Int
deriving DecidableEq, Repr

/-- The two tables shared by the entries of one cache set. `par_table[p][k]`
is the `way_index` of entry `k` of partition `p` (`-1` for an empty entry); the
replacement data of the implemented policy is not modelled. -/
structure ParTables where
  par_table : List (List Int)
  owner_table : List (List Bool)
deriving DecidableEq, Repr

/-- The tables that `instantiateEntry` builds when `way_index == 0`: for every
partition `par_size` empty entries and a row of `num_way` cleared owner
bits. -/
def Par.newTables (p : ParParams) : ParTables :=
  ⟨p.par_config.map (fun par_size => List.replicate par_size.toNat (-1)),
    p.par_config.map (fun _ => List.replicate p.num_way.toNat false)⟩

/-- Function `instantiateEntry` for the counter value `m_count` and the tables
`cur` created last: the way index of the new entry, the tables it points to
and the new counter. `none` stands for `num_way ≤ 0`, where the modulo or the
allocation of the owner rows has no defined result. -/
def Par.instantiateEntry (p : ParParams) (m_count : Nat) (cur : ParTables) :
    Option (Int × ParTables × Nat) :=
  if p.num_way ≤ 0 then none
  else
    let way_index : Int := ((m_count % p.num_way.toNat : Nat) : Int)
    some (way_index, (if way_index = 0 then Par.newTables p else cur), (m_count + 1) % 2 ^ 64)

/-- The assertion `par_id < par_config.size()`; the comparison is unsigned, so
a negative `par_id` fails it. -/
def Par.validPar (p : ParParams) (par_id : Int) : Prop :=
  0 ≤ par_id ∧ par_id.toNat < p.par_config.length

instance (p : ParParams) (par_id : Int) : Decidable (Par.validPar p par_id) := by
  unfold Par.validPar; infer_instance

/-- The read `(*owner_table)[par_id][way_index]`; `none` when an index is out
of range (undefined behaviour in C++). -/
def Par.ownerAt (t : ParTables) (par_id way_index : Int) : Option Bool :=
  if 0 ≤ par_id ∧ 0 ≤ way_index then
    match t.owner_table.get? par_id.toNat with
    | none => none
    | some row => row.get? way_index.toNat
  else none

/-- The write `(*owner_table)[par_id][way_index] = b`. -/
def Par.setOwner (t : ParTables) (par_id way_index : Int) (b : Bool) : List (List Bool) :=
  t.owner_table.set par_id.toNat ((t.owner_table.getD par_id.toNat []).set way_index.toNat b)

/-- The loops `for (par_entry : par_table->at(par_id)) if (par_entry.way_index
== old) { par_entry.way_index = new; found = true; break; }`; `none` when no
entry is found. -/
def Par.replaceFirst (old new : Int) : List Int → Option (List Int)
  | [] => none
  | x :: xs =>
    if x = old then some (new :: xs)
    else
      match Par.replaceFirst old new xs with
      | none => none
      | some xs' => some (x :: xs')

/-- The loop that counts the entries with `way_index != -1`. -/
def Par.countLinked (row : List Int) : Int := ((row.filter (fun x => x ≠ -1)).length : Nat)

/-- Function `touch(replacement_data, par_id)` for an entry of way
`way_index`; `none` stands for a failed assertion, an exception of `at` or an
index out of range. -/
def Par.touch (p : ParParams) (t : ParTables) (way_index par_id : Int) : Option ParTables :=
  if ¬ Par.validPar p par_id then none
  else
    match Par.ownerAt t par_id way_index with
    | none => none
    | some true =>
      match t.par_table.get? par_id.toNat with
      | none => none
      | some row => if way_index ∈ row then some t else none
    | some false =>
      match t.par_table.get? par_id.toNat with
      | none => none
      | some row =>
        if ¬ (Par.countLinked row < p.par_config.getD par_id.toNat 0) then none
        else
          match Par.replaceFirst (-1) way_index row with
          | none => none
          | some row' =>
            if way_index ∈ row' then
              some ⟨t.par_table.set par_id.toNat row', Par.setOwner t par_id way_index true⟩
            else none

/-- The sanity check of `reset`: `get_owners` finds no owner of the way. The
result is `none` when a row has no cell `way_index`. -/
def Par.noOwner (way_index : Int) : List (List Bool) → Option Bool
  | [] => some true
  | row :: rest =>
    if 0 ≤ way_index then
      match row.get? way_index.toNat with
      | none => none
      | some b =>
        match Par.noOwner way_index rest with
        | none => none
        | some r => some (!b && r)
    else none

/-- Function `reset(replacement_data, par_id)`. -/
def Par.reset (p : ParParams) (t : ParTables) (way_index par_id : Int) : Option ParTables :=
  if ¬ Par.validPar p par_id then none
  else
    match Par.noOwner way_index t.owner_table with
    | none => none
    | some false => none
    | some true =>
      match t.par_table.get? par_id.toNat with
      | none => none
      | some row =>
        if way_index ∈ row then none
        else if ¬ par_id.toNat < t.owner_table.length then none
        else
          match Par.replaceFirst (-1) way_index row with
          | none => none
          | some row' =>
            some ⟨t.par_table.set par_id.toNat row', Par.setOwner t par_id way_index true⟩

/-- Function `invalidate(replacement_data, par_id)`. -/
def Par.invalidate (p : ParParams) (t : ParTables) (way_index par_id : Int) :
    Option ParTables :=
  if ¬ Par.validPar p par_id then none
  else
    match Par.ownerAt t par_id way_index with
    | none => none
    | some false => none
    | some true =>
      match t.par_table.get? par_id.toNat with
      | none => none
      | some row =>
        match Par.replaceFirst way_index (-1) row with
        | none => none
        | some row' =>
          some ⟨t.par_table.set par_id.toNat row', Par.setOwner t par_id way_index false⟩

/-- Function `parAvail(replacement_data, par_id)`. -/
def Par.parAvail (p : ParParams) (t : ParTables) (par_id : Int) : Option Bool :=
  if ¬ Par.validPar p par_id then none
  else
    match t.par_table.get? par_id.toNat with
    | none => none
    | some row =>
      if ¬ (Par.countLinked row ≤ p.par_config.getD par_id.toNat 0) then none
      else some (decide (Par.countLinked row < p.par_config.getD par_id.toNat 0))

/-- Function `parHit(replacement_data, par_id)`. -/
def Par.parHit (p : ParParams) (t : ParTables) (way_index par_id : Int) : Option Bool :=
  if ¬ Par.validPar p par_id then none
  else Par.ownerAt t par_id way_index

/-- A partition-aware call with the way of its entry and its partition. -/
inductive ParCall where
  | touch (way_index par_id : Int)
  | reset (way_index par_id : Int)
  | invalidate (way_index par_id : Int)
deriving DecidableEq, Repr

/-- The partition of a call. -/
def ParCall.par_id : ParCall → Int
  | .touch _ q => q
  | .reset _ q => q
  | .invalidate _ q => q

/-- The tables after one call. -/
def Par.step (p : ParParams) (t : ParTables) : ParCall → Option ParTables
  | .touch w q => Par.touch p t w q
  | .reset w q => Par.reset p t w q
  | .invalidate w q => Par.invalidate p t w q

/-- The tables after a sequence of calls whose assertions all pass. -/
def Par.run (p : ParParams) : List ParCall → ParTables → Option ParTables
  | [], t => some t
  | c :: cs, t =>
    match Par.step p t c with
    | none => none
    | some t' => Par.run p cs t'

/-- Consistency of the rows of one partition: the partition has the number of
entries it was built with, every entry is empty or linked to a way of the set,
a way is owned iff it is linked, it is linked by at most one entry, and the
number of linked entries is the number of owned ways. -/
structure RowInv (par_size num_way : Int) (row : List Int) (own : List Bool) : Prop where
  len_row : row.length = par_size.toNat
  len_own : own.length = num_way.toNat
  entries : ∀ x ∈ row, x = -1 ∨ (0 ≤ x ∧ x.toNat < own.length)
  linked : ∀ w : Nat, w < own.length →
    row.count (w : Int) = if own.getD w false = true then 1 else 0
  count : Par.countLinked row = ((own.count true : Nat) : Int)

/-- Consistency of the two tables of a cache set. -/
structure ParInv (p : ParParams) (t : ParTables) : Prop where
  len_par : t.par_table.length = p.par_config.length
  len_own : t.owner_table.length = p.par_config.length
  rows : ∀ q, q < p.par_config.length →
    RowInv (p.par_config.getD q 0) p.num_way (t.par_table.getD q []) (t.owner_table.getD q [])

/-- Two partitions of sizes 1 and 2 over 3 ways. -/
def parExample : ParParams := ⟨[1, 2], 3⟩

/-- The change that a call makes to the rows of partition `q`: the first entry
`old` becomes `new`, and the owner bit of way `w` goes from `!b` to `b`. -/
def ParUpdate (t : ParTables) (q w : Nat) (b : Bool) (old new : Int) (t' : ParTables) : Prop :=
  ∃ row row', t.par_table.get? q = some row ∧
    (t.owner_table.getD q []).get? w = some (!b) ∧ q < t.owner_table.length ∧
    Par.replaceFirst old new row = some row' ∧
    t' = ⟨t.par_table.set q row', t.owner_table.set q ((t.owner_table.getD q []).set w b)⟩

theorem getD_set_bool (l : List Bool) (i j : Nat) (hi : i < l.length) :
    (l.set i true).getD j false = (l.getD j false || decide (j = i)) := by
  simp only [List.getD_eq_getElem?_getD, List.getElem?_set]
  by_cases h : i = j
  · subst h; simp [hi]
  · have h' : ¬ j = i := fun e => h e.symm
    simp [h, h']

theorem getD_set_bool_ne (l : List Bool) (i j : Nat) (b : Bool) (h : j ≠ i) :
    (l.set i b).getD j false = l.getD j false := by
  simp only [List.getD_eq_getElem?_getD, List.getElem?_set]
  have h' : ¬ i = j := fun e => h e.symm
  simp [h']

theorem getD_set_row (m : List (List Bool)) (i j : Nat) (r : List Bool) :
    (m.set i r).getD j [] = if j = i ∧ i < m.length then r else m.getD j [] := by
  simp only [List.getD_eq_getElem?_getD, List.getElem?_set]
  by_cases h : i = j
  · subst h
    by_cases hi : i < m.length
    · simp [hi]
    · simp [hi]
      simp [List.getElem?_eq_none (Nat.le_of_not_lt hi)]
  · have h' : ¬ j = i := fun e => h e.symm
    simp [h, h']

theorem getD_true_lt (l : List Bool) (i : Nat) (h : l.getD i false = true) : i < l.length := by
  by_contra hc
  rw [List.getD_eq_getElem?_getD, List.getElem?_eq_none (Nat.le_of_not_lt hc)] at h
  simp at h

theorem MapWf.row_length {n : Nat} {m : ComponentsMap} (h : MapWf n m) {u : Nat} (hu : u < n) :
    (m.getD u []).length = n := by
  have hu' : u < m.length := by rw [h.1]; exact hu
  rw [List.getD_eq_getElem?_getD, List.getElem?_eq_getElem hu']
  exact h.2 _ (List.getElem_mem _)

theorem emptyMap_wf (n : Nat) : MapWf n (emptyMap n) := by
  refine ⟨by simp [emptyMap], ?_⟩
  intro row hrow
  rw [emptyMap, List.mem_replicate] at hrow
  rw [hrow.2, List.length_replicate]

theorem getD_replicate_false (n i : Nat) : (List.replicate n false).getD i false = false := by
  rw [List.getD_eq_getElem?_getD]
  by_cases hi : i < n
  · rw [List.getElem?_eq_getElem (by simpa using hi)]; simp
  · rw [List.getElem?_eq_none (by simpa using hi)]; rfl

theorem cget_emptyMap (n u v : Nat) : cget (emptyMap n) u v = false := by
  unfold cget emptyMap
  by_cases hu : u < n
  · have h2 : (List.replicate n (List.replicate n false)).getD u [] = List.replicate n false := by
      rw [List.getD_eq_getElem?_getD, List.getElem?_eq_getElem (by simpa using hu)]; simp
    rw [h2]; exact getD_replicate_false n v
  · have h2 : (List.replicate n (List.replicate n false)).getD u [] = [] := by
      rw [List.getD_eq_getElem?_getD, List.getElem?_eq_none (by simpa using hu)]; rfl
    rw [h2]; rfl

theorem cset_wf {n : Nat} {m : ComponentsMap} (h : MapWf n m) (u v : Nat) :
    MapWf n (cset m u v) := by
  by_cases hu : u < n
  · refine ⟨by simp [cset, h.1], ?_⟩
    intro row hrow
    unfold cset at hrow
    rcases List.mem_or_eq_of_mem_set hrow with h1 | h1
    · exact h.2 _ h1
    · subst h1
      rw [List.length_set]
      exact h.row_length hu
  · have : m.length ≤ u := by rw [h.1]; exact Nat.le_of_not_lt hu
    unfold cset
    rw [List.set_eq_of_length_le this]
    exact h

theorem cget_cset {n : Nat} {m : ComponentsMap} (h : MapWf n m) {u v : Nat}
    (hu : u < n) (hv : v < n) (a b : Nat) :
    cget (cset m u v) a b = (cget m a b || (decide (a = u) && decide (b = v))) := by
  unfold cget cset
  rw [getD_set_row]
  have hu' : u < m.length := by rw [h.1]; exact hu
  by_cases ha : a = u
  · subst ha
    simp only [hu', and_self, if_true, decide_True, Bool.true_and]
    exact getD_set_bool _ _ _ (by rw [h.row_length hu]; exact hv)
  · simp [ha]

theorem cget_lt {n : Nat} {m : ComponentsMap} (h : MapWf n m) {u v : Nat}
    (hg : cget m u v = true) : u < n ∧ v < n := by
  unfold cget at hg
  have hv := getD_true_lt _ _ hg
  have hu : u < n := by
    by_contra hc
    rw [List.getD_eq_getElem?_getD, List.getElem?_eq_none (by rw [h.1]; exact Nat.le_of_not_lt hc)] at hv
    simp at hv
  rw [h.row_length hu] at hv
  exact ⟨hu, hv⟩

/-! ## The row-merging loops -/

theorem mergeRow_eq (n cur t : Nat) (m : ComponentsMap) :
    mergeRow n cur t m = mergeLoop cur t (List.range n) (cset m cur t) := rfl

theorem mergeLoop_wf {n : Nat} (cur t : Nat) (is : List Nat) :
    ∀ m, MapWf n m → MapWf n (mergeLoop cur t is m) := by
  induction is with
  | nil => intro m h; exact h
  | cons i is ih =>
    intro m h
    simp only [mergeLoop, List.foldl_cons]
    split
    · exact ih _ (cset_wf h _ _)
    · exact ih _ h

theorem mergeLoop_mono {n : Nat} (cur t : Nat) (hc : cur < n) (is : List Nat)
    (his : ∀ i ∈ is, i < n) :
    ∀ m, MapWf n m → ∀ a b, cget m a b = true → cget (mergeLoop cur t is m) a b = true := by
  induction is with
  | nil => intro m _ a b h; exact h
  | cons i is ih =>
    intro m h a b hab
    have hi : i < n := his i (List.mem_cons_self _ _)
    have his' : ∀ j ∈ is, j < n := fun j hj => his j (List.mem_cons_of_mem _ hj)
    simp only [mergeLoop, List.foldl_cons]
    split
    · refine ih his' _ (cset_wf h _ _) a b ?_
      rw [cget_cset h hc hi, hab]; rfl
    · exact ih his' _ h a b hab

theorem mergeLoop_frame {n : Nat} (cur t : Nat) (hc : cur < n) (is : List Nat)
    (his : ∀ i ∈ is, i < n) :
    ∀ m, MapWf n m → ∀ a b, a ≠ cur → cget (mergeLoop cur t is m) a b = cget m a b := by
  induction is with
  | nil => intro m _ a b _; rfl
  | cons i is ih =>
    intro m h a b hne
    have hi : i < n := his i (List.mem_cons_self _ _)
    have his' : ∀ j ∈ is, j < n := fun j hj => his j (List.mem_cons_of_mem _ hj)
    simp only [mergeLoop, List.foldl_cons]
    split
    · rw [show List.foldl _ (cset m cur i) is = mergeLoop cur t is (cset m cur i) from rfl,
        ih his' _ (cset_wf h _ _) a b hne, cget_cset h hc hi]
      simp [hne]
    · exact ih his' _ h a b hne

theorem mergeLoop_sound {n : Nat} (R : Nat → Nat → Prop) (cur t : Nat) (hc : cur < n)
    (hR : ∀ i, R t i → R cur i) (is : List Nat) (his : ∀ i ∈ is, i < n) :
    ∀ m, MapWf n m → (∀ a b, cget m a b = true → R a b) →
      ∀ a b, cget (mergeLoop cur t is m) a b = true → R a b := by
  induction is with
  | nil => intro m _ hm a b h; exact hm a b h
  | cons i is ih =>
    intro m h hm a b hab
    have hi : i < n := his i (List.mem_cons_self _ _)
    have his' : ∀ j ∈ is, j < n := fun j hj => his j (List.mem_cons_of_mem _ hj)
    simp only [mergeLoop, List.foldl_cons] at hab
    split at hab
    · rename_i hti
      refine ih his' _ (cset_wf h _ _) ?_ a b hab
      intro a' b' h'
      rw [cget_cset h hc hi] at h'
      simp only [Bool.or_eq_true, Bool.and_eq_true, decide_eq_true_eq] at h'
      rcases h' with h' | ⟨rfl, rfl⟩
      · exact hm _ _ h'
      · exact hR _ (hm _ _ hti)
    · exact ih his' _ h hm a b hab

theorem mergeLoop_complete {n : Nat} (cur t : Nat) (hc : cur < n) (is : List Nat)
    (his : ∀ i ∈ is, i < n) :
    ∀ m, MapWf n m → ∀ i ∈ is, cget m t i = true → cget (mergeLoop cur t is m) cur i = true := by
  induction is with
  | nil => intro m _ i hi; cases hi
  | cons j is ih =>
    intro m h i hi hti
    have hj : j < n := his j (List.mem_cons_self _ _)
    have his' : ∀ j ∈ is, j < n := fun j hj => his j (List.mem_cons_of_mem _ hj)
    have hstep : MapWf n (if cget m t j = true then cset m cur j else m) ∧
        (∀ a b, cget m a b = true →
          cget (if cget m t j = true then cset m cur j else m) a b = true) := by
      split
      · refine ⟨cset_wf h _ _, fun a b hab => ?_⟩
        rw [cget_cset h hc hj, hab]; rfl
      · exact ⟨h, fun a b hab => hab⟩
    simp only [mergeLoop, List.foldl_cons]
    rcases List.mem_cons.1 hi with rfl | hi'
    · rw [if_pos hti]
      refine mergeLoop_mono cur t hc is his' _ (cset_wf h _ _) _ _ ?_
      rw [cget_cset h hc hj]; simp
    · exact ih his' _ hstep.1 i hi' (hstep.2 _ _ hti)

theorem range_lt (n : Nat) : ∀ i ∈ List.range n, i < n := fun _ hi => List.mem_range.1 hi

theorem mergeRow_wf {n : Nat} (cur t : Nat) {m : ComponentsMap} (h : MapWf n m) :
    MapWf n (mergeRow n cur t m) :=
  mergeLoop_wf cur t _ _ (cset_wf h _ _)

theorem mergeRow_mono {n : Nat} {cur t : Nat} (hc : cur < n) (ht : t < n) {m : ComponentsMap}
    (h : MapWf n m) (a b : Nat) (hab : cget m a b = true) :
    cget (mergeRow n cur t m) a b = true := by
  refine mergeLoop_mono cur t hc _ (range_lt n) _ (cset_wf h _ _) a b ?_
  rw [cget_cset h hc ht, hab]; rfl

theorem mergeRow_frame {n : Nat} {cur t : Nat} (hc : cur < n) (ht : t < n) {m : ComponentsMap}
    (h : MapWf n m) (a b : Nat) (hne : a ≠ cur) :
    cget (mergeRow n cur t m) a b = cget m a b := by
  rw [mergeRow_eq, mergeLoop_frame cur t hc _ (range_lt n) _ (cset_wf h _ _) a b hne,
    cget_cset h hc ht]
  simp [hne]

theorem mergeRow_sound {n : Nat} (R : Nat → Nat → Prop) {cur t : Nat} (hc : cur < n)
    (ht : t < n) (hct : R cur t) (hR : ∀ i, R t i → R cur i) {m : ComponentsMap}
    (h : MapWf n m) (hm : ∀ a b, cget m a b = true → R a b) (a b : Nat)
    (hab : cget (mergeRow n cur t m) a b = true) : R a b := by
  refine mergeLoop_sound R cur t hc hR _ (range_lt n) _ (cset_wf h _ _) ?_ a b hab
  intro a' b' h'
  rw [cget_cset h hc ht] at h'
  simp only [Bool.or_eq_true, Bool.and_eq_true, decide_eq_true_eq] at h'
  rcases h' with h' | ⟨rfl, rfl⟩
  · exact hm _ _ h'
  · exact hct

theorem mergeRow_target {n : Nat} {cur t : Nat} (hc : cur < n) (ht : t < n) {m : ComponentsMap}
    (h : MapWf n m) : cget (mergeRow n cur t m) cur t = true := by
  refine mergeLoop_mono cur t hc _ (range_lt n) _ (cset_wf h _ _) _ _ ?_
  rw [cget_cset h hc ht]; simp

theorem mergeRow_complete {n : Nat} {cur t : Nat} (hc : cur < n) (ht : t < n)
    {m : ComponentsMap} (h : MapWf n m) (i : Nat) (hti : cget m t i = true) :
    cget (mergeRow n cur t m) cur i = true := by
  have hi : i < n := (cget_lt h hti).2
  refine mergeLoop_complete cur t hc _ (range_lt n) _ (cset_wf h _ _) i (List.mem_range.2 hi) ?_
  rw [cget_cset h hc ht, hti]; rfl

theorem processDone_wf {n : Nat} (cur : Nat) (es : List Nat) :
    ∀ m, MapWf n m → MapWf n (processDone n cur es m) := by
  induction es with
  | nil => intro m h; exact h
  | cons t es ih => intro m h; exact ih _ (mergeRow_wf cur t h)

theorem processDone_mono {n : Nat} {cur : Nat} (hc : cur < n) (es : List Nat)
    (hes : ∀ t ∈ es, t < n) :
    ∀ m, MapWf n m → ∀ a b, cget m a b = true → cget (processDone n cur es m) a b = true := by
  induction es with
  | nil => intro m _ a b h; exact h
  | cons t es ih =>
    intro m h a b hab
    exact ih (fun j hj => hes j (List.mem_cons_of_mem _ hj)) _ (mergeRow_wf cur t h) a b
      (mergeRow_mono hc (hes t (List.mem_cons_self _ _)) h a b hab)

theorem processDone_frame {n : Nat} {cur : Nat} (hc : cur < n) (es : List Nat)
    (hes : ∀ t ∈ es, t < n) :
    ∀ m, MapWf n m → ∀ a b, a ≠ cur → cget (processDone n cur es m) a b = cget m a b := by
  induction es with
  | nil => intro m _ a b _; rfl
  | cons t es ih =>
    intro m h a b hne
    have := ih (fun j hj => hes j (List.mem_cons_of_mem _ hj)) _ (mergeRow_wf cur t h) a b hne
    simp only [processDone, List.foldl_cons] at this ⊢
    rw [this, mergeRow_frame hc (hes t (List.mem_cons_self _ _)) h a b hne]

theorem processDone_sound {n : Nat} (R : Nat → Nat → Prop) {cur : Nat} (hc : cur < n)
    (es : List Nat) (hes : ∀ t ∈ es, t < n) (hct : ∀ t ∈ es, R cur t)
    (hR : ∀ t ∈ es, ∀ i, R t i → R cur i) :
    ∀ m, MapWf n m → (∀ a b, cget m a b = true → R a b) →
      ∀ a b, cget (processDone n cur es m) a b = true → R a b := by
  induction es with
  | nil => intro m _ hm a b h; exact hm a b h
  | cons t es ih =>
    intro m h hm a b hab
    have ht := hes t (List.mem_cons_self _ _)
    refine ih (fun j hj => hes j (List.mem_cons_of_mem _ hj))
      (fun j hj => hct j (List.mem_cons_of_mem _ hj))
      (fun j hj => hR j (List.mem_cons_of_mem _ hj)) _ (mergeRow_wf cur t h) ?_ a b hab
    exact mergeRow_sound R hc ht (hct t (List.mem_cons_self _ _))
      (hR t (List.mem_cons_self _ _)) h hm

theorem processDone_complete {n : Nat} {cur : Nat} (hc : cur < n) (es : List Nat)
    (hes : ∀ t ∈ es, t < n) :
    ∀ m, MapWf n m → ∀ t ∈ es,
      cget (processDone n cur es m) cur t = true ∧
      ∀ i, cget m t i = true → cget (processDone n cur es m) cur i = true := by
  induction es with
  | nil => intro m _ t ht; cases ht
  | cons t' es ih =>
    intro m h t ht
    have ht' := hes t' (List.mem_cons_self _ _)
    have hes' : ∀ j ∈ es, j < n := fun j hj => hes j (List.mem_cons_of_mem _ hj)
    have hw := mergeRow_wf cur t' h
    rcases List.mem_cons.1 ht with rfl | htes
    · refine ⟨processDone_mono hc es hes' _ hw _ _ (mergeRow_target hc ht' h), ?_⟩
      intro i hti
      exact processDone_mono hc es hes' _ hw _ _ (mergeRow_complete hc ht' h i hti)
    · have := ih hes' _ hw t htes
      refine ⟨this.1, fun i hti => this.2 i ?_⟩
      exact mergeRow_mono hc ht' h _ _ hti

/-! ## The discovery loop -/

theorem pushUndiscovered_cons (t : Nat) (es : List Nat) (st : List Nat × List Bool) :
    pushUndiscovered (t :: es) st =
      pushUndiscovered es
        (if st.2.getD t false = false then (t :: st.1, st.2.set t true) else st) := rfl

theorem pushUndiscovered_spec (es : List Nat) :
    ∀ st : List Nat × List Bool, (∀ t ∈ es, t < st.2.length) →
      (pushUndiscovered es st).2.length = st.2.length ∧
      (∀ v, (pushUndiscovered es st).2.getD v false = true ↔
        (st.2.getD v false = true ∨ v ∈ es)) ∧
      (∀ v ∈ (pushUndiscovered es st).1, v ∈ st.1 ∨ v ∈ es) ∧
      (∀ v ∈ st.1, v ∈ (pushUndiscovered es st).1) := by
  induction es with
  | nil =>
    intro st _
    exact ⟨rfl, fun v => by simp [pushUndiscovered], fun v hv => Or.inl hv, fun v hv => hv⟩
  | cons t es ih =>
    intro st hes
    have ht : t < st.2.length := hes t (List.mem_cons_self _ _)
    rw [pushUndiscovered_cons]
    by_cases hd : st.2.getD t false = false
    · rw [if_pos hd]
      have hes' : ∀ j ∈ es, j < (t :: st.1, st.2.set t true).2.length := by
        intro j hj
        simp only [List.length_set]
        exact hes j (List.mem_cons_of_mem _ hj)
      obtain ⟨h1, h2, h3, h4⟩ := ih (t :: st.1, st.2.set t true) hes'
      refine ⟨by rw [h1]; simp, ?_, ?_, ?_⟩
      · intro v
        rw [h2 v]
        simp only [getD_set_bool _ _ _ ht, Bool.or_eq_true, decide_eq_true_eq, List.mem_cons]
        tauto
      · intro v hv
        rcases h3 v hv with h | h
        · rcases List.mem_cons.1 h with rfl | h
          · exact Or.inr (List.mem_cons_self _ _)
          · exact Or.inl h
        · exact Or.inr (List.mem_cons_of_mem _ h)
      · intro v hv
        exact h4 v (List.mem_cons_of_mem _ hv)
    · rw [if_neg hd]
      have hd' : st.2.getD t false = true := by simpa using hd
      obtain ⟨h1, h2, h3, h4⟩ := ih st (fun j hj => hes j (List.mem_cons_of_mem _ hj))
      refine ⟨h1, ?_, ?_, h4⟩
      · intro v
        rw [h2 v]
        simp only [List.mem_cons]
        constructor
        · rintro (h | h)
          · exact Or.inl h
          · exact Or.inr (Or.inr h)
        · rintro (h | rfl | h)
          · exact Or.inl h
          · exact Or.inl hd'
          · exact Or.inr h
      · intro v hv
        rcases h3 v hv with h | h
        · exact Or.inl h
        · exact Or.inr (List.mem_cons_of_mem _ h)

theorem pushUndiscovered_id (es : List Nat) (st : List Nat × List Bool)
    (h : ∀ t ∈ es, st.2.getD t false = true) : pushUndiscovered es st = st := by
  induction es with
  | nil => rfl
  | cons t es ih =>
    rw [pushUndiscovered_cons]
    have ht := h t (List.mem_cons_self _ _)
    rw [if_neg (by rw [ht]; decide)]
    exact ih (fun j hj => h j (List.mem_cons_of_mem _ hj))

theorem allDone_iff (es : List Nat) (done : List Bool) :
    allDone es done = true ↔ ∀ t ∈ es, done.getD t false = true := by
  simp [allDone, List.all_eq_true]

/-! ## Loop invariant of connected_components -/

theorem edge_lt {g : Graph} (hg : g.wf) {u v : Nat} (h : Edge g u v) :
    u < num_vertices g ∧ v < num_vertices g := by
  unfold Edge out_edges at h
  have hu : u < g.out.length := by
    by_contra hc
    rw [List.getD_eq_getElem?_getD, List.getElem?_eq_none (Nat.le_of_not_lt hc)] at h
    simp at h
  refine ⟨hu, ?_⟩
  rw [List.getD_eq_getElem?_getD, List.getElem?_eq_getElem hu] at h
  exact hg _ (List.getElem_mem _) v h

theorem path_lt {g : Graph} (hg : g.wf) {u v : Nat} (h : Path g u v) :
    u < num_vertices g ∧ v < num_vertices g := by
  induction h with
  | single e => exact edge_lt hg e
  | tail _ e ih => exact ⟨ih.1, (edge_lt hg e).2⟩

theorem path_iff_edge {g : Graph} {u w : Nat} :
    Path g u w ↔ ∃ t, Edge g u t ∧ (t = w ∨ Path g t w) := by
  unfold Path
  rw [Relation.TransGen.head'_iff]
  constructor
  · rintro ⟨t, he, hr⟩
    refine ⟨t, he, ?_⟩
    rcases Relation.reflTransGen_iff_eq_or_transGen.1 hr with h | h
    · exact Or.inl h.symm
    · exact Or.inr h
  · rintro ⟨t, he, h | h⟩
    · subst h; exact ⟨t, he, Relation.ReflTransGen.refl⟩
    · exact ⟨t, he, h.to_reflTransGen⟩

theorem cc_init_inv (g : Graph) (r : Vertex) (hr : r < num_vertices g) :
    CCInv g r (cc_init g r (emptyMap (num_vertices g))) where
  disc_len := by simp [cc_init]
  done_len := by simp [cc_init]
  map_wf := emptyMap_wf _
  stack_ok := by
    intro v hv
    simp only [cc_init, List.mem_singleton] at hv
    subst hv
    refine ⟨hr, Relation.ReflTransGen.refl, ?_⟩
    simp only [cc_init]
    rw [getD_set_bool _ _ _ (by simpa using hr)]
    simp
  done_ok := by
    intro v hv
    simp only [cc_init, getD_replicate_false] at hv
    cases hv
  sound := by
    intro v w h
    simp only [cc_init, cget_emptyMap] at h
    cases h
  root_ok := Or.inl (by simp [cc_init])

theorem cc_step_inv {g : Graph} (hg : g.wf) {r : Vertex} {s : CCState} {cur : Vertex}
    {rest : List Vertex} (hs : s.dfs_stack = cur :: rest) (inv : CCInv g r s) :
    CCInv g r (cc_step g cur s) := by
  have hcur := inv.stack_ok cur (by rw [hs]; exact List.mem_cons_self _ _)
  have hes : ∀ t ∈ out_edges g cur, t < num_vertices g := fun t ht => (edge_lt hg ht).2
  have hes' : ∀ t ∈ out_edges g cur, t < (s.dfs_stack, s.discovered).2.length := by
    intro t ht; simp only [inv.disc_len]; exact hes t ht
  obtain ⟨p1, p2, p3, p4⟩ := pushUndiscovered_spec (out_edges g cur) (s.dfs_stack, s.discovered) hes'
  unfold cc_step
  by_cases hd : allDone (out_edges g cur) s.done = true
  · simp only [hd, if_true]
    have hall := (allDone_iff _ _).1 hd
    have hid : pushUndiscovered (out_edges g cur) (s.dfs_stack, s.discovered) =
        (s.dfs_stack, s.discovered) :=
      pushUndiscovered_id _ _ (fun t ht => (inv.done_ok t (hall t ht)).1)
    have hcl : cur < s.done.length := by rw [inv.done_len]; exact hcur.1
    have hdone : ∀ v, (s.done.set cur true).getD v false = true ↔
        (s.done.getD v false = true ∨ v = cur) := by
      intro v; rw [getD_set_bool _ _ _ hcl]; simp
    rw [hid]
    refine ⟨inv.disc_len, by simp [inv.done_len], processDone_wf _ _ _ inv.map_wf, ?_, ?_, ?_, ?_⟩
    · intro v hv
      exact inv.stack_ok v (List.mem_of_mem_tail hv)
    · intro v hv
      rcases (hdone v).1 hv with h | rfl
      · obtain ⟨d1, d2, d3, d4⟩ := inv.done_ok v h
        exact ⟨d1, d2, fun t ht => (hdone t).2 (Or.inl (d3 t ht)),
          fun w hw => processDone_mono hcur.1 _ hes _ inv.map_wf _ _ (d4 w hw)⟩
      · refine ⟨hcur.2.2, hcur.2.1, fun t ht => (hdone t).2 (Or.inl (hall t ht)), ?_⟩
        intro w hw
        obtain ⟨t, het, htw⟩ := path_iff_edge.1 hw
        have hc := processDone_complete hcur.1 _ hes _ inv.map_wf t het
        rcases htw with rfl | htw
        · exact hc.1
        · exact hc.2 w ((inv.done_ok t (hall t het)).2.2.2 w htw)
    · intro v w hvw
      have hpath : Path g v w := by
        refine processDone_sound (Path g) hcur.1 _ hes ?_ ?_ _ inv.map_wf
          (fun a b hab => (inv.sound a b hab).2) v w hvw
        · intro t ht; exact Relation.TransGen.single ht
        · intro t ht i hti; exact Relation.TransGen.head ht hti
      refine ⟨?_, hpath⟩
      by_cases hv : v = cur
      · exact (hdone v).2 (Or.inr hv)
      · rw [processDone_frame hcur.1 _ hes _ inv.map_wf v w hv] at hvw
        exact (hdone v).2 (Or.inl (inv.sound v w hvw).1)
    · rcases inv.root_ok with h | h
      · rw [hs] at h
        rcases List.mem_cons.1 h with rfl | h
        · exact Or.inr ((hdone _).2 (Or.inr rfl))
        · left; simp only [hs, List.tail_cons]; exact h
      · exact Or.inr ((hdone _).2 (Or.inl h))
  · simp only [hd, Bool.false_eq_true, if_false]
    have hdisc : ∀ v, s.discovered.getD v false = true →
        (pushUndiscovered (out_edges g cur) (s.dfs_stack, s.discovered)).2.getD v false = true :=
      fun v hv => (p2 v).2 (Or.inl hv)
    refine ⟨by rw [p1]; exact inv.disc_len, inv.done_len, inv.map_wf, ?_, ?_, inv.sound, ?_⟩
    · intro v hv
      rcases p3 v hv with h | h
      · obtain ⟨s1, s2, s3⟩ := inv.stack_ok v h
        exact ⟨s1, s2, hdisc v s3⟩
      · exact ⟨hes v h, hcur.2.1.tail h, (p2 v).2 (Or.inr h)⟩
    · intro v hv
      obtain ⟨d1, d2, d3, d4⟩ := inv.done_ok v hv
      exact ⟨hdisc v d1, d2, d3, d4⟩
    · rcases inv.root_ok with h | h
      · exact Or.inl (p4 r h)
      · exact Or.inr h

theorem cc_loop_inv {g : Graph} (hg : g.wf) {r : Vertex} :
    ∀ (fuel : Nat) (s : CCState) (m : ComponentsMap), CCInv g r s →
      cc_loop g fuel s = some m →
      ∃ s' : CCState, CCInv g r s' ∧ s'.dfs_stack = [] ∧ s'.c_map = m := by
  intro fuel
  induction fuel with
  | zero => intro s m _ h; simp [cc_loop] at h
  | succ fuel ih =>
    intro s m inv h
    unfold cc_loop at h
    split at h
    · rename_i hs
      exact ⟨s, inv, hs, by simpa using h⟩
    · rename_i cur rest hs
      exact ih _ m (cc_step_inv hg hs inv) h

/-- Exact content of the map returned by `connected_components` on an
initially all-false map: row `u` is the set of proper descendants of `u` when
`u` is reachable from the root, and stays empty otherwise. -/
theorem connected_components_spec {g : Graph} (hg : g.wf) {r : Vertex}
    (hr : r < num_vertices g) {fuel : Nat} {m : ComponentsMap}
    (h : connected_components g r (emptyMap (num_vertices g)) fuel = some m) (u v : Vertex) :
    cget m u v = true ↔ (Reach g r u ∧ Path g u v) := by
  obtain ⟨s, inv, hs, rfl⟩ := cc_loop_inv hg fuel _ m (cc_init_inv g r hr) h
  have hroot : s.done.getD r false = true := by
    rcases inv.root_ok with h | h
    · rw [hs] at h; cases h
    · exact h
  have hall : ∀ w, Reach g r w → s.done.getD w false = true := by
    intro w hw
    induction hw with
    | refl => exact hroot
    | tail _ e ih => exact (inv.done_ok _ ih).2.2.1 _ e
  constructor
  · intro hc
    obtain ⟨h1, h2⟩ := inv.sound u v hc
    exact ⟨(inv.done_ok u h1).2.1, h2⟩
  · rintro ⟨h1, h2⟩
    exact (inv.done_ok u (hall u h1)).2.2.2 v h2

theorem connected_components_wf {g : Graph} (hg : g.wf) {r : Vertex}
    (hr : r < num_vertices g) {fuel : Nat} {m : ComponentsMap}
    (h : connected_components g r (emptyMap (num_vertices g)) fuel = some m) :
    MapWf (num_vertices g) m := by
  obtain ⟨s, inv, _, rfl⟩ := cc_loop_inv hg fuel _ m (cc_init_inv g r hr) h
  exact inv.map_wf

/-! ## Results on connected_components -/

theorem acyclic_of_rank (g : Graph) (f : Nat → Nat)
    (hf : ∀ u v, Edge g u v → f v < f u) : Acyclic g := by
  have hp : ∀ u v, Path g u v → f v < f u := by
    intro u v h
    induction h with
    | single e => exact hf _ _ e
    | tail _ e ih => exact lt_trans (hf _ _ e) ih
  intro v hv
  exact lt_irrefl _ (hp v v hv)

theorem cc_loop_stuck (g : Graph) (s : CCState) (cur : Vertex) (rest : List Vertex)
    (hs : s.dfs_stack = cur :: rest) (hfix : cc_step g cur s = s) :
    ∀ fuel, cc_loop g fuel s = none := by
  intro fuel
  induction fuel with
  | zero => rfl
  | succ fuel ih =>
    unfold cc_loop
    split
    · rename_i h; rw [hs] at h; cases h
    · rename_i c r h
      rw [hs] at h
      cases h
      rw [hfix]; exact ih

/-- The map returned on a graph whose vertices are all reachable from the root
is the path relation. -/
theorem components_eq_path {g : Graph} {r : Vertex} {fuel : Nat} {m : ComponentsMap}
    (hg : g.wf) (hr : r < num_vertices g) (hall : ∀ v, v < num_vertices g → Reach g r v)
    (h : connected_components g r (emptyMap (num_vertices g)) fuel = some m) (u v : Vertex) :
    cget m u v = true ↔ Path g u v := by
  rw [connected_components_spec hg hr h u v]
  exact ⟨fun hp => hp.2, fun hp => ⟨hall u (path_lt hg hp).1, hp⟩⟩

/-- C1: on a well-formed graph in which every vertex is reachable from the
root, whenever `connected_components` finishes on an all-false map, the entry
`c_map[u][v]` is true iff there is a directed path of at least one edge from
`u` to `v` (acyclicity is not needed for this direction-free statement). -/
theorem connected_components_correct (g : Graph) (r : Vertex) (fuel : Nat)
    (m : ComponentsMap) (hg : g.wf) (hr : r < num_vertices g)
    (hall : ∀ v, v < num_vertices g → Reach g r v)
    (h : connected_components g r (emptyMap (num_vertices g)) fuel = some m) :
    ∀ u v, cget m u v = true ↔ Path g u v := by
  intro u v
  rw [connected_components_spec hg hr h u v]
  constructor
  · exact fun h => h.2
  · intro hp
    exact ⟨hall u (path_lt hg hp).1, hp⟩

theorem diamondGraph_reach : ∀ v, v < num_vertices diamondGraph → Reach diamondGraph 0 v := by
  intro v hv
  have hv' : v < 3 := hv
  have e1 : Edge diamondGraph 0 1 := by decide
  have e2 : Edge diamondGraph 0 2 := by decide
  interval_cases v
  · exact Relation.ReflTransGen.refl
  · exact Relation.ReflTransGen.single e1
  · exact Relation.ReflTransGen.single e2

/-- Witness for C1: the traversal of `diamondGraph` finishes within 10
iterations and its map is the path relation. -/
theorem connected_components_correct_witness :
    diamondGraph.wf ∧ 0 < num_vertices diamondGraph ∧
    (∀ v, v < num_vertices diamondGraph → Reach diamondGraph 0 v) ∧
    connected_components diamondGraph 0 (emptyMap 3) 10 =
      some [[false, true, true], [false, false, false], [false, true, false]] ∧
    (cget [[false, true, true], [false, false, false], [false, true, false]] 2 1 = true ↔
      Path diamondGraph 2 1) :=
  ⟨by decide, by decide, diamondGraph_reach, by decide,
    connected_components_correct diamondGraph 0 10 _ (by decide) (by decide)
      diamondGraph_reach (by decide) 2 1⟩

theorem stuckGraph_acyclic : Acyclic stuckGraph := by
  refine acyclic_of_rank _ (fun v => if v = 0 then 2 else if v = 2 then 1 else 0) ?_
  intro u v he
  have hu : u < 3 := (edge_lt (by decide) he).1
  have hv : v < 3 := (edge_lt (by decide) he).2
  interval_cases u <;> interval_cases v <;> first | decide | (exact absurd he (by decide))

theorem stuckGraph_reach : ∀ v, v < num_vertices stuckGraph → Reach stuckGraph 0 v := by
  intro v hv
  have hv' : v < 3 := hv
  have e1 : Edge stuckGraph 0 1 := by decide
  have e2 : Edge stuckGraph 0 2 := by decide
  interval_cases v
  · exact Relation.ReflTransGen.refl
  · exact Relation.ReflTransGen.single e1
  · exact Relation.ReflTransGen.single e2

theorem stuckGraph_never_returns :
    ∀ fuel, connected_components stuckGraph 0 (emptyMap 3) fuel = none := by
  intro fuel
  cases fuel with
  | zero => rfl
  | succ fuel =>
    have hstep : cc_step stuckGraph 0 (cc_init stuckGraph 0 (emptyMap 3)) =
        ⟨[2, 1, 0], [true, true, true], [false, false, false], emptyMap 3⟩ := by decide
    show cc_loop stuckGraph fuel (cc_step stuckGraph 0 (cc_init stuckGraph 0 (emptyMap 3))) = none
    rw [hstep]
    exact cc_loop_stuck stuckGraph _ 2 [1, 0] rfl (by decide) fuel

/-- C2 (failing input): `stuckGraph` is a well-formed DAG whose vertices are
all reachable from root 0, yet the loop of `connected_components` never
empties its stack: vertex 2 is on top and waits for vertex 1, which lies
below it and therefore never becomes the top. -/
theorem connected_components_stuck :
    stuckGraph.wf ∧ Acyclic stuckGraph ∧
    (∀ v, v < num_vertices stuckGraph → Reach stuckGraph 0 v) ∧
    ∀ fuel, connected_components stuckGraph 0 (emptyMap 3) fuel = none :=
  ⟨by decide, stuckGraph_acyclic, stuckGraph_reach, stuckGraph_never_returns⟩

/-- C4: the relation computed by `connected_components` on an all-false map is
transitive. -/
theorem connected_components_transitive (g : Graph) (r : Vertex) (fuel : Nat)
    (m : ComponentsMap) (hg : g.wf) (hr : r < num_vertices g)
    (h : connected_components g r (emptyMap (num_vertices g)) fuel = some m)
    (a b c : Vertex) (hab : cget m a b = true) (hbc : cget m b c = true) :
    cget m a c = true := by
  rw [connected_components_spec hg hr h] at hab hbc ⊢
  exact ⟨hab.1, hab.2.trans hbc.2⟩

/-- Witness for C4: on `chainGraph` the traversal finishes, `0` reaches `1`,
`1` reaches `3`, and the map also holds `0` reaches `3`. -/
theorem connected_components_transitive_witness :
    connected_components chainGraph 0 (emptyMap 5) 20 =
      some [[false, true, true, true, false], [false, false, true, true, false],
        [false, false, false, true, false], [false, false, false, false, false],
        [false, false, false, false, false]] ∧
    cget [[false, true, true, true, false], [false, false, true, true, false],
        [false, false, false, true, false], [false, false, false, false, false],
        [false, false, false, false, false]] 0 3 = true :=
  ⟨by decide,
    connected_components_transitive chainGraph 0 20 _ (by decide) (by decide) (by decide)
      0 1 3 (by decide) (by decide)⟩

/-! ## Lemmas on the statistics containers -/

theorem mfind_shapeM (m : AddrMap) (a : Addr) :
    mfind (shapeM m) a = (mfind m a).map eraseFlag := by
  induction m with
  | nil => rfl
  | cons e m ih =>
    obtain ⟨k, r⟩ := e
    simp only [shapeM, List.map_cons, mfind] at ih ⊢
    split
    · rfl
    · exact ih

theorem shapeM_msetShared (m : AddrMap) (a : Addr) (b : Bool) :
    shapeM (msetShared m a b) = shapeM m := by
  induction m with
  | nil => rfl
  | cons e m ih =>
    obtain ⟨k, r⟩ := e
    simp only [msetShared]
    split
    · simp [shapeM, eraseFlag]
    · simp only [shapeM, List.map_cons] at ih ⊢
      rw [ih]

theorem mfind_msetShared (m : AddrMap) (a : Addr) (b : Bool) (a' : Addr) :
    mfind (msetShared m a b) a' =
      if a' = a then (mfind m a).map (fun r => { r with is_shared := b }) else mfind m a' := by
  induction m with
  | nil => simp [msetShared, mfind]
  | cons e m ih =>
    obtain ⟨k, r⟩ := e
    simp only [msetShared]
    by_cases hk : k = a
    · subst hk
      simp only [if_true, mfind]
      by_cases ha : a' = k
      · subst ha; simp
      · have : ¬ k = a' := fun h => ha h.symm
        simp [ha, this]
    · simp only [hk, if_false, mfind]
      by_cases hka : k = a'
      · subst hka
        have : ¬ k = a := hk
        simp [this]
      · simp only [hka, if_false]
        exact ih

theorem msetShared_same (m : AddrMap) (a : Addr) (r : AddrAccessStats)
    (h : mfind m a = some r) : msetShared m a r.is_shared = m := by
  induction m with
  | nil => rfl
  | cons e m ih =>
    obtain ⟨k, r'⟩ := e
    simp only [mfind] at h
    simp only [msetShared]
    split
    · rename_i hk
      rw [if_pos hk] at h
      cases h
      rfl
    · rename_i hk
      rw [if_neg hk] at h
      rw [ih h]

theorem getD_list_set {α : Type} (l : List α) (i j : Nat) (x d : α) :
    (l.set i x).getD j d = if j = i ∧ i < l.length then x else l.getD j d := by
  simp only [List.getD_eq_getElem?_getD, List.getElem?_set]
  by_cases h : i = j
  · subst h
    by_cases hi : i < l.length
    · simp [hi]
    · simp [hi]
      simp [List.getElem?_eq_none (Nat.le_of_not_lt hi)]
  · have h' : ¬ j = i := fun e => h e.symm
    simp [h, h']

theorem getD_nil_of_le {α : Type} (l : List (List α)) (i : Nat) (h : l.length ≤ i) :
    l.getD i [] = [] := by
  rw [List.getD_eq_getElem?_getD, List.getElem?_eq_none h]; rfl

theorem getD_setShared (ms : MemStats) (v : Vertex) (a : Addr) (b : Bool) (w : Vertex) :
    (setShared ms v a b).getD w [] =
      if w = v then msetShared (ms.getD v []) a b else ms.getD w [] := by
  unfold setShared
  rw [getD_list_set]
  by_cases hw : w = v
  · subst hw
    by_cases hl : w < ms.length
    · simp [hl]
    · simp only [hl, and_false, if_false, if_true]
      rw [getD_nil_of_le ms w (Nat.le_of_not_lt hl)]; rfl
  · simp [hw]

theorem length_setShared (ms : MemStats) (v : Vertex) (a : Addr) (b : Bool) :
    (setShared ms v a b).length = ms.length := by
  simp [setShared]

theorem getD_shape (ms : MemStats) (v : Vertex) :
    (shape ms).getD v [] = shapeM (ms.getD v []) := by
  unfold shape
  simp only [List.getD_eq_getElem?_getD, List.getElem?_map]
  cases ms[v]? <;> rfl

theorem shape_ext (ms ms' : MemStats) (hl : ms.length = ms'.length)
    (h : ∀ v, shapeM (ms.getD v []) = shapeM (ms'.getD v [])) : shape ms = shape ms' := by
  apply List.ext_getElem
  · simp [shape, hl]
  · intro i h1 h2
    have h1' : i < ms.length := by simpa [shape] using h1
    have h2' : i < ms'.length := by simpa [shape] using h2
    have := h i
    simp only [List.getD_eq_getElem?_getD, List.getElem?_eq_getElem h1',
      List.getElem?_eq_getElem h2', Option.getD_some] at this
    simp only [shape, List.getElem_map]
    exact this

theorem shape_setShared (ms : MemStats) (v : Vertex) (a : Addr) (b : Bool) :
    shape (setShared ms v a b) = shape ms := by
  apply shape_ext _ _ (length_setShared ms v a b)
  intro w
  rw [getD_setShared]
  split
  · rename_i h; subst h; exact shapeM_msetShared _ _ _
  · rfl

theorem shape_length (ms ms' : MemStats) (h : shape ms = shape ms') : ms.length = ms'.length := by
  have := congrArg List.length h
  simpa [shape] using this

theorem shape_getD {ms ms' : MemStats} (h : shape ms = shape ms') (v : Vertex) :
    shapeM (ms.getD v []) = shapeM (ms'.getD v []) := by
  rw [← getD_shape, ← getD_shape, h]

theorem mfind_of_shapeM {m m' : AddrMap} (h : shapeM m = shapeM m') (a : Addr) :
    (mfind m a).map eraseFlag = (mfind m' a).map eraseFlag := by
  rw [← mfind_shapeM, ← mfind_shapeM, h]

theorem firstTid_shapeM (m : AddrMap) (d : Tid) : firstTid (shapeM m) d = firstTid m d := by
  cases m <;> rfl

theorem firstTid_of_shapeM {m m' : AddrMap} (h : shapeM m = shapeM m') (d : Tid) :
    firstTid m d = firstTid m' d := by
  rw [← firstTid_shapeM m, ← firstTid_shapeM m', h]

theorem keys_shapeM (m : AddrMap) : (shapeM m).map Prod.fst = m.map Prod.fst := by
  simp [shapeM, Function.comp_def]

theorem keys_of_shapeM {m m' : AddrMap} (h : shapeM m = shapeM m') :
    m.map Prod.fst = m'.map Prod.fst := by
  rw [← keys_shapeM m, ← keys_shapeM m', h]

theorem mfind_some_of_shapeM {m m' : AddrMap} (h : shapeM m = shapeM m') {a : Addr}
    {r : AddrAccessStats} (hr : mfind m a = some r) :
    ∃ r', mfind m' a = some r' ∧ eraseFlag r' = eraseFlag r := by
  have := mfind_of_shapeM h a
  rw [hr] at this
  cases h' : mfind m' a with
  | none => rw [h'] at this; cases this
  | some r' =>
    rw [h'] at this
    simp only [Option.map_some'] at this
    exact ⟨r', rfl, (Option.some.inj this).symm⟩

theorem eraseFlag_fields {r r' : AddrAccessStats} (h : eraseFlag r' = eraseFlag r) :
    r'.bb_id = r.bb_id ∧ r'.thread_id = r.thread_id ∧ r'.is_ifetch = r.is_ifetch := by
  have h1 := congrArg AddrAccessStats.bb_id h
  have h2 := congrArg AddrAccessStats.thread_id h
  have h3 := congrArg AddrAccessStats.is_ifetch h
  exact ⟨h1, h2, h3⟩

theorem cand_eq_shape (ms : MemStats) (tid : Tid) (f : Bool) (a : Addr) (p : Vertex) :
    cand (shape ms) tid f a p = cand ms tid f a p := by
  unfold cand
  rw [getD_shape]
  cases hm : ms.getD p [] with
  | nil => rfl
  | cons e m =>
    have h1 : shapeM (e :: m) = (e.1, eraseFlag e.2) :: shapeM m := rfl
    rw [h1]
    simp only
    rw [← h1, mfind_shapeM]
    simp [eraseFlag]

theorem cand_of_shape {ms ms' : MemStats} (h : shape ms = shape ms') (tid : Tid) (f : Bool)
    (a : Addr) (p : Vertex) : cand ms tid f a p = cand ms' tid f a p := by
  rw [← cand_eq_shape ms, ← cand_eq_shape ms', h]

theorem guessCheck_eq_cand (ms : MemStats) (gv : Vertex) (tid : Tid) (f : Bool) (a : Addr) :
    guessCheck ms gv tid f a = cand ms tid f a gv := by
  unfold guessCheck cand
  cases ms.getD gv [] with
  | nil => rfl
  | cons e m =>
    simp only
    cases (!(!f && decide (tid = e.2.thread_id))) <;> simp

theorem scanParallel_some {ms : MemStats} {tid : Tid} {f : Bool} {a : Addr} {p : Vertex} :
    ∀ {par : List Vertex}, scanParallel ms tid f a par = some p →
      p ∈ par ∧ cand ms tid f a p = true := by
  intro par
  induction par with
  | nil => intro h; cases h
  | cons q ps ih =>
    intro h
    unfold scanParallel at h
    cases hq : ms.getD q [] with
    | nil =>
      rw [hq] at h
      have := ih h
      exact ⟨List.mem_cons_of_mem _ this.1, this.2⟩
    | cons e m =>
      rw [hq] at h
      simp only at h
      split at h
      · have := ih h
        exact ⟨List.mem_cons_of_mem _ this.1, this.2⟩
      · rename_i h1
        split at h
        · rename_i h2
          cases h
          refine ⟨List.mem_cons_self _ _, ?_⟩
          unfold cand
          rw [hq]
          simp only [Bool.and_eq_true, Bool.not_eq_true']
          exact ⟨by simpa using h1, h2⟩
        · have := ih h
          exact ⟨List.mem_cons_of_mem _ this.1, this.2⟩

theorem scanParallel_none_iff {ms : MemStats} {tid : Tid} {f : Bool} {a : Addr} :
    ∀ {par : List Vertex}, scanParallel ms tid f a par = none ↔
      ∀ p ∈ par, cand ms tid f a p = false := by
  intro par
  induction par with
  | nil => simp [scanParallel]
  | cons q ps ih =>
    unfold scanParallel
    cases hq : ms.getD q [] with
    | nil =>
      simp only [List.mem_cons, forall_eq_or_imp]
      rw [ih]
      have : cand ms tid f a q = false := by unfold cand; rw [hq]
      simp [this]
    | cons e m =>
      simp only [List.mem_cons, forall_eq_or_imp]
      have hc : cand ms tid f a q =
          (!(!f && decide (tid = e.2.thread_id)) && (mfind (e :: m) a).isSome) := by
        unfold cand; rw [hq]
      split
      · rename_i h1
        rw [ih, hc, h1]
        simp
      · rename_i h1
        have h1' : (!f && decide (tid = e.2.thread_id)) = false := by simpa using h1
        split
        · rename_i h2
          rw [hc, h1', h2]
          simp
        · rename_i h2
          have h2' : (mfind (e :: m) a).isSome = false := by simpa using h2
          rw [ih, hc, h1', h2']
          simp

theorem cand_holds {ms : MemStats} {tid : Tid} {f : Bool} {a : Addr} {p : Vertex}
    (h : cand ms tid f a p = true) :
    (mfind (ms.getD p []) a).isSome = true ∧
      (f = true ∨ tid ≠ firstTid (ms.getD p []) 0) := by
  unfold cand at h
  cases hp : ms.getD p [] with
  | nil => rw [hp] at h; cases h
  | cons e m =>
    rw [hp] at h
    simp only [Bool.and_eq_true, Bool.not_eq_true', Bool.and_eq_false_imp,
      decide_eq_false_iff_not] at h
    refine ⟨h.2, ?_⟩
    cases f
    · right; exact h.1 rfl
    · left; rfl

theorem cand_intro {ms : MemStats} {tid : Tid} {f : Bool} {a : Addr} {p : Vertex}
    (h1 : (mfind (ms.getD p []) a).isSome = true)
    (h2 : f = true ∨ tid ≠ firstTid (ms.getD p []) 0) : cand ms tid f a p = true := by
  unfold cand
  cases hp : ms.getD p [] with
  | nil => rw [hp] at h1; cases h1
  | cons e m =>
    rw [hp] at h1 h2
    simp only [Bool.and_eq_true, Bool.not_eq_true', Bool.and_eq_false_imp,
      decide_eq_false_iff_not]
    refine ⟨?_, h1⟩
    intro hf
    rcases h2 with h2 | h2
    · rw [h2] at hf; cases hf
    · exact h2

theorem flag_setShared (ms : MemStats) (v : Vertex) (a : Addr) (b : Bool) (w : Vertex)
    (a' : Addr) :
    flag (setShared ms v a b) w a' =
      if w = v ∧ a' = a ∧ (mfind (ms.getD v []) a).isSome = true then b else flag ms w a' := by
  unfold flag
  rw [getD_setShared]
  by_cases hw : w = v
  · subst hw
    simp only [if_true, true_and]
    rw [mfind_msetShared]
    by_cases ha : a' = a
    · subst ha
      simp only [if_true, true_and]
      cases mfind (ms.getD w []) a' <;> simp
    · simp [ha]
  · simp [hw]

/-! ## Soundness and completeness of the classifier loops -/

theorem mono_refl (ms : MemStats) : Mono ms ms := fun _ _ h => h

theorem mono_trans {a b c : MemStats} (h1 : Mono a b) (h2 : Mono b c) : Mono a c :=
  fun v x h => h2 v x (h1 v x h)

theorem firstTid_of_mfind {m : AddrMap} {a : Addr} {r : AddrAccessStats}
    (h : mfind m a = some r) (d d' : Tid) : firstTid m d = firstTid m d' := by
  cases m with
  | nil => cases h
  | cons e m => rfl

theorem mfind_mem_keys {m : AddrMap} {a : Addr} {r : AddrAccessStats}
    (h : mfind m a = some r) : a ∈ m.map Prod.fst := by
  induction m with
  | nil => cases h
  | cons e m ih =>
    obtain ⟨k, r'⟩ := e
    simp only [mfind] at h
    split at h
    · rename_i hk; subst hk; simp
    · simp only [List.map_cons, List.mem_cons]; right; exact ih h

theorem mfind_of_mem_keys {m : AddrMap} {a : Addr} (h : a ∈ m.map Prod.fst) :
    ∃ r, mfind m a = some r := by
  induction m with
  | nil => cases h
  | cons e m ih =>
    obtain ⟨k, r'⟩ := e
    simp only [mfind]
    by_cases hk : k = a
    · exact ⟨r', by simp [hk]⟩
    · simp only [List.map_cons, List.mem_cons] at h
      rcases h with h | h
      · exact absurd h.symm hk
      · simpa [hk] using ih h

theorem flag_of_mfind {ms : MemStats} {v : Vertex} {a : Addr} {r : AddrAccessStats}
    (h : mfind (ms.getD v []) a = some r) : flag ms v a = r.is_shared := by
  unfold flag; rw [h]

theorem classifyRecord_spec {n : Nat} {c : ComponentsMap} {ms0 ms ms' : MemStats}
    {u : Vertex} {tid d : Tid} {par : List Vertex} {gv gv' : Vertex} {a : Addr}
    (hs : Sound n c ms0 ms) (hpar : par = parallel_vertices n c u)
    (htid : tid = firstTid (ms0.getD u []) d) (hg : gv ∈ par)
    (h : classifyRecord u tid par (ms, gv) a = some (ms', gv')) :
    Sound n c ms0 ms' ∧ Mono ms ms' ∧ gv' ∈ par ∧
    ∃ r0, mfind (ms0.getD u []) a = some r0 ∧ toVertex r0.bb_id = u ∧
      r0.thread_id = vtid ms0 u ∧
      (ownHit n c ms0 u a = true → flag ms' u a = true) := by
  unfold classifyRecord at h
  simp only at h
  cases hr : mfind (ms.getD u []) a with
  | none => rw [hr] at h; cases h
  | some r =>
    rw [hr] at h
    simp only at h
    obtain ⟨r0, hr0, her⟩ := mfind_some_of_shapeM (shape_getD hs.1 u) hr
    obtain ⟨f1, f2, f3⟩ := eraseFlag_fields her
    have htid' : tid = vtid ms0 u := by
      rw [htid]; exact firstTid_of_mfind hr0 _ _
    have hown : ownHit n c ms0 u a = (par.any (cand ms0 tid r.is_ifetch a)) := by
      unfold ownHit; rw [hr0]
      show (parallel_vertices n c u).any (cand ms0 (vtid ms0 u) r0.is_ifetch a) = _
      rw [f3, hpar, htid']
    have hcand : ∀ p, cand ms tid r.is_ifetch a p = cand ms0 tid r.is_ifetch a p :=
      fun p => cand_of_shape hs.1 _ _ _ _
    split at h
    · cases h
    rename_i hbb
    split at h
    · cases h
    rename_i hth
    have hbb' : toVertex r0.bb_id = u := by rw [f1]; exact not_not.1 hbb
    have hth' : r0.thread_id = vtid ms0 u := by rw [f2, ← htid']; exact not_not.1 hth
    split at h
    · rename_i hsh
      cases h
      refine ⟨hs, mono_refl _, hg, r0, hr0, hbb', hth', fun _ => ?_⟩
      rw [flag_of_mfind hr]; exact hsh
    rename_i hsh
    have hfl : flag ms u a = false := by rw [flag_of_mfind hr]; simpa using hsh
    split at h
    · rename_i hgc
      cases h
      rw [guessCheck_eq_cand, hcand] at hgc
      have hown' : ownHit n c ms0 u a = true := by
        rw [hown, List.any_eq_true]; exact ⟨gv, hg, hgc⟩
      refine ⟨⟨by rw [shape_setShared]; exact hs.1, ?_⟩, ?_, hg, r0, hr0, hbb', hth', ?_⟩
      · intro v x hvx
        rw [flag_setShared] at hvx
        split at hvx
        · rename_i hc
          obtain ⟨rfl, rfl, _⟩ := hc
          exact Or.inr (Or.inl hown')
        · exact hs.2 v x hvx
      · intro v x hvx
        rw [flag_setShared]
        split
        · rfl
        · exact hvx
      · intro _
        rw [flag_setShared, if_pos ⟨rfl, rfl, by rw [hr]; rfl⟩]
    rename_i hgc
    cases hsc : scanParallel ms tid r.is_ifetch a par with
    | some p =>
      rw [hsc] at h
      cases h
      obtain ⟨hp, hpc⟩ := scanParallel_some hsc
      rw [hcand] at hpc
      have hown' : ownHit n c ms0 u a = true := by
        rw [hown, List.any_eq_true]; exact ⟨gv', hp, hpc⟩
      have hoth : otherHit n c ms0 gv' a := by
        refine ⟨u, r0, by rw [← hpar]; exact hp, hr0, ?_⟩
        rw [← htid', f3]; exact hpc
      refine ⟨⟨by rw [shape_setShared, shape_setShared]; exact hs.1, ?_⟩, ?_, hp, r0, hr0,
        hbb', hth', ?_⟩
      · intro v x hvx
        rw [flag_setShared] at hvx
        split at hvx
        · rename_i hc
          obtain ⟨rfl, rfl, _⟩ := hc
          exact Or.inr (Or.inl hown')
        · rw [flag_setShared] at hvx
          split at hvx
          · rename_i hc
            obtain ⟨rfl, rfl, _⟩ := hc
            exact Or.inr (Or.inr hoth)
          · exact hs.2 v x hvx
      · intro v x hvx
        rw [flag_setShared]
        split
        · rfl
        · rw [flag_setShared]
          split
          · rfl
          · exact hvx
      · intro _
        rw [flag_setShared, if_pos]
        refine ⟨rfl, rfl, ?_⟩
        have hsh2 := shape_getD (shape_setShared ms gv' a true) u
        have := mfind_of_shapeM hsh2 a
        rw [hr] at this
        cases hm : mfind ((setShared ms gv' a true).getD u []) a with
        | none => rw [hm] at this; cases this
        | some _ => rfl
    | none =>
      rw [hsc] at h
      cases h
      have hnone := scanParallel_none_iff.1 hsc
      have hsame : ∀ v x, flag (setShared ms u a false) v x = flag ms v x := by
        intro v x
        rw [flag_setShared]
        split
        · rename_i hc
          obtain ⟨rfl, rfl, _⟩ := hc
          exact hfl.symm
        · rfl
      refine ⟨⟨by rw [shape_setShared]; exact hs.1, ?_⟩, ?_, hg, r0, hr0, hbb', hth', ?_⟩
      · intro v x hvx
        rw [hsame] at hvx
        exact hs.2 v x hvx
      · intro v x hvx
        rw [hsame]; exact hvx
      · intro ho
        rw [hown, List.any_eq_true] at ho
        obtain ⟨p, hp, hpc⟩ := ho
        rw [← hcand, hnone p hp] at hpc
        cases hpc

theorem RecordOK.mono {n : Nat} {c : ComponentsMap} {ms0 ms1 ms2 : MemStats} {u : Vertex}
    {a : Addr} (h : RecordOK n c ms0 ms1 u a) (hm : Mono ms1 ms2) : RecordOK n c ms0 ms2 u a := by
  obtain ⟨r0, h1, h2, h3, h4⟩ := h
  exact ⟨r0, h1, h2, h3, fun ho => hm _ _ (h4 ho)⟩

theorem classifyRecords_spec {n : Nat} {c : ComponentsMap} {ms0 : MemStats}
    {u : Vertex} {tid d : Tid} {par : List Vertex}
    (hpar : par = parallel_vertices n c u) (htid : tid = firstTid (ms0.getD u []) d) :
    ∀ (as : List Addr) (ms ms' : MemStats) (gv gv' : Vertex), Sound n c ms0 ms → gv ∈ par →
      classifyRecords u tid par as (ms, gv) = some (ms', gv') →
      Sound n c ms0 ms' ∧ Mono ms ms' ∧ ∀ a ∈ as, RecordOK n c ms0 ms' u a := by
  intro as
  induction as with
  | nil =>
    intro ms ms' gv gv' hs _ h
    simp only [classifyRecords, Option.some.injEq, Prod.mk.injEq] at h
    obtain ⟨rfl, rfl⟩ := h
    exact ⟨hs, mono_refl _, fun a ha => by cases ha⟩
  | cons a as ih =>
    intro ms ms' gv gv' hs hg h
    unfold classifyRecords at h
    cases h1 : classifyRecord u tid par (ms, gv) a with
    | none => rw [h1] at h; cases h
    | some st1 =>
      obtain ⟨ms1, gv1⟩ := st1
      rw [h1] at h
      simp only at h
      obtain ⟨s1, m1, g1, ok1⟩ := classifyRecord_spec hs hpar htid hg h1
      obtain ⟨s2, m2, ok2⟩ := ih ms1 ms' gv1 gv' s1 g1 h
      refine ⟨s2, mono_trans m1 m2, ?_⟩
      intro x hx
      rcases List.mem_cons.1 hx with rfl | hx
      · exact RecordOK.mono ok1 m2
      · exact ok2 x hx

theorem classifyVertex_spec {n : Nat} {c : ComponentsMap} {ms0 ms ms' : MemStats}
    {u : Vertex} {t t' : Tid} (hs : Sound n c ms0 ms)
    (h : classifyVertex n c (ms, t) u = some (ms', t')) :
    Sound n c ms0 ms' ∧ Mono ms ms' ∧
    (parallel_vertices n c u ≠ [] →
      ∀ a r, mfind (ms0.getD u []) a = some r → RecordOK n c ms0 ms' u a) := by
  unfold classifyVertex at h
  simp only at h
  cases hp : parallel_vertices n c u with
  | nil =>
    rw [hp] at h
    simp only [Option.some.injEq, Prod.mk.injEq] at h
    obtain ⟨rfl, _⟩ := h
    exact ⟨hs, mono_refl _, fun hne => absurd rfl hne⟩
  | cons g0 ps =>
    rw [hp] at h
    simp only at h
    cases hr : classifyRecords u (firstTid (ms.getD u []) t) (g0 :: ps)
        ((ms.getD u []).map Prod.fst) (ms, g0) with
    | none => rw [hr] at h; cases h
    | some st1 =>
      obtain ⟨ms1, gv1⟩ := st1
      rw [hr] at h
      simp only [Option.some.injEq, Prod.mk.injEq] at h
      obtain ⟨rfl, _⟩ := h
      have hsh := shape_getD hs.1 u
      have htid : firstTid (ms.getD u []) t = firstTid (ms0.getD u []) t :=
        firstTid_of_shapeM hsh t
      obtain ⟨s1, m1, ok⟩ := classifyRecords_spec (hp.symm) htid _ ms ms1 g0 gv1 hs
        (List.mem_cons_self _ _) hr
      refine ⟨s1, m1, fun _ a r har => ok a ?_⟩
      rw [keys_of_shapeM hsh]
      exact mfind_mem_keys har

theorem classifyAll_spec {n : Nat} {c : ComponentsMap} {ms0 : MemStats} :
    ∀ (us : List Vertex) (ms ms' : MemStats) (t t' : Tid), Sound n c ms0 ms →
      classifyAll n c us (ms, t) = some (ms', t') →
      Sound n c ms0 ms' ∧ Mono ms ms' ∧
      ∀ u ∈ us, parallel_vertices n c u ≠ [] →
        ∀ a r, mfind (ms0.getD u []) a = some r → RecordOK n c ms0 ms' u a := by
  intro us
  induction us with
  | nil =>
    intro ms ms' t t' hs h
    simp only [classifyAll, Option.some.injEq, Prod.mk.injEq] at h
    obtain ⟨rfl, _⟩ := h
    exact ⟨hs, mono_refl _, fun u hu => by cases hu⟩
  | cons u us ih =>
    intro ms ms' t t' hs h
    unfold classifyAll at h
    cases h1 : classifyVertex n c (ms, t) u with
    | none => rw [h1] at h; cases h
    | some st1 =>
      obtain ⟨ms1, t1⟩ := st1
      rw [h1] at h
      simp only at h
      obtain ⟨s1, m1, ok1⟩ := classifyVertex_spec hs h1
      obtain ⟨s2, m2, ok2⟩ := ih ms1 ms' t1 t' s1 h
      refine ⟨s2, mono_trans m1 m2, ?_⟩
      intro x hx hne a r har
      rcases List.mem_cons.1 hx with rfl | hx
      · exact RecordOK.mono (ok1 hne a r har) m2
      · exact ok2 x hx hne a r har

theorem sound_refl (n : Nat) (c : ComponentsMap) (ms : MemStats) : Sound n c ms ms :=
  ⟨rfl, fun _ _ h => Or.inl h⟩

/-- Summary of a successful run of the classification loops. -/
theorem classify_spec {n : Nat} {c : ComponentsMap} {ms ms' : MemStats}
    (h : classify n c ms = some ms') :
    Sound n c ms ms' ∧ Mono ms ms' ∧
    ∀ u, u < ms.length → parallel_vertices n c u ≠ [] →
      ∀ a r, mfind (ms.getD u []) a = some r → RecordOK n c ms ms' u a := by
  unfold classify at h
  cases hc : classifyAll n c (List.range ms.length) (ms, 0) with
  | none => rw [hc] at h; cases h
  | some st =>
    obtain ⟨ms1, t1⟩ := st
    rw [hc] at h
    simp only [Option.map_some', Option.some.injEq] at h
    subst h
    obtain ⟨s1, m1, ok⟩ := classifyAll_spec _ ms ms1 0 t1 (sound_refl n c ms) hc
    exact ⟨s1, m1, fun u hu => ok u (List.mem_range.2 hu)⟩

/-! ## From the components map to the graph -/

theorem Parallel.symm {g : Graph} {u v : Vertex} (h : Parallel g u v) : Parallel g v u :=
  ⟨fun e => h.1 e.symm, h.2.2, h.2.1⟩

theorem mem_parallel_vertices {n : Nat} {c : ComponentsMap} {u v : Vertex} :
    v ∈ parallel_vertices n c u ↔
      v < n ∧ u ≠ v ∧ cget c u v = false ∧ cget c v u = false := by
  simp [parallel_vertices, List.mem_filter, List.mem_range, and_assoc]

theorem mem_parallel_iff {g : Graph} {c : ComponentsMap}
    (hc : ∀ u v, cget c u v = true ↔ Path g u v) {n : Nat} {u v : Vertex} :
    v ∈ parallel_vertices n c u ↔ v < n ∧ Parallel g u v := by
  rw [mem_parallel_vertices]
  unfold Parallel
  rw [← hc u v, ← hc v u]
  simp

theorem checkComponents_iff {n : Nat} {c : ComponentsMap} {r e : Vertex} :
    checkComponents n c r e = true ↔
      ∀ u, u < n → (u ≠ r → cget c r u = true) ∧ (u ≠ e → cget c u e = true) := by
  simp only [checkComponents, List.all_eq_true, List.mem_range, Bool.and_eq_true,
    Bool.or_eq_true, decide_eq_true_eq]
  constructor
  · intro h u hu
    exact ⟨fun hne => (h u hu).1.resolve_left hne, fun hne => (h u hu).2.resolve_left hne⟩
  · intro h u hu
    refine ⟨?_, ?_⟩
    · by_cases hr : u = r
      · exact Or.inl hr
      · exact Or.inr ((h u hu).1 hr)
    · by_cases he : u = e
      · exact Or.inl he
      · exact Or.inr ((h u hu).2 he)

/-- What a successful call of `analyze_shared_access` went through. -/
theorem analyze_unfold {ms ms' : MemStats} {g : Graph} {r e : Vertex} {fuel : Nat}
    (hg : g.wf) (h : analyze_shared_access ms g r e fuel = some ms') :
    num_vertices g = ms.length ∧ r < num_vertices g ∧
    ∃ c, connected_components g r (emptyMap (num_vertices g)) fuel = some c ∧
      checkComponents (num_vertices g) c r e = true ∧
      (∀ u v, cget c u v = true ↔ Path g u v) ∧
      classify (num_vertices g) c ms = some ms' := by
  unfold analyze_shared_access at h
  split at h
  · cases h
  rename_i hn
  split at h
  · cases h
  rename_i hr
  have hn' : num_vertices g = ms.length := not_not.1 hn
  have hr' : r < num_vertices g := not_not.1 hr
  cases hc : connected_components g r (emptyMap (num_vertices g)) fuel with
  | none => rw [hc] at h; cases h
  | some c =>
    rw [hc] at h
    simp only at h
    split at h
    · rename_i hck
      refine ⟨hn', hr', c, rfl, hck, ?_, h⟩
      have hall : ∀ v, v < num_vertices g → Reach g r v := by
        intro v hv
        by_cases hvr : v = r
        · subst hvr; exact Relation.ReflTransGen.refl
        · have := ((checkComponents_iff.1 hck) v hv).1 hvr
          exact ((connected_components_spec hg hr' hc r v).1 this).2.to_reflTransGen
      exact components_eq_path hg hr' hall hc
    · cases h

theorem ownHit_iff {g : Graph} {c : ComponentsMap}
    (hc : ∀ u v, cget c u v = true ↔ Path g u v) (ms : MemStats) (u : Vertex) (a : Addr) :
    ownHit (num_vertices g) c ms u a = true ↔ OwnG g ms u a := by
  unfold ownHit OwnG
  cases hr : mfind (ms.getD u []) a with
  | none => simp
  | some r =>
    simp only [List.any_eq_true]
    constructor
    · rintro ⟨p, hp, hcand⟩
      have := (mem_parallel_iff hc).1 hp
      exact ⟨r, p, rfl, this.1, this.2, hcand⟩
    · rintro ⟨r', p, hr', hp, hpar, hcand⟩
      cases hr'
      exact ⟨p, (mem_parallel_iff hc).2 ⟨hp, hpar⟩, hcand⟩

theorem otherHit_imp {g : Graph} {c : ComponentsMap}
    (hc : ∀ u v, cget c u v = true ↔ Path g u v) {ms : MemStats} {v : Vertex} {a : Addr}
    (h : otherHit (num_vertices g) c ms v a) : OtherG g ms v a := by
  obtain ⟨u, r, hp, hr, hcand⟩ := h
  exact ⟨u, r, ((mem_parallel_iff hc).1 hp).2, hr, hcand⟩

theorem getD_ne_nil_lt {α : Type} {l : List (List α)} {i : Nat} (h : l.getD i [] ≠ []) :
    i < l.length := by
  by_contra hc
  exact h (getD_nil_of_le l i (Nat.le_of_not_lt hc))

theorem mfind_some_lt {ms : MemStats} {u : Vertex} {a : Addr} {r : AddrAccessStats}
    (h : mfind (ms.getD u []) a = some r) : u < ms.length := by
  apply getD_ne_nil_lt
  intro hnil
  rw [hnil] at h
  cases h

/-- Graph-level summary of a successful call of `analyze_shared_access`. -/
theorem analyze_summary {ms ms' : MemStats} {g : Graph} {r e : Vertex} {fuel : Nat}
    (hg : g.wf) (h : analyze_shared_access ms g r e fuel = some ms') :
    shape ms' = shape ms ∧ Mono ms ms' ∧
    (∀ v a, flag ms' v a = true → flag ms v a = true ∨ OwnG g ms v a ∨ OtherG g ms v a) ∧
    (∀ u a, OwnG g ms u a → flag ms' u a = true) ∧
    (∀ u a r p, mfind (ms.getD u []) a = some r → p < num_vertices g → Parallel g u p →
      toVertex r.bb_id = u ∧ r.thread_id = vtid ms u) := by
  obtain ⟨hn, hr, c, hcc, hck, hc, hcl⟩ := analyze_unfold hg h
  obtain ⟨hs, hm, hok⟩ := classify_spec hcl
  refine ⟨hs.1, hm, ?_, ?_, ?_⟩
  · intro v a hv
    rcases hs.2 v a hv with h1 | h1 | h1
    · exact Or.inl h1
    · exact Or.inr (Or.inl ((ownHit_iff hc ms v a).1 h1))
    · exact Or.inr (Or.inr (otherHit_imp hc h1))
  · intro u a ho
    obtain ⟨r0, p, hr0, hp, hpar, hcand⟩ := ho
    have hne : parallel_vertices (num_vertices g) c u ≠ [] := by
      intro hnil
      have := (mem_parallel_iff hc).2 ⟨hp, hpar⟩
      rw [hnil] at this; cases this
    obtain ⟨_, _, _, _, h4⟩ := hok u (mfind_some_lt hr0) hne a r0 hr0
    exact h4 ((ownHit_iff hc ms u a).2 ⟨r0, p, hr0, hp, hpar, hcand⟩)
  · intro u a r0 p hr0 hp hpar
    have hne : parallel_vertices (num_vertices g) c u ≠ [] := by
      intro hnil
      have := (mem_parallel_iff hc).2 ⟨hp, hpar⟩
      rw [hnil] at this; cases this
    obtain ⟨r1, h1, h2, h3, _⟩ := hok u (mfind_some_lt hr0) hne a r0 hr0
    rw [hr0] at h1
    cases h1
    exact ⟨h2, h3⟩

theorem sharedFlag_of_shape {ms ms' : MemStats} (hs : shape ms' = shape ms) {u : Vertex}
    {a : Addr} {r : AddrAccessStats} (hr : mfind (ms.getD u []) a = some r) :
    sharedFlag ms' u a = some (flag ms' u a) := by
  obtain ⟨r', hr', _⟩ := mfind_some_of_shapeM (shape_getD hs.symm u) hr
  unfold sharedFlag flag
  rw [hr']; rfl

theorem sharedFlag_some {ms : MemStats} {u : Vertex} {a : Addr} {b : Bool}
    (h : sharedFlag ms u a = some b) : ∃ r, mfind (ms.getD u []) a = some r ∧ r.is_shared = b := by
  unfold sharedFlag at h
  cases hr : mfind (ms.getD u []) a with
  | none => rw [hr] at h; cases h
  | some r =>
    rw [hr] at h
    exact ⟨r, rfl, by simpa using h⟩

/-! ## Results on analyze_shared_access -/

/-- On a concrete graph the parallel relation can be read off the computed map. -/
theorem parallel_iff_of_components {g : Graph} {r : Vertex} {fuel : Nat} {c : ComponentsMap}
    (hg : g.wf) (hr : r < num_vertices g)
    (hcc : connected_components g r (emptyMap (num_vertices g)) fuel = some c)
    (hck : ∀ u, u < num_vertices g → u ≠ r → cget c r u = true) (u v : Vertex) :
    Parallel g u v ↔ (u ≠ v ∧ cget c u v = false ∧ cget c v u = false) := by
  have hall : ∀ v, v < num_vertices g → Reach g r v := by
    intro v hv
    by_cases hvr : v = r
    · subst hvr; exact Relation.ReflTransGen.refl
    · exact ((connected_components_spec hg hr hcc r v).1 (hck v hv hvr)).2.to_reflTransGen
  have hc := components_eq_path hg hr hall hcc
  unfold Parallel
  rw [← hc u v, ← hc v u]
  simp

theorem forkGraph_components :
    connected_components forkGraph 0 (emptyMap (num_vertices forkGraph)) 20 = some forkMap := by
  decide

theorem forkGraph_parallel (u v : Vertex) :
    Parallel forkGraph u v ↔ (u ≠ v ∧ cget forkMap u v = false ∧ cget forkMap v u = false) :=
  parallel_iff_of_components (by decide) (by decide) forkGraph_components (by decide) u v

/-- C6 (amended): after `analyze_shared_access`, for parallel vertices `u`, `v`
that both hold a record for line address `a`, both records end shared provided
the thread ids of the two vertices differ or both records are instruction
fetches. -/
theorem analyze_marks_parallel_sharers (ms ms' : MemStats) (g : Graph) (r e : Vertex)
    (fuel : Nat) (hg : g.wf) (h : analyze_shared_access ms g r e fuel = some ms')
    (u v : Vertex) (a : Addr) (ru rv : AddrAccessStats) (hpar : Parallel g u v)
    (hu : mfind (ms.getD u []) a = some ru) (hv : mfind (ms.getD v []) a = some rv)
    (hcond : vtid ms u ≠ vtid ms v ∨ (ru.is_ifetch = true ∧ rv.is_ifetch = true)) :
    sharedFlag ms' u a = some true ∧ sharedFlag ms' v a = some true := by
  obtain ⟨hs, _, _, hown, _⟩ := analyze_summary hg h
  obtain ⟨hn, _, _⟩ := analyze_unfold hg h
  have key : ∀ x y rx ry, Parallel g x y → mfind (ms.getD x []) a = some rx →
      mfind (ms.getD y []) a = some ry → (rx.is_ifetch = true ∨ vtid ms x ≠ vtid ms y) →
      sharedFlag ms' x a = some true := by
    intro x y rx ry hp hx hy hc
    rw [sharedFlag_of_shape hs hx]
    congr 1
    apply hown
    refine ⟨rx, y, hx, by rw [hn]; exact mfind_some_lt hy, hp, ?_⟩
    exact cand_intro (by rw [hy]; rfl) hc
  refine ⟨key u v ru rv hpar hu hv ?_, key v u rv ru hpar.symm hv hu ?_⟩
  · rcases hcond with h1 | h1
    · exact Or.inr h1
    · exact Or.inl h1.1
  · rcases hcond with h1 | h1
    · exact Or.inr (fun e => h1 e.symm)
    · exact Or.inl h1.2

/-- Witness for C6 (amended): in Scenario C both parallel records end shared. -/
theorem analyze_marks_parallel_sharers_witness :
    analyze_shared_access scenarioC forkGraph 0 3 20 =
      some [[mkRecord 0 1 4096 false], [mkShared 1 1 4096 false], [mkShared 2 2 4096 false], []] ∧
    sharedFlag [[mkRecord 0 1 4096 false], [mkShared 1 1 4096 false],
      [mkShared 2 2 4096 false], []] 1 4096 = some true ∧
    sharedFlag [[mkRecord 0 1 4096 false], [mkShared 1 1 4096 false],
      [mkShared 2 2 4096 false], []] 2 4096 = some true :=
  ⟨by decide,
    analyze_marks_parallel_sharers scenarioC _ forkGraph 0 3 20 (by decide) (by decide) 1 2 4096
      (mkRecord 1 1 4096 false).2 (mkRecord 2 2 4096 false).2
      ((forkGraph_parallel 1 2).2 (by decide)) (by decide) (by decide) (Or.inl (by decide))⟩

/-- C6 (counterexample): vertices 1 and 2 of `forkGraph` are parallel, all
flags are private on entry and both vertices hold a record for line `0x1000`,
yet both records are still private on exit because the two vertices have the
same thread id and the records are data records. -/
theorem analyze_same_thread_data_stays_private :
    Parallel forkGraph 1 2 ∧
    sharedFlag scenarioSameThread 1 4096 = some false ∧
    sharedFlag scenarioSameThread 2 4096 = some false ∧
    analyze_shared_access scenarioSameThread forkGraph 0 3 20 = some scenarioSameThread :=
  ⟨(forkGraph_parallel 1 2).2 (by decide), by decide, by decide, by decide⟩

/-- C7: a record `mem_stats[u][a]` that is private on entry is still private
after `analyze_shared_access` when no vertex parallel to `u` holds a record
for line address `a`. -/
theorem analyze_private_without_parallel_holder (ms ms' : MemStats) (g : Graph)
    (r e : Vertex) (fuel : Nat) (hg : g.wf)
    (h : analyze_shared_access ms g r e fuel = some ms') (u : Vertex) (a : Addr)
    (hpriv : sharedFlag ms u a = some false)
    (hno : ∀ v, v < num_vertices g → Parallel g u v → mfind (ms.getD v []) a = none) :
    sharedFlag ms' u a = some false := by
  obtain ⟨hs, _, hjust, _, _⟩ := analyze_summary hg h
  obtain ⟨hn, _, _⟩ := analyze_unfold hg h
  obtain ⟨ru, hu, hfl⟩ := sharedFlag_some hpriv
  rw [sharedFlag_of_shape hs hu]
  congr 1
  cases hf : flag ms' u a with
  | false => rfl
  | true =>
    exfalso
    rcases hjust u a hf with h1 | h1 | h1
    · rw [flag_of_mfind hu, hfl] at h1; cases h1
    · obtain ⟨_, p, _, hp, hpar, hcand⟩ := h1
      have := (cand_holds hcand).1
      rw [hno p hp hpar] at this
      cases this
    · obtain ⟨w, rw', hpar, hw, _⟩ := h1
      have hwl : w < num_vertices g := by rw [hn]; exact mfind_some_lt hw
      rw [hno w hwl hpar.symm] at hw
      cases hw

/-- Witness for C7: the record of vertex 1 stays private although its
ancestor holds the same line. -/
theorem analyze_private_without_parallel_holder_witness :
    analyze_shared_access scenarioDisjoint forkGraph 0 3 20 = some scenarioDisjoint ∧
    sharedFlag scenarioDisjoint 1 4096 = some false :=
  ⟨by decide,
    analyze_private_without_parallel_holder scenarioDisjoint scenarioDisjoint forkGraph 0 3 20
      (by decide) (by decide) 1 4096 (by decide)
      (by
        intro v hv hp
        have hp' := (forkGraph_parallel 1 v).1 hp
        have hv' : v < 4 := hv
        interval_cases v
        · exact absurd hp' (by decide)
        · exact absurd hp' (by decide)
        · decide
        · exact absurd hp' (by decide))⟩

/-- C9 (amended): a data record `mem_stats[u][a]` that is private on entry is
still private after `analyze_shared_access` when every vertex parallel to `u`
that holds a record for line address `a` has the thread id of `u` and holds it
as a data record. -/
theorem analyze_same_thread_data_private (ms ms' : MemStats) (g : Graph)
    (r e : Vertex) (fuel : Nat) (hg : g.wf)
    (h : analyze_shared_access ms g r e fuel = some ms') (u : Vertex) (a : Addr)
    (ru : AddrAccessStats) (hu : mfind (ms.getD u []) a = some ru)
    (hdata : ru.is_ifetch = false) (hpriv : ru.is_shared = false)
    (hsame : ∀ v rv, v < num_vertices g → Parallel g u v →
      mfind (ms.getD v []) a = some rv → vtid ms v = vtid ms u ∧ rv.is_ifetch = false) :
    sharedFlag ms' u a = some false := by
  obtain ⟨hs, _, hjust, _, _⟩ := analyze_summary hg h
  obtain ⟨hn, _, _⟩ := analyze_unfold hg h
  rw [sharedFlag_of_shape hs hu]
  congr 1
  cases hf : flag ms' u a with
  | false => rfl
  | true =>
    exfalso
    rcases hjust u a hf with h1 | h1 | h1
    · rw [flag_of_mfind hu, hpriv] at h1; cases h1
    · obtain ⟨r1, p, hr1, hp, hpar, hcand⟩ := h1
      rw [hu] at hr1
      cases hr1
      obtain ⟨c1, c2⟩ := cand_holds hcand
      cases hrp : mfind (ms.getD p []) a with
      | none => rw [hrp] at c1; cases c1
      | some rp =>
        have := (hsame p rp hp hpar hrp).1
        rcases c2 with c2 | c2
        · rw [hdata] at c2; cases c2
        · exact c2 this.symm
    · obtain ⟨w, rw', hpar, hw, hcand⟩ := h1
      have hwl : w < num_vertices g := by rw [hn]; exact mfind_some_lt hw
      obtain ⟨s1, s2⟩ := hsame w rw' hwl hpar.symm hw
      obtain ⟨_, c2⟩ := cand_holds hcand
      rcases c2 with c2 | c2
      · rw [s2] at c2; cases c2
      · exact c2 s1

/-- Statistics on `forkGraph` in which the parallel vertices 1 and 2 run on
the same thread and both hold a data record for line `0x1000`. -/
theorem analyze_same_thread_data_private_witness :
    analyze_shared_access scenarioSameThread forkGraph 0 3 20 = some scenarioSameThread ∧
    sharedFlag scenarioSameThread 1 4096 = some false :=
  ⟨by decide,
    analyze_same_thread_data_private scenarioSameThread scenarioSameThread forkGraph 0 3 20
      (by decide) (by decide) 1 4096 (mkRecord 1 1 4096 false).2 (by decide) (by decide)
      (by decide)
      (by
        intro v rv hv hp hrv
        have hp' := (forkGraph_parallel 1 v).1 hp
        have hv' : v < 4 := hv
        interval_cases v
        · exact absurd hp' (by decide)
        · exact absurd hp' (by decide)
        · have : rv = (mkRecord 2 1 4096 false).2 := by
            have h2 : mfind (scenarioSameThread.getD 2 []) 4096 =
                some (mkRecord 2 1 4096 false).2 := by decide
            rw [h2] at hrv
            exact (Option.some.inj hrv).symm
          subst this
          decide
        · exact absurd hp' (by decide))⟩

theorem fanGraph_components :
    connected_components fanGraph 0 (emptyMap (num_vertices fanGraph)) 30 = some fanMap := by
  decide

theorem fanGraph_parallel (u v : Vertex) :
    Parallel fanGraph u v ↔ (u ≠ v ∧ cget fanMap u v = false ∧ cget fanMap v u = false) :=
  parallel_iff_of_components (by decide) (by decide) fanGraph_components (by decide) u v

/-- C9 (counterexample): the data record of vertex 2 is private on entry and
every vertex parallel to 2 that holds line `0x1000` (only vertex 3) has the
thread id of vertex 2; the record nevertheless ends shared, because the scan
for the instruction record of vertex 3 hits vertex 2 and marks the matched
record. -/
theorem analyze_same_thread_data_marked :
    mfind (scenarioMixed.getD 2 []) 4096 = some (mkRecord 2 7 4096 false).2 ∧
    (mkRecord 2 7 4096 false).2.is_ifetch = false ∧
    (mkRecord 2 7 4096 false).2.is_shared = false ∧
    (∀ v, Parallel fanGraph 2 v → (mfind (scenarioMixed.getD v []) 4096).isSome = true →
      vtid scenarioMixed v = vtid scenarioMixed 2) ∧
    analyze_shared_access scenarioMixed fanGraph 0 4 30 =
      some [[], [], [mkShared 2 7 4096 false], [mkShared 3 7 4096 true], []] ∧
    sharedFlag [[], [], [mkShared 2 7 4096 false], [mkShared 3 7 4096 true], []] 2 4096 =
      some true := by
  refine ⟨by decide, by decide, by decide, ?_, by decide, by decide⟩
  intro v _ hv
  have hv' : v < 5 := by
    have : scenarioMixed.getD v [] ≠ [] := by
      intro hnil; rw [hnil] at hv; cases hv
    exact getD_ne_nil_lt this
  interval_cases v
  · exact absurd hv (by decide)
  · exact absurd hv (by decide)
  · rfl
  · decide
  · exact absurd hv (by decide)

/-! ## A second run changes nothing -/

theorem setShared_same {ms : MemStats} {u : Vertex} {a : Addr} {r : AddrAccessStats}
    (h : mfind (ms.getD u []) a = some r) : setShared ms u a r.is_shared = ms := by
  unfold setShared
  rw [msetShared_same _ _ _ h]
  have hu := mfind_some_lt h
  apply List.ext_getElem
  · simp
  · intro i h1 h2
    rw [List.getElem_set]
    split
    · rename_i hi
      subst hi
      rw [List.getD_eq_getElem?_getD, List.getElem?_eq_getElem hu]; rfl
    · rfl

theorem ownHit_false_cand {n : Nat} {c : ComponentsMap} {ms : MemStats} {u : Vertex}
    {a : Addr} {r : AddrAccessStats} (hr : mfind (ms.getD u []) a = some r)
    (h : ownHit n c ms u a = false) :
    ∀ p ∈ parallel_vertices n c u, cand ms (vtid ms u) r.is_ifetch a p = false := by
  unfold ownHit at h
  rw [hr] at h
  simp only [List.any_eq_false] at h
  intro p hp
  simpa using h p hp

theorem classifyRecord_noop {n : Nat} {c : ComponentsMap} {ms : MemStats} {u : Vertex}
    {tid : Tid} {par : List Vertex} {gv : Vertex} {a : Addr} {r : AddrAccessStats}
    (hpar : par = parallel_vertices n c u) (hg : gv ∈ par)
    (hr : mfind (ms.getD u []) a = some r) (hbb : toVertex r.bb_id = u)
    (hth : r.thread_id = tid) (htid : tid = vtid ms u)
    (hown : r.is_shared = false → ownHit n c ms u a = false) :
    classifyRecord u tid par (ms, gv) a = some (ms, gv) := by
  unfold classifyRecord
  simp only [hr]
  rw [if_neg (not_not.2 hbb), if_neg (not_not.2 hth)]
  cases hsh : r.is_shared with
  | true => simp
  | false =>
    have hall := ownHit_false_cand hr (hown hsh)
    rw [← hpar, ← htid] at hall
    have hgc : guessCheck ms gv tid r.is_ifetch a = false := by
      rw [guessCheck_eq_cand]; exact hall gv hg
    have hsc : scanParallel ms tid r.is_ifetch a par = none := scanParallel_none_iff.2 hall
    rw [hgc, hsc]
    have := setShared_same hr
    rw [hsh] at this
    simp [this]

theorem classifyRecords_noop {n : Nat} {c : ComponentsMap} {ms : MemStats} {u : Vertex}
    {tid : Tid} {par : List Vertex} {gv : Vertex}
    (hpar : par = parallel_vertices n c u) (hg : gv ∈ par) (htid : tid = vtid ms u) :
    ∀ as : List Addr,
      (∀ a ∈ as, ∃ r, mfind (ms.getD u []) a = some r ∧ toVertex r.bb_id = u ∧
        r.thread_id = tid ∧ (r.is_shared = false → ownHit n c ms u a = false)) →
      classifyRecords u tid par as (ms, gv) = some (ms, gv) := by
  intro as
  induction as with
  | nil => intro _; rfl
  | cons a as ih =>
    intro H
    obtain ⟨r, h1, h2, h3, h4⟩ := H a (List.mem_cons_self _ _)
    unfold classifyRecords
    rw [classifyRecord_noop hpar hg h1 h2 h3 htid h4]
    exact ih (fun x hx => H x (List.mem_cons_of_mem _ hx))

theorem classifyVertex_noop {n : Nat} {c : ComponentsMap} {ms : MemStats}
    (H : Settled n c ms) (u : Vertex) (t : Tid) :
    ∃ t', classifyVertex n c (ms, t) u = some (ms, t') := by
  unfold classifyVertex
  simp only
  cases hp : parallel_vertices n c u with
  | nil => exact ⟨_, rfl⟩
  | cons g0 ps =>
    simp only
    have hne : parallel_vertices n c u ≠ [] := by rw [hp]; simp
    have hkeys : ∀ a ∈ (ms.getD u []).map Prod.fst,
        ∃ r, mfind (ms.getD u []) a = some r ∧ toVertex r.bb_id = u ∧
          r.thread_id = firstTid (ms.getD u []) t ∧
          (r.is_shared = false → ownHit n c ms u a = false) := by
      intro a ha
      obtain ⟨r, hr⟩ := mfind_of_mem_keys ha
      obtain ⟨h1, h2, h3⟩ := H u hne a r hr
      refine ⟨r, hr, h1, ?_, h3⟩
      rw [h2]; exact firstTid_of_mfind hr _ _
    by_cases hem : (ms.getD u []).map Prod.fst = []
    · rw [hem]
      exact ⟨_, rfl⟩
    · have htid : firstTid (ms.getD u []) t = vtid ms u := by
        cases hm : ms.getD u [] with
        | nil => rw [hm] at hem; exact absurd rfl hem
        | cons e m => unfold vtid; rw [hm]; rfl
      rw [classifyRecords_noop hp.symm (List.mem_cons_self _ _) htid _ hkeys]
      exact ⟨_, rfl⟩

theorem classifyAll_noop {n : Nat} {c : ComponentsMap} {ms : MemStats}
    (H : Settled n c ms) :
    ∀ (us : List Vertex) (t : Tid), ∃ t', classifyAll n c us (ms, t) = some (ms, t') := by
  intro us
  induction us with
  | nil => intro t; exact ⟨t, rfl⟩
  | cons u us ih =>
    intro t
    obtain ⟨t1, h1⟩ := classifyVertex_noop H u t
    obtain ⟨t2, h2⟩ := ih t1
    refine ⟨t2, ?_⟩
    unfold classifyAll
    rw [h1]
    exact h2

theorem classify_noop {n : Nat} {c : ComponentsMap} {ms : MemStats}
    (H : Settled n c ms) : classify n c ms = some ms := by
  unfold classify
  obtain ⟨t, ht⟩ := classifyAll_noop H (List.range ms.length) 0
  rw [ht]; rfl

theorem vtid_of_shape {ms ms' : MemStats} (h : shape ms = shape ms') (u : Vertex) :
    vtid ms u = vtid ms' u :=
  firstTid_of_shapeM (shape_getD h u) 0

theorem ownHit_of_shape {n : Nat} {c : ComponentsMap} {ms ms' : MemStats}
    (h : shape ms = shape ms') (u : Vertex) (a : Addr) :
    ownHit n c ms u a = ownHit n c ms' u a := by
  unfold ownHit
  rw [vtid_of_shape h u]
  cases hr : mfind (ms.getD u []) a with
  | none =>
    have := mfind_of_shapeM (shape_getD h u) a
    rw [hr] at this
    cases hr' : mfind (ms'.getD u []) a with
    | none => rfl
    | some r' => rw [hr'] at this; cases this
  | some r =>
    obtain ⟨r', hr', her⟩ := mfind_some_of_shapeM (shape_getD h u) hr
    rw [hr']
    simp only
    rw [(eraseFlag_fields her).2.2]
    congr 1
    funext p
    exact cand_of_shape h _ _ _ _

theorem settled_of_classify {n : Nat} {c : ComponentsMap} {ms ms' : MemStats}
    (h : classify n c ms = some ms') : Settled n c ms' := by
  obtain ⟨hs, _, hok⟩ := classify_spec h
  intro u hne a r' hr'
  obtain ⟨r0, hr0, her⟩ := mfind_some_of_shapeM (shape_getD hs.1 u) hr'
  obtain ⟨f1, f2, _⟩ := eraseFlag_fields her
  obtain ⟨r1, h1, h2, h3, h4⟩ := hok u (mfind_some_lt hr0) hne a r0 hr0
  rw [hr0] at h1
  cases h1
  refine ⟨by rw [← f1]; exact h2, by rw [← f2, h3]; exact (vtid_of_shape hs.1 u).symm, ?_⟩
  intro hsh
  rw [ownHit_of_shape hs.1 u a]
  cases ho : ownHit n c ms u a with
  | false => rfl
  | true =>
    have := h4 ho
    rw [flag_of_mfind hr', hsh] at this
    cases this

/-- C8: `analyze_shared_access` is idempotent: a second run on the output of
the first run, with the same graph, root and exit, returns its input
unchanged. -/
theorem analyze_idempotent (ms ms' : MemStats) (g : Graph) (r e : Vertex) (fuel : Nat)
    (hg : g.wf) (h : analyze_shared_access ms g r e fuel = some ms') :
    analyze_shared_access ms' g r e fuel = some ms' := by
  obtain ⟨hn, hr, c, hcc, hck, _, hcl⟩ := analyze_unfold hg h
  have hs := (classify_spec hcl).1.1
  have hlen : num_vertices g = ms'.length := by rw [hn]; exact (shape_length _ _ hs).symm
  unfold analyze_shared_access
  rw [if_neg (not_not.2 hlen), if_neg (not_not.2 hr), hcc]
  simp only [hck, if_true]
  exact classify_noop (settled_of_classify hcl)

/-- Witness for C8: the output of Scenario C is a fixed point. -/
theorem analyze_idempotent_witness :
    analyze_shared_access scenarioC forkGraph 0 3 20 =
      some [[mkRecord 0 1 4096 false], [mkShared 1 1 4096 false], [mkShared 2 2 4096 false], []] ∧
    analyze_shared_access
      [[mkRecord 0 1 4096 false], [mkShared 1 1 4096 false], [mkShared 2 2 4096 false], []]
      forkGraph 0 3 20 =
      some [[mkRecord 0 1 4096 false], [mkShared 1 1 4096 false], [mkShared 2 2 4096 false], []] :=
  ⟨by decide, analyze_idempotent scenarioC _ forkGraph 0 3 20 (by decide) (by decide)⟩

/-! ## Influence of non-parallel vertices -/

theorem cand_congr {ms1 ms2 : MemStats} {p : Vertex} (h : ms1.getD p [] = ms2.getD p [])
    (tid : Tid) (f : Bool) (a : Addr) : cand ms1 tid f a p = cand ms2 tid f a p := by
  unfold cand; rw [h]

theorem OwnG_congr {g : Graph} {ms1 ms2 : MemStats} {u z : Vertex} (hzu : z ≠ u)
    (hnp : ¬ Parallel g u z) (hdiff : ∀ x, x ≠ z → ms1.getD x [] = ms2.getD x [])
    (a : Addr) (h : OwnG g ms1 u a) : OwnG g ms2 u a := by
  obtain ⟨r, p, hr, hp, hpar, hcand⟩ := h
  have hu := hdiff u (fun e => hzu e.symm)
  have hpz : p ≠ z := fun e => hnp (e ▸ hpar)
  refine ⟨r, p, by rw [← hu]; exact hr, hp, hpar, ?_⟩
  rw [← cand_congr (hdiff p hpz)]
  unfold vtid
  rw [← hu]
  exact hcand

/-- Exact final flag of a record that is an instruction fetch, or whose line is
held as an instruction-fetch record by no same-thread parallel vertex: it is
shared iff it was shared on entry or its own check finds a hit. -/
theorem analyze_flag_exact {ms ms' : MemStats} {g : Graph} {r e : Vertex} {fuel : Nat}
    (hg : g.wf) (h : analyze_shared_access ms g r e fuel = some ms') {u : Vertex} {a : Addr}
    {ru : AddrAccessStats} (hu : mfind (ms.getD u []) a = some ru)
    (hcond : ru.is_ifetch = true ∨ ∀ w rw, w < num_vertices g → Parallel g u w →
      mfind (ms.getD w []) a = some rw → rw.is_ifetch = true → vtid ms w ≠ vtid ms u) :
    flag ms' u a = true ↔ (ru.is_shared = true ∨ OwnG g ms u a) := by
  obtain ⟨_, hm, hjust, hown, _⟩ := analyze_summary hg h
  obtain ⟨hn, _, _⟩ := analyze_unfold hg h
  constructor
  · intro hf
    rcases hjust u a hf with h1 | h1 | h1
    · left; rw [flag_of_mfind hu] at h1; exact h1
    · exact Or.inr h1
    · right
      obtain ⟨w, rw', hpar, hw, hcand⟩ := h1
      have hwl : w < num_vertices g := by rw [hn]; exact mfind_some_lt hw
      obtain ⟨_, c2⟩ := cand_holds hcand
      refine ⟨ru, w, hu, hwl, hpar.symm, cand_intro (by rw [hw]; rfl) ?_⟩
      rcases hcond with hc | hc
      · exact Or.inl hc
      · right
        rcases c2 with c2 | c2
        · exact fun e => hc w rw' hwl hpar.symm hw c2 e.symm
        · exact fun e => c2 e.symm
  · rintro (h1 | h1)
    · apply hm; rw [flag_of_mfind hu]; exact h1
    · exact hown u a h1

/-- C10 (amended): let `z ≠ u` be a vertex that is not parallel to `u`, and let
two inputs differ only in the records held by `z`. If `analyze_shared_access`
finishes on both, then every record of `u` that is an instruction fetch, or
whose line is held as an instruction-fetch record by no same-thread vertex
parallel to `u`, ends with the same `is_shared` flag in both outputs. -/
theorem analyze_flag_independent (ms1 ms2 ms1' ms2' : MemStats) (g : Graph) (r e : Vertex)
    (fuel1 fuel2 : Nat) (hg : g.wf)
    (h1 : analyze_shared_access ms1 g r e fuel1 = some ms1')
    (h2 : analyze_shared_access ms2 g r e fuel2 = some ms2')
    (u z : Vertex) (hzu : z ≠ u) (hnp : ¬ Parallel g u z)
    (hdiff : ∀ x, x ≠ z → ms1.getD x [] = ms2.getD x [])
    (a : Addr) (ru : AddrAccessStats) (hu : mfind (ms1.getD u []) a = some ru)
    (hcond : ru.is_ifetch = true ∨ ∀ w rw, w < num_vertices g → Parallel g u w →
      mfind (ms1.getD w []) a = some rw → rw.is_ifetch = true → vtid ms1 w ≠ vtid ms1 u) :
    sharedFlag ms1' u a = sharedFlag ms2' u a := by
  have huz : u ≠ z := fun e => hzu e.symm
  have hu12 := hdiff u huz
  have hu2 : mfind (ms2.getD u []) a = some ru := by rw [← hu12]; exact hu
  have hcond2 : ru.is_ifetch = true ∨ ∀ w rw, w < num_vertices g → Parallel g u w →
      mfind (ms2.getD w []) a = some rw → rw.is_ifetch = true → vtid ms2 w ≠ vtid ms2 u := by
    rcases hcond with hc | hc
    · exact Or.inl hc
    · right
      intro w rw' hw hpar hrw hif
      have hwz : w ≠ z := fun e => hnp (e ▸ hpar)
      have := hc w rw' hw hpar (by rw [hdiff w hwz]; exact hrw) hif
      unfold vtid at this ⊢
      rw [← hdiff w hwz, ← hu12]
      exact this
  have e1 := analyze_flag_exact hg h1 hu hcond
  have e2 := analyze_flag_exact hg h2 hu2 hcond2
  have hdiff' : ∀ x, x ≠ z → ms2.getD x [] = ms1.getD x [] := fun x hx => (hdiff x hx).symm
  have hiff : flag ms1' u a = true ↔ flag ms2' u a = true := by
    rw [e1, e2]
    constructor
    · rintro (h | h)
      · exact Or.inl h
      · exact Or.inr (OwnG_congr hzu hnp hdiff a h)
    · rintro (h | h)
      · exact Or.inl h
      · exact Or.inr (OwnG_congr hzu hnp hdiff' a h)
  rw [sharedFlag_of_shape (analyze_summary hg h1).1 hu,
    sharedFlag_of_shape (analyze_summary hg h2).1 hu2]
  congr 1
  cases hf1 : flag ms1' u a <;> cases hf2 : flag ms2' u a
  · rfl
  · exact absurd (hiff.2 hf2) (by rw [hf1]; decide)
  · exact absurd (hiff.1 hf1) (by rw [hf2]; decide)
  · rfl

theorem branchGraph_components :
    connected_components branchGraph 0 (emptyMap (num_vertices branchGraph)) 30 =
      some branchMap := by
  decide

theorem branchGraph_parallel (u v : Vertex) :
    Parallel branchGraph u v ↔
      (u ≠ v ∧ cget branchMap u v = false ∧ cget branchMap v u = false) :=
  parallel_iff_of_components (by decide) (by decide) branchGraph_components (by decide) u v

/-- C10 (counterexample): vertex 1 is an ancestor of vertex 2, hence not
parallel to it, and the two inputs differ only in the records of vertex 1; the
record of vertex 2 for line `0x1000` ends private with the first input and
shared with the second. -/
theorem analyze_ancestor_influences_flag :
    Path branchGraph 1 2 ∧ ¬ Parallel branchGraph 2 1 ∧
    scenarioWithoutAncestor = scenarioWithAncestor.set 1 [] ∧
    analyze_shared_access scenarioWithAncestor branchGraph 0 4 30 =
      some [[], [mkRecord 1 7 4096 false], [mkRecord 2 7 4096 false],
        [mkShared 3 7 4096 true], []] ∧
    analyze_shared_access scenarioWithoutAncestor branchGraph 0 4 30 =
      some [[], [], [mkShared 2 7 4096 false], [mkShared 3 7 4096 true], []] ∧
    sharedFlag [[], [mkRecord 1 7 4096 false], [mkRecord 2 7 4096 false],
        [mkShared 3 7 4096 true], []] 2 4096 = some false ∧
    sharedFlag [[], [], [mkShared 2 7 4096 false], [mkShared 3 7 4096 true], []] 2 4096 =
      some true := by
  refine ⟨Relation.TransGen.single (by decide), ?_, by decide, by decide, by decide,
    by decide, by decide⟩
  intro hp
  exact absurd ((branchGraph_parallel 2 1).1 hp) (by decide)

theorem scenarioC_differ : ∀ x, x ≠ 0 → scenarioC.getD x [] = scenarioCNoAncestor.getD x [] := by
  intro x hx
  by_cases hl : x < 4
  · interval_cases x
    · exact absurd rfl hx
    · rfl
    · rfl
    · rfl
  · rw [getD_nil_of_le scenarioC x (Nat.le_of_not_lt hl),
      getD_nil_of_le scenarioCNoAncestor x (Nat.le_of_not_lt hl)]

/-- Witness for C10 (amended), Scenario C: the record that the ancestor 0
holds for line `0x1000` does not change the flag of vertex 1. -/
theorem analyze_flag_independent_witness :
    analyze_shared_access scenarioC forkGraph 0 3 20 =
      some [[mkRecord 0 1 4096 false], [mkShared 1 1 4096 false], [mkShared 2 2 4096 false], []] ∧
    analyze_shared_access scenarioCNoAncestor forkGraph 0 3 20 =
      some [[], [mkShared 1 1 4096 false], [mkShared 2 2 4096 false], []] ∧
    sharedFlag [[mkRecord 0 1 4096 false], [mkShared 1 1 4096 false],
        [mkShared 2 2 4096 false], []] 1 4096 =
      sharedFlag [[], [mkShared 1 1 4096 false], [mkShared 2 2 4096 false], []] 1 4096 :=
  ⟨by decide, by decide,
    analyze_flag_independent scenarioC scenarioCNoAncestor _ _ forkGraph 0 3 20 20 (by decide)
      (by decide) (by decide) 1 0 (by decide)
      (fun hp => absurd ((forkGraph_parallel 1 0).1 hp) (by decide))
      scenarioC_differ 4096 (mkRecord 1 1 4096 false).2 (by decide)
      (Or.inr (by
        intro w rw' hw hp hrw hif
        have hp' := (forkGraph_parallel 1 w).1 hp
        have hw' : w < 4 := hw
        interval_cases w
        · exact absurd hp' (by decide)
        · exact absurd hp' (by decide)
        · have h2 : mfind (scenarioC.getD 2 []) 4096 = some (mkRecord 2 2 4096 false).2 := by
            decide
          rw [h2] at hrw
          have := (Option.some.inj hrw).symm
          subst this
          exact absurd hif (by decide)
        · exact absurd hp' (by decide)))⟩

/-! ## The graph built by parse_dag -/

theorem add_edge_wf (u v : Vertex) (g : Graph) (hg : g.wf) : (add_edge u v g).wf := by
  unfold add_edge Graph.wf
  simp only
  have hlen : (g.out ++ List.replicate (max u v + 1 - g.out.length) ([] : List Vertex)).length =
      g.out.length + (max u v + 1 - g.out.length) := by simp
  have hpad : ∀ es ∈ g.out ++ List.replicate (max u v + 1 - g.out.length) ([] : List Vertex),
      ∀ w ∈ es, w < g.out.length + (max u v + 1 - g.out.length) := by
    intro es hes w hw
    rcases List.mem_append.1 hes with h | h
    · exact lt_of_lt_of_le (hg es h w hw) (Nat.le_add_right _ _)
    · rw [List.mem_replicate] at h
      rw [h.2] at hw; cases hw
  intro es hes w hw
  rw [List.length_set, hlen]
  rcases List.mem_or_eq_of_mem_set hes with h | h
  · exact hpad es h w hw
  · subst h
    rcases List.mem_append.1 hw with h | h
    · by_cases hu : u < (g.out ++ List.replicate (max u v + 1 - g.out.length)
          ([] : List Vertex)).length
      · rw [List.getD_eq_getElem?_getD, List.getElem?_eq_getElem hu] at h
        exact hpad _ (List.getElem_mem _) w h
      · rw [getD_nil_of_le _ _ (Nat.le_of_not_lt hu)] at h
        cases h
    · rw [List.mem_singleton] at h
      subst h
      have hm : w ≤ max u w := le_max_right _ _
      exact lt_of_lt_of_le (Nat.lt_succ_of_le hm) le_add_tsub

theorem addEdgeInt_wf {a b : Int} {g g' : Graph} (hg : g.wf)
    (h : addEdgeInt a b g = .ok g') : g'.wf := by
  unfold addEdgeInt at h
  split at h
  · cases h; exact add_edge_wf _ _ _ hg
  · cases h

theorem addJoinEdges_wf (bbs2d : List (List BasicBlock)) (bb : BasicBlock) :
    ∀ (ws : List Int) (g g' : Graph), g.wf → addJoinEdges bbs2d bb ws g = .ok g' → g'.wf := by
  intro ws
  induction ws with
  | nil => intro g g' hg h; cases h; exact hg
  | cons t ws ih =>
    intro g g' hg h
    unfold addJoinEdges at h
    split at h
    · cases h
    · split at h
      · cases h
      · split at h
        · cases h
        · rename_i g1 he
          exact ih g1 g' (addEdgeInt_wf hg he) h

theorem addBlockEdges_wf {bbs2d : List (List BasicBlock)} {bb : BasicBlock} {g g' : Graph}
    (hg : g.wf) (h : addBlockEdges bbs2d bb g = .ok g') : g'.wf := by
  unfold addBlockEdges at h
  simp only at h
  split at h
  · cases h
  · rename_i g1 h1
    have hg1 : g1.wf := by
      split at h1
      · split at h1
        · cases h1
        · split at h1
          · cases h1
          · exact addEdgeInt_wf hg h1
      · cases h1; exact hg
    split at h
    · cases h
    · rename_i g2 h2
      have hg2 : g2.wf := by
        split at h2
        · split at h2
          · cases h2
          · split at h2
            · cases h2
            · exact addEdgeInt_wf hg1 h2
        · cases h2; exact hg1
      exact addJoinEdges_wf _ _ _ _ _ hg2 h

theorem addAllEdges_wf (bbs2d : List (List BasicBlock)) :
    ∀ (bbs : List BasicBlock) (g g' : Graph), g.wf → addAllEdges bbs2d bbs g = .ok g' →
      g'.wf := by
  intro bbs
  induction bbs with
  | nil => intro g g' hg h; cases h; exact hg
  | cons bb bbs ih =>
    intro g g' hg h
    unfold addAllEdges at h
    split at h
    · cases h
    · rename_i g1 h1
      exact ih g1 g' (addBlockEdges_wf hg h1) h

/-- The graph that an accepted description yields is well formed: every edge
target is one of its vertices. -/
theorem parse_dag_wf {blocks : List BasicBlock} {pd : ParsedDag}
    (h : parse_dag blocks = .ok pd) : pd.g.wf := by
  unfold parse_dag parse_dag_sorted at h
  split at h
  · cases h
  · rename_i bbs2d _
    split at h
    · cases h
    · rename_i g hgr
      have hg : g.wf := addAllEdges_wf _ _ _ _ (by decide) hgr
      split at h
      · cases h
      · split at h
        · split at h
          · cases h
          · cases h
          · split at h
            · split at h
              · cases h
              · split at h
                · cases h
                · cases h; exact hg
            · cases h
        · cases h

/-! ## Results on parse_dag and on the slow reachability -/

/-- When every vertex of the graph of an accepted description other than the
root is reachable from the root and reaches the exit, the post-condition
checks at the start of `analyze_shared_access` pass whenever
`connected_components` finishes. -/
theorem postcondition_of_paths (blocks : List BasicBlock) (pd : ParsedDag) (fuel : Nat)
    (c : ComponentsMap) (hp : parse_dag blocks = .ok pd)
    (hroot : ∀ u, u < num_vertices pd.g → u ≠ pd.r → Path pd.g pd.r u)
    (hexit : ∀ u, u < num_vertices pd.g → u ≠ pd.e → Path pd.g u pd.e)
    (hcc : connected_components pd.g pd.r (emptyMap (num_vertices pd.g)) fuel = some c) :
    checkComponents (num_vertices pd.g) c pd.r pd.e = true := by
  have hg := parse_dag_wf hp
  rw [checkComponents_iff]
  intro u hu
  have hr : pd.r < num_vertices pd.g := by
    by_cases h0 : (0 : Nat) = pd.r
    · rw [← h0]; exact lt_of_le_of_lt (Nat.zero_le u) hu
    · exact (path_lt hg (hroot 0 (lt_of_le_of_lt (Nat.zero_le u) hu) h0)).1
  have hreach : Reach pd.g pd.r u := by
    by_cases hur : u = pd.r
    · rw [hur]; exact Relation.ReflTransGen.refl
    · exact (hroot u hu hur).to_reflTransGen
  refine ⟨fun hne => ?_, fun hne => ?_⟩
  · exact (connected_components_spec hg hr hcc _ _).2 ⟨Relation.ReflTransGen.refl, hroot u hu hne⟩
  · exact (connected_components_spec hg hr hcc _ _).2 ⟨hreach, hexit u hu hne⟩

/-- C3 (counterexample): `parse_dag` accepts `orphanBlocks`, in which nobody
creates task 1 (the graph has the single edge `2 → 0`, root 2, exit 0, and the
topological order `0, 1, 2` ends with the root and starts with the exit),
`connected_components` finishes, but `c_map[r][1]` is false although `1 ≠ r`:
the post-condition check fails and `analyze_shared_access` stops at its
assertion. The same happens with `gapBlocks`, whose ids skip 1, and with
`negNodeBlocks`, whose first node index is -1; `unjoinedBlocks`, in which
nobody waits for task 1, is accepted as well, and there `c_map[1][e]` is
false. -/
theorem parse_dag_accepts_unreachable_vertex :
    parse_dag orphanBlocks = .ok ⟨⟨[[], [], [0]]⟩, 2, 0, 2⟩ ∧
    connected_components ⟨[[], [], [0]]⟩ 2 (emptyMap 3) 10 =
      some [[false, false, false], [false, false, false], [true, false, false]] ∧
    cget [[false, false, false], [false, false, false], [true, false, false]] 2 1 = false ∧
    checkComponents 3 [[false, false, false], [false, false, false], [true, false, false]] 2 0 =
      false ∧
    analyze_shared_access [[], [], []] ⟨[[], [], [0]]⟩ 2 0 10 = none ∧
    parse_dag gapBlocks = .ok ⟨⟨[[], [], [0]]⟩, 2, 0, 1⟩ ∧
    parse_dag negNodeBlocks = .ok ⟨⟨[[], [], [0]]⟩, 2, 0, 1⟩ ∧
    parse_dag unjoinedBlocks = .ok ⟨⟨[[], [], [1, 0]]⟩, 2, 0, 2⟩ ∧
    connected_components ⟨[[], [], [1, 0]]⟩ 2 (emptyMap 3) 10 =
      some [[false, false, false], [false, false, false], [true, true, false]] ∧
    cget [[false, false, false], [false, false, false], [true, true, false]] 1 0 = false ∧
    checkComponents 3 [[false, false, false], [false, false, false], [true, true, false]] 2 0 =
      false := by
  decide

/-- C5 (failing input): on `stuckGraph`, a DAG whose vertices are all
reachable from root 0, `connected_components_slow` returns the reachability
map while `connected_components` never returns, so the two do not produce
identical maps. -/
theorem slow_returns_fast_does_not :
    stuckGraph.wf ∧ Acyclic stuckGraph ∧
    (∀ v, v < num_vertices stuckGraph → Reach stuckGraph 0 v) ∧
    connected_components_slow stuckGraph (emptyMap 3) =
      some [[false, true, true], [false, false, false], [false, true, false]] ∧
    ∀ fuel, connected_components stuckGraph 0 (emptyMap 3) fuel = none :=
  ⟨by decide, stuckGraph_acyclic, stuckGraph_reach, by decide, stuckGraph_never_returns⟩

/-! ## Invariant of the depth-first visit -/

theorem colorOf_set (col : List Color) (u w : Vertex) (x : Color) :
    colorOf (col.set u x) w = if w = u ∧ u < col.length then x else colorOf col w := by
  unfold colorOf
  exact getD_list_set col u w x Color.white

theorem colorOf_lt {col : List Color} {v : Vertex} (h : colorOf col v ≠ Color.white) :
    v < col.length := by
  by_contra hc
  apply h
  unfold colorOf
  rw [List.getD_eq_getElem?_getD, List.getElem?_eq_none (Nat.le_of_not_lt hc)]; rfl

theorem FramesChain.tail {g : Graph} {f : Vertex × List Vertex}
    {rest : List (Vertex × List Vertex)} (h : FramesChain g (f :: rest)) :
    FramesChain g rest := by
  cases rest with
  | nil => trivial
  | cons b r => exact h.2

theorem framesChain_reach {g : Graph} :
    ∀ (rest : List (Vertex × List Vertex)) (top : Vertex × List Vertex),
      FramesChain g (top :: rest) → ∀ f ∈ top :: rest, Reach g f.1 top.1 := by
  intro rest
  induction rest with
  | nil =>
    intro top _ f hf
    rw [List.mem_singleton] at hf
    subst hf
    exact Relation.ReflTransGen.refl
  | cons b r ih =>
    intro top h f hf
    rcases List.mem_cons.1 hf with rfl | hf
    · exact Relation.ReflTransGen.refl
    · exact (ih b h.2 f hf).tail h.1

theorem DfsInv.finish {g : Graph} {u : Vertex} {rest : List (Vertex × List Vertex)}
    {col : List Color} (h : DfsInv g ((u, []) :: rest) col) :
    DfsInv g rest (col.set u Color.black) := by
  have hu := (h.frame_ok (u, []) (List.mem_cons_self _ _))
  have hul : u < col.length := colorOf_lt (by rw [hu.1]; decide)
  have hnd := h.nodup
  simp only [List.map_cons, List.nodup_cons] at hnd
  have hkeep : ∀ w, colorOf col w ≠ Color.white →
      colorOf (col.set u Color.black) w ≠ Color.white := by
    intro w hw
    rw [colorOf_set]
    split
    · decide
    · exact hw
  refine ⟨by simp [h.len], ?_, h.chain.tail, ?_, ?_, hnd.2⟩
  · intro f hf
    obtain ⟨h1, pre, h2, h3⟩ := h.frame_ok f (List.mem_cons_of_mem _ hf)
    have hne : f.1 ≠ u := by
      intro e
      apply hnd.1
      rw [← e]
      exact List.mem_map_of_mem _ hf
    refine ⟨by rw [colorOf_set]; simp [hne, h1], pre, h2, fun t ht => hkeep t (h3 t ht)⟩
  · intro w hw
    rw [colorOf_set] at hw
    split at hw
    · cases hw
    · rename_i hne
      have := h.gray_in w hw
      simp only [List.map_cons, List.mem_cons] at this
      rcases this with rfl | this
      · exact absurd ⟨rfl, hul⟩ hne
      · exact this
  · intro w hw t ht
    apply hkeep
    rw [colorOf_set] at hw
    split at hw
    · rename_i hwu
      obtain ⟨pre, h2, h3⟩ := hu.2
      have : t ∈ pre := by
        have ht' : t ∈ out_edges g u := by rw [← hwu.1]; exact ht
        rw [h2] at ht'
        simpa using ht'
      exact h3 t this
    · exact h.black_closed w hw t ht

theorem DfsInv.skip {g : Graph} {u v : Vertex} {es : List Vertex}
    {rest : List (Vertex × List Vertex)} {col : List Color}
    (h : DfsInv g ((u, v :: es) :: rest) col) (hv : colorOf col v ≠ Color.white) :
    DfsInv g ((u, es) :: rest) col := by
  refine ⟨h.len, ?_, ?_, ?_, h.black_closed, ?_⟩
  · intro f hf
    rcases List.mem_cons.1 hf with rfl | hf
    · obtain ⟨h1, pre, h2, h3⟩ := h.frame_ok (u, v :: es) (List.mem_cons_self _ _)
      refine ⟨h1, pre ++ [v], by simpa using h2, ?_⟩
      intro t ht
      rcases List.mem_append.1 ht with ht | ht
      · exact h3 t ht
      · rw [List.mem_singleton] at ht; rw [ht]; exact hv
    · exact h.frame_ok f (List.mem_cons_of_mem _ hf)
  · have := h.chain
    cases rest with
    | nil => trivial
    | cons b r => exact this
  · intro w hw
    simpa using h.gray_in w hw
  · simpa using h.nodup

theorem DfsInv.edge_top {g : Graph} {u v : Vertex} {es : List Vertex}
    {rest : List (Vertex × List Vertex)} {col : List Color}
    (h : DfsInv g ((u, v :: es) :: rest) col) : Edge g u v := by
  obtain ⟨_, pre, h2, _⟩ := h.frame_ok (u, v :: es) (List.mem_cons_self _ _)
  unfold Edge
  rw [h2]
  simp

theorem DfsInv.push {g : Graph} (hg : g.wf) {u v : Vertex} {es : List Vertex}
    {rest : List (Vertex × List Vertex)} {col : List Color}
    (h : DfsInv g ((u, v :: es) :: rest) col) (hv : colorOf col v = Color.white) :
    DfsInv g ((v, out_edges g v) :: (u, es) :: rest) (col.set v Color.gray) := by
  have he := h.edge_top
  have hvl : v < col.length := by rw [h.len]; exact (edge_lt hg he).2
  have hkeep : ∀ w, colorOf col w ≠ Color.white →
      colorOf (col.set v Color.gray) w ≠ Color.white := by
    intro w hw
    rw [colorOf_set]
    split
    · decide
    · exact hw
  have hgray : ∀ w, colorOf col w = Color.gray → colorOf (col.set v Color.gray) w = Color.gray := by
    intro w hw
    rw [colorOf_set]
    split
    · rfl
    · exact hw
  have hvnew : colorOf (col.set v Color.gray) v = Color.gray := by
    rw [colorOf_set]; simp [hvl]
  have hvnot : v ∉ ((u, v :: es) :: rest).map Prod.fst := by
    intro hmem
    obtain ⟨f, hf, hfv⟩ := List.mem_map.1 hmem
    have := (h.frame_ok f hf).1
    rw [hfv, hv] at this
    cases this
  refine ⟨by simp [h.len], ?_, ?_, ?_, ?_, ?_⟩
  · intro f hf
    rcases List.mem_cons.1 hf with rfl | hf
    · exact ⟨hvnew, [], rfl, fun t ht => by cases ht⟩
    · rcases List.mem_cons.1 hf with rfl | hf
      · obtain ⟨h1, pre, h2, h3⟩ := h.frame_ok (u, v :: es) (List.mem_cons_self _ _)
        refine ⟨hgray _ h1, pre ++ [v], by simpa using h2, ?_⟩
        intro t ht
        rcases List.mem_append.1 ht with ht | ht
        · exact hkeep t (h3 t ht)
        · rw [List.mem_singleton] at ht; rw [ht, hvnew]; decide
      · obtain ⟨h1, pre, h2, h3⟩ := h.frame_ok f (List.mem_cons_of_mem _ hf)
        exact ⟨hgray _ h1, pre, h2, fun t ht => hkeep t (h3 t ht)⟩
  · refine ⟨he, ?_⟩
    have := h.chain
    cases rest with
    | nil => trivial
    | cons b r => exact this
  · intro w hw
    rw [colorOf_set] at hw
    split at hw
    · rename_i hwv
      rw [hwv.1]; simp
    · have := h.gray_in w hw
      simp only [List.map_cons, List.mem_cons] at this ⊢
      exact Or.inr this
  · intro w hw t ht
    apply hkeep
    rw [colorOf_set] at hw
    split at hw
    · cases hw
    · exact h.black_closed w hw t ht
  · have := h.nodup
    simp only [List.map_cons, List.nodup_cons, List.mem_cons] at this hvnot ⊢
    exact ⟨hvnot, this⟩

/-- On an acyclic graph the search never meets a gray target. -/
theorem DfsInv.no_back_edge {g : Graph} (hac : Acyclic g) {u v : Vertex} {es : List Vertex}
    {rest : List (Vertex × List Vertex)} {col : List Color}
    (h : DfsInv g ((u, v :: es) :: rest) col) : colorOf col v ≠ Color.gray := by
  intro hv
  have hmem := h.gray_in v hv
  obtain ⟨f, hf, hfv⟩ := List.mem_map.1 hmem
  have hr := framesChain_reach rest (u, v :: es) h.chain f hf
  rw [hfv] at hr
  exact hac v (Relation.TransGen.tail' hr h.edge_top)

/-! ## Fuel of the depth-first visit -/

theorem sum_map_range_congr (f f' : Nat → Nat) :
    ∀ n, (∀ w, w < n → f' w = f w) →
      ((List.range n).map f').sum = ((List.range n).map f).sum := by
  intro n
  induction n with
  | zero => intro _; rfl
  | succ n ih =>
    intro h
    rw [List.range_succ, List.map_append, List.map_append, List.sum_append, List.sum_append,
      ih (fun w hw => h w (Nat.lt_succ_of_lt hw))]
    simp [h n (Nat.lt_succ_self n)]

theorem sum_map_range_update (f f' : Nat → Nat) (v : Nat) (h : ∀ w, w ≠ v → f' w = f w)
    (hv : f' v = 0) :
    ∀ n, v < n → ((List.range n).map f').sum + f v = ((List.range n).map f).sum := by
  intro n
  induction n with
  | zero => intro hlt; cases hlt
  | succ n ih =>
    intro hlt
    rw [List.range_succ, List.map_append, List.map_append, List.sum_append, List.sum_append]
    simp only [List.map_cons, List.map_nil, List.sum_cons, List.sum_nil, Nat.add_zero]
    by_cases hvn : v = n
    · subst hvn
      rw [hv, sum_map_range_congr f f' v (fun w hw => h w (Nat.ne_of_lt hw))]
      omega
    · have hlt' : v < n := by omega
      have := ih hlt'
      rw [h n (fun e => hvn e.symm)]
      omega

theorem whiteWeight_push {g : Graph} {col : List Color} {v : Vertex}
    (hlen : col.length = num_vertices g) (hv : v < num_vertices g)
    (hw : colorOf col v = Color.white) :
    whiteWeight g (col.set v Color.gray) + (1 + (out_edges g v).length) = whiteWeight g col := by
  unfold whiteWeight
  have := sum_map_range_update
    (fun w => if colorOf col w = Color.white then 1 + (out_edges g w).length else 0)
    (fun w => if colorOf (col.set v Color.gray) w = Color.white then
      1 + (out_edges g w).length else 0) v ?_ ?_ (num_vertices g) hv
  · simp only [hw, if_true] at this
    exact this
  · intro w hne
    simp only [colorOf_set, hne, false_and, if_false]
  · simp only [colorOf_set, hlen, hv, and_self, if_true]
    rfl

theorem whiteWeight_finish {g : Graph} {col : List Color} {u : Vertex}
    (hu : colorOf col u ≠ Color.white) :
    whiteWeight g (col.set u Color.black) = whiteWeight g col := by
  unfold whiteWeight
  apply sum_map_range_congr
  intro w _
  by_cases hwu : w = u
  · subst hwu
    have : colorOf (col.set w Color.black) w ≠ Color.white := by
      rw [colorOf_set]
      split
      · decide
      · exact hu
    simp [this, hu]
  · simp only [colorOf_set, hwu, false_and, if_false]

theorem getD_replicate_white (n v : Nat) :
    colorOf (List.replicate n Color.white) v = Color.white := by
  unfold colorOf
  rw [List.getD_eq_getElem?_getD]
  by_cases hv : v < n
  · rw [List.getElem?_eq_getElem (by simpa using hv)]; simp
  · rw [List.getElem?_eq_none (by simpa using hv)]; rfl

theorem sum_out_lengths (l : List (List Vertex)) :
    ((List.range l.length).map (fun w => 1 + (l.getD w []).length)).sum =
      l.length + (l.map List.length).sum := by
  induction l using List.reverseRecOn with
  | nil => rfl
  | append_singleton l x ih =>
    rw [List.length_append, List.length_singleton, List.range_succ, List.map_append,
      List.sum_append, List.map_append, List.sum_append]
    have h1 : ((List.range l.length).map (fun w => 1 + ((l ++ [x]).getD w []).length)).sum =
        ((List.range l.length).map (fun w => 1 + (l.getD w []).length)).sum := by
      apply sum_map_range_congr
      intro w hw
      simp only [List.getD_eq_getElem?_getD]
      rw [List.getElem?_append_left hw]
    rw [h1, ih]
    simp only [List.map_cons, List.map_nil, List.sum_cons, List.sum_nil,
      List.getD_eq_getElem?_getD]
    rw [List.getElem?_append_right (le_refl _)]
    simp
    omega

theorem whiteWeight_init (g : Graph) :
    whiteWeight g (List.replicate (num_vertices g) Color.white) + 1 = dfsFuel g := by
  unfold whiteWeight dfsFuel
  have : ((List.range (num_vertices g)).map
      (fun w => if colorOf (List.replicate (num_vertices g) Color.white) w = Color.white then
        1 + (out_edges g w).length else 0)).sum =
      ((List.range g.out.length).map (fun w => 1 + (g.out.getD w []).length)).sum := by
    apply sum_map_range_congr
    intro w _
    simp [getD_replicate_white, out_edges]
  rw [this, sum_out_lengths]
  rfl

/-! ## Correctness of connected_components_slow on a DAG -/

/-- When only the frame of `u` is left and all its out-edges are examined,
every vertex reachable from `u` has been discovered. -/
theorem DfsInv.closed_at_end {g : Graph} {u : Vertex} {col : List Color}
    (hinv : DfsInv g [(u, [])] col) : ∀ w, Reach g u w → colorOf col w ≠ Color.white := by
  intro w hw
  induction hw with
  | refl =>
    rw [(hinv.frame_ok (u, []) (List.mem_cons_self _ _)).1]; decide
  | @tail x y _ e ihw =>
    cases hx : colorOf col x with
    | white => exact absurd hx ihw
    | gray =>
      have := hinv.gray_in x hx
      simp only [List.map_cons, List.map_nil, List.mem_singleton] at this
      subst this
      obtain ⟨_, pre, h2, h3⟩ := hinv.frame_ok (x, []) (List.mem_cons_self _ _)
      apply h3
      have hy : y ∈ out_edges g x := e
      rw [h2] at hy
      simpa using hy
    | black => exact hinv.black_closed x hx y e

theorem dfs_loop_white {σ ε : Type} (g : Graph) (vis : DfsVisitor σ ε) (fuel : Nat)
    (u v : Vertex) (es : List Vertex) (rest : List (Vertex × List Vertex)) (col : List Color)
    (s s' : σ) (hv : colorOf col v = Color.white) (hd : vis.discover_vertex v s = .ok s') :
    dfs_loop g vis (fuel + 1) ((u, v :: es) :: rest) (col, s) =
      dfs_loop g vis fuel ((v, out_edges g v) :: (u, es) :: rest) (col.set v Color.gray, s') := by
  unfold colorOf at hv
  rw [dfs_loop]
  simp only [hv, hd]

theorem dfs_loop_black {σ ε : Type} (g : Graph) (vis : DfsVisitor σ ε) (fuel : Nat)
    (u v : Vertex) (es : List Vertex) (rest : List (Vertex × List Vertex)) (col : List Color)
    (s : σ) (hv : colorOf col v = Color.black) :
    dfs_loop g vis (fuel + 1) ((u, v :: es) :: rest) (col, s) =
      dfs_loop g vis fuel ((u, es) :: rest) (col, s) := by
  unfold colorOf at hv
  rw [dfs_loop]
  simp only [hv]

theorem dfs_loop_finish {σ ε : Type} (g : Graph) (vis : DfsVisitor σ ε) (fuel : Nat)
    (u : Vertex) (rest : List (Vertex × List Vertex)) (col : List Color)
    (s s' : σ) (hd : vis.finish_vertex u s = .ok s') :
    dfs_loop g vis (fuel + 1) ((u, []) :: rest) (col, s) =
      dfs_loop g vis fuel rest (col.set u Color.black, s') := by
  rw [dfs_loop]
  simp only [hd]

theorem dfs_loop_finish_raise {σ ε : Type} (g : Graph) (vis : DfsVisitor σ ε) (fuel : Nat)
    (u : Vertex) (rest : List (Vertex × List Vertex)) (col : List Color)
    (s : σ) (e : ε) (hd : vis.finish_vertex u s = .error e) :
    dfs_loop g vis (fuel + 1) ((u, []) :: rest) (col, s) = .error (.raised e) := by
  rw [dfs_loop]
  simp only [hd]

theorem bottomIs_cons {src : Vertex} (f b : Vertex × List Vertex)
    (rest : List (Vertex × List Vertex)) :
    BottomIs src (f :: b :: rest) ↔ BottomIs src (b :: rest) := by
  unfold BottomIs
  simp [List.getLast?_cons_cons]

theorem bottomIs_single {src u : Vertex} {es : List Vertex} :
    BottomIs src [(u, es)] ↔ u = src := by
  unfold BottomIs
  simp

theorem bottomIs_mem {src : Vertex} {frames : List (Vertex × List Vertex)}
    (h : BottomIs src frames) : src ∈ frames.map Prod.fst :=
  List.mem_of_getLast?_eq_some h

theorem recorder_loop_spec {g : Graph} (hg : g.wf) (hac : Acyclic g) {src : Vertex}
    (hsrc : src < num_vertices g) {c0 : ComponentsMap} :
    ∀ (fuel : Nat) (frames : List (Vertex × List Vertex)) (col : List Color)
      (c : ComponentsMap),
      DfsInv g frames col → BottomIs src frames → RecInv g src c0 col c →
      framesWeight frames + whiteWeight g col ≤ fuel →
      ∃ c', dfs_loop g (ConnectedComponentRecorder src) fuel frames (col, c) =
          .error (.raised (.stop_search c')) ∧
        MapWf (num_vertices g) c' ∧
        ∀ a b, cget c' a b = true ↔ (cget c0 a b = true ∨ (a = src ∧ Path g src b)) := by
  intro fuel
  induction fuel with
  | zero =>
    intro frames col c _ hb _ hf
    exfalso
    cases frames with
    | nil => simp [BottomIs] at hb
    | cons f rest =>
      simp only [framesWeight, List.map_cons, List.sum_cons] at hf
      omega
  | succ fuel ih =>
    intro frames col c hinv hb hrec hf
    cases frames with
    | nil => simp [BottomIs] at hb
    | cons f rest =>
      obtain ⟨u, es⟩ := f
      cases es with
      | nil =>
        cases rest with
        | nil =>
          have hus : u = src := bottomIs_single.1 hb
          subst hus
          refine ⟨c, ?_, hrec.map_wf, ?_⟩
          · exact dfs_loop_finish_raise _ _ _ _ _ _ _ _ (by simp [ConnectedComponentRecorder])
          · have hclosed := hinv.closed_at_end
            intro a b
            rw [hrec.row a b]
            constructor
            · rintro (h | ⟨h1, h2, h3⟩)
              · exact Or.inl h
              · right
                refine ⟨h1, ?_⟩
                rcases Relation.reflTransGen_iff_eq_or_transGen.1 (hrec.reach b h3) with h | h
                · exact absurd h h2
                · exact h
            · rintro (h | ⟨h1, h2⟩)
              · exact Or.inl h
              · right
                refine ⟨h1, ?_, hclosed b h2.to_reflTransGen⟩
                intro e
                rw [e] at h2
                exact hac u h2
        | cons b rest' =>
          have hbot : BottomIs src (b :: rest') := (bottomIs_cons _ _ _).1 hb
          have hne : u ≠ src := by
            intro e
            have hnd := hinv.nodup
            simp only [List.map_cons, List.nodup_cons] at hnd
            apply hnd.1
            rw [e]
            exact bottomIs_mem hbot
          have hug := (hinv.frame_ok (u, []) (List.mem_cons_self _ _)).1
          have hstep : dfs_loop g (ConnectedComponentRecorder src) (fuel + 1)
              ((u, []) :: b :: rest') (col, c) =
              dfs_loop g (ConnectedComponentRecorder src) fuel (b :: rest')
                (col.set u Color.black, c) :=
            dfs_loop_finish _ _ _ _ _ _ _ _ (by simp [ConnectedComponentRecorder, hne])
          rw [hstep]
          apply ih _ _ _ hinv.finish hbot
          · refine ⟨hrec.map_wf, ?_, ?_⟩
            · intro a x
              rw [hrec.row a x]
              have : colorOf (col.set u Color.black) x ≠ Color.white ↔
                  colorOf col x ≠ Color.white := by
                rw [colorOf_set]
                split
                · rename_i hx
                  rw [hx.1, hug]
                  simp
                · rfl
              rw [this]
            · intro w hw
              apply hrec.reach
              rw [colorOf_set] at hw
              split at hw
              · rename_i hx
                rw [hx.1, hug]; decide
              · exact hw
          · rw [whiteWeight_finish (by rw [hug]; decide)]
            simp only [framesWeight, List.map_cons, List.sum_cons] at hf ⊢
            omega
      | cons v es =>
        have he := hinv.edge_top
        have hvn := (edge_lt hg he).2
        have hug := (hinv.frame_ok (u, v :: es) (List.mem_cons_self _ _)).1
        have hbot' : BottomIs src ((u, es) :: rest) := by
          unfold BottomIs at hb ⊢
          simpa using hb
        cases hv : colorOf col v with
        | white =>
          have hvs : v ≠ src := by
            intro e
            have := bottomIs_mem hb
            obtain ⟨f, hfm, hfs⟩ := List.mem_map.1 this
            have := (hinv.frame_ok f hfm).1
            rw [hfs, ← e, hv] at this
            cases this
          have hstep : dfs_loop g (ConnectedComponentRecorder src) (fuel + 1)
              ((u, v :: es) :: rest) (col, c) =
              dfs_loop g (ConnectedComponentRecorder src) fuel
                ((v, out_edges g v) :: (u, es) :: rest)
                (col.set v Color.gray, cset c src v) :=
            dfs_loop_white _ _ _ _ _ _ _ _ _ _ hv (by simp [ConnectedComponentRecorder, hvs])
          rw [hstep]
          apply ih _ _ _ (hinv.push hg hv) ((bottomIs_cons _ _ _).2 hbot')
          · refine ⟨cset_wf hrec.map_wf _ _, ?_, ?_⟩
            · intro a x
              rw [cget_cset hrec.map_wf hsrc hvn]
              simp only [Bool.or_eq_true, Bool.and_eq_true, decide_eq_true_eq]
              rw [hrec.row a x, colorOf_set]
              have hvl : v < col.length := by rw [hinv.len]; exact hvn
              constructor
              · rintro (h | ⟨h1, h2⟩)
                · rcases h with h | ⟨h1, h2, h3⟩
                  · exact Or.inl h
                  · right
                    refine ⟨h1, h2, ?_⟩
                    split
                    · decide
                    · exact h3
                · right
                  refine ⟨h1, by rw [h2]; exact hvs, ?_⟩
                  rw [if_pos ⟨h2, hvl⟩]; decide
              · rintro (h | ⟨h1, h2, h3⟩)
                · exact Or.inl (Or.inl h)
                · by_cases hxv : x = v
                  · exact Or.inr ⟨h1, hxv⟩
                  · left; right
                    refine ⟨h1, h2, ?_⟩
                    rw [if_neg (fun hh => hxv hh.1)] at h3
                    exact h3
            · intro w hw
              rw [colorOf_set] at hw
              split at hw
              · rename_i hx
                rw [hx.1]
                exact (hrec.reach u (by rw [hug]; decide)).tail he
              · exact hrec.reach w hw
          · have := whiteWeight_push hinv.len hvn hv
            simp only [framesWeight, List.map_cons, List.sum_cons, List.length_cons] at hf ⊢
            omega
        | gray => exact absurd hv (hinv.no_back_edge hac)
        | black =>
          have hstep : dfs_loop g (ConnectedComponentRecorder src) (fuel + 1)
              ((u, v :: es) :: rest) (col, c) =
              dfs_loop g (ConnectedComponentRecorder src) fuel ((u, es) :: rest) (col, c) :=
            dfs_loop_black _ _ _ _ _ _ _ _ _ hv
          rw [hstep]
          apply ih _ _ _ (hinv.skip (by rw [hv]; decide)) hbot' hrec
          simp only [framesWeight, List.map_cons, List.sum_cons, List.length_cons] at hf ⊢
          omega

theorem recorder_search_spec {g : Graph} (hg : g.wf) (hac : Acyclic g) {src : Vertex}
    (hsrc : src < num_vertices g) {c0 : ComponentsMap} (hc0 : MapWf (num_vertices g) c0) :
    ∃ c', depth_first_search g (ConnectedComponentRecorder src) src c0 =
        .error (.raised (.stop_search c')) ∧
      MapWf (num_vertices g) c' ∧
      ∀ a b, cget c' a b = true ↔ (cget c0 a b = true ∨ (a = src ∧ Path g src b)) := by
  have hlen : src < (List.replicate (num_vertices g) Color.white).length := by simpa using hsrc
  have hcol : ∀ w, colorOf ((List.replicate (num_vertices g) Color.white).set src Color.gray) w =
      if w = src then Color.gray else Color.white := by
    intro w
    rw [colorOf_set, getD_replicate_white]
    by_cases hw : w = src
    · simp [hw, hsrc]
    · simp [hw]
  have hinv : DfsInv g [(src, out_edges g src)]
      ((List.replicate (num_vertices g) Color.white).set src Color.gray) := by
    refine ⟨by simp, ?_, trivial, ?_, ?_, by simp⟩
    · intro f hf
      rw [List.mem_singleton] at hf
      subst hf
      exact ⟨by rw [hcol]; simp, [], rfl, fun t ht => by cases ht⟩
    · intro w hw
      rw [hcol] at hw
      split at hw
      · rename_i h; simp [h]
      · cases hw
    · intro w hw
      rw [hcol] at hw
      split at hw <;> cases hw
  have hrec : RecInv g src c0 ((List.replicate (num_vertices g) Color.white).set src Color.gray)
      c0 := by
    refine ⟨hc0, ?_, ?_⟩
    · intro a b
      constructor
      · exact fun h => Or.inl h
      · rintro (h | ⟨_, h2, h3⟩)
        · exact h
        · rw [hcol, if_neg h2] at h3
          exact absurd rfl h3
    · intro w hw
      rw [hcol] at hw
      split at hw
      · rename_i h; rw [h]; exact Relation.ReflTransGen.refl
      · exact absurd rfl hw
  have hfuel : framesWeight [(src, out_edges g src)] +
      whiteWeight g ((List.replicate (num_vertices g) Color.white).set src Color.gray) ≤
      dfsFuel g := by
    have h1 := @whiteWeight_push g (List.replicate (num_vertices g) Color.white) src
      (by simp) hsrc (getD_replicate_white _ _)
    have h2 := whiteWeight_init g
    simp only [framesWeight, List.map_cons, List.map_nil, List.sum_cons, List.sum_nil]
    omega
  obtain ⟨c', h1, h2, h3⟩ := recorder_loop_spec hg hac hsrc (dfsFuel g) _ _ c0 hinv
    (bottomIs_single.2 rfl) hrec hfuel
  refine ⟨c', ?_, h2, h3⟩
  have hn : num_vertices g ≠ 0 := Nat.ne_of_gt (Nat.lt_of_le_of_lt (Nat.zero_le _) hsrc)
  unfold depth_first_search
  rw [if_neg hn]
  have hwhite : (List.replicate (num_vertices g) Color.white).getD src Color.white =
      Color.white := getD_replicate_white _ _
  have hvisit : depth_first_visit g (ConnectedComponentRecorder src) src
      (List.replicate (num_vertices g) Color.white, c0) =
      .error (.raised (.stop_search c')) := by
    unfold depth_first_visit
    simp only [ConnectedComponentRecorder, ne_eq, not_true_eq_false, if_false]
    exact h1
  simp only [dfs_roots, hwhite, if_true, hvisit]

theorem slow_loop_spec {g : Graph} (hg : g.wf) (hac : Acyclic g) :
    ∀ (us : List Vertex) (c : ComponentsMap), (∀ u ∈ us, u < num_vertices g) →
      MapWf (num_vertices g) c →
      ∃ c', slow_loop g us c = some c' ∧ MapWf (num_vertices g) c' ∧
        ∀ a b, cget c' a b = true ↔ (cget c a b = true ∨ (a ∈ us ∧ Path g a b)) := by
  intro us
  induction us with
  | nil =>
    intro c _ hc
    exact ⟨c, rfl, hc, fun a b => by simp⟩
  | cons u us ih =>
    intro c hus hc
    obtain ⟨c1, h1, h2, h3⟩ := recorder_search_spec hg hac (hus u (List.mem_cons_self _ _)) hc
    obtain ⟨c2, k1, k2, k3⟩ := ih c1 (fun x hx => hus x (List.mem_cons_of_mem _ hx)) h2
    refine ⟨c2, ?_, k2, ?_⟩
    · unfold slow_loop
      rw [h1]
      exact k1
    · intro a b
      rw [k3, h3]
      simp only [List.mem_cons]
      constructor
      · rintro ((h | ⟨rfl, h⟩) | ⟨h, h'⟩)
        · exact Or.inl h
        · exact Or.inr ⟨Or.inl rfl, h⟩
        · exact Or.inr ⟨Or.inr h, h'⟩
      · rintro (h | ⟨rfl | h, h'⟩)
        · exact Or.inl (Or.inl h)
        · exact Or.inl (Or.inr ⟨rfl, h'⟩)
        · exact Or.inr ⟨h, h'⟩

/-- On every well-formed DAG `connected_components_slow` returns, and the map
it returns from an all-false map is the path relation. -/
theorem connected_components_slow_spec {g : Graph} (hg : g.wf) (hac : Acyclic g) :
    ∃ m, connected_components_slow g (emptyMap (num_vertices g)) = some m ∧
      MapWf (num_vertices g) m ∧ ∀ a b, cget m a b = true ↔ Path g a b := by
  obtain ⟨m, h1, h2, h3⟩ := slow_loop_spec hg hac (List.range (num_vertices g))
    (emptyMap (num_vertices g)) (fun u hu => List.mem_range.1 hu) (emptyMap_wf _)
  refine ⟨m, h1, h2, ?_⟩
  intro a b
  rw [h3, cget_emptyMap]
  constructor
  · rintro (h | ⟨_, h⟩)
    · cases h
    · exact h
  · intro h
    exact Or.inr ⟨List.mem_range.2 (path_lt hg h).1, h⟩

theorem map_ext {n : Nat} {m m' : ComponentsMap} (h : MapWf n m) (h' : MapWf n m')
    (he : ∀ a b, cget m a b = cget m' a b) : m = m' := by
  apply List.ext_getElem
  · rw [h.1, h'.1]
  · intro i h1 h2
    have hi : i < n := by rw [← h.1]; exact h1
    have r1 := h.row_length hi
    have r2 := h'.row_length hi
    have e1 : m.getD i [] = m[i] := by
      rw [List.getD_eq_getElem?_getD, List.getElem?_eq_getElem h1]; rfl
    have e2 : m'.getD i [] = m'[i] := by
      rw [List.getD_eq_getElem?_getD, List.getElem?_eq_getElem h2]; rfl
    rw [e1] at r1
    rw [e2] at r2
    apply List.ext_getElem
    · rw [r1, r2]
    · intro j j1 j2
      have := he i j
      unfold cget at this
      rw [e1, e2, List.getD_eq_getElem?_getD, List.getD_eq_getElem?_getD,
        List.getElem?_eq_getElem j1, List.getElem?_eq_getElem j2] at this
      simpa using this

/-- Where `connected_components` finishes, it agrees with the slow version: on a
well-formed DAG in which every vertex is reachable from the root, a map
returned by `connected_components` is the map that `connected_components_slow`
returns. -/
theorem connected_components_agrees_with_slow {g : Graph} (hg : g.wf) (hac : Acyclic g)
    {r : Vertex} (hr : r < num_vertices g)
    (hall : ∀ v, v < num_vertices g → Reach g r v) {fuel : Nat} {m : ComponentsMap}
    (h : connected_components g r (emptyMap (num_vertices g)) fuel = some m) :
    connected_components_slow g (emptyMap (num_vertices g)) = some m := by
  obtain ⟨m', h1, h2, h3⟩ := connected_components_slow_spec hg hac
  rw [h1]
  congr 1
  apply map_ext h2 (connected_components_wf hg hr h)
  intro a b
  have hc := components_eq_path hg hr hall h a b
  cases hb : cget m a b with
  | true => exact (h3 a b).2 (hc.1 hb)
  | false =>
    cases hb' : cget m' a b with
    | false => rfl
    | true =>
      have := hc.2 ((h3 a b).1 hb')
      rw [hb] at this
      cases this

/-- Acceptance by `parse_dag` does not rule out the endless loop of
`connected_components`: `doubleSpawnBlocks` is accepted and yields the graph
`3 → 1`, `3 → 2`, `2 → 1`, `2 → 0`, on which the loop started at root 3 never
empties its stack. -/
theorem parse_dag_accepts_stuck_description :
    parse_dag doubleSpawnBlocks = .ok ⟨⟨[[], [], [1, 0], [1, 2]]⟩, 3, 0, 2⟩ ∧
    ∀ fuel, connected_components ⟨[[], [], [1, 0], [1, 2]]⟩ 3 (emptyMap 4) fuel = none := by
  refine ⟨by decide, ?_⟩
  intro fuel
  have h3 : ∀ k, connected_components ⟨[[], [], [1, 0], [1, 2]]⟩ 3 (emptyMap 4) (k + 3) =
      cc_loop ⟨[[], [], [1, 0], [1, 2]]⟩ k
        ⟨[2, 1, 3], [true, true, true, true], [true, false, false, false], emptyMap 4⟩ := by
    intro k
    have e1 : cc_step ⟨[[], [], [1, 0], [1, 2]]⟩ 3
        (cc_init ⟨[[], [], [1, 0], [1, 2]]⟩ 3 (emptyMap 4)) =
        ⟨[2, 1, 3], [false, true, true, true], [false, false, false, false], emptyMap 4⟩ := by
      decide
    have e2 : cc_step ⟨[[], [], [1, 0], [1, 2]]⟩ 2
        ⟨[2, 1, 3], [false, true, true, true], [false, false, false, false], emptyMap 4⟩ =
        ⟨[0, 2, 1, 3], [true, true, true, true], [false, false, false, false], emptyMap 4⟩ := by
      decide
    have e3 : cc_step ⟨[[], [], [1, 0], [1, 2]]⟩ 0
        ⟨[0, 2, 1, 3], [true, true, true, true], [false, false, false, false], emptyMap 4⟩ =
        ⟨[2, 1, 3], [true, true, true, true], [true, false, false, false], emptyMap 4⟩ := by
      decide
    show cc_loop _ (k + 3) (cc_init _ 3 (emptyMap 4)) = _
    rw [cc_loop]
    show cc_loop _ (k + 2) (cc_step _ 3 (cc_init _ 3 (emptyMap 4))) = _
    rw [e1, cc_loop]
    show cc_loop _ (k + 1) (cc_step _ 2 _) = _
    rw [e2, cc_loop]
    show cc_loop _ k (cc_step _ 0 _) = _
    rw [e3]
  by_cases hf : 3 ≤ fuel
  · obtain ⟨k, rfl⟩ := Nat.exists_eq_add_of_le' hf
    rw [h3 k]
    exact cc_loop_stuck _ _ 2 [1, 3] rfl (by decide) k
  · have hlt : fuel < 3 := Nat.lt_of_not_le hf
    interval_cases fuel <;> decide

/-! ## Frame of analyze_shared_access -/

theorem analyze_classify {ms ms' : MemStats} {g : Graph} {r e : Vertex} {fuel : Nat}
    (h : analyze_shared_access ms g r e fuel = some ms') :
    ∃ c, classify (num_vertices g) c ms = some ms' := by
  unfold analyze_shared_access at h
  split at h
  · cases h
  split at h
  · cases h
  split at h
  · cases h
  · rename_i c _
    split at h
    · exact ⟨c, h⟩
    · cases h

theorem eraseFlag_eq_with {r r' : AddrAccessStats} (h : eraseFlag r' = eraseFlag r) :
    r' = { r with is_shared := r'.is_shared } := by
  cases r
  cases r'
  simp only [eraseFlag, AddrAccessStats.mk.injEq] at h ⊢
  tauto

/-- C11: `analyze_shared_access` changes nothing but `is_shared` flags, and
those only from false to true: the output has the same vertices, the same keys
in the same order and the same record fields as the input (`shape`), every
record of the input is found under its key in the output with all fields but
`is_shared` unchanged, and a record that is shared on entry is shared on exit. -/
theorem analyze_only_sets_flags (ms ms' : MemStats) (g : Graph) (r e : Vertex) (fuel : Nat)
    (h : analyze_shared_access ms g r e fuel = some ms') :
    shape ms' = shape ms ∧
    ∀ v a rec, mfind (ms.getD v []) a = some rec →
      ∃ rec', mfind (ms'.getD v []) a = some rec' ∧
        rec' = { rec with is_shared := rec'.is_shared } ∧
        (rec.is_shared = true → rec'.is_shared = true) := by
  obtain ⟨c, hc⟩ := analyze_classify h
  obtain ⟨hs, hm, _⟩ := classify_spec hc
  refine ⟨hs.1, ?_⟩
  intro v a rec hrec
  obtain ⟨rec', hrec', her⟩ := mfind_some_of_shapeM (shape_getD hs.1.symm v) hrec
  refine ⟨rec', hrec', eraseFlag_eq_with her, ?_⟩
  intro hsh
  have := hm v a (by rw [flag_of_mfind hrec]; exact hsh)
  rw [flag_of_mfind hrec'] at this
  exact this

/-- Witness for C11, Scenario C: the record of vertex 1 keeps its fields and
its flag goes from private to shared. -/
theorem analyze_only_sets_flags_witness :
    analyze_shared_access scenarioC forkGraph 0 3 20 =
      some [[mkRecord 0 1 4096 false], [mkShared 1 1 4096 false], [mkShared 2 2 4096 false], []] ∧
    shape [[mkRecord 0 1 4096 false], [mkShared 1 1 4096 false], [mkShared 2 2 4096 false], []] =
      shape scenarioC :=
  ⟨by decide, (analyze_only_sets_flags scenarioC _ forkGraph 0 3 20 (by decide)).1⟩

/-! ## Latency constants -/

theorem selectLatency_l1 (n : Int) : (selectLatency n).wcl_l1 = 1 := by
  unfold selectLatency
  split
  · rfl
  · split <;> rfl

/-- C16 (amended): the local-hit latency is 1 for every core count, and for
core counts `n1 ≤ n2` with `n1` equal to 2, equal to 4 or at least 5 the
last-level and memory latencies selected for `n1` are at most those selected
for `n2`. -/
theorem selectLatency_monotone (n1 n2 : Int) (h : n1 ≤ n2)
    (hn1 : n1 = 2 ∨ n1 = 4 ∨ 5 ≤ n1) :
    (selectLatency n1).wcl_l1 = 1 ∧ (selectLatency n2).wcl_l1 = 1 ∧
    (selectLatency n1).wcl_llc ≤ (selectLatency n2).wcl_llc ∧
    (selectLatency n1).wcl_mem ≤ (selectLatency n2).wcl_mem := by
  refine ⟨selectLatency_l1 n1, selectLatency_l1 n2, ?_, ?_⟩
  · unfold selectLatency
    split_ifs <;> simp only <;> omega
  · unfold selectLatency
    split_ifs <;> simp only <;> omega

/-- Witness for C16 (amended): from 2 cores to 4 cores the latencies grow from
87 and 568 to 175 and 1063. -/
theorem selectLatency_monotone_witness :
    (selectLatency 2).wcl_l1 = 1 ∧ (selectLatency 4).wcl_l1 = 1 ∧
    (selectLatency 2).wcl_llc ≤ (selectLatency 4).wcl_llc ∧
    (selectLatency 2).wcl_mem ≤ (selectLatency 4).wcl_mem :=
  selectLatency_monotone 2 4 (by decide) (Or.inl rfl)

/-- C16 (counterexample): one core selects the constants of the `else` branch,
431 and 2065, which are larger than the constants 87 and 568 selected for two
cores, although `1 ≤ 2`; likewise three cores against four. -/
theorem selectLatency_not_monotone :
    (1 : Int) ≤ 2 ∧
    (selectLatency 1).wcl_llc = 431 ∧ (selectLatency 2).wcl_llc = 87 ∧
    (selectLatency 1).wcl_mem = 2065 ∧ (selectLatency 2).wcl_mem = 568 ∧
    ¬ (selectLatency 1).wcl_llc ≤ (selectLatency 2).wcl_llc ∧
    ¬ (selectLatency 1).wcl_mem ≤ (selectLatency 2).wcl_mem ∧
    (3 : Int) ≤ 4 ∧
    ¬ (selectLatency 3).wcl_llc ≤ (selectLatency 4).wcl_llc ∧
    ¬ (selectLatency 3).wcl_mem ≤ (selectLatency 4).wcl_mem := by
  decide

/-! ## The cost model -/

theorem accumulate_eq (lat : Latency) (acc : Wcl) (r : AddrAccessStats) :
    accumulate lat acc r =
      ⟨add64 acc.share (chargeMem lat r), add64 acc.color (colorCharge lat r),
        add64 acc.par (parCharge lat r), add64 acc.color_pri_inst (cpiCharge lat r)⟩ := by
  unfold accumulate colorCharge parCharge cpiCharge
  cases r.is_ifetch <;> cases r.is_shared <;> simp

theorem foldl_accumulate (lat : Latency) (rs : List AddrAccessStats) :
    ∀ acc : Wcl, rs.foldl (accumulate lat) acc =
      ⟨sumCharges (chargeMem lat) rs acc.share, sumCharges (colorCharge lat) rs acc.color,
        sumCharges (parCharge lat) rs acc.par,
        sumCharges (cpiCharge lat) rs acc.color_pri_inst⟩ := by
  induction rs with
  | nil => intro acc; rfl
  | cons r rs ih =>
    intro acc
    simp only [List.foldl_cons, sumCharges]
    rw [ih, accumulate_eq]
    rfl

theorem vertexWeights_eq (lat : Latency) (m : AddrMap) (exec_cycles : Nat) :
    vertexWeights lat m exec_cycles =
      [add64 (sumCharges (chargeMem lat) (m.map Prod.snd) 0) exec_cycles,
        add64 (sumCharges (colorCharge lat) (m.map Prod.snd) 0) exec_cycles,
        add64 (sumCharges (parCharge lat) (m.map Prod.snd) 0) exec_cycles,
        add64 (sumCharges (cpiCharge lat) (m.map Prod.snd) 0) exec_cycles] := by
  unfold vertexWeights
  simp only [foldl_accumulate]

theorem add64_exact {a b : Nat} (h : a + b < 2 ^ 64) : add64 a b = a + b :=
  Nat.mod_eq_of_lt h

/-- The accumulating loop is exact when the exact total fits in 64 bits and
every charge is exact whenever its exact value fits. -/
theorem sumCharges_exact (fw f : AddrAccessStats → Nat) (rs : List AddrAccessStats) :
    ∀ a0, a0 + (rs.map f).sum < 2 ^ 64 → (∀ r ∈ rs, f r < 2 ^ 64 → fw r = f r) →
      sumCharges fw rs a0 = a0 + (rs.map f).sum := by
  induction rs with
  | nil => intro a0 _ _; rfl
  | cons r rs ih =>
    intro a0 h hf
    simp only [List.map_cons, List.sum_cons] at h
    have hr : fw r = f r := hf r (List.mem_cons_self _ _) (by omega)
    simp only [sumCharges, List.foldl_cons, List.map_cons, List.sum_cons]
    rw [hr, add64_exact (by omega)]
    have := ih (a0 + f r) (by omega) (fun x hx => hf x (List.mem_cons_of_mem _ hx))
    simp only [sumCharges] at this
    rw [this]
    omega

theorem chargeMem_exact (n : Int) (r : AddrAccessStats)
    (h : totalExact r * (selectLatency n).wcl_mem < 2 ^ 64) :
    chargeMem (selectLatency n) r = totalExact r * (selectLatency n).wcl_mem := by
  unfold chargeMem totalAccess totalExact mul64 add64 selectLatency at *
  split_ifs at h ⊢ <;> simp only at h ⊢ <;> omega

theorem chargeObserved_exact (n : Int) (r : AddrAccessStats)
    (h : observedExact (selectLatency n) r < 2 ^ 64) :
    chargeObserved (selectLatency n) r = observedExact (selectLatency n) r := by
  unfold chargeObserved observedExact llcHits mul64 add64 selectLatency at *
  split_ifs at h ⊢ <;> simp only at h ⊢ <;> omega

theorem chargePromoted_exact (n : Int) (r : AddrAccessStats)
    (h : promotedExact (selectLatency n) r < 2 ^ 64) :
    chargePromoted (selectLatency n) r = promotedExact (selectLatency n) r := by
  unfold chargePromoted promotedExact llcHits mul64 add64 selectLatency at *
  split_ifs at h ⊢ <;> simp only at h ⊢ <;> omega

theorem colorCharge_exact (n : Int) (r : AddrAccessStats)
    (h : colorExact (selectLatency n) r < 2 ^ 64) :
    colorCharge (selectLatency n) r = colorExact (selectLatency n) r := by
  unfold colorCharge colorExact at *
  split_ifs at h ⊢
  · exact chargeMem_exact n r h
  · exact chargeObserved_exact n r h

theorem parCharge_exact (n : Int) (r : AddrAccessStats)
    (h : parExact (selectLatency n) r < 2 ^ 64) :
    parCharge (selectLatency n) r = parExact (selectLatency n) r := by
  unfold parCharge parExact at *
  split_ifs at h ⊢
  · exact chargePromoted_exact n r h
  · exact chargeObserved_exact n r h

theorem populateLoop_get (lat : Latency) (ex : List Nat) :
    ∀ (rest : List AddrMap) (k : Nat) (ws : List (List Nat)),
      populateLoop lat ex rest k = some ws →
      ws.length = rest.length ∧
      ∀ j, j < rest.length → ∃ exec, ex.get? (k + j) = some exec ∧
        ws.getD j [] = vertexWeights lat (rest.getD j []) exec := by
  intro rest
  induction rest with
  | nil =>
    intro k ws h
    simp only [populateLoop, Option.some.injEq] at h
    subst h
    exact ⟨rfl, fun j hj => by cases hj⟩
  | cons m rest ih =>
    intro k ws h
    unfold populateLoop at h
    cases he : ex.get? k with
    | none => rw [he] at h; cases h
    | some exec =>
      rw [he] at h
      simp only at h
      cases hr : populateLoop lat ex rest (k + 1) with
      | none => rw [hr] at h; cases h
      | some ws' =>
        rw [hr] at h
        simp only [Option.some.injEq] at h
        subst h
        obtain ⟨hl, hj⟩ := ih (k + 1) ws' hr
        refine ⟨by simp [hl], ?_⟩
        intro j hjlt
        cases j with
        | zero => exact ⟨exec, he, rfl⟩
        | succ j =>
          obtain ⟨exec', h1, h2⟩ := hj j (by simpa using hjlt)
          refine ⟨exec', ?_, ?_⟩
          · rw [← h1]; congr 1; omega
          · simpa using h2

/-- Row `v` of the weight map is the weight vector of vertex `v`. -/
theorem populate_row {ms : MemStats} {ex : List Nat} {n : Int} {wm : List (List Nat)}
    (h : populate_vertex_weight ms ex n = some wm) {v : Nat} (hv : v < ms.length) :
    wm.length = ms.length ∧ v < ex.length ∧
    wm.getD v [] = vertexWeights (selectLatency n) (ms.getD v []) (ex.getD v 0) := by
  obtain ⟨hl, hj⟩ := populateLoop_get _ _ _ _ _ h
  obtain ⟨exec, h1, h2⟩ := hj v hv
  rw [Nat.zero_add] at h1
  have hlt : v < ex.length := by
    by_contra hc
    rw [List.get?_eq_none.2 (Nat.le_of_not_lt hc)] at h1
    cases h1
  refine ⟨hl, hlt, ?_⟩
  rw [h2]
  congr 1
  rw [List.getD_eq_getElem?_getD, ← List.get?_eq_getElem?, h1]
  rfl

theorem sum_map_mul_const (rs : List AddrAccessStats) (f : AddrAccessStats → Nat) (c : Nat) :
    (rs.map (fun r => f r * c)).sum = c * (rs.map f).sum := by
  induction rs with
  | nil => simp
  | cons r rs ih =>
    simp only [List.map_cons, List.sum_cons, ih]
    ring

theorem getD_weights (a b c d : Nat) :
    [a, b, c, d].getD SHARE 0 = a ∧ [a, b, c, d].getD COLOR 0 = b ∧
    [a, b, c, d].getD PAR 0 = c ∧ [a, b, c, d].getD COLOR_PRIVATE_INST 0 = d :=
  ⟨rfl, rfl, rfl, rfl⟩

theorem sumCharges_modEq (fw f : AddrAccessStats → Nat)
    (hf : ∀ r, fw r % 2 ^ 64 = f r % 2 ^ 64) (rs : List AddrAccessStats) :
    ∀ a0, sumCharges fw rs a0 % 2 ^ 64 = (a0 + (rs.map f).sum) % 2 ^ 64 := by
  induction rs with
  | nil => intro a0; rfl
  | cons r rs ih =>
    intro a0
    have h1 := ih (add64 a0 (fw r))
    have h2 := hf r
    simp only [sumCharges, List.foldl_cons, List.map_cons, List.sum_cons] at h1 ⊢
    rw [h1]
    unfold add64
    omega

theorem chargeMem_modEq (n : Int) (r : AddrAccessStats) :
    chargeMem (selectLatency n) r % 2 ^ 64 =
      (totalExact r * (selectLatency n).wcl_mem) % 2 ^ 64 := by
  unfold chargeMem totalAccess totalExact mul64 add64 selectLatency
  split_ifs <;> simp only <;> omega

theorem chargeObserved_modEq (n : Int) (r : AddrAccessStats) :
    chargeObserved (selectLatency n) r % 2 ^ 64 = observedExact (selectLatency n) r % 2 ^ 64 := by
  unfold chargeObserved observedExact llcHits mul64 add64 selectLatency
  split_ifs <;> simp only <;> omega

theorem chargePromoted_modEq (n : Int) (r : AddrAccessStats) :
    chargePromoted (selectLatency n) r % 2 ^ 64 = promotedExact (selectLatency n) r % 2 ^ 64 := by
  unfold chargePromoted promotedExact llcHits mul64 add64 selectLatency
  split_ifs <;> simp only <;> omega

theorem colorCharge_modEq (n : Int) (r : AddrAccessStats) :
    colorCharge (selectLatency n) r % 2 ^ 64 = colorExact (selectLatency n) r % 2 ^ 64 := by
  unfold colorCharge colorExact
  split_ifs
  · exact chargeMem_modEq n r
  · exact chargeObserved_modEq n r

theorem parCharge_modEq (n : Int) (r : AddrAccessStats) :
    parCharge (selectLatency n) r % 2 ^ 64 = parExact (selectLatency n) r % 2 ^ 64 := by
  unfold parCharge parExact
  split_ifs
  · exact chargePromoted_modEq n r
  · exact chargeObserved_modEq n r

/-- A weight is the exact sum reduced modulo `2 ^ 64`. -/
theorem weight_modEq (fw f : AddrAccessStats → Nat)
    (hf : ∀ r, fw r % 2 ^ 64 = f r % 2 ^ 64) (rs : List AddrAccessStats) (exec : Nat) :
    add64 (sumCharges fw rs 0) exec = (exec + (rs.map f).sum) % 2 ^ 64 := by
  have h := sumCharges_modEq fw f hf rs 0
  unfold add64
  omega

/-- The function returns whenever the execution-cycle table covers every
vertex. -/
theorem populateLoop_returns (lat : Latency) (ex : List Nat) :
    ∀ (rest : List AddrMap) (k : Nat), k + rest.length ≤ ex.length →
      ∃ ws, populateLoop lat ex rest k = some ws := by
  intro rest
  induction rest with
  | nil => intro k _; exact ⟨[], rfl⟩
  | cons m rest ih =>
    intro k hk
    simp only [List.length_cons] at hk
    obtain ⟨ws, hws⟩ := ih (k + 1) (by omega)
    have hk' : k < ex.length := by omega
    refine ⟨vertexWeights lat m ex[k] :: ws, ?_⟩
    simp only [populateLoop, List.get?_eq_getElem?, List.getElem?_eq_getElem hk', hws]

theorem populate_returns (ms : MemStats) (ex : List Nat) (n : Int)
    (hlen : ms.length ≤ ex.length) : ∃ wm, populate_vertex_weight ms ex n = some wm :=
  populateLoop_returns (selectLatency n) ex ms 0 (by omega)

/-- C12: `populate_vertex_weight` returns whenever the execution-cycle table
covers every vertex, and `weights[SHARE]` of every vertex is its
execution-cycle count plus the memory latency times the total number of
accesses of all its records, whatever their `is_shared` and `is_ifetch` flags:
in 64-bit unsigned arithmetic always, and as natural numbers when that value is
below `2 ^ 64`; the memory latency is 568 for 2 cores, 1063 for 4 cores and
2065 otherwise. -/
theorem weight_share (ms : MemStats) (ex : List Nat) (n : Int)
    (hlen : ms.length ≤ ex.length) :
    ∃ wm, populate_vertex_weight ms ex n = some wm ∧ wm.length = ms.length ∧
      (∀ v, v < ms.length →
        (wm.getD v []).getD SHARE 0 =
          (ex.getD v 0 + (selectLatency n).wcl_mem *
            ((ms.getD v []).map (fun e => totalExact e.2)).sum) % 2 ^ 64 ∧
        (ex.getD v 0 + (selectLatency n).wcl_mem *
            ((ms.getD v []).map (fun e => totalExact e.2)).sum < 2 ^ 64 →
          (wm.getD v []).getD SHARE 0 =
            ex.getD v 0 + (selectLatency n).wcl_mem *
              ((ms.getD v []).map (fun e => totalExact e.2)).sum)) ∧
      (selectLatency n).wcl_mem = (if n = 2 then 568 else if n = 4 then 1063 else 2065) := by
  obtain ⟨wm, h⟩ := populate_returns ms ex n hlen
  refine ⟨wm, h, (populateLoop_get _ _ _ _ _ h).1, fun v hv => ?_, ?_⟩
  · have hmod : (wm.getD v []).getD SHARE 0 =
        (ex.getD v 0 + (selectLatency n).wcl_mem *
          ((ms.getD v []).map (fun e => totalExact e.2)).sum) % 2 ^ 64 := by
      obtain ⟨_, _, hrow⟩ := populate_row h hv
      rw [hrow, vertexWeights_eq, (getD_weights _ _ _ _).1]
      have hsum : (((ms.getD v []).map Prod.snd).map
          (fun r => totalExact r * (selectLatency n).wcl_mem)).sum =
          (selectLatency n).wcl_mem * ((ms.getD v []).map (fun e => totalExact e.2)).sum := by
        rw [sum_map_mul_const, List.map_map]
        rfl
      rw [weight_modEq _ _ (chargeMem_modEq n), hsum]
    exact ⟨hmod, fun hov => by rw [hmod, Nat.mod_eq_of_lt hov]⟩
  · unfold selectLatency
    split_ifs <;> rfl

/-- Witness for C12: one vertex with 100 execution cycles and two records of
one access each, on 2 cores: `100 + 568 * 2 = 1236`. -/
theorem weight_share_witness :
    populate_vertex_weight costStats [100] 2 = some [[1236, 669, 102, 102]] ∧
    100 + 568 * 2 = 1236 ∧
    ∃ wm, populate_vertex_weight costStats [100] 2 = some wm ∧
      wm.length = costStats.length ∧
      (∀ v, v < costStats.length →
        (wm.getD v []).getD SHARE 0 =
          (([100] : List Nat).getD v 0 + (selectLatency 2).wcl_mem *
            ((costStats.getD v []).map (fun e => totalExact e.2)).sum) % 2 ^ 64 ∧
        (([100] : List Nat).getD v 0 + (selectLatency 2).wcl_mem *
            ((costStats.getD v []).map (fun e => totalExact e.2)).sum < 2 ^ 64 →
          (wm.getD v []).getD SHARE 0 =
            ([100] : List Nat).getD v 0 + (selectLatency 2).wcl_mem *
              ((costStats.getD v []).map (fun e => totalExact e.2)).sum)) ∧
      (selectLatency 2).wcl_mem = (if (2 : Int) = 2 then 568 else
        if (2 : Int) = 4 then 1063 else 2065) :=
  ⟨by decide, by decide, weight_share costStats [100] 2 (by decide)⟩

/-- C13: `populate_vertex_weight` returns whenever the execution-cycle table
covers every vertex, and `weights[COLOR]` of every vertex is its
execution-cycle count plus, summed over its records, total accesses times the
memory latency for a shared record and the observed cost
`l1 hits * l1 + (remote l1 hits + l2 hits) * llc + memory accesses * mem`
for a private record: in 64-bit unsigned arithmetic always, and as natural
numbers when that value is below `2 ^ 64`. -/
theorem weight_color (ms : MemStats) (ex : List Nat) (n : Int)
    (hlen : ms.length ≤ ex.length) :
    ∃ wm, populate_vertex_weight ms ex n = some wm ∧
      ∀ v, v < ms.length →
        (wm.getD v []).getD COLOR 0 =
          (ex.getD v 0 + ((ms.getD v []).map (fun e =>
            if e.2.is_shared = true then totalExact e.2 * (selectLatency n).wcl_mem
            else observedExact (selectLatency n) e.2)).sum) % 2 ^ 64 ∧
        (ex.getD v 0 + ((ms.getD v []).map (fun e =>
            if e.2.is_shared = true then totalExact e.2 * (selectLatency n).wcl_mem
            else observedExact (selectLatency n) e.2)).sum < 2 ^ 64 →
          (wm.getD v []).getD COLOR 0 =
            ex.getD v 0 + ((ms.getD v []).map (fun e =>
              if e.2.is_shared = true then totalExact e.2 * (selectLatency n).wcl_mem
              else observedExact (selectLatency n) e.2)).sum) := by
  obtain ⟨wm, h⟩ := populate_returns ms ex n hlen
  refine ⟨wm, h, fun v hv => ?_⟩
  have hmod : (wm.getD v []).getD COLOR 0 =
      (ex.getD v 0 + ((ms.getD v []).map (fun e =>
        if e.2.is_shared = true then totalExact e.2 * (selectLatency n).wcl_mem
        else observedExact (selectLatency n) e.2)).sum) % 2 ^ 64 := by
    obtain ⟨_, _, hrow⟩ := populate_row h hv
    rw [hrow, vertexWeights_eq, (getD_weights _ _ _ _).2.1]
    have hsum : (((ms.getD v []).map Prod.snd).map (colorExact (selectLatency n))).sum =
        ((ms.getD v []).map (fun e =>
          if e.2.is_shared = true then totalExact e.2 * (selectLatency n).wcl_mem
          else observedExact (selectLatency n) e.2)).sum := by
      rw [List.map_map]
      rfl
    rw [weight_modEq _ _ (colorCharge_modEq n), hsum]
  exact ⟨hmod, fun hov => by rw [hmod, Nat.mod_eq_of_lt hov]⟩

/-- Witness for C13: the private data record costs its observed `1`, the
shared instruction record `568`: `100 + 1 + 568 = 669`. -/
theorem weight_color_witness :
    populate_vertex_weight costStats [100] 2 = some [[1236, 669, 102, 102]] ∧
    100 + 1 + 568 = 669 ∧
    ∃ wm, populate_vertex_weight costStats [100] 2 = some wm ∧
      ∀ v, v < costStats.length →
        (wm.getD v []).getD COLOR 0 =
          (([100] : List Nat).getD v 0 + ((costStats.getD v []).map (fun e =>
            if e.2.is_shared = true then totalExact e.2 * (selectLatency 2).wcl_mem
            else observedExact (selectLatency 2) e.2)).sum) % 2 ^ 64 ∧
        (([100] : List Nat).getD v 0 + ((costStats.getD v []).map (fun e =>
            if e.2.is_shared = true then totalExact e.2 * (selectLatency 2).wcl_mem
            else observedExact (selectLatency 2) e.2)).sum < 2 ^ 64 →
          (wm.getD v []).getD COLOR 0 =
            ([100] : List Nat).getD v 0 + ((costStats.getD v []).map (fun e =>
              if e.2.is_shared = true then totalExact e.2 * (selectLatency 2).wcl_mem
              else observedExact (selectLatency 2) e.2)).sum) :=
  ⟨by decide, by decide, weight_color costStats [100] 2 (by decide)⟩

/-- C14: `populate_vertex_weight` returns whenever the execution-cycle table
covers every vertex, and `weights[PAR]` of every vertex is its execution-cycle
count plus, summed over its records,
`(l1 hits + remote l1 hits + l2 hits) * llc + memory accesses * mem` for a
shared data record and the observed cost for every other record: in 64-bit
unsigned arithmetic always, and as natural numbers when that value is below
`2 ^ 64`. -/
theorem weight_par (ms : MemStats) (ex : List Nat) (n : Int)
    (hlen : ms.length ≤ ex.length) :
    ∃ wm, populate_vertex_weight ms ex n = some wm ∧
      ∀ v, v < ms.length →
        (wm.getD v []).getD PAR 0 =
          (ex.getD v 0 + ((ms.getD v []).map (fun e =>
            if e.2.is_shared = true ∧ e.2.is_ifetch = false then
              promotedExact (selectLatency n) e.2
            else observedExact (selectLatency n) e.2)).sum) % 2 ^ 64 ∧
        (ex.getD v 0 + ((ms.getD v []).map (fun e =>
            if e.2.is_shared = true ∧ e.2.is_ifetch = false then
              promotedExact (selectLatency n) e.2
            else observedExact (selectLatency n) e.2)).sum < 2 ^ 64 →
          (wm.getD v []).getD PAR 0 =
            ex.getD v 0 + ((ms.getD v []).map (fun e =>
              if e.2.is_shared = true ∧ e.2.is_ifetch = false then
                promotedExact (selectLatency n) e.2
              else observedExact (selectLatency n) e.2)).sum) := by
  obtain ⟨wm, h⟩ := populate_returns ms ex n hlen
  refine ⟨wm, h, fun v hv => ?_⟩
  have hmod : (wm.getD v []).getD PAR 0 =
      (ex.getD v 0 + ((ms.getD v []).map (fun e =>
        if e.2.is_shared = true ∧ e.2.is_ifetch = false then
          promotedExact (selectLatency n) e.2
        else observedExact (selectLatency n) e.2)).sum) % 2 ^ 64 := by
    obtain ⟨_, _, hrow⟩ := populate_row h hv
    rw [hrow, vertexWeights_eq, (getD_weights _ _ _ _).2.2.1]
    have hsum : (((ms.getD v []).map Prod.snd).map (parExact (selectLatency n))).sum =
        ((ms.getD v []).map (fun e =>
          if e.2.is_shared = true ∧ e.2.is_ifetch = false then
            promotedExact (selectLatency n) e.2
          else observedExact (selectLatency n) e.2)).sum := by
      rw [List.map_map]
      rfl
    rw [weight_modEq _ _ (parCharge_modEq n), hsum]
  exact ⟨hmod, fun hov => by rw [hmod, Nat.mod_eq_of_lt hov]⟩

/-- Witness for C14: a shared data record with 3 + 4 + 5 hits and 6 memory
accesses on 4 cores: `100 + 12 * 175 + 6 * 1063 = 8578`. -/
theorem weight_par_witness :
    populate_vertex_weight sharedDataStats [100] 4 = some [[19234, 19234, 8578, 19234]] ∧
    100 + 12 * 175 + 6 * 1063 = 8578 ∧
    ∃ wm, populate_vertex_weight sharedDataStats [100] 4 = some wm ∧
      ∀ v, v < sharedDataStats.length →
        (wm.getD v []).getD PAR 0 =
          (([100] : List Nat).getD v 0 + ((sharedDataStats.getD v []).map (fun e =>
            if e.2.is_shared = true ∧ e.2.is_ifetch = false then
              promotedExact (selectLatency 4) e.2
            else observedExact (selectLatency 4) e.2)).sum) % 2 ^ 64 ∧
        (([100] : List Nat).getD v 0 + ((sharedDataStats.getD v []).map (fun e =>
            if e.2.is_shared = true ∧ e.2.is_ifetch = false then
              promotedExact (selectLatency 4) e.2
            else observedExact (selectLatency 4) e.2)).sum < 2 ^ 64 →
          (wm.getD v []).getD PAR 0 =
            ([100] : List Nat).getD v 0 + ((sharedDataStats.getD v []).map (fun e =>
              if e.2.is_shared = true ∧ e.2.is_ifetch = false then
                promotedExact (selectLatency 4) e.2
              else observedExact (selectLatency 4) e.2)).sum) :=
  ⟨by decide, by decide, weight_par sharedDataStats [100] 4 (by decide)⟩

theorem cpiCharge_eq_color (lat : Latency) (r : AddrAccessStats) :
    cpiCharge lat r = colorCharge lat (clearInstRecord r) := by
  obtain ⟨bb, tid, a, la, f, l1, r1, l2, mem, reg, sh⟩ := r
  cases f <;> cases sh <;>
    simp [cpiCharge, colorCharge, clearInstRecord, chargeMem, chargeObserved, totalAccess,
      llcHits]

theorem sumCharges_map (f : AddrAccessStats → Nat) (c : AddrAccessStats → AddrAccessStats)
    (rs : List AddrAccessStats) (a0 : Nat) :
    sumCharges f (rs.map c) a0 = sumCharges (fun r => f (c r)) rs a0 := by
  unfold sumCharges
  rw [List.foldl_map]

theorem populateLoop_map (lat : Latency) (ex : List Nat) (F : AddrMap → AddrMap) :
    ∀ (rest : List AddrMap) (k : Nat) (ws : List (List Nat)),
      populateLoop lat ex rest k = some ws →
      ∃ ws', populateLoop lat ex (rest.map F) k = some ws' := by
  intro rest
  induction rest with
  | nil => intro k ws _; exact ⟨[], rfl⟩
  | cons m rest ih =>
    intro k ws h
    unfold populateLoop at h
    cases he : ex.get? k with
    | none => rw [he] at h; cases h
    | some exec =>
      rw [he] at h
      simp only at h
      cases hr : populateLoop lat ex rest (k + 1) with
      | none => rw [hr] at h; cases h
      | some ws1 =>
        obtain ⟨ws2, h2⟩ := ih (k + 1) ws1 hr
        refine ⟨vertexWeights lat (F m) exec :: ws2, ?_⟩
        simp only [List.map_cons, populateLoop, he, h2]

theorem getD_clearInstShared (ms : MemStats) (v : Nat) :
    (clearInstShared ms).getD v [] =
      (ms.getD v []).map (fun e => (e.1, clearInstRecord e.2)) := by
  unfold clearInstShared clearInstRecord
  simp only [List.getD_eq_getElem?_getD, List.getElem?_map]
  cases ms[v]? <;> rfl

/-- C15: `populate_vertex_weight` returns on the input and on the input with
the `is_shared` flag of every instruction-fetch record cleared whenever the
execution-cycle table covers every vertex, and `weights[COLOR_PRIVATE_INST]` of
every vertex for the original input is the `weights[COLOR]` computed from the
cleared input. -/
theorem weight_color_private_inst (ms : MemStats) (ex : List Nat) (n : Int)
    (hlen : ms.length ≤ ex.length) :
    ∃ wm wm', populate_vertex_weight ms ex n = some wm ∧
      populate_vertex_weight (clearInstShared ms) ex n = some wm' ∧
      ∀ v, v < ms.length →
        (wm.getD v []).getD COLOR_PRIVATE_INST 0 = (wm'.getD v []).getD COLOR 0 := by
  obtain ⟨wm, h⟩ := populate_returns ms ex n hlen
  obtain ⟨wm', h'⟩ := populateLoop_map (selectLatency n) ex
    (fun m => m.map (fun e => (e.1, if e.2.is_ifetch = true then
      { e.2 with is_shared := false } else e.2))) ms 0 wm h
  refine ⟨wm, wm', h, h', ?_⟩
  intro v hv
  have h'' : populate_vertex_weight (clearInstShared ms) ex n = some wm' := h'
  obtain ⟨_, _, hrow⟩ := populate_row h hv
  obtain ⟨_, _, hrow'⟩ := populate_row h'' (by simpa [clearInstShared] using hv)
  rw [hrow, hrow', vertexWeights_eq, vertexWeights_eq, (getD_weights _ _ _ _).2.2.2,
    (getD_weights _ _ _ _).2.1, getD_clearInstShared]
  congr 1
  rw [List.map_map]
  have : (Prod.snd ∘ fun e : Addr × AddrAccessStats => (e.1, clearInstRecord e.2)) =
      clearInstRecord ∘ Prod.snd := rfl
  rw [this, ← List.map_map, sumCharges_map]
  congr 1
  funext r
  exact cpiCharge_eq_color _ r

/-- Witness for C15: with the instruction record cleared, `weights[COLOR]` is
`100 + 1 + 1 = 102`, the `weights[COLOR_PRIVATE_INST]` of the original input. -/
theorem weight_color_private_inst_witness :
    populate_vertex_weight costStats [100] 2 = some [[1236, 669, 102, 102]] ∧
    populate_vertex_weight (clearInstShared costStats) [100] 2 =
      some [[1236, 102, 102, 102]] ∧
    ∃ wm wm', populate_vertex_weight costStats [100] 2 = some wm ∧
      populate_vertex_weight (clearInstShared costStats) [100] 2 = some wm' ∧
      ∀ v, v < costStats.length →
        (wm.getD v []).getD COLOR_PRIVATE_INST 0 = (wm'.getD v []).getD COLOR 0 :=
  ⟨by decide, by decide, weight_color_private_inst costStats [100] 2 (by decide)⟩

theorem allSome_eq_some {α : Type} : ∀ (l : List (Option α)) (xs : List α),
    allSome l = some xs ↔ l = xs.map some := by
  intro l
  induction l with
  | nil =>
    intro xs
    cases xs <;> simp [allSome]
  | cons o rest ih =>
    intro xs
    cases o with
    | none => cases xs <;> simp [allSome]
    | some a =>
      cases xs with
      | nil =>
        simp only [allSome, List.map_nil]
        cases allSome rest <;> simp
      | cons x xs =>
        simp only [allSome, List.map_cons, List.cons.injEq, Option.some.injEq]
        rw [← ih xs]
        cases allSome rest <;> simp

theorem compute_WCRTs_of_parts {g : Graph} {wm : List (List Nat)} {n : Int}
    (sv : List Vertex) {cps vols ws : List Nat}
    (h1 : topological_sort g = .ok sv)
    (h2 : allSome ((List.range NUM_CONFIGS).map (criticalPath g wm sv)) = some cps)
    (h3 : allSome ((List.range NUM_CONFIGS).map (fun i => volumeLoop i wm 0)) = some vols)
    (h4 : allSome (List.zipWith (wcrtOf n) cps vols) = some ws) :
    compute_WCRTs g wm n = some ⟨ws, cps, vols⟩ := by
  unfold compute_WCRTs
  simp only [h1, h2, h3, h4]

theorem compute_WCRTs_parts {g : Graph} {wm : List (List Nat)} {n : Int} {res : WcrtResult}
    (h : compute_WCRTs g wm n = some res) :
    ∃ sv, topological_sort g = .ok sv ∧
      allSome ((List.range NUM_CONFIGS).map (criticalPath g wm sv)) = some res.critical_paths ∧
      allSome ((List.range NUM_CONFIGS).map (fun i => volumeLoop i wm 0)) = some res.volumes ∧
      allSome (List.zipWith (wcrtOf n) res.critical_paths res.volumes) = some res.wcrts := by
  unfold compute_WCRTs at h
  cases h1 : topological_sort g with
  | error e => rw [h1] at h; cases h
  | ok sv =>
    rw [h1] at h
    simp only at h
    cases h2 : allSome ((List.range NUM_CONFIGS).map (criticalPath g wm sv)) with
    | none => rw [h2] at h; cases h
    | some cps =>
      rw [h2] at h
      simp only at h
      cases h3 : allSome ((List.range NUM_CONFIGS).map (fun i => volumeLoop i wm 0)) with
      | none => rw [h3] at h; cases h
      | some vols =>
        rw [h3] at h
        simp only at h
        cases h4 : allSome (List.zipWith (wcrtOf n) cps vols) with
        | none => rw [h4] at h; cases h
        | some ws =>
          rw [h4] at h
          cases h
          exact ⟨sv, rfl, h2, rfl, h4⟩

theorem shiftUp_spec (D : Nat) : ∀ (fuel N : Nat), (∃ j, j < fuel ∧ D * 2 ^ 52 ≤ N * 2 ^ j) →
    D * 2 ^ 52 ≤ N * 2 ^ shiftUp fuel N D ∧
      (shiftUp fuel N D = 0 ∨ N * 2 ^ shiftUp fuel N D < D * 2 ^ 53) := by
  intro fuel
  induction fuel with
  | zero => rintro N ⟨j, hj, _⟩; omega
  | succ fuel ih =>
    rintro N ⟨j, hj, hle⟩
    unfold shiftUp
    by_cases h : D * 2 ^ 52 ≤ N
    · rw [if_pos h]
      exact ⟨by simpa using h, Or.inl rfl⟩
    · rw [if_neg h]
      have hj0 : j ≠ 0 := by
        rintro rfl
        exact h (by simpa using hle)
      obtain ⟨j', rfl⟩ : ∃ j', j = j' + 1 := ⟨j - 1, by omega⟩
      have hle' : D * 2 ^ 52 ≤ 2 * N * 2 ^ j' := by
        rw [pow_succ] at hle
        calc D * 2 ^ 52 ≤ N * (2 ^ j' * 2) := hle
          _ = 2 * N * 2 ^ j' := by ring
      obtain ⟨i1, i2⟩ := ih (2 * N) ⟨j', by omega, hle'⟩
      have e : N * 2 ^ (shiftUp fuel (2 * N) D + 1) = 2 * N * 2 ^ shiftUp fuel (2 * N) D := by
        rw [pow_succ]; ring
      rw [e]
      refine ⟨i1, Or.inr ?_⟩
      rcases i2 with i2 | i2
      · rw [i2, pow_zero, Nat.mul_one]
        have : D * 2 ^ 53 = 2 * (D * 2 ^ 52) := by rw [pow_succ]; ring
        omega
      · exact i2

theorem shiftDown_spec (N : Nat) : ∀ (fuel D : Nat), (∃ j, j < fuel ∧ N < D * 2 ^ j * 2 ^ 53) →
    N < D * 2 ^ shiftDown fuel N D * 2 ^ 53 ∧
      (shiftDown fuel N D = 0 ∨ D * 2 ^ shiftDown fuel N D * 2 ^ 52 ≤ N) := by
  intro fuel
  induction fuel with
  | zero => rintro D ⟨j, hj, _⟩; omega
  | succ fuel ih =>
    rintro D ⟨j, hj, hlt⟩
    unfold shiftDown
    by_cases h : N < D * 2 ^ 53
    · rw [if_pos h]
      exact ⟨by simpa using h, Or.inl rfl⟩
    · rw [if_neg h]
      have hj0 : j ≠ 0 := by
        rintro rfl
        exact h (by simpa using hlt)
      obtain ⟨j', rfl⟩ : ∃ j', j = j' + 1 := ⟨j - 1, by omega⟩
      have hlt' : N < 2 * D * 2 ^ j' * 2 ^ 53 := by
        rw [pow_succ] at hlt
        calc N < D * (2 ^ j' * 2) * 2 ^ 53 := hlt
          _ = 2 * D * 2 ^ j' * 2 ^ 53 := by ring
      obtain ⟨i1, i2⟩ := ih (2 * D) ⟨j', by omega, hlt'⟩
      have e : D * 2 ^ (shiftDown fuel N (2 * D) + 1) = 2 * D * 2 ^ shiftDown fuel N (2 * D) := by
        rw [pow_succ]; ring
      rw [e]
      refine ⟨i1, Or.inr ?_⟩
      rcases i2 with i2 | i2
      · rw [i2, pow_zero, Nat.mul_one]
        have : D * 2 ^ 53 = 2 * D * 2 ^ 52 := by rw [pow_succ]; ring
        omega
      · exact i2

theorem nearestEven_spec (N D : Nat) (hD : 0 < D) :
    N / D ≤ nearestEven N D ∧ nearestEven N D ≤ N / D + 1 ∧
      (N % D = 0 → nearestEven N D = N / D) := by
  unfold nearestEven
  refine ⟨?_, ?_, ?_⟩
  · split_ifs <;> omega
  · split_ifs <;> omega
  · intro h
    rw [h, if_pos (by omega)]

/-- The scaling chosen by `toDouble`: the scaled quotient has 53 bits. -/
theorem toDouble_spec (a b : Nat) (ha : 0 < a) (hb : 0 < b) :
    ∃ up down, toDouble a b = (nearestEven (a * 2 ^ up) (b * 2 ^ down) * 2 ^ down, 2 ^ up) ∧
      b * 2 ^ down * 2 ^ 52 ≤ a * 2 ^ up ∧ a * 2 ^ up < b * 2 ^ down * 2 ^ 53 := by
  refine ⟨shiftUp (b + 53) a b, shiftDown (a + 1) a b, ?_, ?_⟩
  · unfold toDouble
    rw [if_neg (by omega)]
  have hup := shiftUp_spec b (b + 53) a ⟨b + 52, by omega, by
    have h1 : b ≤ 2 ^ b := Nat.le_of_lt (Nat.lt_two_pow b)
    calc b * 2 ^ 52 ≤ 2 ^ b * 2 ^ 52 := Nat.mul_le_mul_right _ h1
      _ = 1 * 2 ^ (b + 52) := by rw [pow_add]; ring
      _ ≤ a * 2 ^ (b + 52) := Nat.mul_le_mul_right _ ha⟩
  have hdown := shiftDown_spec a (a + 1) b ⟨a, by omega, by
    have h1 : a < 2 ^ a := Nat.lt_two_pow a
    calc a < 2 ^ a := h1
      _ = 1 * 2 ^ a * 1 := by ring
      _ ≤ b * 2 ^ a * 2 ^ 53 := Nat.mul_le_mul (Nat.mul_le_mul_right _ hb) (Nat.one_le_two_pow)⟩
  by_cases h : b * 2 ^ 52 ≤ a
  · have hu0 : shiftUp (b + 53) a b = 0 := by
      unfold shiftUp
      rw [if_pos h]
    rw [hu0, pow_zero, Nat.mul_one]
    refine ⟨?_, hdown.1⟩
    rcases hdown.2 with h0 | h0
    · rw [h0, pow_zero, Nat.mul_one]; exact h
    · exact h0
  · have hd0 : shiftDown (a + 1) a b = 0 := by
      unfold shiftDown
      rw [if_pos (by
        have : b * 2 ^ 53 = 2 * (b * 2 ^ 52) := by rw [pow_succ]; ring
        omega)]
    rw [hd0, pow_zero, Nat.mul_one]
    refine ⟨hup.1, ?_⟩
    rcases hup.2 with h0 | h0
    · rw [h0, pow_zero, Nat.mul_one] at hup
      exact absurd hup.1 h
    · exact h0

theorem toDouble_den_pos (a b : Nat) : 0 < (toDouble a b).2 := by
  unfold toDouble
  by_cases h : a = 0
  · rw [if_pos h]; exact Nat.one_pos
  · rw [if_neg h]; exact Nat.two_pow_pos _

/-- Rounding does not pass a representable value above: if `a / b ≤ H * 2 ^ i / 2 ^ j`
with `H < 2 ^ 53`, the rounded value is at most `H * 2 ^ i / 2 ^ j`. -/
theorem toDouble_le (a b H i j : Nat) (hb : 0 < b) (hH : H < 2 ^ 53)
    (h : a * 2 ^ j ≤ H * 2 ^ i * b) :
    (toDouble a b).1 * 2 ^ j ≤ H * 2 ^ i * (toDouble a b).2 := by
  by_cases ha : a = 0
  · subst ha
    have : toDouble 0 b = (0, 1) := by unfold toDouble; rw [if_pos rfl]
    rw [this]
    simp
  obtain ⟨up, down, he, h1, _⟩ := toDouble_spec a b (by omega) hb
  rw [he]
  have hD : 0 < b * 2 ^ down := Nat.mul_pos hb (Nat.two_pow_pos _)
  obtain ⟨_, n2, n3⟩ := nearestEven_spec (a * 2 ^ up) (b * 2 ^ down) hD
  generalize nearestEven (a * 2 ^ up) (b * 2 ^ down) = M at n2 n3
  show M * 2 ^ down * 2 ^ j ≤ H * 2 ^ i * 2 ^ up
  have hexp : down + j ≤ up + i := by
    by_contra hc
    have h2 : b * 2 ^ (down + j + 52) < b * 2 ^ (up + i + 53) :=
      calc b * 2 ^ (down + j + 52) = b * 2 ^ down * 2 ^ 52 * 2 ^ j := by
            rw [pow_add, pow_add]; ring
        _ ≤ a * 2 ^ up * 2 ^ j := Nat.mul_le_mul_right _ h1
        _ = 2 ^ up * (a * 2 ^ j) := by ring
        _ ≤ 2 ^ up * (H * 2 ^ i * b) := Nat.mul_le_mul_left _ h
        _ = b * 2 ^ up * 2 ^ i * H := by ring
        _ < b * 2 ^ up * 2 ^ i * 2 ^ 53 :=
          Nat.mul_lt_mul_of_pos_left hH
            (Nat.mul_pos (Nat.mul_pos hb (Nat.two_pow_pos _)) (Nat.two_pow_pos _))
        _ = b * 2 ^ (up + i + 53) := by rw [pow_add, pow_add]; ring
    have h3 := Nat.lt_of_mul_lt_mul_left h2
    have h4 := (Nat.pow_lt_pow_iff_right (by norm_num : 1 < 2)).1 h3
    omega
  obtain ⟨e, hee⟩ : ∃ e, up + i = down + j + e := ⟨up + i - (down + j), by omega⟩
  have hpow : 2 ^ i * 2 ^ up = 2 ^ e * 2 ^ down * 2 ^ j := by
    rw [← pow_add, ← pow_add, ← pow_add]
    congr 1
    omega
  have hND : a * 2 ^ up ≤ (b * 2 ^ down) * (H * 2 ^ e) := by
    have : a * 2 ^ up * 2 ^ j ≤ (b * 2 ^ down) * (H * 2 ^ e) * 2 ^ j :=
      calc a * 2 ^ up * 2 ^ j = 2 ^ up * (a * 2 ^ j) := by ring
        _ ≤ 2 ^ up * (H * 2 ^ i * b) := Nat.mul_le_mul_left _ h
        _ = H * b * (2 ^ i * 2 ^ up) := by ring
        _ = H * b * (2 ^ e * 2 ^ down * 2 ^ j) := by rw [hpow]
        _ = (b * 2 ^ down) * (H * 2 ^ e) * 2 ^ j := by ring
    exact Nat.le_of_mul_le_mul_right this (Nat.two_pow_pos _)
  have hM : M ≤ H * 2 ^ e := by
    by_cases hr : a * 2 ^ up % (b * 2 ^ down) = 0
    · rw [n3 hr]
      exact Nat.div_le_of_le_mul hND
    · have hne : a * 2 ^ up ≠ (b * 2 ^ down) * (H * 2 ^ e) := by
        intro hh
        rw [hh, Nat.mul_mod_right] at hr
        exact hr rfl
      have hlt : a * 2 ^ up < (b * 2 ^ down) * (H * 2 ^ e) := lt_of_le_of_ne hND hne
      have := Nat.div_lt_of_lt_mul hlt
      omega
  calc M * 2 ^ down * 2 ^ j ≤ H * 2 ^ e * 2 ^ down * 2 ^ j :=
        Nat.mul_le_mul_right _ (Nat.mul_le_mul_right _ hM)
    _ = H * (2 ^ e * 2 ^ down * 2 ^ j) := by ring
    _ = H * (2 ^ i * 2 ^ up) := by rw [hpow]
    _ = H * 2 ^ i * 2 ^ up := by ring

/-- Rounding does not pass a representable value below: if `L * 2 ^ i / 2 ^ j ≤ a / b`
with `L < 2 ^ 53`, the rounded value is at least `L * 2 ^ i / 2 ^ j`. -/
theorem toDouble_ge (a b L i j : Nat) (hb : 0 < b) (hL : L < 2 ^ 53)
    (h : L * 2 ^ i * b ≤ a * 2 ^ j) :
    L * 2 ^ i * (toDouble a b).2 ≤ (toDouble a b).1 * 2 ^ j := by
  by_cases ha : a = 0
  · subst ha
    have h0 : L * 2 ^ i * b = 0 := by simpa using h
    have h1 : L * 2 ^ i = 0 := by
      rcases Nat.mul_eq_zero.1 h0 with h2 | h2
      · exact h2
      · omega
    rw [h1]
    simp
  obtain ⟨up, down, he, h1, _⟩ := toDouble_spec a b (by omega) hb
  rw [he]
  have hD : 0 < b * 2 ^ down := Nat.mul_pos hb (Nat.two_pow_pos _)
  obtain ⟨n1, _, _⟩ := nearestEven_spec (a * 2 ^ up) (b * 2 ^ down) hD
  have hM52 : 2 ^ 52 ≤ a * 2 ^ up / (b * 2 ^ down) := by
    rw [Nat.le_div_iff_mul_le hD]
    calc 2 ^ 52 * (b * 2 ^ down) = b * 2 ^ down * 2 ^ 52 := by ring
      _ ≤ a * 2 ^ up := h1
  generalize nearestEven (a * 2 ^ up) (b * 2 ^ down) = M at n1
  show L * 2 ^ i * 2 ^ up ≤ M * 2 ^ down * 2 ^ j
  by_cases hexp : down + j ≤ up + i
  · obtain ⟨e, hee⟩ : ∃ e, up + i = down + j + e := ⟨up + i - (down + j), by omega⟩
    have hpow : 2 ^ i * 2 ^ up = 2 ^ e * 2 ^ down * 2 ^ j := by
      rw [← pow_add, ← pow_add, ← pow_add]
      congr 1
      omega
    have hND : L * 2 ^ e * (b * 2 ^ down) ≤ a * 2 ^ up := by
      have : L * 2 ^ e * (b * 2 ^ down) * 2 ^ j ≤ a * 2 ^ up * 2 ^ j :=
        calc L * 2 ^ e * (b * 2 ^ down) * 2 ^ j = L * b * (2 ^ e * 2 ^ down * 2 ^ j) := by ring
          _ = L * b * (2 ^ i * 2 ^ up) := by rw [hpow]
          _ = 2 ^ up * (L * 2 ^ i * b) := by ring
          _ ≤ 2 ^ up * (a * 2 ^ j) := Nat.mul_le_mul_left _ h
          _ = a * 2 ^ up * 2 ^ j := by ring
      exact Nat.le_of_mul_le_mul_right this (Nat.two_pow_pos _)
    have hK : L * 2 ^ e ≤ M := le_trans ((Nat.le_div_iff_mul_le hD).2 hND) n1
    calc L * 2 ^ i * 2 ^ up = L * (2 ^ i * 2 ^ up) := by ring
      _ = L * (2 ^ e * 2 ^ down * 2 ^ j) := by rw [hpow]
      _ = L * 2 ^ e * 2 ^ down * 2 ^ j := by ring
      _ ≤ M * 2 ^ down * 2 ^ j := Nat.mul_le_mul_right _ (Nat.mul_le_mul_right _ hK)
  · have hle : 2 ^ (i + up + 53) ≤ 2 ^ (down + j + 52) :=
      Nat.pow_le_pow_right (by norm_num) (by omega)
    calc L * 2 ^ i * 2 ^ up ≤ 2 ^ 53 * 2 ^ i * 2 ^ up :=
          Nat.mul_le_mul_right _ (Nat.mul_le_mul_right _ (Nat.le_of_lt hL))
      _ = 2 ^ (i + up + 53) := by rw [pow_add, pow_add]; ring
      _ ≤ 2 ^ (down + j + 52) := hle
      _ = 2 ^ 52 * 2 ^ down * 2 ^ j := by rw [pow_add, pow_add]; ring
      _ ≤ M * 2 ^ down * 2 ^ j :=
          Nat.mul_le_mul_right _ (Nat.mul_le_mul_right _ (le_trans hM52 n1))

theorem toDouble_exact (a : Nat) (ha : a < 2 ^ 53) :
    (toDouble a 1).1 = a * (toDouble a 1).2 := by
  have h1 := toDouble_le a 1 a 0 0 Nat.one_pos ha (by simp)
  have h2 := toDouble_ge a 1 a 0 0 Nat.one_pos ha (by simp)
  simp only [pow_zero, Nat.mul_one] at h1 h2
  exact Nat.le_antisymm h1 h2

theorem sub64_of_le {cp vol : Nat} (h : cp ≤ vol) (hv : vol < 2 ^ 64) :
    sub64 vol cp = vol - cp := by
  unfold sub64
  omega

theorem wcrtOf_of_pos (n : Int) (hn : 1 ≤ n) (cp vol : Nat) :
    wcrtOf n cp vol = toSizeT (doubleSum cp (doubleQuot (sub64 vol cp) n.toNat)) := by
  have e : n.natAbs = n.toNat := by omega
  unfold wcrtOf
  rw [if_neg (by omega), e]
  simp only
  rw [if_pos (by omega)]

/-- The quotient lies between `0` and the dividend. -/
theorem doubleQuot_le (d m : Nat) (hm : 1 ≤ m) (hd : d < 2 ^ 53) :
    (doubleQuot d m).1 ≤ d * (doubleQuot d m).2 := by
  have hx := toDouble_exact d hd
  have hp := toDouble_den_pos d 1
  have h := toDouble_le (toDouble d 1).1 ((toDouble d 1).2 * m) d 0 0
    (Nat.mul_pos hp hm) hd (by
      rw [hx, pow_zero, Nat.mul_one, Nat.mul_one]
      calc d * (toDouble d 1).2 = d * ((toDouble d 1).2 * 1) := by ring
        _ ≤ d * ((toDouble d 1).2 * m) := Nat.mul_le_mul_left _ (Nat.mul_le_mul_left _ hm))
  simpa [doubleQuot] using h

/-- The truncated quotient is a lower bound of the `double` quotient. -/
theorem doubleQuot_ge (d m : Nat) (hm : 1 ≤ m) (hd : d < 2 ^ 53) :
    d / m * (doubleQuot d m).2 ≤ (doubleQuot d m).1 := by
  have hx := toDouble_exact d hd
  have hp := toDouble_den_pos d 1
  have h := toDouble_ge (toDouble d 1).1 ((toDouble d 1).2 * m) (d / m) 0 0
    (Nat.mul_pos hp hm) (lt_of_le_of_lt (Nat.div_le_self d m) hd) (by
      rw [hx, pow_zero, Nat.mul_one, Nat.mul_one]
      calc d / m * ((toDouble d 1).2 * m) = (m * (d / m)) * (toDouble d 1).2 := by ring
        _ ≤ d * (toDouble d 1).2 := Nat.mul_le_mul_right _ (Nat.mul_div_le d m))
  simpa [doubleQuot] using h

/-- With `P = 2 ^ j ≥ m` and `(d / m + 1) * P ≤ 2 ^ 53` the `double` quotient
stays below the integer after the truncated quotient by at least `1 / P`. -/
theorem doubleQuot_lt (d m j : Nat) (hm : 1 ≤ m) (hd : d < 2 ^ 53)
    (hP : m ≤ 2 ^ j) (hfit : (d / m + 1) * 2 ^ j ≤ 2 ^ 53) :
    (doubleQuot d m).1 * 2 ^ j ≤ ((d / m + 1) * 2 ^ j - 1) * (doubleQuot d m).2 := by
  have hx := toDouble_exact d hd
  have hp := toDouble_den_pos d 1
  have hPpos : 0 < 2 ^ j := Nat.two_pow_pos _
  have hkP : 1 ≤ (d / m + 1) * 2 ^ j := Nat.mul_pos (Nat.succ_pos _) hPpos
  have h := toDouble_le (toDouble d 1).1 ((toDouble d 1).2 * m) ((d / m + 1) * 2 ^ j - 1) 0 j
    (Nat.mul_pos hp hm) (by omega) (by
      rw [hx, pow_zero, Nat.mul_one]
      have hdm : d + 1 ≤ (d / m + 1) * m := by
        have h1 := Nat.div_add_mod d m
        have h2 := Nat.mod_lt d (show 0 < m by omega)
        have : (d / m + 1) * m = m * (d / m) + m := by ring
        omega
      have key : d * 2 ^ j ≤ ((d / m + 1) * 2 ^ j - 1) * m := by
        have e1 : ((d / m + 1) * 2 ^ j - 1) * m = (d / m + 1) * m * 2 ^ j - m := by
          rw [Nat.sub_mul, Nat.one_mul]
          congr 1
          ring
        rw [e1]
        have e2 : (d + 1) * 2 ^ j ≤ (d / m + 1) * m * 2 ^ j := Nat.mul_le_mul_right _ hdm
        have e3 : (d + 1) * 2 ^ j = d * 2 ^ j + 2 ^ j := by ring
        omega
      calc d * (toDouble d 1).2 * 2 ^ j = (d * 2 ^ j) * (toDouble d 1).2 := by ring
        _ ≤ (((d / m + 1) * 2 ^ j - 1) * m) * (toDouble d 1).2 := Nat.mul_le_mul_right _ key
        _ = ((d / m + 1) * 2 ^ j - 1) * ((toDouble d 1).2 * m) := by ring)
  simpa [doubleQuot] using h

theorem doubleSum_ge (cp L : Nat) (q : Nat × Nat) (hfit : cp + L < 2 ^ 53)
    (hq2 : 0 < q.2) (hq : L * q.2 ≤ q.1) :
    (cp + L) * (doubleSum cp q).2 ≤ (doubleSum cp q).1 := by
  have hx := toDouble_exact cp (by omega)
  have hp := toDouble_den_pos cp 1
  have h := toDouble_ge ((toDouble cp 1).1 * q.2 + q.1 * (toDouble cp 1).2)
    ((toDouble cp 1).2 * q.2) (cp + L) 0 0 (Nat.mul_pos hp hq2) hfit (by
      rw [hx, pow_zero, Nat.mul_one, Nat.mul_one]
      calc (cp + L) * ((toDouble cp 1).2 * q.2)
          = cp * (toDouble cp 1).2 * q.2 + (L * q.2) * (toDouble cp 1).2 := by ring
        _ ≤ cp * (toDouble cp 1).2 * q.2 + q.1 * (toDouble cp 1).2 :=
          Nat.add_le_add_left (Nat.mul_le_mul_right _ hq) _)
  simpa [doubleSum] using h

theorem doubleSum_le (cp U : Nat) (q : Nat × Nat) (hfit : cp + U < 2 ^ 53)
    (hq2 : 0 < q.2) (hq : q.1 ≤ U * q.2) :
    (doubleSum cp q).1 ≤ (cp + U) * (doubleSum cp q).2 := by
  have hx := toDouble_exact cp (by omega)
  have hp := toDouble_den_pos cp 1
  have h := toDouble_le ((toDouble cp 1).1 * q.2 + q.1 * (toDouble cp 1).2)
    ((toDouble cp 1).2 * q.2) (cp + U) 0 0 (Nat.mul_pos hp hq2) hfit (by
      rw [hx, pow_zero, Nat.mul_one, Nat.mul_one]
      calc cp * (toDouble cp 1).2 * q.2 + q.1 * (toDouble cp 1).2
          ≤ cp * (toDouble cp 1).2 * q.2 + (U * q.2) * (toDouble cp 1).2 :=
            Nat.add_le_add_left (Nat.mul_le_mul_right _ hq) _
        _ = (cp + U) * ((toDouble cp 1).2 * q.2) := by ring)
  simpa [doubleSum] using h

theorem doubleSum_lt (cp k j : Nat) (q : Nat × Nat) (hfit : (cp + k + 1) * 2 ^ j ≤ 2 ^ 53)
    (hq2 : 0 < q.2) (hq : q.1 * 2 ^ j ≤ ((k + 1) * 2 ^ j - 1) * q.2) :
    (doubleSum cp q).1 * 2 ^ j ≤ ((cp + k + 1) * 2 ^ j - 1) * (doubleSum cp q).2 := by
  have hPpos : 0 < 2 ^ j := Nat.two_pow_pos _
  have hcp : cp < 2 ^ 53 := by
    have : (cp + k + 1) * 1 ≤ (cp + k + 1) * 2 ^ j := Nat.mul_le_mul_left _ hPpos
    omega
  have hx := toDouble_exact cp hcp
  have hp := toDouble_den_pos cp 1
  have hk1 : 1 ≤ (k + 1) * 2 ^ j := Nat.mul_pos (Nat.succ_pos _) hPpos
  have hsplit : (cp + k + 1) * 2 ^ j - 1 = cp * 2 ^ j + ((k + 1) * 2 ^ j - 1) := by
    have : (cp + k + 1) * 2 ^ j = cp * 2 ^ j + (k + 1) * 2 ^ j := by ring
    omega
  have h := toDouble_le ((toDouble cp 1).1 * q.2 + q.1 * (toDouble cp 1).2)
    ((toDouble cp 1).2 * q.2) ((cp + k + 1) * 2 ^ j - 1) 0 j (Nat.mul_pos hp hq2)
    (by omega) (by
      rw [hx, pow_zero, Nat.mul_one, hsplit]
      calc (cp * (toDouble cp 1).2 * q.2 + q.1 * (toDouble cp 1).2) * 2 ^ j
          = cp * 2 ^ j * ((toDouble cp 1).2 * q.2) + (q.1 * 2 ^ j) * (toDouble cp 1).2 := by
            ring
        _ ≤ cp * 2 ^ j * ((toDouble cp 1).2 * q.2) +
              (((k + 1) * 2 ^ j - 1) * q.2) * (toDouble cp 1).2 :=
            Nat.add_le_add_left (Nat.mul_le_mul_right _ hq) _
        _ = (cp * 2 ^ j + ((k + 1) * 2 ^ j - 1)) * ((toDouble cp 1).2 * q.2) := by ring)
  simpa [doubleSum] using h

/-- For `critical path ≤ volume < 2 ^ 53` and a positive core count the
conversion is defined and lies between the critical path and the volume. -/
theorem wcrtOf_bounds (n : Int) (hn : 1 ≤ n) (cp vol : Nat) (hle : cp ≤ vol)
    (hv : vol < 2 ^ 53) :
    ∃ w, wcrtOf n cp vol = some w ∧ cp ≤ w ∧ w ≤ vol := by
  have hm : 1 ≤ n.toNat := by omega
  have hsub := sub64_of_le hle (lt_trans hv (by norm_num))
  have hq2 : 0 < (doubleQuot (vol - cp) n.toNat).2 := by
    unfold doubleQuot; exact toDouble_den_pos _ _
  have hs2 : 0 < (doubleSum cp (doubleQuot (vol - cp) n.toNat)).2 := by
    unfold doubleSum; exact toDouble_den_pos _ _
  have h1 := doubleSum_ge cp 0 (doubleQuot (vol - cp) n.toNat) (by omega) hq2 (by simp)
  have h2 := doubleSum_le cp (vol - cp) (doubleQuot (vol - cp) n.toNat) (by omega) hq2
    (doubleQuot_le _ _ hm (by omega))
  rw [Nat.add_zero] at h1
  rw [Nat.add_sub_cancel' hle] at h2
  have hlo := (Nat.le_div_iff_mul_le hs2).2 h1
  have hhi : (doubleSum cp (doubleQuot (vol - cp) n.toNat)).1 /
      (doubleSum cp (doubleQuot (vol - cp) n.toNat)).2 ≤ vol :=
    Nat.div_le_of_le_mul (by rw [Nat.mul_comm]; exact h2)
  refine ⟨_, ?_, hlo, hhi⟩
  rw [wcrtOf_of_pos n hn, hsub]
  unfold toSizeT
  rw [if_pos (lt_of_le_of_lt hhi (lt_trans hv (by norm_num)))]

/-- For `critical path ≤ volume` and `volume * num_cores ≤ 2 ^ 52` the `double`
computation gives the critical path plus the truncated quotient. -/
theorem wcrtOf_exact (n : Int) (hn : 1 ≤ n) (cp vol : Nat) (hle : cp ≤ vol)
    (hv : vol * n.toNat ≤ 2 ^ 52) :
    wcrtOf n cp vol = some (cp + (vol - cp) / n.toNat) := by
  have hm : 1 ≤ n.toNat := by omega
  have hv52 : vol ≤ 2 ^ 52 := le_trans (Nat.le_mul_of_pos_right _ hm) hv
  have hsub := sub64_of_le hle (lt_of_le_of_lt hv52 (by norm_num))
  generalize hmm : n.toNat = m at hm hv
  generalize hdd : vol - cp = d at hsub
  have hvol : vol = cp + d := by omega
  have hd : d < 2 ^ 53 := by
    have : (2 : Nat) ^ 52 < 2 ^ 53 := by norm_num
    omega
  have hq2 : 0 < (doubleQuot d m).2 := by
    unfold doubleQuot; exact toDouble_den_pos _ _
  have hs2 : 0 < (doubleSum cp (doubleQuot d m)).2 := by
    unfold doubleSum; exact toDouble_den_pos _ _
  have hkd : d / m ≤ d := Nat.div_le_self d m
  have hlo := doubleSum_ge cp (d / m) (doubleQuot d m)
    (by have : (2 : Nat) ^ 52 < 2 ^ 53 := by norm_num
        omega) hq2 (doubleQuot_ge d m hm hd)
  have hres : (doubleSum cp (doubleQuot d m)).1 / (doubleSum cp (doubleQuot d m)).2 =
      cp + d / m := by
    by_cases hr : d % m = 0
    · have hdk : d = m * (d / m) := by
        have := Nat.div_add_mod d m
        omega
      have hqle : (doubleQuot d m).1 ≤ d / m * (doubleQuot d m).2 := by
        have hx := toDouble_exact d hd
        have hp := toDouble_den_pos d 1
        have h := toDouble_le (toDouble d 1).1 ((toDouble d 1).2 * m) (d / m) 0 0
          (Nat.mul_pos hp hm) (lt_of_le_of_lt hkd hd) (by
            rw [hx, pow_zero, Nat.mul_one, Nat.mul_one]
            apply le_of_eq
            nth_rewrite 1 [hdk]
            ring)
        simpa [doubleQuot] using h
      have hhi := doubleSum_le cp (d / m) (doubleQuot d m)
        (by have : (2 : Nat) ^ 52 < 2 ^ 53 := by norm_num
            omega) hq2 hqle
      apply Nat.div_eq_of_lt_le
      · exact hlo
      · calc (doubleSum cp (doubleQuot d m)).1 ≤ (cp + d / m) * (doubleSum cp (doubleQuot d m)).2 := hhi
          _ < (cp + d / m + 1) * (doubleSum cp (doubleQuot d m)).2 :=
            Nat.mul_lt_mul_of_pos_right (Nat.lt_succ_self _) hs2
    · have hm2 : 2 ≤ m := by
        by_contra hc
        have : m = 1 := by omega
        rw [this, Nat.mod_one] at hr
        exact hr rfl
      have hk1 : d / m + 1 ≤ d := by
        have h1 := Nat.div_add_mod d m
        have h2 : 2 * (d / m) ≤ m * (d / m) := Nat.mul_le_mul_right _ hm2
        omega
      have hP1 : m ≤ 2 ^ (Nat.log 2 m + 1) :=
        Nat.le_of_lt (Nat.lt_pow_succ_log_self (by norm_num) m)
      have hP2 : 2 ^ (Nat.log 2 m + 1) ≤ 2 * m := by
        rw [pow_succ, Nat.mul_comm]
        exact Nat.mul_le_mul_left _ (Nat.pow_log_le_self 2 (by omega))
      have hfit : (cp + d / m + 1) * 2 ^ (Nat.log 2 m + 1) ≤ 2 ^ 53 :=
        calc (cp + d / m + 1) * 2 ^ (Nat.log 2 m + 1) ≤ vol * (2 * m) :=
              Nat.mul_le_mul (by omega) hP2
          _ = 2 * (vol * m) := by ring
          _ ≤ 2 * 2 ^ 52 := Nat.mul_le_mul_left _ hv
          _ = 2 ^ 53 := by norm_num
      have hfit' : (d / m + 1) * 2 ^ (Nat.log 2 m + 1) ≤ 2 ^ 53 :=
        le_trans (Nat.mul_le_mul_right _ (by omega)) hfit
      have hq := doubleQuot_lt d m _ hm hd hP1 hfit'
      have hhi := doubleSum_lt cp (d / m) _ (doubleQuot d m) hfit hq2 hq
      have hPpos : 0 < 2 ^ (Nat.log 2 m + 1) := Nat.two_pow_pos _
      apply Nat.div_eq_of_lt_le
      · exact hlo
      · have h3 : (doubleSum cp (doubleQuot d m)).1 * 2 ^ (Nat.log 2 m + 1) <
            (cp + d / m + 1) * (doubleSum cp (doubleQuot d m)).2 * 2 ^ (Nat.log 2 m + 1) :=
          calc (doubleSum cp (doubleQuot d m)).1 * 2 ^ (Nat.log 2 m + 1)
              ≤ ((cp + d / m + 1) * 2 ^ (Nat.log 2 m + 1) - 1) *
                  (doubleSum cp (doubleQuot d m)).2 := hhi
            _ < ((cp + d / m + 1) * 2 ^ (Nat.log 2 m + 1)) *
                  (doubleSum cp (doubleQuot d m)).2 :=
              Nat.mul_lt_mul_of_pos_right
                (Nat.sub_lt (Nat.mul_pos (Nat.succ_pos _) hPpos) Nat.one_pos) hs2
            _ = (cp + d / m + 1) * (doubleSum cp (doubleQuot d m)).2 *
                  2 ^ (Nat.log 2 m + 1) := by ring
        exact Nat.lt_of_mul_lt_mul_right h3
  rw [wcrtOf_of_pos n hn, hsub, hmm]
  unfold toSizeT
  rw [hres, if_pos (by
    have : (2 : Nat) ^ 52 < 2 ^ 64 := by norm_num
    omega)]

/-- C17 (the code differs): on the chain 0 → 1 → 2 with weights 10, 5, 10 the
only root-to-sink path is 0, 1, 2 with weight 25, yet `compute_WCRTs` reports
the critical path 15 in every configuration: the weight of the sink is never
added. -/
theorem critical_path_omits_sink :
    (∃ res, compute_WCRTs scenarioAGraph scenarioAWeights 1 = some res ∧
      res.critical_paths = [15, 15, 15, 15]) ∧
    IsWalk scenarioAGraph [0, 1, 2] ∧
    (∀ i, i < NUM_CONFIGS → walkWeight scenarioAWeights i [0, 1, 2] = 25) ∧
    longest_path scenarioAGraph scenarioAWeights [2, 1, 0] SHARE = some [15, 5, 0] :=
  ⟨⟨_, @compute_WCRTs_of_parts _ _ _ [2, 1, 0] [15, 15, 15, 15]
      [25, 25, 25, 25] [25, 25, 25, 25] (by decide) (by decide) (by decide)
      (by decide), rfl⟩,
    by decide, by decide, by decide⟩

/-- C18 (the code differs): on Scenario A `compute_WCRTs` returns critical
path 15 and volume 25, and the WCRT is 25 on one core, 20 on two cores and 17
on four cores. -/
theorem chain_wcrt_depends_on_cores :
    compute_WCRTs scenarioAGraph scenarioAWeights 1 =
      some ⟨[25, 25, 25, 25], [15, 15, 15, 15], [25, 25, 25, 25]⟩ ∧
    compute_WCRTs scenarioAGraph scenarioAWeights 2 =
      some ⟨[20, 20, 20, 20], [15, 15, 15, 15], [25, 25, 25, 25]⟩ ∧
    compute_WCRTs scenarioAGraph scenarioAWeights 4 =
      some ⟨[17, 17, 17, 17], [15, 15, 15, 15], [25, 25, 25, 25]⟩ :=
  ⟨compute_WCRTs_of_parts [2, 1, 0] (by decide) (by decide) (by decide)
      (by decide),
    compute_WCRTs_of_parts [2, 1, 0] (by decide) (by decide) (by decide)
      (by decide),
    compute_WCRTs_of_parts [2, 1, 0] (by decide) (by decide) (by decide)
      (by decide)⟩

/-- C19 (the code differs): `parse_dag` accepts `rootOneBlocks` with root
`r = 1`; the longest-path vector is `[5, 15, 0]`, so `longest_path[r] = 15`,
and `compute_WCRTs` reports `longest_path[0] = 5` as the critical path. -/
theorem critical_path_reads_vertex_zero :
    parse_dag rootOneBlocks = .ok ⟨rootOneGraph, 1, 2, 1⟩ ∧
    topological_sort rootOneGraph = .ok [2, 0, 1] ∧
    (∀ i, i < NUM_CONFIGS →
      longest_path rootOneGraph rootOneWeights [2, 0, 1] i = some [5, 15, 0]) ∧
    compute_WCRTs rootOneGraph rootOneWeights 1 =
      some ⟨[25, 25, 25, 25], [5, 5, 5, 5], [25, 25, 25, 25]⟩ :=
  ⟨by decide, by decide, by decide,
    compute_WCRTs_of_parts [2, 0, 1] (by decide) (by decide) (by decide)
      (by decide)⟩

theorem volumeLoop_eq (i : Nat) : ∀ (wm : List (List Nat)) (v0 vol : Nat),
    volumeLoop i wm v0 = some vol → v0 < 2 ^ 64 →
    vol = (v0 + (wm.map (fun row => row.getD i 0)).sum) % 2 ^ 64 := by
  intro wm
  induction wm with
  | nil =>
    intro v0 vol h hv
    simp only [volumeLoop, Option.some.injEq] at h
    subst h
    simp only [List.map_nil, List.sum_nil, Nat.add_zero]
    exact (Nat.mod_eq_of_lt hv).symm
  | cons row rest ih =>
    intro v0 vol h hv
    unfold volumeLoop at h
    cases hw : row.get? i with
    | none => rw [hw] at h; cases h
    | some w =>
      rw [hw] at h
      simp only at h
      have hlt : add64 v0 w < 2 ^ 64 := Nat.mod_lt _ (by positivity)
      rw [ih _ _ h hlt]
      have hg : row.getD i 0 = w := by
        rw [List.getD_eq_getElem?_getD, ← List.get?_eq_getElem?, hw]; rfl
      simp only [List.map_cons, List.sum_cons, hg, add64]
      omega

theorem map_eq_map_some_getD {α β : Type} (f : α → Option β) (l : List α) (xs : List β)
    (h : l.map f = xs.map some) (i : Nat) (a : α) (ha : l[i]? = some a) (d : β) :
    f a = some (xs.getD i d) := by
  have h1 := congrArg (fun t => t[i]?) h
  simp only [List.getElem?_map, ha, Option.map_some'] at h1
  cases hx : xs[i]? with
  | none => rw [hx] at h1; cases h1
  | some x =>
    rw [hx] at h1
    simp only [Option.map_some', Option.some.injEq] at h1
    rw [List.getD_eq_getElem?_getD, hx, h1]
    rfl

/-- Every run of `compute_WCRTs` that returns: each of the
three vectors has `NUM_CONFIGS` entries, `volumes[i]` is the sum of column `i`
of the weight map reduced modulo `2 ^ 64`, and `wcrts[i]` is the conversion of
the `double` value computed from `critical_paths[i]` and `volumes[i]`. -/
theorem wcrt_of_returns (g : Graph) (wm : List (List Nat)) (n : Int) (res : WcrtResult)
    (h : compute_WCRTs g wm n = some res) (i : Nat) (hi : i < NUM_CONFIGS) :
    (res.wcrts.length = NUM_CONFIGS ∧ res.critical_paths.length = NUM_CONFIGS ∧
      res.volumes.length = NUM_CONFIGS) ∧
    res.volumes.getD i 0 = (wm.map (fun row => row.getD i 0)).sum % 2 ^ 64 ∧
    ((wm.map (fun row => row.getD i 0)).sum < 2 ^ 64 →
      res.volumes.getD i 0 = (wm.map (fun row => row.getD i 0)).sum) ∧
    wcrtOf n (res.critical_paths.getD i 0) (res.volumes.getD i 0) =
      some (res.wcrts.getD i 0) := by
  obtain ⟨sv, _, h2, h3, h4⟩ := compute_WCRTs_parts h
  rw [allSome_eq_some] at h2 h3 h4
  have lc : res.critical_paths.length = NUM_CONFIGS := by
    have := congrArg List.length h2
    simpa using this.symm
  have lv : res.volumes.length = NUM_CONFIGS := by
    have := congrArg List.length h3
    simpa using this.symm
  have lw : res.wcrts.length = NUM_CONFIGS := by
    have := congrArg List.length h4
    simp only [List.length_zipWith, List.length_map, lc, lv, Nat.min_self] at this
    exact this.symm
  have hri : (List.range NUM_CONFIGS)[i]? = some i := by
    rw [List.getElem?_range hi]
  have hvol := volumeLoop_eq i wm 0 _
    (map_eq_map_some_getD (fun i => volumeLoop i wm 0) _ _ h3 i i hri 0) (by norm_num)
  rw [Nat.zero_add] at hvol
  have hz : (List.zipWith (fun cp vol => (cp, vol)) res.critical_paths res.volumes)[i]? =
      some (res.critical_paths.getD i 0, res.volumes.getD i 0) := by
    have hic : i < res.critical_paths.length := lc ▸ hi
    have hiv : i < res.volumes.length := lv ▸ hi
    rw [List.getElem?_eq_getElem (by simp [hic, hiv])]
    simp [List.getD_eq_getElem?_getD, List.getElem?_eq_getElem hic,
      List.getElem?_eq_getElem hiv]
  have h4' : (List.zipWith (fun cp vol => (cp, vol)) res.critical_paths res.volumes).map
      (fun p => wcrtOf n p.1 p.2) = res.wcrts.map some := by
    rw [← h4, List.map_zipWith]
  have hw := map_eq_map_some_getD (fun p : Nat × Nat => wcrtOf n p.1 p.2) _ _ h4' i _ hz 0
  simp only at hw
  refine ⟨⟨lw, lc, lv⟩, hvol, fun hs => ?_, hw⟩
  rw [hvol, Nat.mod_eq_of_lt hs]

/-! ## topological_sort -/

theorem topoOrderedFrom_snoc (g : Graph) (u : Vertex) :
    ∀ (post pre : List Vertex), TopoOrderedFrom g pre (post ++ [u]) ↔
      TopoOrderedFrom g pre post ∧ ∀ t, Edge g u t → t ∈ pre ++ post := by
  intro post
  induction post with
  | nil =>
    intro pre
    simp [TopoOrderedFrom]
  | cons x post ih =>
    intro pre
    show ((∀ t, Edge g x t → t ∈ pre) ∧ TopoOrderedFrom g (pre ++ [x]) (post ++ [u])) ↔
      ((∀ t, Edge g x t → t ∈ pre) ∧ TopoOrderedFrom g (pre ++ [x]) post) ∧
        ∀ t, Edge g u t → t ∈ pre ++ x :: post
    rw [ih, List.append_assoc, List.singleton_append]
    exact and_assoc.symm

theorem framesExamined_mono {g : Graph} {out out' : List Vertex}
    (h : ∀ t, t ∈ out → t ∈ out') :
    ∀ (frames : List (Vertex × List Vertex)) (above : Option Vertex),
      FramesExamined g out above frames → FramesExamined g out' above frames := by
  intro frames
  induction frames with
  | nil => intro _ _; trivial
  | cons f rest ih =>
    intro above hf
    obtain ⟨⟨pre, h1, h2⟩, h3⟩ := hf
    exact ⟨⟨pre, h1, fun t ht => (h2 t ht).imp (h t) id⟩, ih _ h3⟩

theorem framesExamined_finish {g : Graph} {out : List Vertex} {a : Vertex}
    {rest : List (Vertex × List Vertex)} (h : FramesExamined g out (some a) rest) :
    FramesExamined g (out ++ [a]) none rest := by
  cases rest with
  | nil => trivial
  | cons f rest =>
    obtain ⟨⟨pre, h1, h2⟩, h3⟩ := h
    refine ⟨⟨pre, h1, fun t ht => Or.inl ?_⟩,
      framesExamined_mono (fun t ht => List.mem_append_left _ ht) _ _ h3⟩
    rcases h2 t ht with h | h
    · exact List.mem_append_left _ h
    · rw [Option.some.inj h]; simp

theorem dfs_loop_gray_raise {σ ε : Type} (g : Graph) (vis : DfsVisitor σ ε) (fuel : Nat)
    (u v : Vertex) (es : List Vertex) (rest : List (Vertex × List Vertex)) (col : List Color)
    (s : σ) (e : ε) (hv : colorOf col v = Color.gray) (hd : vis.back_edge u v s = .error e) :
    dfs_loop g vis (fuel + 1) ((u, v :: es) :: rest) (col, s) = .error (.raised e) := by
  unfold colorOf at hv
  rw [dfs_loop]
  simp only [hv, hd]

theorem TopoInv.topo_finish {g : Graph} {u : Vertex} {rest : List (Vertex × List Vertex)}
    {col : List Color} {out : List Vertex} (hinv : DfsInv g ((u, []) :: rest) col)
    (h : TopoInv g ((u, []) :: rest) col out) :
    TopoInv g rest (col.set u Color.black) (out ++ [u]) := by
  have hug : colorOf col u = Color.gray := (hinv.frame_ok (u, []) (List.mem_cons_self _ _)).1
  have hul : u < col.length := colorOf_lt (by rw [hug]; decide)
  have hun : u ∉ out := fun hm => by
    have := (h.black_iff u).1 hm
    rw [hug] at this
    cases this
  obtain ⟨⟨pre, h1, h2⟩, h3⟩ := h.examined
  refine ⟨?_, ?_, ?_, framesExamined_finish h3⟩
  · intro v
    rw [colorOf_set, List.mem_append, List.mem_singleton, h.black_iff]
    by_cases hv : v = u
    · simp [hv, hul]
    · simp [hv]
  · rw [List.nodup_append]
    refine ⟨h.nodup, List.nodup_singleton u, ?_⟩
    intro a ha hb
    rw [List.mem_singleton] at hb
    exact hun (hb ▸ ha)
  · unfold TopoOrdered
    rw [topoOrderedFrom_snoc]
    refine ⟨h.ordered, fun t ht => ?_⟩
    have ht' : t ∈ pre := by
      have : t ∈ out_edges g u := ht
      rw [h1] at this
      simpa using this
    rcases h2 t ht' with hm | hm
    · simpa using hm
    · cases hm

theorem TopoInv.topo_skip {g : Graph} {u v : Vertex} {es : List Vertex}
    {rest : List (Vertex × List Vertex)} {col : List Color} {out : List Vertex}
    (h : TopoInv g ((u, v :: es) :: rest) col out) (hv : colorOf col v = Color.black) :
    TopoInv g ((u, es) :: rest) col out := by
  obtain ⟨⟨pre, h1, h2⟩, h3⟩ := h.examined
  refine ⟨h.black_iff, h.nodup, h.ordered, ⟨pre ++ [v], ?_, ?_⟩, h3⟩
  · simpa using h1
  · intro t ht
    rcases List.mem_append.1 ht with ht | ht
    · exact h2 t ht
    · rw [List.mem_singleton] at ht
      exact Or.inl (ht ▸ (h.black_iff v).2 hv)

theorem TopoInv.topo_push {g : Graph} {u v : Vertex} {es : List Vertex}
    {rest : List (Vertex × List Vertex)} {col : List Color} {out : List Vertex}
    (h : TopoInv g ((u, v :: es) :: rest) col out) (hv : colorOf col v = Color.white) :
    TopoInv g ((v, out_edges g v) :: (u, es) :: rest) (col.set v Color.gray) out := by
  obtain ⟨⟨pre, h1, h2⟩, h3⟩ := h.examined
  refine ⟨?_, h.nodup, h.ordered, ⟨[], rfl, fun t ht => by cases ht⟩,
    ⟨pre ++ [v], ?_, ?_⟩, h3⟩
  · intro w
    rw [colorOf_set, h.black_iff]
    by_cases hw : w = v
    · subst hw
      rw [hv]
      by_cases hl : w < col.length <;> simp [hl]
    · simp [hw]
  · simpa using h1
  · intro t ht
    rcases List.mem_append.1 ht with ht | ht
    · rcases h2 t ht with hm | hm
      · exact Or.inl hm
      · cases hm
    · rw [List.mem_singleton] at ht
      exact Or.inr (by rw [ht])

theorem TopoOutcome.weaken {g : Graph} {col col1 : List Color}
    {r : Except (DfsStop NotADag) (List Color × List Vertex)}
    (hc : ∀ w, colorOf col w ≠ Color.white → colorOf col1 w ≠ Color.white)
    (h : TopoOutcome g col1 r) : TopoOutcome g col r := by
  rcases h with h | ⟨col', out', h1, h2, h3, h4⟩
  · exact Or.inl h
  · exact Or.inr ⟨col', out', h1, h2, h3, fun w hw => h4 w (hc w hw)⟩

theorem colorOf_set_ne_white {col : List Color} {u : Vertex} {x : Color}
    (hx : x ≠ Color.white) :
    ∀ w, colorOf col w ≠ Color.white → colorOf (col.set u x) w ≠ Color.white := by
  intro w hw
  rw [colorOf_set]
  split
  · exact hx
  · exact hw

/-- The visit of `topological_sort` never runs out of fuel: it reports a
cycle, or it ends with the invariants restored. -/
theorem topo_loop_spec {g : Graph} (hg : g.wf) :
    ∀ (fuel : Nat) (frames : List (Vertex × List Vertex)) (col : List Color)
      (out : List Vertex),
      DfsInv g frames col → TopoInv g frames col out →
      framesWeight frames + whiteWeight g col + 1 ≤ fuel →
      TopoOutcome g col (dfs_loop g topo_sort_visitor fuel frames (col, out)) := by
  intro fuel
  induction fuel with
  | zero =>
    intro frames col out _ _ hf
    omega
  | succ fuel ih =>
    intro frames col out hinv ht hf
    cases frames with
    | nil =>
      refine Or.inr ⟨col, out, ?_, hinv, ht, fun w hw => hw⟩
      rw [dfs_loop]
    | cons f rest =>
      obtain ⟨u, es⟩ := f
      have hug : colorOf col u = Color.gray :=
        (hinv.frame_ok (u, es) (List.mem_cons_self _ _)).1
      cases es with
      | nil =>
        rw [dfs_loop_finish g topo_sort_visitor fuel u rest col out (out ++ [u]) rfl]
        refine TopoOutcome.weaken (colorOf_set_ne_white (by decide))
          (ih rest _ _ hinv.finish (TopoInv.topo_finish hinv ht) ?_)
        rw [whiteWeight_finish (by rw [hug]; decide)]
        simp only [framesWeight, List.map_cons, List.sum_cons, List.length_nil] at hf ⊢
        omega
      | cons v es =>
        cases hc : colorOf col v with
        | white =>
          rw [dfs_loop_white g topo_sort_visitor fuel u v es rest col out out hc rfl]
          have hvn : v < num_vertices g := (edge_lt hg hinv.edge_top).2
          refine TopoOutcome.weaken (colorOf_set_ne_white (by decide))
            (ih _ _ _ (hinv.push hg hc) (ht.topo_push hc) ?_)
          have := whiteWeight_push hinv.len hvn hc
          simp only [framesWeight, List.map_cons, List.sum_cons, List.length_cons] at hf ⊢
          omega
        | gray =>
          refine Or.inl ⟨?_, fun hac => hinv.no_back_edge hac hc⟩
          exact dfs_loop_gray_raise g topo_sort_visitor fuel u v es rest col out _ hc rfl
        | black =>
          rw [dfs_loop_black g topo_sort_visitor fuel u v es rest col out hc]
          refine ih _ _ _ (hinv.skip (by rw [hc]; decide)) (ht.topo_skip hc) ?_
          simp only [framesWeight, List.map_cons, List.sum_cons, List.length_cons] at hf ⊢
          omega

theorem whiteWeight_le (g : Graph) (col : List Color) :
    whiteWeight g col + 1 ≤ dfsFuel g := by
  rw [← whiteWeight_init g]
  apply Nat.add_le_add_right
  unfold whiteWeight
  apply List.sum_le_sum
  intro w _
  rw [getD_replicate_white]
  split <;> simp

theorem DfsInv.start {g : Graph} {col : List Color} (h : DfsInv g [] col) {u : Vertex}
    (hu : u < num_vertices g) (_hw : colorOf col u = Color.white) :
    DfsInv g [(u, out_edges g u)] (col.set u Color.gray) := by
  have hul : u < col.length := by rw [h.len]; exact hu
  have hnog : ∀ w, colorOf col w ≠ Color.gray := fun w hw => by
    have := h.gray_in w hw
    simp at this
  refine ⟨by rw [List.length_set]; exact h.len, ?_, trivial, ?_, ?_, by simp⟩
  · intro f hf
    rw [List.mem_singleton] at hf
    subst hf
    exact ⟨by rw [colorOf_set]; simp [hul], [], rfl, fun t ht => by cases ht⟩
  · intro w hw
    rw [colorOf_set] at hw
    split at hw
    · rename_i hwu; simp [hwu.1]
    · exact absurd hw (hnog w)
  · intro w hw t e
    rw [colorOf_set] at hw
    split at hw
    · cases hw
    · exact colorOf_set_ne_white (by decide) t (h.black_closed w hw t e)

theorem TopoInv.topo_start {g : Graph} {col : List Color} {out : List Vertex}
    (h : TopoInv g [] col out) {u : Vertex} (hw : colorOf col u = Color.white) :
    TopoInv g [(u, out_edges g u)] (col.set u Color.gray) out := by
  refine ⟨?_, h.nodup, h.ordered, ⟨[], rfl, fun t ht => by cases ht⟩, trivial⟩
  intro w
  rw [colorOf_set, h.black_iff]
  by_cases hwu : w = u
  · subst hwu
    rw [hw]
    by_cases hl : w < col.length <;> simp [hl]
  · simp [hwu]

theorem topo_visit_spec {g : Graph} (hg : g.wf) {col : List Color} {out : List Vertex}
    (hinv : DfsInv g [] col) (ht : TopoInv g [] col out) {u : Vertex}
    (hu : u < num_vertices g) (hw : colorOf col u = Color.white) :
    TopoOutcome g (col.set u Color.gray)
      (depth_first_visit g topo_sort_visitor u (col, out)) := by
  have h : depth_first_visit g topo_sort_visitor u (col, out) =
      dfs_loop g topo_sort_visitor (dfsFuel g) [(u, out_edges g u)]
        (col.set u Color.gray, out) := rfl
  rw [h]
  refine topo_loop_spec hg _ _ _ _ (hinv.start hu hw) (ht.topo_start hw) ?_
  have h1 := whiteWeight_push hinv.len hu hw
  have h2 := whiteWeight_le g col
  simp only [framesWeight, List.map_cons, List.map_nil, List.sum_cons, List.sum_nil]
  omega

theorem dfs_roots_ok {σ ε : Type} (g : Graph) (vis : DfsVisitor σ ε) (u : Vertex)
    (us : List Vertex) (col : List Color) (s : σ) (st' : List Color × σ)
    (hw : colorOf col u = Color.white) (hd : depth_first_visit g vis u (col, s) = .ok st') :
    dfs_roots g vis (u :: us) (col, s) = dfs_roots g vis us st' := by
  unfold colorOf at hw
  rw [dfs_roots]
  simp only [hw, hd, if_true]

theorem dfs_roots_error {σ ε : Type} (g : Graph) (vis : DfsVisitor σ ε) (u : Vertex)
    (us : List Vertex) (col : List Color) (s : σ) (e : DfsStop ε)
    (hw : colorOf col u = Color.white) (hd : depth_first_visit g vis u (col, s) = .error e) :
    dfs_roots g vis (u :: us) (col, s) = .error e := by
  unfold colorOf at hw
  rw [dfs_roots]
  simp only [hw, hd, if_true]

theorem dfs_roots_skip {σ ε : Type} (g : Graph) (vis : DfsVisitor σ ε) (u : Vertex)
    (us : List Vertex) (col : List Color) (s : σ) (hw : colorOf col u ≠ Color.white) :
    dfs_roots g vis (u :: us) (col, s) = dfs_roots g vis us (col, s) := by
  unfold colorOf at hw
  rw [dfs_roots]
  simp only [hw, if_false]

theorem topo_roots_spec {g : Graph} (hg : g.wf) :
    ∀ (us : List Vertex), (∀ u ∈ us, u < num_vertices g) →
      ∀ (col : List Color) (out : List Vertex), DfsInv g [] col → TopoInv g [] col out →
      (dfs_roots g topo_sort_visitor us (col, out) = .error (.raised .not_a_dag) ∧
        ¬ Acyclic g) ∨
      ∃ col' out', dfs_roots g topo_sort_visitor us (col, out) = .ok (col', out') ∧
        DfsInv g [] col' ∧ TopoInv g [] col' out' ∧
        (∀ w, colorOf col w ≠ Color.white → colorOf col' w ≠ Color.white) ∧
        ∀ u ∈ us, colorOf col' u ≠ Color.white := by
  intro us
  induction us with
  | nil =>
    intro _ col out hinv ht
    exact Or.inr ⟨col, out, rfl, hinv, ht, fun w hw => hw, fun u hu => by cases hu⟩
  | cons u us ih =>
    intro hus col out hinv ht
    have hu : u < num_vertices g := hus u (List.mem_cons_self _ _)
    have hus' : ∀ x ∈ us, x < num_vertices g := fun x hx => hus x (List.mem_cons_of_mem _ hx)
    by_cases hw : colorOf col u = Color.white
    · rcases topo_visit_spec hg hinv ht hu hw with ⟨h1, h2⟩ | ⟨col1, out1, h1, h2, h3, h4⟩
      · exact Or.inl ⟨dfs_roots_error g _ u us col out _ hw h1, h2⟩
      · rw [dfs_roots_ok g _ u us col out _ hw h1]
        have hu1 : colorOf col1 u ≠ Color.white := by
          apply h4
          rw [colorOf_set]
          have : u < col.length := by rw [hinv.len]; exact hu
          simp [this]
        rcases ih hus' col1 out1 h2 h3 with h | ⟨col2, out2, k1, k2, k3, k4, k5⟩
        · exact Or.inl h
        · refine Or.inr ⟨col2, out2, k1, k2, k3, ?_, ?_⟩
          · exact fun w hw' => k4 w (h4 w (colorOf_set_ne_white (by decide) w hw'))
          · intro x hx
            rcases List.mem_cons.1 hx with rfl | hx
            · exact k4 _ hu1
            · exact k5 x hx
    · rw [dfs_roots_skip g _ u us col out hw]
      rcases ih hus' col out hinv ht with h | ⟨col2, out2, k1, k2, k3, k4, k5⟩
      · exact Or.inl h
      · refine Or.inr ⟨col2, out2, k1, k2, k3, k4, ?_⟩
        intro x hx
        rcases List.mem_cons.1 hx with rfl | hx
        · exact k4 _ hw
        · exact k5 x hx

/-- `topological_sort` never runs out of fuel on a well-formed graph: it
throws `not_a_dag` and the graph has a cycle, or it returns every vertex once,
successors first. -/
theorem topological_sort_spec {g : Graph} (hg : g.wf) :
    (topological_sort g = .error (.raised .not_a_dag) ∧ ¬ Acyclic g) ∨
    ∃ sv, topological_sort g = .ok sv ∧ sv.Nodup ∧
      (∀ v, v ∈ sv ↔ v < num_vertices g) ∧ TopoOrdered g sv := by
  unfold topological_sort depth_first_search
  by_cases hn : num_vertices g = 0
  · rw [if_pos hn]
    exact Or.inr ⟨[], rfl, List.nodup_nil, fun v => by simp [hn], trivial⟩
  · rw [if_neg hn]
    have hinv0 : DfsInv g [] (List.replicate (num_vertices g) Color.white) := by
      refine ⟨by simp, (fun f hf => by cases hf), trivial, ?_, ?_, List.nodup_nil⟩
      · intro w hw
        rw [getD_replicate_white] at hw
        cases hw
      · intro w hw
        rw [getD_replicate_white] at hw
        cases hw
    have ht0 : TopoInv g [] (List.replicate (num_vertices g) Color.white) [] := by
      refine ⟨fun v => ?_, List.nodup_nil, trivial, trivial⟩
      rw [getD_replicate_white]
      simp
    have hroots : ∀ u ∈ 0 :: List.range (num_vertices g), u < num_vertices g := by
      intro u hu
      rcases List.mem_cons.1 hu with rfl | hu
      · omega
      · exact List.mem_range.1 hu
    rcases topo_roots_spec hg _ hroots _ _ hinv0 ht0 with ⟨h1, h2⟩ |
      ⟨col', out', h1, h2, h3, _, h5⟩
    · left
      rw [h1]
      exact ⟨rfl, h2⟩
    · right
      rw [h1]
      refine ⟨out', rfl, h3.nodup, fun v => ?_, h3.ordered⟩
      rw [h3.black_iff]
      constructor
      · intro hb
        have := @colorOf_lt col' v (by rw [hb]; decide)
        rwa [h2.len] at this
      · intro hv
        have hw := h5 v (List.mem_cons_of_mem _ (List.mem_range.2 hv))
        cases hc : colorOf col' v with
        | white => exact absurd hc hw
        | gray =>
          have := h2.gray_in v hc
          simp at this
        | black => rfl

/-- On a well-formed acyclic graph `topological_sort` returns. -/
theorem topological_sort_returns {g : Graph} (hg : g.wf) (hac : Acyclic g) :
    ∃ sv, topological_sort g = .ok sv ∧ sv.Nodup ∧
      (∀ v, v ∈ sv ↔ v < num_vertices g) ∧ TopoOrdered g sv := by
  rcases topological_sort_spec hg with ⟨_, h⟩ | h
  · exact absurd hac h
  · exact h

/-! ## The longest-path pass of compute_WCRTs -/

theorem weightAt_eq {wm : List (List Nat)} {v i : Nat} (hv : v < wm.length)
    (hi : i < (wm.getD v []).length) :
    weightAt wm v i = some ((wm.getD v []).getD i 0) := by
  unfold weightAt
  rw [List.getD_eq_getElem _ _ hv] at hi ⊢
  rw [List.get?_eq_getElem?, List.getElem?_eq_getElem hv]
  simp only
  rw [List.get?_eq_getElem?, List.getElem?_eq_getElem hi, List.getD_eq_getElem _ _ hi]

theorem add64_le (a b : Nat) : add64 a b ≤ a + b := Nat.mod_le _ _

theorem relaxVal_congr (w : Nat) {lp lp' : List Nat} :
    ∀ (ts : List Vertex) (init : Nat), (∀ t ∈ ts, lp.getD t 0 = lp'.getD t 0) →
      relaxVal w lp ts init = relaxVal w lp' ts init := by
  intro ts
  induction ts with
  | nil => intro _ _; rfl
  | cons t ts ih =>
    intro init h
    simp only [relaxVal, List.foldl_cons]
    rw [h t (List.mem_cons_self _ _)]
    exact ih _ (fun x hx => h x (List.mem_cons_of_mem _ hx))

theorem relaxVal_le (w : Nat) (lp : List Nat) (B : Nat) :
    ∀ (ts : List Vertex) (init : Nat), init ≤ B →
      (∀ t ∈ ts, add64 w (lp.getD t 0) ≤ B) → relaxVal w lp ts init ≤ B := by
  intro ts
  induction ts with
  | nil => intro init h _; exact h
  | cons t ts ih =>
    intro init h ht
    simp only [relaxVal, List.foldl_cons]
    exact ih _ (max_le h (ht t (List.mem_cons_self _ _)))
      (fun x hx => ht x (List.mem_cons_of_mem _ hx))

theorem le_relaxVal_init (w : Nat) (lp : List Nat) :
    ∀ (ts : List Vertex) (init : Nat), init ≤ relaxVal w lp ts init := by
  intro ts
  induction ts with
  | nil => intro init; exact le_refl _
  | cons t ts ih =>
    intro init
    simp only [relaxVal, List.foldl_cons]
    exact le_trans (le_max_left _ _) (ih _)

theorem le_relaxVal_mem (w : Nat) (lp : List Nat) :
    ∀ (ts : List Vertex) (init : Nat) (t : Vertex), t ∈ ts →
      add64 w (lp.getD t 0) ≤ relaxVal w lp ts init := by
  intro ts
  induction ts with
  | nil => intro _ t ht; cases ht
  | cons x ts ih =>
    intro init t ht
    simp only [relaxVal, List.foldl_cons]
    rcases List.mem_cons.1 ht with rfl | ht
    · exact le_trans (le_max_right _ _) (le_relaxVal_init w lp ts _)
    · exact ih _ t ht

theorem set_getD_self (l : List Nat) (i : Nat) (h : i < l.length) :
    l.set i (l.getD i 0) = l := by
  apply List.ext_getElem?
  intro j
  rw [List.getElem?_set]
  split
  · rename_i hij
    subst hij
    simp [h, List.getD_eq_getElem?_getD]
  · rfl

/-- The loop over the out-edges of `vi` changes only the entry of `vi`. -/
theorem relaxEdges_spec {wm : List (List Nat)} {i : Nat} {vi : Vertex} {w : Nat}
    (hw : weightAt wm vi i = some w) :
    ∀ (ts : List Vertex) (lp : List Nat), vi < lp.length → (∀ t ∈ ts, t ≠ vi) →
      relaxEdges wm i vi ts lp = some (lp.set vi (relaxVal w lp ts (lp.getD vi 0))) := by
  intro ts
  induction ts with
  | nil =>
    intro lp hvi _
    simp only [relaxEdges, relaxVal, List.foldl_nil]
    rw [set_getD_self lp vi hvi]
  | cons t ts ih =>
    intro lp hvi hts
    have hne : ∀ x ∈ ts, x ≠ vi := fun x hx => hts x (List.mem_cons_of_mem _ hx)
    rw [relaxEdges]
    simp only [hw]
    rw [ih _ (by rw [List.length_set]; exact hvi) hne, List.set_set]
    congr 2
    have h1 : (lp.set vi (max (lp.getD vi 0) (add64 w (lp.getD t 0)))).getD vi 0 =
        max (lp.getD vi 0) (add64 w (lp.getD t 0)) := by
      rw [getD_list_set]
      simp [hvi]
    rw [h1]
    simp only [relaxVal, List.foldl_cons]
    apply relaxVal_congr
    intro x hx
    rw [getD_list_set]
    simp [hne x hx]

theorem walkWeight_append (wm : List (List Nat)) (i : Nat) (p q : List Vertex) :
    walkWeight wm i (p ++ q) = walkWeight wm i p + walkWeight wm i q := by
  unfold walkWeight
  rw [List.map_append, List.sum_append]

theorem walkWeight_single (wm : List (List Nat)) (i : Nat) (v : Vertex) :
    walkWeight wm i [v] = (wm.getD v []).getD i 0 := by
  simp [walkWeight]

/-- One step of the pass keeps the invariant. -/
theorem LpInv.step {g : Graph} {wm : List (List Nat)} {i : Nat} {sv pre rest : List Vertex}
    {u : Vertex} {lp : List Nat} (h : LpInv g wm i sv pre lp) (hsv : pre ++ u :: rest = sv)
    (hu : u ∉ pre) (hul : u < lp.length) (hts : ∀ t, Edge g u t → t ∈ pre) :
    LpInv g wm i sv (pre ++ [u])
      (lp.set u (relaxVal ((wm.getD u []).getD i 0) lp (out_edges g u) (lp.getD u 0))) := by
  have hget : ∀ x, (lp.set u (relaxVal ((wm.getD u []).getD i 0) lp (out_edges g u)
      (lp.getD u 0))).getD x 0 =
      if x = u then relaxVal ((wm.getD u []).getD i 0) lp (out_edges g u) 0
      else lp.getD x 0 := by
    intro x
    rw [getD_list_set, h.zero u hu]
    simp [hul]
  have hsame : ∀ x ∈ pre, (lp.set u (relaxVal ((wm.getD u []).getD i 0) lp (out_edges g u)
      (lp.getD u 0))).getD x 0 = lp.getD x 0 := by
    intro x hx
    rw [hget, if_neg (fun e : x = u => hu (e ▸ hx))]
  have hle : walkWeight wm i (pre ++ [u]) ≤ walkWeight wm i sv := by
    rw [← hsv, show pre ++ u :: rest = (pre ++ [u]) ++ rest by simp, walkWeight_append _ _ (pre ++ [u])]
    exact Nat.le_add_right _ _
  have hnew : relaxVal ((wm.getD u []).getD i 0) lp (out_edges g u) 0 ≤
      walkWeight wm i (pre ++ [u]) := by
    apply relaxVal_le _ _ _ _ _ (Nat.zero_le _)
    intro t ht
    rw [walkWeight_append, walkWeight_single]
    have := h.upper t
    have := add64_le ((wm.getD u []).getD i 0) (lp.getD t 0)
    omega
  refine ⟨?_, ?_, ?_, ?_, ?_⟩
  · intro v hv
    rcases List.mem_append.1 hv with hv | hv
    · rw [hsame v hv, h.exact v hv]
      exact relaxVal_congr _ _ _ (fun t ht => (hsame t (h.closed v hv t ht)).symm)
    · rw [List.mem_singleton] at hv
      subst hv
      rw [hget, if_pos rfl]
      exact relaxVal_congr _ _ _ (fun t ht => (hsame t (hts t ht)).symm)
  · intro v hv
    rw [List.mem_append, List.mem_singleton, not_or] at hv
    rw [hget, if_neg hv.2]
    exact h.zero v hv.1
  · intro v
    rw [hget]
    split
    · exact hnew
    · rw [walkWeight_append]
      exact le_trans (h.upper v) (Nat.le_add_right _ _)
  · intro v hv t ht
    rcases List.mem_append.1 hv with hv | hv
    · rw [hsame t (h.closed v hv t ht)]
      exact h.nowrap v hv t ht
    · rw [List.mem_singleton] at hv
      subst hv
      rw [hsame t (hts t ht)]
      refine le_trans ?_ hle
      rw [walkWeight_append, walkWeight_single]
      have := h.upper t
      omega
  · intro v hv t ht
    rcases List.mem_append.1 hv with hv | hv
    · exact List.mem_append_left _ (h.closed v hv t ht)
    · rw [List.mem_singleton] at hv
      subst hv
      exact List.mem_append_left _ (hts t ht)

/-- The pass over a topological order returns and establishes the invariant
for all vertices. -/
theorem longestPathLoop_spec {g : Graph} {wm : List (List Nat)} {i : Nat} {sv : List Vertex}
    (hnd : sv.Nodup)
    (hw : ∀ v ∈ sv, weightAt wm v i = some ((wm.getD v []).getD i 0)) (n : Nat)
    (hlt : ∀ v ∈ sv, v < n) :
    ∀ (todo pre : List Vertex) (lp : List Nat), pre ++ todo = sv →
      TopoOrderedFrom g pre todo → lp.length = n → LpInv g wm i sv pre lp →
      ∃ lp', longestPathLoop g wm i todo lp = some lp' ∧ lp'.length = n ∧
        LpInv g wm i sv sv lp' := by
  intro todo
  induction todo with
  | nil =>
    intro pre lp hsv _ hl hinv
    rw [List.append_nil] at hsv
    subst hsv
    exact ⟨lp, rfl, hl, hinv⟩
  | cons u rest ih =>
    intro pre lp hsv hto hl hinv
    have hmem : u ∈ sv := by rw [← hsv]; simp
    have hu : u ∉ pre := by
      intro hp
      rw [← hsv] at hnd
      exact (List.nodup_append.1 hnd).2.2 hp (List.mem_cons_self _ _)
    have hul : u < lp.length := by rw [hl]; exact hlt u hmem
    have hts : ∀ t, Edge g u t → t ∈ pre := hto.1
    have hne : ∀ t ∈ out_edges g u, t ≠ u := fun t ht e => hu (e ▸ hts t ht)
    rw [longestPathLoop, relaxEdges_spec (hw u hmem) _ _ hul hne]
    simp only
    exact ih (pre ++ [u]) _ (by rw [← hsv]; simp) hto.2 (by rw [List.length_set]; exact hl)
      (hinv.step hsv hu hul hts)

theorem LpInv.init (g : Graph) (wm : List (List Nat)) (i : Nat) (sv : List Vertex) (n : Nat) :
    LpInv g wm i sv [] (List.replicate n 0) := by
  have hz : ∀ v, (List.replicate n 0).getD v 0 = 0 := by
    intro v
    rw [List.getD_eq_getElem?_getD]
    by_cases hv : v < n
    · rw [List.getElem?_eq_getElem (by simpa using hv)]; simp
    · rw [List.getElem?_eq_none (by simpa using hv)]; rfl
  exact ⟨(fun v hv => by cases hv), (fun v _ => hz v),
    (fun v => by rw [hz]; exact Nat.zero_le _), (fun v hv => by cases hv),
    (fun v hv => by cases hv)⟩

theorem topoOrderedFrom_index {g : Graph} :
    ∀ (post pre : List Vertex), TopoOrderedFrom g pre post →
      ∀ u ∈ post, ∀ t, Edge g u t → t ∈ pre ∨ post.indexOf t < post.indexOf u := by
  intro post
  induction post with
  | nil => intro _ _ u hu; cases hu
  | cons x post ih =>
    intro pre hto u hu t e
    by_cases hux : u = x
    · subst hux
      exact Or.inl (hto.1 t e)
    · have hup : u ∈ post := (List.mem_cons.1 hu).resolve_left hux
      have hxu : x ≠ u := fun h => hux h.symm
      rw [List.indexOf_cons_ne _ hxu]
      by_cases htx : t = x
      · subst htx
        rw [List.indexOf_cons_self]
        exact Or.inr (Nat.succ_pos _)
      · have hxt : x ≠ t := fun h => htx h.symm
        rw [List.indexOf_cons_ne _ hxt]
        rcases ih (pre ++ [x]) hto.2 u hup t e with h | h
        · rcases List.mem_append.1 h with h | h
          · exact Or.inl h
          · rw [List.mem_singleton] at h
            exact absurd h htx
        · exact Or.inr (Nat.succ_lt_succ h)

/-- A graph whose vertices can all be listed successors first has no cycle. -/
theorem acyclic_of_topoOrdered {g : Graph} (hg : g.wf) {sv : List Vertex}
    (hmem : ∀ v, v < num_vertices g → v ∈ sv) (ho : TopoOrdered g sv) : Acyclic g := by
  refine acyclic_of_rank g (fun v => sv.indexOf v) ?_
  intro u t e
  rcases topoOrderedFrom_index sv [] ho u (hmem u (edge_lt hg e).1) t e with h | h
  · cases h
  · exact h

/-- A graph on which `topological_sort` returns has no cycle. -/
theorem acyclic_of_topological_sort {g : Graph} (hg : g.wf) {sv : List Vertex}
    (h : topological_sort g = .ok sv) : Acyclic g := by
  rcases topological_sort_spec hg with ⟨h1, _⟩ | ⟨sv', h1, _, h3, h4⟩
  · rw [h1] at h; cases h
  · exact acyclic_of_topoOrdered hg (fun v hv => (h3 v).2 hv) h4

theorem walkWeight_perm (wm : List (List Nat)) (i : Nat) {sv : List Vertex} {n : Nat}
    (hnd : sv.Nodup) (hmem : ∀ v, v ∈ sv ↔ v < n) :
    walkWeight wm i sv = walkWeight wm i (List.range n) := by
  have hp : sv.Perm (List.range n) :=
    (List.perm_ext_iff_of_nodup hnd (List.nodup_range n)).2
      (fun v => by rw [hmem, List.mem_range])
  unfold walkWeight
  exact (hp.map _).sum_eq

theorem walkWeight_range (wm : List (List Nat)) (i : Nat) :
    walkWeight wm i (List.range wm.length) = (wm.map (fun row => row.getD i 0)).sum := by
  unfold walkWeight
  congr 1
  apply List.ext_getElem
  · simp
  · intro j h1 h2
    have hj : j < wm.length := by simpa using h2
    simp [List.getD_eq_getElem?_getD, List.getElem?_eq_getElem hj]

theorem volumeLoop_returns (i : Nat) :
    ∀ (wm : List (List Nat)), (∀ row ∈ wm, i < row.length) →
      ∀ v0, ∃ vol, volumeLoop i wm v0 = some vol := by
  intro wm
  induction wm with
  | nil => intro _ v0; exact ⟨v0, rfl⟩
  | cons row rest ih =>
    intro h v0
    have hi : i < row.length := h row (List.mem_cons_self _ _)
    obtain ⟨vol, hv⟩ := ih (fun r hr => h r (List.mem_cons_of_mem _ hr)) (add64 v0 row[i])
    refine ⟨vol, ?_⟩
    rw [volumeLoop, List.get?_eq_getElem?, List.getElem?_eq_getElem hi]
    exact hv

/-- The longest-path pass along the order of `topological_sort`: it returns,
the assertion on the front entry holds when vertex 0 has an out-edge and a
positive weight, and the front entry is at most the sum of column `i`. -/
theorem criticalPath_spec {g : Graph} {wm : List (List Nat)} {i : Nat}
    {sv : List Vertex} (hnd : sv.Nodup) (hmem : ∀ v, v ∈ sv ↔ v < num_vertices g)
    (hto : TopoOrdered g sv) (hlen : wm.length = num_vertices g)
    (hrow : ∀ row ∈ wm, i < row.length) (hroot : out_edges g 0 ≠ [])
    (hw0 : 0 < (wm.getD 0 []).getD i 0)
    (hsum : (wm.map (fun row => row.getD i 0)).sum < 2 ^ 64) :
    ∃ lp, longest_path g wm sv i = some lp ∧ lp.length = num_vertices g ∧
      LpInv g wm i sv sv lp ∧ criticalPath g wm sv i = some (lp.getD 0 0) ∧
      0 < lp.getD 0 0 ∧ lp.getD 0 0 ≤ (wm.map (fun row => row.getD i 0)).sum := by
  have hS : walkWeight wm i sv = (wm.map (fun row => row.getD i 0)).sum := by
    rw [walkWeight_perm wm i hnd hmem, ← hlen, walkWeight_range]
  have hw : ∀ v ∈ sv, weightAt wm v i = some ((wm.getD v []).getD i 0) := by
    intro v hv
    have hvl : v < wm.length := by rw [hlen]; exact (hmem v).1 hv
    apply weightAt_eq hvl
    apply hrow
    rw [List.getD_eq_getElem _ _ hvl]
    exact List.getElem_mem _
  obtain ⟨lp, h1, h2, h3⟩ := longestPathLoop_spec hnd hw (num_vertices g)
    (fun v hv => (hmem v).1 hv) sv [] (List.replicate (num_vertices g) 0) rfl hto (by simp)
    (LpInv.init g wm i sv _)
  have h0n : 0 < num_vertices g := by
    by_contra hc
    apply hroot
    unfold out_edges
    rw [List.getD_eq_getElem?_getD, List.getElem?_eq_none (by unfold num_vertices at hc; omega)]
    rfl
  have h0 : (0 : Nat) ∈ sv := (hmem 0).2 h0n
  obtain ⟨t, ts, hts⟩ := List.exists_cons_of_ne_nil hroot
  have he : Edge g 0 t := by unfold Edge; rw [hts]; exact List.mem_cons_self _ _
  have hpos : 0 < lp.getD 0 0 := by
    have hge := le_relaxVal_mem ((wm.getD 0 []).getD i 0) lp (out_edges g 0) 0 t he
    rw [← h3.exact 0 h0] at hge
    have hnw := h3.nowrap 0 h0 t he
    rw [hS] at hnw
    unfold add64 at hge
    rw [Nat.mod_eq_of_lt (by omega)] at hge
    omega
  have hle : lp.getD 0 0 ≤ (wm.map (fun row => row.getD i 0)).sum := by
    rw [← hS]; exact h3.upper 0
  have h1' : longest_path g wm sv i = some lp := h1
  refine ⟨lp, h1', h2, h3, ?_, hpos, hle⟩
  unfold criticalPath
  rw [h1']
  simp only
  have hhead : lp.head? = some (lp.getD 0 0) := by
    cases lp with
    | nil => simp at h2; omega
    | cons a l => rfl
  rw [hhead]
  simp only
  rw [if_neg (by omega)]

theorem allSome_map_range {α : Type} (f : Nat → Option α) (h : Nat → α) (k : Nat)
    (hf : ∀ i, i < k → f i = some (h i)) :
    allSome ((List.range k).map f) = some ((List.range k).map h) := by
  rw [allSome_eq_some, List.map_map]
  apply List.map_congr_left
  intro i hi
  exact hf i (List.mem_range.1 hi)

theorem zipWith_map_same {α β γ δ : Type} (f : β → γ → δ) (a : α → β) (b : α → γ) :
    ∀ l : List α, List.zipWith f (l.map a) (l.map b) = l.map (fun x => f (a x) (b x)) := by
  intro l
  induction l with
  | nil => rfl
  | cons x l ih => simp only [List.map_cons, List.zipWith_cons_cons, ih]

theorem getD_map_range (f : Nat → Nat) {k i : Nat} (hi : i < k) (d : Nat) :
    ((List.range k).map f).getD i d = f i := by
  rw [List.getD_eq_getElem?_getD, List.getElem?_map, List.getElem?_range hi]
  rfl

/-- C20 (amended): on a well-formed acyclic graph whose vertex 0 has an
out-edge, with a weight map of one row of `NUM_CONFIGS` entries per vertex in
which vertex 0 has positive weights, for `num_cores ≥ 1` and column sums with
`sum * num_cores ≤ 2 ^ 52`, `compute_WCRTs` returns; the three vectors have
`NUM_CONFIGS` entries, and for every configuration `i`, `volumes[i]` is the sum
of column `i`, the critical path does not exceed the volume and
`wcrts[i] = critical_paths[i] + (volumes[i] - critical_paths[i]) / num_cores`
with truncating division: the `double` computation loses nothing in that
range. -/
theorem wcrt_graham (g : Graph) (wm : List (List Nat)) (n : Int)
    (hg : g.wf) (hac : Acyclic g) (hlen : wm.length = num_vertices g)
    (hrow : ∀ row ∈ wm, NUM_CONFIGS ≤ row.length) (hn : 1 ≤ n)
    (hroot : out_edges g 0 ≠ [])
    (hw0 : ∀ i, i < NUM_CONFIGS → 0 < (wm.getD 0 []).getD i 0)
    (hfit : ∀ i, i < NUM_CONFIGS →
      (wm.map (fun row => row.getD i 0)).sum * n.toNat ≤ 2 ^ 52) :
    ∃ res, compute_WCRTs g wm n = some res ∧
      res.wcrts.length = NUM_CONFIGS ∧ res.critical_paths.length = NUM_CONFIGS ∧
      res.volumes.length = NUM_CONFIGS ∧
      ∀ i, i < NUM_CONFIGS →
        res.volumes.getD i 0 = (wm.map (fun row => row.getD i 0)).sum ∧
        res.critical_paths.getD i 0 ≤ res.volumes.getD i 0 ∧
        res.wcrts.getD i 0 = res.critical_paths.getD i 0 +
          (res.volumes.getD i 0 - res.critical_paths.getD i 0) / n.toNat := by
  have hsum : ∀ i, i < NUM_CONFIGS → (wm.map (fun row => row.getD i 0)).sum < 2 ^ 64 := by
    intro i hi
    have h1 : (wm.map (fun row => row.getD i 0)).sum ≤
        (wm.map (fun row => row.getD i 0)).sum * n.toNat :=
      Nat.le_mul_of_pos_right _ (by omega)
    have h2 := hfit i hi
    have h3 : (2 : Nat) ^ 52 < 2 ^ 64 := by norm_num
    omega
  obtain ⟨sv, hts, hnd, hmem, hto⟩ := topological_sort_returns hg hac
  have hcp : ∀ i, i < NUM_CONFIGS →
      criticalPath g wm sv i = some ((criticalPath g wm sv i).getD 0) ∧
      (criticalPath g wm sv i).getD 0 ≤ (wm.map (fun row => row.getD i 0)).sum := by
    intro i hi
    obtain ⟨lp, _, _, _, h4, _, h6⟩ := criticalPath_spec hnd hmem hto hlen
      (fun row hr => Nat.lt_of_lt_of_le hi (hrow row hr)) hroot (hw0 i hi) (hsum i hi)
    rw [h4]
    exact ⟨rfl, h6⟩
  have hvol : ∀ i, i < NUM_CONFIGS →
      volumeLoop i wm 0 = some ((volumeLoop i wm 0).getD 0) ∧
      (volumeLoop i wm 0).getD 0 = (wm.map (fun row => row.getD i 0)).sum := by
    intro i hi
    obtain ⟨vol, hv⟩ := volumeLoop_returns i wm
      (fun row hr => Nat.lt_of_lt_of_le hi (hrow row hr)) 0
    have := volumeLoop_eq i wm 0 vol hv (by norm_num)
    rw [Nat.zero_add, Nat.mod_eq_of_lt (hsum i hi)] at this
    rw [hv]
    exact ⟨rfl, this⟩
  have hw : ∀ i, i < NUM_CONFIGS →
      wcrtOf n ((criticalPath g wm sv i).getD 0) ((volumeLoop i wm 0).getD 0) =
        some ((criticalPath g wm sv i).getD 0 +
          ((volumeLoop i wm 0).getD 0 - (criticalPath g wm sv i).getD 0) / n.toNat) := by
    intro i hi
    have h1 := (hcp i hi).2
    have h2 := (hvol i hi).2
    exact wcrtOf_exact n hn _ _ (by omega) (by rw [h2]; exact hfit i hi)
  refine ⟨_, compute_WCRTs_of_parts sv hts
    (allSome_map_range _ _ _ (fun i hi => (hcp i hi).1))
    (allSome_map_range _ _ _ (fun i hi => (hvol i hi).1))
    (by rw [zipWith_map_same]; exact allSome_map_range _ _ _ hw), ?_, ?_, ?_, ?_⟩
  · simp
  · simp
  · simp
  · intro i hi
    rw [getD_map_range _ hi, getD_map_range _ hi, getD_map_range _ hi]
    have h1 := (hcp i hi).2
    have h2 := (hvol i hi).2
    exact ⟨h2, by omega, rfl⟩

/-- Witness for C20: the fork/join graph with weights 10, 20, 30 on two cores:
volume 60, critical path 30 (the sink is not counted), WCRT `30 + 30 / 2 = 45`. -/
theorem wcrt_graham_witness :
    compute_WCRTs forkJoinDag.g graham_weights 2 =
      some ⟨[45, 45, 45, 45], [30, 30, 30, 30], [60, 60, 60, 60]⟩ ∧
    ∃ res, compute_WCRTs forkJoinDag.g graham_weights 2 = some res ∧
      res.wcrts.length = NUM_CONFIGS ∧ res.critical_paths.length = NUM_CONFIGS ∧
      res.volumes.length = NUM_CONFIGS ∧
      ∀ i, i < NUM_CONFIGS →
        res.volumes.getD i 0 = (graham_weights.map (fun row => row.getD i 0)).sum ∧
        res.critical_paths.getD i 0 ≤ res.volumes.getD i 0 ∧
        res.wcrts.getD i 0 = res.critical_paths.getD i 0 +
          (res.volumes.getD i 0 - res.critical_paths.getD i 0) / (2 : Int).toNat :=
  ⟨compute_WCRTs_of_parts [2, 1, 0] (by decide) (by decide) (by decide)
      (by decide),
    wcrt_graham forkJoinDag.g graham_weights 2 (by decide)
      (acyclic_of_topological_sort (by decide)
        (show topological_sort forkJoinDag.g = .ok [2, 1, 0] by decide))
      (by decide) (by decide) (by decide) (by decide) (by decide) (by decide)⟩

/-- C20 (counterexample): on the chain `0 → 1 → 2` with the weights
`2 ^ 53 + 2`, `1`, `0` and one core, every column adds up to
`9007199254740995 < 2 ^ 64`, the volume and the critical path are both
`9007199254740995`, so that the formula gives `9007199254740995`; the code
returns `wcrts[i] = 9007199254740996`, the `double` nearest to the critical
path. -/
theorem wcrt_rounded_by_double :
    compute_WCRTs scenarioAGraph roundWeights 1 =
      some ⟨[9007199254740996, 9007199254740996, 9007199254740996, 9007199254740996],
        [9007199254740995, 9007199254740995, 9007199254740995, 9007199254740995],
        [9007199254740995, 9007199254740995, 9007199254740995, 9007199254740995]⟩ ∧
    (∀ i, i < NUM_CONFIGS →
      (roundWeights.map (fun row => row.getD i 0)).sum = 9007199254740995) ∧
    9007199254740995 + (9007199254740995 - 9007199254740995) / (1 : Int).toNat ≠
      9007199254740996 :=
  ⟨compute_WCRTs_of_parts [2, 1, 0] (by decide) (by decide) (by decide) (by decide),
    by decide, by decide⟩

/-! ## Structure of an accepted description -/

/-- What an accepting run of `parse_dag` went through. -/
theorem parse_dag_parts {blocks : List BasicBlock} {pd : ParsedDag}
    (h : parse_dag blocks = .ok pd) :
    ∃ bbs2d grp0 first last container,
      groupBlocks (sortBlocks blocks) = .ok bbs2d ∧
      addAllEdges bbs2d bbs2d.flatten ⟨[]⟩ = .ok pd.g ∧
      bbs2d.head? = some grp0 ∧ grp0.head? = some first ∧ grp0.getLast? = some last ∧
      topological_sort pd.g = .ok container ∧
      container.getLast? = some pd.r ∧ container.head? = some pd.e ∧
      pd.r = toVertex first.ID ∧ pd.e = toVertex last.ID ∧ pd.num_tasks = bbs2d.length := by
  unfold parse_dag parse_dag_sorted at h
  cases h1 : groupBlocks (sortBlocks blocks) with
  | error e => rw [h1] at h; cases h
  | ok bbs2d =>
    rw [h1] at h
    simp only at h
    cases h2 : addAllEdges bbs2d bbs2d.flatten ⟨[]⟩ with
    | error e => rw [h2] at h; cases h
    | ok g =>
      rw [h2] at h
      simp only at h
      cases h3 : bbs2d.head? with
      | none => rw [h3] at h; cases h
      | some grp0 =>
        rw [h3] at h
        simp only at h
        cases h4 : grp0.head? with
        | none => rw [h4] at h; cases h
        | some first =>
          cases h5 : grp0.getLast? with
          | none => rw [h4, h5] at h; cases h
          | some last =>
            rw [h4, h5] at h
            simp only at h
            cases h6 : topological_sort g with
            | error e =>
              rw [h6] at h
              cases e <;> cases h
            | ok container =>
              rw [h6] at h
              simp only at h
              cases h7 : container.getLast? with
              | none => rw [h7] at h; cases h
              | some back =>
                cases h8 : container.head? with
                | none => rw [h7, h8] at h; cases h
                | some front =>
                  rw [h7, h8] at h
                  simp only at h
                  split at h
                  · cases h
                  · rename_i hb
                    split at h
                    · cases h
                    · rename_i hf
                      cases h
                      refine ⟨bbs2d, grp0, first, last, container, rfl, h2, h3, h4, h5, h6,
                        ?_, ?_, rfl, rfl, rfl⟩
                      · rw [h7]; exact congrArg some (not_not.1 hb)
                      · rw [h8]; exact congrArg some (not_not.1 hf)

/-- C21 (the code differs): `parse_dag` accepts `swappedBlocks`, whose graph
is the single edge `1 → 0` from the root 1 to the exit 0; with the positive
weights 7 and 9 the longest-path vector is `[0, 9]`, its front entry is zero
and the assertion of `compute_WCRTs` fires. The one-block program is not
accepted at all: its graph has no vertex. -/
theorem zero_critical_path_on_accepted_dag :
    parse_dag swappedBlocks = .ok ⟨⟨[[], [0]]⟩, 1, 0, 1⟩ ∧
    topological_sort ⟨[[], [0]]⟩ = .ok [0, 1] ∧
    (∀ i, i < NUM_CONFIGS →
      longest_path ⟨[[], [0]]⟩ [[7, 7, 7, 7], [9, 9, 9, 9]] [0, 1] i = some [0, 9] ∧
      criticalPath ⟨[[], [0]]⟩ [[7, 7, 7, 7], [9, 9, 9, 9]] [0, 1] i = none) ∧
    (∀ n : Int, compute_WCRTs ⟨[[], [0]]⟩ [[7, 7, 7, 7], [9, 9, 9, 9]] n = none) ∧
    parse_dag oneBlock = .error .out_of_range := by
  refine ⟨by decide, by decide, by decide, ?_, by decide⟩
  intro n
  have h1 : topological_sort ⟨[[], [0]]⟩ = .ok [0, 1] := by decide
  have h2 : allSome ((List.range NUM_CONFIGS).map
      (criticalPath ⟨[[], [0]]⟩ [[7, 7, 7, 7], [9, 9, 9, 9]] [0, 1])) = none := by decide
  unfold compute_WCRTs
  rw [h1]
  simp only [h2]

/-! ## The sorting and grouping steps of parse_dag -/

theorem BasicBlock.le_iff (a b : BasicBlock) :
    BasicBlock.le a b ↔
      a.taskID < b.taskID ∨ (a.taskID = b.taskID ∧ a.nodeID ≤ b.nodeID) := by
  unfold BasicBlock.le BasicBlock.lt
  split
  · rename_i h
    constructor
    · intro hn; exact Or.inr ⟨h.symm, not_lt.1 hn⟩
    · rintro (hlt | ⟨_, hle⟩)
      · omega
      · exact not_lt.2 hle
  · rename_i h
    constructor
    · intro hn
      left
      have : a.taskID ≠ b.taskID := fun e => h e.symm
      omega
    · rintro (hlt | ⟨he, _⟩)
      · omega
      · exact absurd he.symm h

instance : IsTotal BasicBlock (fun a b => ¬ BasicBlock.lt b a) where
  total a b := by
    have h1 := BasicBlock.le_iff a b
    have h2 := BasicBlock.le_iff b a
    unfold BasicBlock.le at h1 h2
    rw [h1, h2]
    omega

instance : IsTrans BasicBlock (fun a b => ¬ BasicBlock.lt b a) where
  trans a b c := by
    have h1 := BasicBlock.le_iff a b
    have h2 := BasicBlock.le_iff b c
    have h3 := BasicBlock.le_iff a c
    unfold BasicBlock.le at h1 h2 h3
    rw [h1, h2, h3]
    omega

theorem sortBlocks_perm (blocks : List BasicBlock) : (sortBlocks blocks).Perm blocks :=
  List.perm_insertionSort _ _

theorem sortBlocks_sorted (blocks : List BasicBlock) :
    (sortBlocks blocks).Pairwise BasicBlock.le :=
  List.sorted_insertionSort (fun a b => ¬ BasicBlock.lt b a) blocks

theorem mem_sortBlocks {blocks : List BasicBlock} {b : BasicBlock} :
    b ∈ sortBlocks blocks ↔ b ∈ blocks :=
  (sortBlocks_perm blocks).mem_iff

/-- Shape of the result of the grouping loop: the groups are appended to `acc`,
their concatenation is the current group followed by the input, the first one
extends the current group by blocks of task `cur`, and the `j`-th further one
is a non-empty list of blocks of task `cur + 1 + j`. -/
theorem groupLoop_ok :
    ∀ (l : List BasicBlock) (cur : Int) (cg : List BasicBlock) (acc gs : List (List BasicBlock)),
      groupLoop l cur cg acc = .ok gs →
      ∃ l1 rest, gs = acc ++ (cg ++ l1) :: rest ∧ ((cg ++ l1) :: rest).flatten = cg ++ l ∧
        (∀ x ∈ l1, x.taskID = cur) ∧
        ∀ (j : Nat) (g : List BasicBlock), rest[j]? = some g →
          g ≠ [] ∧ ∀ x ∈ g, x.taskID = cur + 1 + (j : Int) := by
  intro l
  induction l with
  | nil =>
    intro cur cg acc gs h
    simp only [groupLoop, Except.ok.injEq] at h
    subst h
    exact ⟨[], [], by simp, by simp, (fun x hx => by cases hx), (fun j g hg => by simp at hg)⟩
  | cons b l ih =>
    intro cur cg acc gs h
    rw [groupLoop] at h
    by_cases hb : b.taskID = cur
    · rw [if_neg (not_not.2 hb)] at h
      obtain ⟨l1, rest, h1, h2, h3, h4⟩ := ih cur (cg ++ [b]) acc gs h
      refine ⟨b :: l1, rest, by simpa using h1, by simpa using h2, ?_, h4⟩
      intro x hx
      rcases List.mem_cons.1 hx with rfl | hx
      · exact hb
      · exact h3 x hx
    · rw [if_pos hb] at h
      by_cases hb1 : b.taskID = cur + 1
      · rw [if_pos hb1] at h
        obtain ⟨l1, rest, h1, h2, h3, h4⟩ := ih b.taskID [b] (acc ++ [cg]) gs h
        refine ⟨[], ([b] ++ l1) :: rest, by simpa using h1, ?_, (fun x hx => by cases hx), ?_⟩
        · simp only [List.append_nil, List.flatten_cons] at h2 ⊢
          rw [h2]
          simp
        · intro j g hg
          cases j with
          | zero =>
            simp only [List.getElem?_cons_zero, Option.some.injEq] at hg
            subst hg
            refine ⟨by simp, ?_⟩
            intro x hx
            rcases List.mem_append.1 hx with hx | hx
            · rw [List.mem_singleton] at hx
              subst hx
              simp [hb1]
            · rw [h3 x hx, hb1]
              simp
          | succ j =>
            simp only [List.getElem?_cons_succ] at hg
            obtain ⟨k1, k2⟩ := h4 j g hg
            refine ⟨k1, fun x hx => ?_⟩
            rw [k2 x hx, hb1]
            push_cast
            ring
      · rw [if_neg hb1] at h
        cases h

/-- The grouping loop returns on a list sorted by task id whose task ids start
at `cur` or above and skip no value. -/
theorem groupLoop_returns :
    ∀ (l : List BasicBlock) (cur : Int) (cg : List BasicBlock) (acc : List (List BasicBlock)),
      l.Pairwise (fun a b => a.taskID ≤ b.taskID) → (∀ b ∈ l, cur ≤ b.taskID) →
      (∀ t : Int, cur < t → (∃ b ∈ l, t ≤ b.taskID) → ∃ b ∈ l, b.taskID = t) →
      ∃ gs, groupLoop l cur cg acc = .ok gs := by
  intro l
  induction l with
  | nil => intro cur cg acc _ _ _; exact ⟨acc ++ [cg], rfl⟩
  | cons b l ih =>
    intro cur cg acc hs hge hgap
    have hs' := (List.pairwise_cons.1 hs)
    rw [groupLoop]
    by_cases hb : b.taskID = cur
    · rw [if_neg (not_not.2 hb)]
      refine ih cur _ _ hs'.2 (fun x hx => hge x (List.mem_cons_of_mem _ hx)) ?_
      intro t ht hex
      obtain ⟨x, hx, hxt⟩ := hex
      obtain ⟨y, hy, hyt⟩ := hgap t ht ⟨x, List.mem_cons_of_mem _ hx, hxt⟩
      rcases List.mem_cons.1 hy with rfl | hy
      · omega
      · exact ⟨y, hy, hyt⟩
    · rw [if_pos hb]
      have hgt : cur < b.taskID := lt_of_le_of_ne (hge b (List.mem_cons_self _ _)) (Ne.symm hb)
      have hb1 : b.taskID = cur + 1 := by
        obtain ⟨y, hy, hyt⟩ := hgap (cur + 1) (by omega) ⟨b, List.mem_cons_self _ _, by omega⟩
        rcases List.mem_cons.1 hy with rfl | hy
        · exact hyt
        · have := hs'.1 y hy
          omega
      rw [if_pos hb1]
      refine ih b.taskID _ _ hs'.2 (fun x hx => hs'.1 x hx) ?_
      intro t ht hex
      obtain ⟨x, hx, hxt⟩ := hex
      obtain ⟨y, hy, hyt⟩ := hgap t (by omega) ⟨x, List.mem_cons_of_mem _ hx, hxt⟩
      rcases List.mem_cons.1 hy with rfl | hy
      · omega
      · exact ⟨y, hy, hyt⟩

theorem groupLoop_error :
    ∀ (l : List BasicBlock) (cur : Int) (cg : List BasicBlock) (acc : List (List BasicBlock))
      (e : ParseError), groupLoop l cur cg acc = .error e → e = .task_gap := by
  intro l
  induction l with
  | nil => intro cur cg acc e h; cases h
  | cons b l ih =>
    intro cur cg acc e h
    rw [groupLoop] at h
    split at h
    · split at h
      · exact ih _ _ _ e h
      · cases h; rfl
    · exact ih _ _ _ e h

/-- Filtering the concatenation of groups that each hold one task id. -/
theorem filter_flatten_groups (t : Nat) :
    ∀ (gs : List (List BasicBlock)) (off : Nat),
      (∀ (j : Nat) (g : List BasicBlock), gs[j]? = some g →
        ∀ x ∈ g, x.taskID = ((off + j : Nat) : Int)) →
      gs.flatten.filter (fun b => decide (b.taskID = (t : Int))) =
        if off ≤ t then gs.getD (t - off) [] else [] := by
  intro gs
  induction gs with
  | nil => intro off _; simp
  | cons g0 gs ih =>
    intro off h
    have h0 : ∀ x ∈ g0, x.taskID = ((off : Nat) : Int) := by
      intro x hx
      have := h 0 g0 (by simp) x hx
      simpa using this
    have hrest : ∀ (j : Nat) (g : List BasicBlock), gs[j]? = some g →
        ∀ x ∈ g, x.taskID = ((off + 1 + j : Nat) : Int) := by
      intro j g hg x hx
      have := h (j + 1) g (by simpa using hg) x hx
      rw [this]
      congr 1
      omega
    rw [List.flatten_cons, List.filter_append, ih (off + 1) hrest]
    by_cases hlt : t < off
    · have hf : g0.filter (fun b => decide (b.taskID = (t : Int))) = [] := by
        rw [List.filter_eq_nil_iff]
        intro x hx
        rw [h0 x hx]
        simp
        omega
      rw [hf, if_neg (by omega), if_neg (by omega)]
      rfl
    · by_cases heq : t = off
      · subst heq
        have hf : g0.filter (fun b => decide (b.taskID = (t : Int))) = g0 := by
          rw [List.filter_eq_self]
          intro x hx
          rw [h0 x hx]
          simp
        rw [hf, if_neg (by omega), if_pos (le_refl _)]
        simp
      · have hf : g0.filter (fun b => decide (b.taskID = (t : Int))) = [] := by
          rw [List.filter_eq_nil_iff]
          intro x hx
          rw [h0 x hx]
          simp
          omega
        rw [hf, if_pos (by omega), if_pos (by omega)]
        have : t - off = (t - (off + 1)) + 1 := by omega
        rw [this]
        simp

/-- What the grouping step returns: at least one group, the groups
concatenate to the sorted list, and group `t` is the non-empty sequence of
task `t`. -/
theorem groupBlocks_ok {blocks : List BasicBlock} {gs : List (List BasicBlock)}
    (h : groupBlocks (sortBlocks blocks) = .ok gs) :
    1 ≤ gs.length ∧ gs.flatten = sortBlocks blocks ∧
    ∀ t, t < gs.length → gs.getD t [] = taskSeq blocks t ∧ gs.getD t [] ≠ [] := by
  unfold groupBlocks at h
  cases hs : sortBlocks blocks with
  | nil => rw [hs] at h; cases h
  | cons b0 s =>
    rw [hs] at h
    simp only at h
    split at h
    · rename_i hb0
      obtain ⟨l1, rest, h1, h2, h3, h4⟩ := groupLoop_ok _ _ _ _ _ h
      simp only [List.nil_append] at h1 h2
      have hall : ∀ (j : Nat) (g : List BasicBlock), gs[j]? = some g →
          ∀ x ∈ g, x.taskID = ((0 + j : Nat) : Int) := by
        intro j g hg x hx
        rw [h1] at hg
        cases j with
        | zero =>
          simp only [List.getElem?_cons_zero, Option.some.injEq] at hg
          subst hg
          rw [h3 x hx]; simp
        | succ j =>
          simp only [List.getElem?_cons_succ] at hg
          rw [(h4 j g hg).2 x hx]
          push_cast
          ring
      have hl1 : l1 ≠ [] := by
        intro hl
        have hmem : b0 ∈ (l1 :: rest).flatten := by rw [h2]; exact List.mem_cons_self _ _
        rw [hl, List.flatten_cons, List.nil_append, List.mem_flatten] at hmem
        obtain ⟨g, hg, hbg⟩ := hmem
        obtain ⟨j, hj⟩ := List.getElem?_of_mem hg
        have := (h4 j g hj).2 b0 hbg
        omega
      refine ⟨by rw [h1]; simp, by rw [h1]; exact h2, ?_⟩
      intro t ht
      have hf := filter_flatten_groups t gs 0 hall
      rw [if_pos (Nat.zero_le _), Nat.sub_zero, h1, h2] at hf
      refine ⟨?_, ?_⟩
      · unfold taskSeq
        rw [hs, h1]
        exact hf.symm
      · rw [h1] at ht ⊢
        cases t with
        | zero => simpa using hl1
        | succ t =>
          have ht' : t < rest.length := by simpa using ht
          have := (h4 t rest[t] (List.getElem?_eq_getElem ht')).1
          simpa [List.getD_eq_getElem?_getD, List.getElem?_eq_getElem ht'] using this
    · cases h

theorem mem_taskSeq {blocks : List BasicBlock} {t : Int} {b : BasicBlock} :
    b ∈ taskSeq blocks t ↔ b ∈ blocks ∧ b.taskID = t := by
  unfold taskSeq
  rw [List.mem_filter, mem_sortBlocks]
  simp

theorem taskSeq_perm (blocks : List BasicBlock) (t : Int) :
    (taskSeq blocks t).Perm (blocks.filter (fun b => decide (b.taskID = t))) :=
  (sortBlocks_perm blocks).filter _

theorem taskSeq_sorted (blocks : List BasicBlock) (t : Int) :
    (taskSeq blocks t).Pairwise (fun a b => a.nodeID ≤ b.nodeID) := by
  have h1 : (taskSeq blocks t).Pairwise BasicBlock.le :=
    (sortBlocks_sorted blocks).sublist (List.filter_sublist _)
  have h2 : (taskSeq blocks t).Pairwise (fun a b => a.taskID = t ∧ b.taskID = t) := by
    rw [List.pairwise_iff_forall_sublist]
    intro a b hab
    have ha := hab.subset (List.mem_cons_self _ _)
    have hb := hab.subset (List.mem_cons_of_mem _ (List.mem_cons_self _ _))
    exact ⟨(mem_taskSeq.1 ha).2, (mem_taskSeq.1 hb).2⟩
  refine (h1.and h2).imp ?_
  intro a b hab
  rcases (BasicBlock.le_iff a b).1 hab.1 with h | h
  · omega
  · exact h.2

theorem taskIds_of_groupBlocks {blocks : List BasicBlock} {gs : List (List BasicBlock)}
    (h : groupBlocks (sortBlocks blocks) = .ok gs) : TaskIdsAre blocks gs.length := by
  obtain ⟨_, h2, h3⟩ := groupBlocks_ok h
  intro t
  constructor
  · rintro ⟨b, hb, hbt⟩
    have hm : b ∈ gs.flatten := by rw [h2]; exact mem_sortBlocks.2 hb
    rw [List.mem_flatten] at hm
    obtain ⟨g, hg, hbg⟩ := hm
    obtain ⟨j, hj, hjg⟩ := List.getElem_of_mem hg
    have hgd : gs.getD j [] = g := by
      rw [List.getD_eq_getElem _ _ hj]; exact hjg
    have := (h3 j hj).1
    rw [hgd] at this
    rw [this] at hbg
    have := (mem_taskSeq.1 hbg).2
    omega
  · rintro ⟨h0, hlt⟩
    obtain ⟨n, rfl⟩ : ∃ n : Nat, t = (n : Int) := ⟨t.toNat, (Int.toNat_of_nonneg h0).symm⟩
    have hn : n < gs.length := by exact_mod_cast hlt
    obtain ⟨he, hne⟩ := h3 n hn
    obtain ⟨b, hb⟩ := List.exists_mem_of_ne_nil _ hne
    rw [he] at hb
    exact ⟨b, (mem_taskSeq.1 hb).1, (mem_taskSeq.1 hb).2⟩

theorem groupBlocks_returns {blocks : List BasicBlock} {k : Nat} (hk : 1 ≤ k)
    (h : TaskIdsAre blocks k) : ∃ gs, groupBlocks (sortBlocks blocks) = .ok gs := by
  obtain ⟨c, hc, hc0⟩ := (h 0).2 ⟨le_refl _, by exact_mod_cast hk⟩
  have hge : ∀ b ∈ sortBlocks blocks, (0 : Int) ≤ b.taskID := fun b hb =>
    ((h b.taskID).1 ⟨b, mem_sortBlocks.1 hb, rfl⟩).1
  have hsorted : (sortBlocks blocks).Pairwise (fun a b => a.taskID ≤ b.taskID) := by
    refine (sortBlocks_sorted blocks).imp ?_
    intro a b hab
    rcases (BasicBlock.le_iff a b).1 hab with h | h <;> omega
  have hgap : ∀ t : Int, 0 < t → (∃ b ∈ sortBlocks blocks, t ≤ b.taskID) →
      ∃ b ∈ sortBlocks blocks, b.taskID = t := by
    rintro t ht ⟨b, hb, hbt⟩
    have := ((h b.taskID).1 ⟨b, mem_sortBlocks.1 hb, rfl⟩).2
    obtain ⟨x, hx, hxt⟩ := (h t).2 ⟨by omega, by omega⟩
    exact ⟨x, mem_sortBlocks.2 hx, hxt⟩
  unfold groupBlocks
  cases hs : sortBlocks blocks with
  | nil =>
    have := mem_sortBlocks.2 hc
    rw [hs] at this
    cases this
  | cons b0 s =>
    simp only
    have hb0 : b0.taskID = 0 := by
      have h1 := hge b0 (by rw [hs]; exact List.mem_cons_self _ _)
      have hcm : c ∈ b0 :: s := by rw [← hs]; exact mem_sortBlocks.2 hc
      rw [hs] at hsorted
      rcases List.mem_cons.1 hcm with rfl | hcs
      · exact hc0
      · have := (List.pairwise_cons.1 hsorted).1 c hcs
        omega
    rw [if_pos hb0, ← hs]
    exact groupLoop_returns _ 0 [] [] hsorted hge hgap

/-- The grouping step on the sort result that keeps equal blocks in input
order: it succeeds exactly when the task ids of the description are
`0, 1, …, k - 1` for some `k ≥ 1`; it then returns `k` groups, and group `t`
holds exactly the blocks of task `t` (as a multiset), in non-decreasing
node-index order. It fails with the empty-input error on an empty list, with
the first-task error when the smallest task id is not 0, and with the gap
error in every other case. -/
theorem grouping_of_sortBlocks (blocks : List BasicBlock) :
    ((∃ gs, groupBlocks (sortBlocks blocks) = .ok gs) ↔ ∃ k, 1 ≤ k ∧ TaskIdsAre blocks k) ∧
    (∀ gs, groupBlocks (sortBlocks blocks) = .ok gs →
      1 ≤ gs.length ∧ TaskIdsAre blocks gs.length ∧
      ∀ t, t < gs.length →
        gs.getD t [] = taskSeq blocks t ∧
        (gs.getD t []).Perm (blocks.filter (fun b => decide (b.taskID = (t : Int)))) ∧
        (gs.getD t []).Pairwise (fun a b => a.nodeID ≤ b.nodeID)) ∧
    (blocks = [] → groupBlocks (sortBlocks blocks) = .error .empty_input) ∧
    (blocks ≠ [] → ¬ MinTaskZero blocks →
      groupBlocks (sortBlocks blocks) = .error .first_task_not_zero) ∧
    (MinTaskZero blocks → (¬ ∃ k, 1 ≤ k ∧ TaskIdsAre blocks k) →
      groupBlocks (sortBlocks blocks) = .error .task_gap) := by
  have hiff : (∃ gs, groupBlocks (sortBlocks blocks) = .ok gs) ↔
      ∃ k, 1 ≤ k ∧ TaskIdsAre blocks k := by
    constructor
    · rintro ⟨gs, h⟩
      exact ⟨gs.length, (groupBlocks_ok h).1, taskIds_of_groupBlocks h⟩
    · rintro ⟨k, hk, h⟩
      exact groupBlocks_returns hk h
  refine ⟨hiff, ?_, ?_, ?_, ?_⟩
  · intro gs h
    obtain ⟨h1, _, h3⟩ := groupBlocks_ok h
    refine ⟨h1, taskIds_of_groupBlocks h, fun t ht => ?_⟩
    have he := (h3 t ht).1
    refine ⟨he, ?_, ?_⟩
    · rw [he]; exact taskSeq_perm blocks t
    · rw [he]; exact taskSeq_sorted blocks t
  · intro hb
    subst hb
    rfl
  · intro hne hmin
    unfold groupBlocks
    cases hs : sortBlocks blocks with
    | nil =>
      exfalso
      apply hne
      have := (sortBlocks_perm blocks).length_eq
      rw [hs] at this
      exact List.eq_nil_of_length_eq_zero this.symm
    | cons b0 s =>
      simp only
      have hb0 : b0.taskID ≠ 0 := by
        intro h0
        apply hmin
        have hb0m : b0 ∈ blocks := mem_sortBlocks.1 (by rw [hs]; exact List.mem_cons_self _ _)
        refine ⟨⟨b0, hb0m, h0⟩, fun b hb => ?_⟩
        have hbm : b ∈ b0 :: s := by rw [← hs]; exact mem_sortBlocks.2 hb
        have hsorted := sortBlocks_sorted blocks
        rw [hs] at hsorted
        rcases List.mem_cons.1 hbm with rfl | hbs
        · omega
        · rcases (BasicBlock.le_iff b0 b).1 ((List.pairwise_cons.1 hsorted).1 b hbs) with h | h <;>
            omega
      rw [if_neg hb0]
  · intro hmin hno
    cases hr : groupBlocks (sortBlocks blocks) with
    | ok gs => exact absurd (hiff.1 ⟨gs, hr⟩) hno
    | error e =>
      congr 1
      unfold groupBlocks at hr
      obtain ⟨⟨c, hc, hc0⟩, hge⟩ := hmin
      cases hs : sortBlocks blocks with
      | nil =>
        have := mem_sortBlocks.2 hc
        rw [hs] at this
        cases this
      | cons b0 s =>
        rw [hs] at hr
        simp only at hr
        have hb0 : b0.taskID = 0 := by
          have h1 := hge b0 (mem_sortBlocks.1 (by rw [hs]; exact List.mem_cons_self _ _))
          have hcm : c ∈ b0 :: s := by rw [← hs]; exact mem_sortBlocks.2 hc
          have hsorted := sortBlocks_sorted blocks
          rw [hs] at hsorted
          rcases List.mem_cons.1 hcm with rfl | hcs
          · exact hc0
          · rcases (BasicBlock.le_iff b0 c).1 ((List.pairwise_cons.1 hsorted).1 c hcs) with
              h | h <;> omega
        rw [if_pos hb0] at hr
        exact groupLoop_error _ _ _ _ e hr

theorem pairwise_getLast {α : Type} {R : α → α → Prop} :
    ∀ {l : List α} {x : α}, l.Pairwise R → l.getLast? = some x →
      ∀ y ∈ l, y = x ∨ R y x := by
  intro l
  induction l with
  | nil => intro x _ h; cases h
  | cons a l ih =>
    intro x hp hl y hy
    cases l with
    | nil =>
      simp only [List.getLast?_singleton, Option.some.injEq] at hl
      rw [List.mem_singleton] at hy
      exact Or.inl (hy.trans hl)
    | cons b l =>
      rw [List.getLast?_cons_cons] at hl
      have hp' := List.pairwise_cons.1 hp
      rcases List.mem_cons.1 hy with rfl | hy
      · right
        exact hp'.1 x (List.mem_of_getLast?_eq_some hl)
      · exact ih hp'.2 hl y hy

theorem toVertex_of_nonneg {i : Int} (h0 : 0 ≤ i) (h1 : i < 2 ^ 64) :
    ((toVertex i : Nat) : Int) = i := by
  unfold toVertex
  rw [Int.emod_eq_of_lt h0 h1, Int.toNat_of_nonneg h0]

theorem card_taskIds {blocks : List BasicBlock} {k : Nat} (h : TaskIdsAre blocks k) :
    (blocks.map (fun b => b.taskID)).toFinset.card = k := by
  have : (blocks.map (fun b => b.taskID)).toFinset =
      (Finset.range k).image (fun n : Nat => (n : Int)) := by
    ext t
    rw [List.mem_toFinset, List.mem_map, Finset.mem_image]
    constructor
    · rintro ⟨b, hb, hbt⟩
      obtain ⟨h0, h1⟩ := (h t).1 ⟨b, hb, hbt⟩
      refine ⟨t.toNat, Finset.mem_range.2 ?_, Int.toNat_of_nonneg h0⟩
      omega
    · rintro ⟨n, hn, rfl⟩
      obtain ⟨b, hb, hbt⟩ := (h n).2 ⟨by omega, by exact_mod_cast Finset.mem_range.1 hn⟩
      exact ⟨b, hb, hbt⟩
  rw [this, Finset.card_image_of_injective _ Nat.cast_injective, Finset.card_range]

/-- The first group of an accepted description is the sequence of task 0. -/
theorem parse_dag_group0 {blocks : List BasicBlock} {bbs2d : List (List BasicBlock)}
    {grp0 : List BasicBlock} (h1 : groupBlocks (sortBlocks blocks) = .ok bbs2d)
    (h3 : bbs2d.head? = some grp0) : grp0 = taskSeq blocks 0 := by
  obtain ⟨hl, _, hg⟩ := groupBlocks_ok h1
  have := (hg 0 hl).1
  cases bbs2d with
  | nil => cases h3
  | cons g0 rest =>
    simp only [List.head?_cons, Option.some.injEq] at h3
    subst h3
    simpa using this

/-- Root, exit and task count of a description accepted on the sort result
that keeps equal blocks in input order. -/
theorem root_exit_of_sortBlocks (blocks : List BasicBlock) (pd : ParsedDag)
    (h : parse_dag blocks = .ok pd) :
    (∃ first ∈ blocks, (taskSeq blocks 0).head? = some first ∧ first.taskID = 0 ∧
      (∀ b ∈ blocks, b.taskID = 0 → first.nodeID ≤ b.nodeID) ∧ pd.r = toVertex first.ID ∧
      (0 ≤ first.ID → first.ID < 2 ^ 64 → (pd.r : Int) = first.ID)) ∧
    (∃ last ∈ blocks, (taskSeq blocks 0).getLast? = some last ∧ last.taskID = 0 ∧
      (∀ b ∈ blocks, b.taskID = 0 → b.nodeID ≤ last.nodeID) ∧ pd.e = toVertex last.ID ∧
      (0 ≤ last.ID → last.ID < 2 ^ 64 → (pd.e : Int) = last.ID)) ∧
    pd.num_tasks = (blocks.map (fun b => b.taskID)).toFinset.card := by
  obtain ⟨bbs2d, grp0, first, last, container, h1, _, h3, h4, h5, _, _, _, hr, he, hn⟩ :=
    parse_dag_parts h
  have hg0 := parse_dag_group0 h1 h3
  rw [hg0] at h4 h5
  have hsorted := taskSeq_sorted blocks 0
  have hfm : first ∈ taskSeq blocks 0 := List.mem_of_mem_head? h4
  have hlm : last ∈ taskSeq blocks 0 := List.mem_of_getLast?_eq_some h5
  refine ⟨⟨first, (mem_taskSeq.1 hfm).1, h4, (mem_taskSeq.1 hfm).2, ?_, hr, ?_⟩,
    ⟨last, (mem_taskSeq.1 hlm).1, h5, (mem_taskSeq.1 hlm).2, ?_, he, ?_⟩, ?_⟩
  · intro b hb hb0
    have hbm : b ∈ taskSeq blocks 0 := mem_taskSeq.2 ⟨hb, hb0⟩
    cases hts : taskSeq blocks 0 with
    | nil => rw [hts] at hfm; cases hfm
    | cons x l =>
      rw [hts] at h4 hbm hsorted
      simp only [List.head?_cons, Option.some.injEq] at h4
      subst h4
      rcases List.mem_cons.1 hbm with rfl | hbl
      · exact le_refl _
      · exact (List.pairwise_cons.1 hsorted).1 b hbl
  · intro h0 hlt
    rw [hr]; exact toVertex_of_nonneg h0 hlt
  · intro b hb hb0
    have hbm : b ∈ taskSeq blocks 0 := mem_taskSeq.2 ⟨hb, hb0⟩
    rcases pairwise_getLast hsorted h5 b hbm with rfl | hle
    · exact le_refl _
    · exact hle
  · intro h0 hlt
    rw [he]; exact toVertex_of_nonneg h0 hlt
  · rw [hn, card_taskIds (taskIds_of_groupBlocks h1)]

/-- C25: every graph that `parse_dag` returns is acyclic, and a description
whose grouping and edge construction succeed with a graph that has a directed
cycle (a self-loop included) is rejected with the not-a-DAG error. -/
theorem parse_dag_rejects_cycles (blocks : List BasicBlock) :
    (∀ pd, parse_dag blocks = .ok pd → Acyclic pd.g) ∧
    (∀ bbs2d g, groupBlocks (sortBlocks blocks) = .ok bbs2d →
      addAllEdges bbs2d bbs2d.flatten ⟨[]⟩ = .ok g → ¬ Acyclic g →
      parse_dag blocks = .error .not_a_dag) := by
  constructor
  · intro pd h
    obtain ⟨_, _, _, _, container, _, _, _, _, _, h6, _⟩ := parse_dag_parts h
    exact acyclic_of_topological_sort (parse_dag_wf h) h6
  · intro bbs2d g h1 h2 hc
    have hg : g.wf := addAllEdges_wf _ _ _ _ (by decide) h2
    obtain ⟨hl, _, hgrp⟩ := groupBlocks_ok h1
    have hne := (hgrp 0 hl).2
    unfold parse_dag parse_dag_sorted
    rw [h1]
    simp only
    rw [h2]
    simp only
    cases bbs2d with
    | nil => simp at hl
    | cons g0 rest =>
      have hg0 : g0 ≠ [] := by simpa using hne
      obtain ⟨a, l, rfl⟩ := List.exists_cons_of_ne_nil hg0
      obtain ⟨z, hz⟩ : ∃ z, (a :: l).getLast? = some z :=
        ⟨(a :: l).getLast (by simp), List.getLast?_eq_getLast _ _⟩
      simp only [List.head?_cons, hz]
      rcases topological_sort_spec hg with ⟨ht, _⟩ | ⟨sv, _, _, hmem, hto⟩
      · rw [ht]
      · exact absurd (acyclic_of_topoOrdered hg (fun v hv => (hmem v).2 hv) hto) hc

/-- Witness for C25: `cyclicBlocks` builds the cycle `0 → 1 → 2 → 0` and is
rejected with the not-a-DAG error. -/
theorem parse_dag_rejects_cycles_witness :
    parse_dag cyclicBlocks = .error .not_a_dag :=
  (parse_dag_rejects_cycles cyclicBlocks).2
    [[mkBlock 0 0 0 (-1) [1], mkBlock 1 0 1 1 []], [mkBlock 2 1 0 (-1) []]]
    ⟨[[1], [2], [0]]⟩ (by decide) (by decide)
    (fun hac => hac 0
      (Relation.TransGen.tail (Relation.TransGen.tail (Relation.TransGen.single
        (show Edge ⟨[[1], [2], [0]]⟩ 0 1 by decide))
        (show Edge ⟨[[1], [2], [0]]⟩ 1 2 by decide))
        (show Edge ⟨[[1], [2], [0]]⟩ 2 0 by decide)))

/-! ## The edges built by parse_dag -/

theorem getD_append_replicate_nil (l : List (List Vertex)) (k u : Nat) :
    (l ++ List.replicate k []).getD u [] = l.getD u [] := by
  rw [List.getD_eq_getElem?_getD, List.getD_eq_getElem?_getD]
  by_cases hu : u < l.length
  · rw [List.getElem?_append_left hu]
  · rw [List.getElem?_append_right (Nat.le_of_not_lt hu),
      List.getElem?_eq_none (Nat.le_of_not_lt hu)]
    by_cases hk : u - l.length < k
    · rw [List.getElem?_eq_getElem (by simpa using hk)]
      simp
    · rw [List.getElem?_eq_none (by simpa using hk)]

theorem edge_add_edge (a b : Vertex) (g : Graph) (u v : Vertex) :
    Edge (add_edge a b g) u v ↔ Edge g u v ∨ (u = a ∧ v = b) := by
  unfold Edge out_edges add_edge
  simp only
  rw [getD_list_set]
  simp only [getD_append_replicate_nil]
  have hlen : a < (g.out ++ List.replicate (max a b + 1 - g.out.length) []).length := by
    simp only [List.length_append, List.length_replicate]
    exact lt_of_lt_of_le (Nat.lt_succ_of_le (le_max_left a b)) le_add_tsub
  by_cases hua : u = a
  · subst hua
    rw [if_pos ⟨rfl, hlen⟩, List.mem_append, List.mem_singleton]
    constructor
    · rintro (h | h)
      · exact Or.inl h
      · exact Or.inr ⟨rfl, h⟩
    · rintro (h | ⟨_, h⟩)
      · exact Or.inl h
      · exact Or.inr h
  · rw [if_neg (fun h => hua h.1)]
    constructor
    · exact fun h => Or.inl h
    · rintro (h | ⟨h, _⟩)
      · exact h
      · exact absurd h hua

theorem edge_addEdgeInt {a b : Int} {g g' : Graph} (h : addEdgeInt a b g = .ok g')
    (u v : Vertex) :
    (0 ≤ a ∧ 0 ≤ b) ∧ (Edge g' u v ↔ Edge g u v ∨ ((u : Int) = a ∧ (v : Int) = b)) := by
  unfold addEdgeInt at h
  split at h
  · rename_i hab
    cases h
    refine ⟨hab, ?_⟩
    rw [edge_add_edge]
    have h1 : u = a.toNat ↔ (u : Int) = a :=
      ⟨fun h => by rw [h]; exact Int.toNat_of_nonneg hab.1,
        fun h => by rw [← h]; exact (Int.toNat_natCast u).symm⟩
    have h2 : v = b.toNat ↔ (v : Int) = b :=
      ⟨fun h => by rw [h]; exact Int.toNat_of_nonneg hab.2,
        fun h => by rw [← h]; exact (Int.toNat_natCast v).symm⟩
    rw [h1, h2]
  · cases h

theorem edge_addJoinEdges (bbs2d : List (List BasicBlock)) (bb : BasicBlock) :
    ∀ (ws : List Int) (g g' : Graph), addJoinEdges bbs2d bb ws g = .ok g' →
      ∀ u v, Edge g' u v ↔ Edge g u v ∨
        ∃ task_id ∈ ws, ∃ grp last_bb, indexInt bbs2d task_id = .ok grp ∧
          grp.getLast? = some last_bb ∧ (u : Int) = last_bb.ID ∧ (v : Int) = bb.ID := by
  intro ws
  induction ws with
  | nil =>
    intro g g' h u v
    cases h
    simp
  | cons t ws ih =>
    intro g g' h u v
    rw [addJoinEdges] at h
    cases h1 : indexInt bbs2d t with
    | error e => rw [h1] at h; cases h
    | ok grp =>
      rw [h1] at h
      simp only at h
      cases h2 : grp.getLast? with
      | none => rw [h2] at h; cases h
      | some last_bb =>
        rw [h2] at h
        simp only at h
        cases h3 : addEdgeInt last_bb.ID bb.ID g with
        | error e => rw [h3] at h; cases h
        | ok g1 =>
          rw [h3] at h
          simp only at h
          rw [ih g1 g' h u v, (edge_addEdgeInt h3 u v).2]
          constructor
          · rintro ((h | h) | ⟨t', ht', grp', l', k1, k2, k3⟩)
            · exact Or.inl h
            · exact Or.inr ⟨t, List.mem_cons_self _ _, grp, last_bb, h1, h2, h⟩
            · exact Or.inr ⟨t', List.mem_cons_of_mem _ ht', grp', l', k1, k2, k3⟩
          · rintro (h | ⟨t', ht', grp', l', k1, k2, k3⟩)
            · exact Or.inl (Or.inl h)
            · rcases List.mem_cons.1 ht' with rfl | ht'
              · rw [h1] at k1
                cases k1
                rw [h2] at k2
                cases k2
                exact Or.inl (Or.inr k3)
              · exact Or.inr ⟨t', ht', grp', l', k1, k2, k3⟩

theorem edge_addBlockEdges {bbs2d : List (List BasicBlock)} {bb : BasicBlock} {g g' : Graph}
    (h : addBlockEdges bbs2d bb g = .ok g') :
    (∀ u v, Edge g' u v ↔ Edge g u v ∨ BlockEdge bbs2d bb u v) ∧
    (1 ≤ bb.nodeID → ∃ grp last_bb, indexInt bbs2d bb.taskID = .ok grp ∧
      indexInt grp (bb.nodeID - 1) = .ok last_bb ∧ 0 ≤ last_bb.ID ∧ 0 ≤ bb.ID) := by
  unfold addBlockEdges at h
  simp only at h
  split at h
  · cases h
  · rename_i g1 h1
    split at h
    · cases h
    · rename_i g2 h2
      have hjoin := edge_addJoinEdges bbs2d bb bb.waitFor g2 g' h
      have hc : (∀ u v, Edge g1 u v ↔ Edge g u v ∨
          (1 ≤ bb.nodeID ∧ ∃ grp last_bb, indexInt bbs2d bb.taskID = .ok grp ∧
            indexInt grp (bb.nodeID - 1) = .ok last_bb ∧
            (u : Int) = last_bb.ID ∧ (v : Int) = bb.ID)) ∧
          (1 ≤ bb.nodeID → ∃ grp last_bb, indexInt bbs2d bb.taskID = .ok grp ∧
            indexInt grp (bb.nodeID - 1) = .ok last_bb ∧ 0 ≤ last_bb.ID ∧ 0 ≤ bb.ID) := by
        split at h1
        · rename_i hn
          split at h1
          · cases h1
          · rename_i grp hgrp
            split at h1
            · cases h1
            · rename_i last_bb hlast
              refine ⟨fun u v => ?_, fun _ => ⟨grp, last_bb, hgrp, hlast,
                (edge_addEdgeInt h1 0 0).1⟩⟩
              rw [(edge_addEdgeInt h1 u v).2]
              constructor
              · rintro (k | k)
                · exact Or.inl k
                · exact Or.inr ⟨hn, grp, last_bb, hgrp, hlast, k⟩
              · rintro (k | ⟨_, grp', l', k1, k2, k3⟩)
                · exact Or.inl k
                · rw [hgrp] at k1
                  cases k1
                  rw [hlast] at k2
                  cases k2
                  exact Or.inr k3
        · rename_i hn
          cases h1
          refine ⟨fun u v => ?_, fun hn' => absurd hn' hn⟩
          constructor
          · exact fun k => Or.inl k
          · rintro (k | ⟨hn', _⟩)
            · exact k
            · exact absurd hn' hn
      have hs : ∀ u v, Edge g2 u v ↔ Edge g1 u v ∨
          (bb.taskCreated ≠ -1 ∧ ∃ grp created_bb, indexInt bbs2d bb.taskCreated = .ok grp ∧
            indexInt grp 0 = .ok created_bb ∧
            (u : Int) = bb.ID ∧ (v : Int) = created_bb.ID) := by
        intro u v
        split at h2
        · rename_i hn
          split at h2
          · cases h2
          · rename_i grp hgrp
            split at h2
            · cases h2
            · rename_i c hcr
              rw [(edge_addEdgeInt h2 u v).2]
              constructor
              · rintro (k | k)
                · exact Or.inl k
                · exact Or.inr ⟨hn, grp, c, hgrp, hcr, k⟩
              · rintro (k | ⟨_, grp', c', k1, k2, k3⟩)
                · exact Or.inl k
                · rw [hgrp] at k1
                  cases k1
                  rw [hcr] at k2
                  cases k2
                  exact Or.inr k3
        · rename_i hn
          cases h2
          constructor
          · exact fun k => Or.inl k
          · rintro (k | ⟨hn', _⟩)
            · exact k
            · exact absurd hn' hn
      refine ⟨fun u v => ?_, hc.2⟩
      rw [hjoin u v, hs u v, hc.1 u v, or_assoc, or_assoc]
      rfl

theorem edge_addAllEdges (bbs2d : List (List BasicBlock)) :
    ∀ (bbs : List BasicBlock) (g g' : Graph), addAllEdges bbs2d bbs g = .ok g' →
      (∀ u v, Edge g' u v ↔ Edge g u v ∨ ∃ bb ∈ bbs, BlockEdge bbs2d bb u v) ∧
      ∀ bb ∈ bbs, 1 ≤ bb.nodeID → ∃ grp last_bb, indexInt bbs2d bb.taskID = .ok grp ∧
        indexInt grp (bb.nodeID - 1) = .ok last_bb ∧ 0 ≤ last_bb.ID ∧ 0 ≤ bb.ID := by
  intro bbs
  induction bbs with
  | nil =>
    intro g g' h
    cases h
    exact ⟨fun u v => by simp, fun bb hbb => by cases hbb⟩
  | cons b bbs ih =>
    intro g g' h
    rw [addAllEdges] at h
    cases h1 : addBlockEdges bbs2d b g with
    | error e => rw [h1] at h; cases h
    | ok g1 =>
      rw [h1] at h
      simp only at h
      obtain ⟨k1, k2⟩ := edge_addBlockEdges h1
      obtain ⟨i1, i2⟩ := ih g1 g' h
      refine ⟨fun u v => ?_, fun bb hbb => ?_⟩
      · rw [i1 u v, k1 u v]
        simp only [List.mem_cons, exists_eq_or_imp]
        tauto
      · rcases List.mem_cons.1 hbb with rfl | hbb
        · exact k2
        · exact i2 bb hbb

theorem indexInt_ok_iff {α : Type} (v : List α) (i : Int) (x : α) :
    indexInt v i = .ok x ↔ 0 ≤ i ∧ v[i.toNat]? = some x := by
  unfold indexInt
  split
  · rename_i h0
    rw [List.get?_eq_getElem?]
    cases hv : v[i.toNat]? with
    | none => simp [h0]
    | some y => simp [h0]
  · rename_i h0
    simp [h0]

theorem taskSeq_ne_nil {blocks : List BasicBlock} {gs : List (List BasicBlock)}
    (h : groupBlocks (sortBlocks blocks) = .ok gs) {t : Int} (hne : taskSeq blocks t ≠ []) :
    0 ≤ t ∧ t < gs.length := by
  obtain ⟨b, hb⟩ := List.exists_mem_of_ne_nil _ hne
  exact (taskIds_of_groupBlocks h t).1 ⟨b, (mem_taskSeq.1 hb).1, (mem_taskSeq.1 hb).2⟩

/-- The lookup `basic_blocks_2d[t]` yields the sequence of task `t`. -/
theorem indexInt_groups {blocks : List BasicBlock} {gs : List (List BasicBlock)}
    (h : groupBlocks (sortBlocks blocks) = .ok gs) (t : Int) (grp : List BasicBlock) :
    indexInt gs t = .ok grp ↔ (0 ≤ t ∧ t < gs.length) ∧ grp = taskSeq blocks t := by
  obtain ⟨_, _, h3⟩ := groupBlocks_ok h
  rw [indexInt_ok_iff]
  constructor
  · rintro ⟨h0, hg⟩
    have hlt : t.toNat < gs.length := by
      by_contra hc
      rw [List.getElem?_eq_none (Nat.le_of_not_lt hc)] at hg
      cases hg
    have he := (h3 t.toNat hlt).1
    rw [List.getD_eq_getElem?_getD, hg, Int.toNat_of_nonneg h0] at he
    exact ⟨⟨h0, by omega⟩, he⟩
  · rintro ⟨⟨h0, hlt⟩, rfl⟩
    have hlt' : t.toNat < gs.length := by omega
    have he := (h3 t.toNat hlt').1
    rw [Int.toNat_of_nonneg h0] at he
    rw [← he, List.getD_eq_getElem?_getD, List.getElem?_eq_getElem hlt']
    exact ⟨h0, rfl⟩

/-- With node indices equal to positions, the edges added by the loop of
`parse_dag` are the edges that the description prescribes. -/
theorem blockEdge_iff_specEdge {blocks : List BasicBlock} {gs : List (List BasicBlock)}
    (h : groupBlocks (sortBlocks blocks) = .ok gs) (hpos : NodeIsPosition blocks)
    (u v : Vertex) :
    (∃ bb ∈ gs.flatten, BlockEdge gs bb u v) ↔ SpecEdge blocks u v := by
  have hflat : ∀ bb, bb ∈ gs.flatten ↔ bb ∈ blocks := by
    intro bb
    rw [(groupBlocks_ok h).2.1, mem_sortBlocks]
  constructor
  · rintro ⟨bb, hbb, hc | hs | hj⟩
    · obtain ⟨hn, grp, last_bb, k1, k2, k3, k4⟩ := hc
      obtain ⟨_, rfl⟩ := (indexInt_groups h _ _).1 k1
      obtain ⟨hi0, hi⟩ := (indexInt_ok_iff _ _ _).1 k2
      have hmem : bb ∈ taskSeq blocks bb.taskID := mem_taskSeq.2 ⟨(hflat bb).1 hbb, rfl⟩
      obtain ⟨q, hq⟩ := List.getElem?_of_mem hmem
      have hqn := hpos _ _ _ hq
      have hq1 : q = (bb.nodeID - 1).toNat + 1 := by omega
      rw [hq1] at hq
      exact Or.inl ⟨bb.taskID, _, last_bb, bb, hi, hq, k3, k4⟩
    · obtain ⟨hn, grp, c, k1, k2, k3, k4⟩ := hs
      obtain ⟨_, rfl⟩ := (indexInt_groups h _ _).1 k1
      obtain ⟨_, hi⟩ := (indexInt_ok_iff _ _ _).1 k2
      refine Or.inr (Or.inl ⟨bb, (hflat bb).1 hbb, hn, c, ?_, k3, k4⟩)
      rw [List.head?_eq_getElem?]
      exact hi
    · obtain ⟨t, ht, grp, l, k1, k2, k3, k4⟩ := hj
      obtain ⟨_, rfl⟩ := (indexInt_groups h _ _).1 k1
      exact Or.inr (Or.inr ⟨bb, (hflat bb).1 hbb, t, ht, l, k2, k3, k4⟩)
  · rintro (⟨t, p, a, b, ha, hb, hu, hv⟩ | ⟨b, hb, hn, c, hc, hu, hv⟩ |
      ⟨b, hb, t, ht, l, hl, hu, hv⟩)
    · have hbm : b ∈ taskSeq blocks t := List.getElem?_mem hb
      have hbt := (mem_taskSeq.1 hbm).2
      have hbn := hpos _ _ _ hb
      have hne : taskSeq blocks t ≠ [] := List.ne_nil_of_mem hbm
      refine ⟨b, (hflat b).2 (mem_taskSeq.1 hbm).1, Or.inl ⟨by omega, taskSeq blocks t, a,
        ?_, ?_, hu, hv⟩⟩
      · rw [hbt]
        exact (indexInt_groups h _ _).2 ⟨taskSeq_ne_nil h hne, rfl⟩
      · rw [indexInt_ok_iff]
        refine ⟨by omega, ?_⟩
        have : (b.nodeID - 1).toNat = p := by omega
        rw [this]
        exact ha
    · have hne : taskSeq blocks b.taskCreated ≠ [] := by
        intro he
        rw [he] at hc
        cases hc
      refine ⟨b, (hflat b).2 hb, Or.inr (Or.inl ⟨hn, taskSeq blocks b.taskCreated, c,
        (indexInt_groups h _ _).2 ⟨taskSeq_ne_nil h hne, rfl⟩, ?_, hu, hv⟩)⟩
      rw [indexInt_ok_iff]
      refine ⟨le_refl _, ?_⟩
      rw [List.head?_eq_getElem?] at hc
      exact hc
    · have hne : taskSeq blocks t ≠ [] := by
        intro he
        rw [he] at hl
        cases hl
      exact ⟨b, (hflat b).2 hb, Or.inr (Or.inr ⟨t, ht, taskSeq blocks t, l,
        (indexInt_groups h _ _).2 ⟨taskSeq_ne_nil h hne, rfl⟩, hl, hu, hv⟩)⟩

theorem increasing_lower :
    ∀ (l : List Int) (c : Int), l.Pairwise (fun a b => a < b) → (∀ x ∈ l, c ≤ x) →
      ∀ (p : Nat) (x : Int), l[p]? = some x → c + (p : Int) ≤ x := by
  intro l
  induction l with
  | nil => intro c _ _ p x h; simp at h
  | cons a l ih =>
    intro c hp hc p x h
    have hp' := List.pairwise_cons.1 hp
    have hca := hc a (List.mem_cons_self _ _)
    cases p with
    | zero =>
      simp only [List.getElem?_cons_zero, Option.some.injEq] at h
      subst h
      simpa using hca
    | succ p =>
      simp only [List.getElem?_cons_succ] at h
      have := ih (c + 1) hp'.2 (fun y hy => by have := hp'.1 y hy; omega) p x h
      push_cast
      omega

theorem increasing_gap :
    ∀ (l : List Int), l.Pairwise (fun a b => a < b) →
      ∀ (p q : Nat) (x y : Int), p ≤ q → l[p]? = some x → l[q]? = some y →
        x + ((q - p : Nat) : Int) ≤ y := by
  intro l
  induction l with
  | nil => intro _ p q x y _ h; simp at h
  | cons a l ih =>
    intro hp p q x y hpq hx hy
    have hp' := List.pairwise_cons.1 hp
    cases p with
    | zero =>
      simp only [List.getElem?_cons_zero, Option.some.injEq] at hx
      subst hx
      cases q with
      | zero =>
        simp only [List.getElem?_cons_zero, Option.some.injEq] at hy
        subst hy
        simp
      | succ q =>
        simp only [List.getElem?_cons_succ] at hy
        have := increasing_lower l (a + 1) hp'.2
          (fun z hz => by have := hp'.1 z hz; omega) q y hy
        simp only [Nat.sub_zero]
        push_cast
        omega
    | succ p =>
      cases q with
      | zero => omega
      | succ q =>
        simp only [List.getElem?_cons_succ] at hx hy
        have := ih hp'.2 p q x y (by omega) hx hy
        have e : q + 1 - (p + 1) = q - p := by omega
        rw [e]
        exact this

theorem nodeIds_increasing {blocks : List BasicBlock} (hd : NodeIdsDistinct blocks) (t : Int) :
    ((taskSeq blocks t).map (fun b => b.nodeID)).Pairwise (fun a b => a < b) := by
  have h1 : ((taskSeq blocks t).map (fun b => b.nodeID)).Pairwise (fun a b => a ≤ b) :=
    List.pairwise_map.2 (taskSeq_sorted blocks t)
  have hs : (sortBlocks blocks).Pairwise (fun a b => a.taskID = b.taskID → a.nodeID ≠ b.nodeID) :=
    (sortBlocks_perm blocks).symm.pairwise hd.2
      (fun hab e k => hab e.symm k.symm)
  have ht : (taskSeq blocks t).Pairwise
      (fun a b => a.taskID = b.taskID → a.nodeID ≠ b.nodeID) :=
    hs.sublist (List.filter_sublist _)
  have h2 : ((taskSeq blocks t).map (fun b => b.nodeID)).Pairwise (fun a b => a ≠ b) := by
    rw [List.pairwise_map]
    refine ht.imp_of_mem ?_
    intro a b ha hb hab
    exact hab (((mem_taskSeq.1 ha).2).trans ((mem_taskSeq.1 hb).2).symm)
  exact (h1.and h2).imp (fun h => lt_of_le_of_ne h.1 h.2)

/-- In an accepted description whose node indices are non-negative and
distinct within every task, every node index is the position of its block in
the sequence of its task. -/
theorem node_is_position {blocks : List BasicBlock} {pd : ParsedDag}
    (h : parse_dag blocks = .ok pd) (hd : NodeIdsDistinct blocks) : NodeIsPosition blocks := by
  obtain ⟨gs, _, _, _, container, h1, h2, _, _, _, h6, _⟩ := parse_dag_parts h
  have hac : Acyclic pd.g := acyclic_of_topological_sort (parse_dag_wf h) h6
  obtain ⟨hedge, hlook⟩ := edge_addAllEdges gs gs.flatten ⟨[]⟩ pd.g h2
  have hinc := nodeIds_increasing hd
  intro t p b hb
  have hbm : b ∈ taskSeq blocks t := List.getElem?_mem hb
  have hne : taskSeq blocks t ≠ [] := List.ne_nil_of_mem hbm
  have hkp : ((taskSeq blocks t).map (fun b => b.nodeID))[p]? = some b.nodeID := by
    rw [List.getElem?_map, hb]; rfl
  have hlow := increasing_lower _ 0 (hinc t)
    (fun x hx => by
      obtain ⟨y, hy, rfl⟩ := List.mem_map.1 hx
      exact hd.1 y (mem_taskSeq.1 hy).1) p _ hkp
  have hplt : p < (taskSeq blocks t).length := by
    by_contra hc
    rw [List.getElem?_eq_none (Nat.le_of_not_lt hc)] at hb
    cases hb
  have hnpos : 0 < (taskSeq blocks t).length := List.length_pos.2 hne
  obtain ⟨lb, hlast⟩ : ∃ lb, (taskSeq blocks t)[(taskSeq blocks t).length - 1]? = some lb :=
    ⟨_, List.getElem?_eq_getElem (by omega)⟩
  have hlbm : lb ∈ taskSeq blocks t := List.getElem?_mem hlast
  have hlbt : lb.taskID = t := (mem_taskSeq.1 hlbm).2
  have hz : lb.nodeID ≤ ((taskSeq blocks t).length : Int) - 1 := by
    by_contra hc
    have hz1 : 1 ≤ lb.nodeID := by omega
    have hflat : lb ∈ gs.flatten := by
      rw [(groupBlocks_ok h1).2.1]
      exact mem_sortBlocks.2 (mem_taskSeq.1 hlbm).1
    obtain ⟨grp, last_bb, k1, k2, k3, k4⟩ := hlook lb hflat hz1
    obtain ⟨_, hgrp⟩ := (indexInt_groups h1 _ _).1 k1
    rw [hlbt] at hgrp
    subst hgrp
    obtain ⟨_, hi⟩ := (indexInt_ok_iff _ _ _).1 k2
    have hilt : (lb.nodeID - 1).toNat < (taskSeq blocks t).length := by
      by_contra hc'
      rw [List.getElem?_eq_none (Nat.le_of_not_lt hc')] at hi
      cases hi
    have hidx : (lb.nodeID - 1).toNat = (taskSeq blocks t).length - 1 := by omega
    rw [hidx, hlast] at hi
    cases hi
    have hself : Edge pd.g lb.ID.toNat lb.ID.toNat := by
      rw [hedge]
      refine Or.inr ⟨lb, hflat, Or.inl ⟨hz1, taskSeq blocks t, lb, ?_, k2, ?_, ?_⟩⟩
      · rw [hlbt] at k1; rw [hlbt]; exact k1
      · exact Int.toNat_of_nonneg k4
      · exact Int.toNat_of_nonneg k4
    exact hac _ (Relation.TransGen.single hself)
  have hkl : ((taskSeq blocks t).map (fun b => b.nodeID))[(taskSeq blocks t).length - 1]? =
      some lb.nodeID := by
    rw [List.getElem?_map, hlast]; rfl
  have hgap := increasing_gap _ (hinc t) p ((taskSeq blocks t).length - 1) _ _ (by omega)
    hkp hkl
  omega

/-- C22 (amended): for every accepted description whose node indices are
non-negative and distinct within every task, the node index of every block is
its position in the sequence of its task, and the edge set of the built graph
is exactly: a control-flow edge between consecutive blocks of a task's
sequence, a spawn edge from every block with `taskCreated ≠ -1` to the first
block of the spawned task, and a join edge from the last block of every task
in a block's `waitFor` list to the block. -/
theorem parse_dag_edges (blocks : List BasicBlock) (pd : ParsedDag)
    (h : parse_dag blocks = .ok pd) (hd : NodeIdsDistinct blocks) :
    NodeIsPosition blocks ∧ ∀ u v, Edge pd.g u v ↔ SpecEdge blocks u v := by
  have hpos := node_is_position h hd
  obtain ⟨gs, _, _, _, _, h1, h2, _⟩ := parse_dag_parts h
  refine ⟨hpos, fun u v => ?_⟩
  rw [(edge_addAllEdges gs gs.flatten ⟨[]⟩ pd.g h2).1 u v, blockEdge_iff_specEdge h1 hpos]
  constructor
  · rintro (k | k)
    · exact absurd k (by unfold Edge out_edges; simp)
    · exact k
  · exact fun k => Or.inr k

/-- Witness for C22 (amended): `forkJoinBlocks` is accepted, its node indices
are distinct, and its graph has the control-flow edge `0 → 2`, the spawn edge
`0 → 1` and the join edge `1 → 2`. -/
theorem parse_dag_edges_witness :
    parse_dag forkJoinBlocks = .ok forkJoinDag ∧ NodeIdsDistinct forkJoinBlocks ∧
    NodeIsPosition forkJoinBlocks ∧
    (∀ u v, Edge forkJoinDag.g u v ↔ SpecEdge forkJoinBlocks u v) ∧
    Edge forkJoinDag.g 0 2 ∧ Edge forkJoinDag.g 0 1 ∧ Edge forkJoinDag.g 1 2 :=
  have w := parse_dag_edges forkJoinBlocks forkJoinDag (by decide) (by decide)
  ⟨by decide, by decide, w.1, w.2, by decide, by decide, by decide⟩

/-- C22 (counterexample): `negNodeBlocks` is accepted; the sequence of task 0
is the blocks 2, 1, 0, so the claimed edge set has the control-flow edge
`2 → 1` from the first block to the second one, but the built graph has the
single edge `2 → 0`: the block of node index 0 gets no control-flow edge and
the block of node index 1 gets its edge from entry 0 of the sequence. The same
happens with `dupNodeBlocks`, where two blocks carry node index 0. -/
theorem parse_dag_edge_by_node_index :
    parse_dag negNodeBlocks = .ok ⟨⟨[[], [], [0]]⟩, 2, 0, 1⟩ ∧
    SpecEdge negNodeBlocks 2 1 ∧ ¬ Edge ⟨[[], [], [0]]⟩ 2 1 ∧
    parse_dag dupNodeBlocks = .ok ⟨⟨[[], [], [0]]⟩, 2, 0, 1⟩ ∧
    SpecEdge dupNodeBlocks 2 1 ∧ ¬ NodeIdsDistinct negNodeBlocks ∧
    ¬ NodeIdsDistinct dupNodeBlocks :=
  ⟨by decide,
    Or.inl ⟨0, 0, mkBlock 2 0 (-1) (-1) [], mkBlock 1 0 0 (-1) [], by decide, by decide,
      by decide, by decide⟩,
    by decide, by decide,
    Or.inl ⟨0, 0, mkBlock 2 0 0 (-1) [], mkBlock 1 0 0 (-1) [], by decide, by decide,
      by decide, by decide⟩,
    by decide, by decide⟩

/-! ## parse_mem_stats -/

theorem mfind_emplace (r : AddrAccessStats) (a b : Addr) :
    ∀ m : AddrMap, mfind m a = none →
      mfind (emplace m a r) b = if b = a then some r else mfind m b := by
  intro m
  induction m with
  | nil =>
    intro _
    simp only [emplace, mfind]
    by_cases h : a = b
    · simp [h]
    · have h' : ¬ b = a := fun e => h e.symm
      simp [h, h']
  | cons e m ih =>
    obtain ⟨k, x⟩ := e
    intro h
    simp only [mfind] at h
    split at h
    · cases h
    · rename_i hka
      simp only [emplace]
      split
      · simp only [mfind]
        by_cases hab : a = b
        · simp [hab]
        · have h' : ¬ b = a := fun e => hab e.symm
          simp [hab, h']
      · have hak : ¬ a = k := fun e => hka e.symm
        rw [if_neg hak]
        simp only [mfind]
        rw [ih h]
        by_cases hkb : k = b
        · have hba : ¬ b = a := fun e => hka (hkb.trans e)
          simp [hkb, hba]
        · simp [hkb]

theorem length_emplace (r : AddrAccessStats) (a : Addr) :
    ∀ m : AddrMap, mfind m a = none → (emplace m a r).length = m.length + 1 := by
  intro m
  induction m with
  | nil => intro _; rfl
  | cons e m ih =>
    obtain ⟨k, x⟩ := e
    intro h
    simp only [mfind] at h
    split at h
    · cases h
    · rename_i hka
      simp only [emplace]
      split
      · rfl
      · have hak : ¬ a = k := fun e => hka e.symm
        rw [if_neg hak]
        simp only [List.length_cons, ih h]

theorem mem_emplace (r : AddrAccessStats) (a : Addr) (e : Addr × AddrAccessStats) :
    ∀ m : AddrMap, e ∈ emplace m a r → e ∈ m ∨ e = (a, r) := by
  intro m
  induction m with
  | nil =>
    intro h
    simp only [emplace, List.mem_singleton] at h
    exact Or.inr h
  | cons x m ih =>
    obtain ⟨k, y⟩ := x
    intro h
    simp only [emplace] at h
    split at h
    · rcases List.mem_cons.1 h with h | h
      · exact Or.inr h
      · exact Or.inl h
    · split at h
      · exact Or.inl h
      · rcases List.mem_cons.1 h with h | h
        · exact Or.inl (h ▸ List.mem_cons_self _ _)
        · rcases ih h with h | h
          · exact Or.inl (List.mem_cons_of_mem _ h)
          · exact Or.inr h

theorem getD_append_nil {α : Type} (l : List (List α)) (v : Nat) :
    (l ++ [[]]).getD v [] = l.getD v [] := by
  rw [List.getD_eq_getElem?_getD, List.getD_eq_getElem?_getD]
  by_cases hv : v < l.length
  · rw [List.getElem?_append_left hv]
  · rw [List.getElem?_append_right (Nat.le_of_not_lt hv),
      List.getElem?_eq_none (Nat.le_of_not_lt hv)]
    cases h : v - l.length with
    | zero => rfl
    | succ n => rfl

theorem advance_counter (st : IngestState) (msg : TraceMsg) :
    (advance st msg).bb_id_counter = st.bb_id_counter ∨
      (advance st msg).bb_id_counter = st.bb_id_counter + 1 := by
  unfold advance
  split
  · exact Or.inr rfl
  · exact Or.inl rfl

theorem IngestInv.after_advance {done : List TraceMsg} {st : IngestState}
    (h : IngestInv done st) (msg : TraceMsg) : IngestInv done (advance st msg) := by
  unfold Parrp.advance
  split
  · refine ⟨?_, ?_, h.exec, ?_, ?_, ?_⟩
    · simp only [List.length_append, List.length_singleton]
      have := h.len
      push_cast
      omega
    · intro m hm
      have := h.ids_le m hm
      simp only
      omega
    · intro v a r
      simp only
      rw [getD_append_nil]
      exact h.content v a r
    · intro v
      simp only
      rw [getD_append_nil]
      exact h.count v
    · intro v e
      simp only
      rw [getD_append_nil]
      exact h.entries v e
  · exact h

theorem metadataOf_snoc (done : List TraceMsg) (msg : TraceMsg) :
    metadataOf (done ++ [msg]) =
      metadataOf done ++ (if msg.is_metadata = true then [msg] else []) := by
  unfold metadataOf
  rw [List.filter_append]
  congr 1
  by_cases h : msg.is_metadata = true <;> simp [h]

theorem recordsOf_snoc (done : List TraceMsg) (msg : TraceMsg) (v : Nat) :
    recordsOf (done ++ [msg]) v =
      recordsOf done v ++
        (if msg.is_metadata = false ∧ msg.bb_id = (v : Int) then [msg] else []) := by
  unfold recordsOf
  rw [List.filter_append]
  congr 1
  by_cases h1 : msg.is_metadata = true
  · simp [h1]
  · have h1' : msg.is_metadata = false := by simpa using h1
    by_cases h2 : msg.bb_id = (v : Int) <;> simp [h1', h2]

/-- One message keeps the invariant of the reading loop. -/
theorem ingestStep_ok {done : List TraceMsg} {st st' : IngestState} {msg : TraceMsg}
    (h : IngestInv done st) (hs : ingestStep st msg = .ok st') :
    IngestInv (done ++ [msg]) st' ∧ msg.bb_id = st'.bb_id_counter ∧
    (msg.bb_id = st.bb_id_counter ∨ msg.bb_id = st.bb_id_counter + 1) ∧
    (msg.is_metadata = false → 0 ≤ msg.bb_id ∧
      ∀ m ∈ done, m.is_metadata = false → m.bb_id = msg.bb_id →
        m.line_address ≠ msg.line_address) := by
  have h1 := h.after_advance msg
  have hadv := advance_counter st msg
  unfold ingestStep at hs
  simp only at hs
  split at hs
  · cases hs
  · rename_i hid
    have hid' : msg.bb_id = (advance st msg).bb_id_counter := not_not.1 hid
    have hstep : msg.bb_id = st.bb_id_counter ∨ msg.bb_id = st.bb_id_counter + 1 := by
      rcases hadv with e | e
      · left; rw [hid', e]
      · right; rw [hid', e]
    have hle : ∀ m ∈ done ++ [msg], m.bb_id ≤ (advance st msg).bb_id_counter := by
      intro m hm
      rcases List.mem_append.1 hm with hm | hm
      · exact h1.ids_le m hm
      · rw [List.mem_singleton] at hm
        rw [hm, hid']
    split at hs
    · rename_i hmeta
      cases hs
      refine ⟨⟨h1.len, hle, ?_, ?_, ?_, ?_⟩, hid', hstep, fun hf => ?_⟩
      · simp only
        rw [metadataOf_snoc, if_pos hmeta, List.map_append, h1.exec]
        rfl
      · intro v a r
        simp only
        rw [h1.content v a r]
        constructor
        · rintro ⟨m, hm, k⟩
          exact ⟨m, List.mem_append_left _ hm, k⟩
        · rintro ⟨m, hm, k⟩
          rcases List.mem_append.1 hm with hm | hm
          · exact ⟨m, hm, k⟩
          · rw [List.mem_singleton] at hm
            rw [hm, hmeta] at k
            cases k.1
      · intro v
        simp only
        rw [recordsOf_snoc, if_neg (by rw [hmeta]; simp), List.append_nil]
        exact h1.count v
      · intro v e he
        obtain ⟨m, hm, k⟩ := h1.entries v e he
        exact ⟨m, List.mem_append_left _ hm, k⟩
      · rw [hmeta] at hf; cases hf
    · rename_i hmeta
      have hmeta' : msg.is_metadata = false := by simpa using hmeta
      split at hs
      · cases hs
      · rename_i hneg
        have h0 : 0 ≤ msg.bb_id := not_lt.1 hneg
        split at hs
        · cases hs
        · rename_i mm hmm
          split at hs
          · cases hs
          · rename_i hfind
            cases hs
            rw [List.get?_eq_getElem?] at hmm
            have hlt : msg.bb_id.toNat < (advance st msg).mem_stats.length := by
              by_contra hc
              rw [List.getElem?_eq_none (Nat.le_of_not_lt hc)] at hmm
              cases hmm
            have hmmD : (advance st msg).mem_stats.getD msg.bb_id.toNat [] = mm := by
              rw [List.getD_eq_getElem?_getD, hmm]; rfl
            have hnone : ∀ m ∈ done, m.is_metadata = false → m.bb_id = msg.bb_id →
                m.line_address ≠ msg.line_address := by
              intro m hm k1 k2 k3
              have := (h1.content msg.bb_id.toNat msg.line_address (entryOf m)).2
                ⟨m, hm, k1, by rw [k2, Int.toNat_of_nonneg h0], k3, rfl⟩
              rw [hmmD, hfind] at this
              cases this
            refine ⟨⟨?_, hle, ?_, ?_, ?_, ?_⟩, hid', hstep, fun _ => ⟨h0, hnone⟩⟩
            · simp only [List.length_set]
              exact h1.len
            · simp only
              rw [metadataOf_snoc, if_neg hmeta, List.append_nil]
              exact h1.exec
            · intro v a r
              simp only
              rw [getD_list_set]
              by_cases hv : v = msg.bb_id.toNat
              · subst hv
                rw [if_pos ⟨rfl, hlt⟩, mfind_emplace _ _ _ _ hfind]
                by_cases ha : a = msg.line_address
                · subst ha
                  rw [if_pos rfl]
                  constructor
                  · intro k
                    cases k
                    exact ⟨msg, by simp, hmeta', (Int.toNat_of_nonneg h0).symm, rfl, rfl⟩
                  · rintro ⟨m, hm, k1, k2, k3, k4⟩
                    rcases List.mem_append.1 hm with hm | hm
                    · exact absurd k3 (hnone m hm k1 (by rw [k2, Int.toNat_of_nonneg h0]))
                    · rw [List.mem_singleton] at hm
                      rw [k4, hm]
                · rw [if_neg ha, ← hmmD, h1.content]
                  constructor
                  · rintro ⟨m, hm, k⟩
                    exact ⟨m, List.mem_append_left _ hm, k⟩
                  · rintro ⟨m, hm, k1, k2, k3, k4⟩
                    rcases List.mem_append.1 hm with hm | hm
                    · exact ⟨m, hm, k1, k2, k3, k4⟩
                    · rw [List.mem_singleton] at hm
                      rw [hm] at k3
                      exact absurd k3.symm ha
              · rw [if_neg (fun k => hv k.1), h1.content]
                constructor
                · rintro ⟨m, hm, k⟩
                  exact ⟨m, List.mem_append_left _ hm, k⟩
                · rintro ⟨m, hm, k1, k2, k3, k4⟩
                  rcases List.mem_append.1 hm with hm | hm
                  · exact ⟨m, hm, k1, k2, k3, k4⟩
                  · rw [List.mem_singleton] at hm
                    rw [hm] at k2
                    exfalso
                    apply hv
                    rw [k2]
                    exact (Int.toNat_natCast v).symm
            · intro v
              simp only
              rw [getD_list_set, recordsOf_snoc]
              by_cases hv : v = msg.bb_id.toNat
              · subst hv
                rw [if_pos ⟨rfl, hlt⟩, length_emplace _ _ _ hfind,
                  if_pos ⟨hmeta', (Int.toNat_of_nonneg h0).symm⟩, List.length_append,
                  ← hmmD, h1.count]
                rfl
              · have hne : ¬ (msg.is_metadata = false ∧ msg.bb_id = (v : Int)) := by
                  rintro ⟨_, k⟩
                  apply hv
                  rw [k]
                  exact (Int.toNat_natCast v).symm
                rw [if_neg (fun k => hv k.1), if_neg hne, List.append_nil]
                exact h1.count v
            · intro v e he
              simp only at he
              rw [getD_list_set] at he
              by_cases hv : v = msg.bb_id.toNat
              · subst hv
                rw [if_pos ⟨rfl, hlt⟩] at he
                rcases mem_emplace _ _ _ _ he with he | he
                · rw [← hmmD] at he
                  obtain ⟨m, hm, k⟩ := h1.entries _ e he
                  exact ⟨m, List.mem_append_left _ hm, k⟩
                · exact ⟨msg, by simp, hmeta', (Int.toNat_of_nonneg h0).symm, he⟩
              · rw [if_neg (fun k => hv k.1)] at he
                obtain ⟨m, hm, k⟩ := h1.entries v e he
                exact ⟨m, List.mem_append_left _ hm, k⟩

theorem ingest_init : IngestInv [] ⟨-1, [], []⟩ :=
  ⟨rfl, (fun m hm => by cases hm), rfl,
    (fun v a r => by
      constructor
      · intro h; cases v <;> cases h
      · rintro ⟨m, hm, _⟩; cases hm),
    (fun v => by cases v <;> rfl),
    (fun v e he => by cases v <;> cases he)⟩

/-- A run of the reading loop that returns: the invariant holds for all
messages, the vertex ids advance by steps of 0 or 1, and no record repeats a
line of its vertex. -/
theorem ingestLoop_ok :
    ∀ (l done : List TraceMsg) (st st' : IngestState), IngestInv done st →
      ingestLoop l st = .ok st' →
      IngestInv (done ++ l) st' ∧ StepsOk st.bb_id_counter (l.map (fun m => m.bb_id)) ∧
      (∀ m ∈ l, m.is_metadata = false → 0 ≤ m.bb_id) ∧
      (∀ x ∈ done, ∀ y ∈ l, LineDistinct x y) ∧ l.Pairwise LineDistinct := by
  intro l
  induction l with
  | nil =>
    intro done st st' h hl
    cases hl
    rw [List.append_nil]
    exact ⟨h, trivial, (fun m hm => by cases hm), (fun x _ y hy => by cases hy),
      List.Pairwise.nil⟩
  | cons msg l ih =>
    intro done st st' h hl
    rw [ingestLoop] at hl
    cases hs : ingestStep st msg with
    | error e => rw [hs] at hl; cases hl
    | ok st1 =>
      rw [hs] at hl
      simp only at hl
      obtain ⟨k1, k2, k3, k4⟩ := ingestStep_ok h hs
      obtain ⟨i1, i2, i3, i4, i5⟩ := ih (done ++ [msg]) st1 st' k1 hl
      refine ⟨by simpa using i1, ⟨k3, by show StepsOk msg.bb_id _; rw [k2]; exact i2⟩, ?_, ?_, ?_⟩
      · intro m hm hmeta
        rcases List.mem_cons.1 hm with rfl | hm
        · exact (k4 hmeta).1
        · exact i3 m hm hmeta
      · intro x hx y hy
        rcases List.mem_cons.1 hy with rfl | hy
        · intro hx1 hy1 hid
          exact (k4 hy1).2 x hx hx1 hid
        · exact i4 x (List.mem_append_left _ hx) y hy
      · rw [List.pairwise_cons]
        exact ⟨fun y hy => i4 msg (by simp) y hy, i5⟩

/-- What an accepting run of `parse_mem_stats` on an empty vector went
through. -/
theorem parse_mem_stats_parts {msgs : List TraceMsg} {ms : MemStats} {ex : List Nat}
    (h : parse_mem_stats msgs [] = .ok (ms, ex)) :
    ∃ c, ingestLoop msgs ⟨-1, [], []⟩ = .ok ⟨c, ms, ex⟩ ∧ ms.length = ex.length := by
  unfold parse_mem_stats at h
  cases hl : ingestLoop msgs ⟨-1, [], []⟩ with
  | error e => rw [hl] at h; cases h
  | ok st =>
    rw [hl] at h
    simp only at h
    split at h
    · rename_i hlen
      cases h
      exact ⟨st.bb_id_counter, rfl, hlen⟩
    · cases h

/-- Why one message makes the reading loop fail. -/
theorem ingestStep_error {done : List TraceMsg} {st : IngestState} {msg : TraceMsg}
    {e : IngestError} (h : IngestInv done st) (hs : ingestStep st msg = .error e) :
    (e = .ordering ∧ ¬ (msg.bb_id = st.bb_id_counter ∨ msg.bb_id = st.bb_id_counter + 1)) ∨
    (e = .out_of_range ∧ msg.is_metadata = false ∧ msg.bb_id = -1) ∨
    (e = .duplicate ∧ ∃ m ∈ done, ¬ LineDistinct m msg) := by
  have h1 := h.after_advance msg
  unfold ingestStep at hs
  simp only at hs
  split at hs
  · rename_i hid
    cases hs
    left
    refine ⟨rfl, ?_⟩
    rintro (k | k)
    · apply hid
      unfold advance
      rw [if_neg (by omega)]
      exact k
    · apply hid
      unfold advance
      rw [if_pos k]
      exact k
  · rename_i hid
    have hid' : msg.bb_id = (advance st msg).bb_id_counter := not_not.1 hid
    split at hs
    · cases hs
    · rename_i hmeta
      have hmeta' : msg.is_metadata = false := by simpa using hmeta
      have hlen := h1.len
      split at hs
      · rename_i hneg
        cases hs
        right; left
        refine ⟨rfl, hmeta', ?_⟩
        omega
      · rename_i hneg
        have h0 : 0 ≤ msg.bb_id := not_lt.1 hneg
        have hlt : msg.bb_id.toNat < (advance st msg).mem_stats.length := by omega
        split at hs
        · rename_i hnone
          rw [List.get?_eq_getElem?, List.getElem?_eq_getElem hlt] at hnone
          cases hnone
        · rename_i mm hmm
          rw [List.get?_eq_getElem?] at hmm
          have hmmD : (advance st msg).mem_stats.getD msg.bb_id.toNat [] = mm := by
            rw [List.getD_eq_getElem?_getD, hmm]; rfl
          split at hs
          · rename_i r hfind
            cases hs
            right; right
            refine ⟨rfl, ?_⟩
            rw [← hmmD] at hfind
            obtain ⟨m, hm, k1, k2, k3, _⟩ := (h1.content _ _ _).1 hfind
            refine ⟨m, hm, fun hd => hd k1 hmeta' ?_ k3⟩
            rw [k2, Int.toNat_of_nonneg h0]
          · cases hs

/-- A violation of the order of the vertex ids makes the reading loop fail:
with the ordering error when no record before it repeats a line of its vertex
and no non-metadata record has vertex id -1. -/
theorem ingestLoop_order_error :
    ∀ (l done : List TraceMsg) (st : IngestState), IngestInv done st →
      ¬ StepsOk st.bb_id_counter (l.map (fun m => m.bb_id)) →
      (∃ e, ingestLoop l st = .error e ∧ e ≠ .size_mismatch) ∧
      ((∀ x ∈ done, ∀ y ∈ l, LineDistinct x y) → l.Pairwise LineDistinct →
        (∀ m ∈ l, m.is_metadata = false → m.bb_id ≠ -1) →
        ingestLoop l st = .error .ordering) := by
  intro l
  induction l with
  | nil => intro done st _ hn; exact absurd trivial hn
  | cons msg l ih =>
    intro done st h hn
    rw [ingestLoop]
    cases hs : ingestStep st msg with
    | error e =>
      simp only
      rcases ingestStep_error h hs with ⟨rfl, _⟩ | ⟨rfl, k1, k2⟩ | ⟨rfl, m, hm, k⟩
      · exact ⟨⟨_, rfl, by decide⟩, fun _ _ _ => rfl⟩
      · exact ⟨⟨_, rfl, by decide⟩,
          fun _ _ hm => absurd k2 (hm msg (List.mem_cons_self _ _) k1)⟩
      · exact ⟨⟨_, rfl, by decide⟩,
          fun hd _ _ => absurd (hd m hm msg (List.mem_cons_self _ _)) k⟩
    | ok st1 =>
      simp only
      obtain ⟨k1, k2, k3, _⟩ := ingestStep_ok h hs
      have hn' : ¬ StepsOk st1.bb_id_counter (l.map (fun m => m.bb_id)) := by
        intro hc
        apply hn
        refine ⟨k3, ?_⟩
        show StepsOk msg.bb_id _
        rw [k2]
        exact hc
      obtain ⟨i1, i2⟩ := ih (done ++ [msg]) st1 k1 hn'
      refine ⟨i1, fun hd hp hm => i2 ?_ (List.pairwise_cons.1 hp).2
        (fun m hmm => hm m (List.mem_cons_of_mem _ hmm))⟩
      intro x hx y hy
      rcases List.mem_append.1 hx with hx | hx
      · exact hd x hx y (List.mem_cons_of_mem _ hy)
      · rw [List.mem_singleton] at hx
        rw [hx]
        exact (List.pairwise_cons.1 hp).1 y hy

theorem stepsOk_iff_fromZero (l : List Int) (h : ∀ i ∈ l, 0 ≤ i) :
    StepsOk (-1) l ↔ IdsFromZero l := by
  cases l with
  | nil => exact Iff.rfl
  | cons i rest =>
    have hi := h i (List.mem_cons_self _ _)
    show ((i = -1 ∨ i = -1 + 1) ∧ StepsOk i rest) ↔ (i = 0 ∧ StepsOk i rest)
    constructor
    · rintro ⟨k | k, k2⟩
      · omega
      · exact ⟨by omega, k2⟩
    · rintro ⟨k, k2⟩
      exact ⟨Or.inr (by omega), k2⟩

/-- C26 (amended): the primary `parse_mem_stats` accepts a stream only if its
vertex ids start at 0 or at -1 and each next id equals the previous id or the
previous id plus one (for non-negative ids that is: they start at 0), and only
if every non-metadata record has a non-negative id; every stream whose ids
violate this order fails inside the reading loop, and it fails with the
ordering error when no two non-metadata records have the same vertex id and
line address and no non-metadata record has vertex id -1. -/
theorem ingest_order (msgs : List TraceMsg) :
    (∀ ms ex, parse_mem_stats msgs [] = .ok (ms, ex) →
      StepsOk (-1) (msgs.map (fun m => m.bb_id)) ∧
      ∀ m ∈ msgs, m.is_metadata = false → 0 ≤ m.bb_id) ∧
    ((∀ m ∈ msgs, 0 ≤ m.bb_id) →
      (StepsOk (-1) (msgs.map (fun m => m.bb_id)) ↔
        IdsFromZero (msgs.map (fun m => m.bb_id)))) ∧
    (¬ StepsOk (-1) (msgs.map (fun m => m.bb_id)) →
      ∃ e, parse_mem_stats msgs [] = .error e ∧ e ≠ .size_mismatch) ∧
    (¬ StepsOk (-1) (msgs.map (fun m => m.bb_id)) → NoRepeatedLine msgs →
      (∀ m ∈ msgs, m.is_metadata = false → m.bb_id ≠ -1) →
      parse_mem_stats msgs [] = .error .ordering) := by
  refine ⟨?_, ?_, ?_, ?_⟩
  · intro ms ex h
    obtain ⟨c, hl, _⟩ := parse_mem_stats_parts h
    obtain ⟨_, k2, k3, _⟩ := ingestLoop_ok msgs [] _ _ ingest_init hl
    exact ⟨k2, k3⟩
  · intro hnn
    apply stepsOk_iff_fromZero
    intro i hi
    obtain ⟨m, hm, rfl⟩ := List.mem_map.1 hi
    exact hnn m hm
  · intro hn
    obtain ⟨e, he, hne⟩ := (ingestLoop_order_error msgs [] _ ingest_init hn).1
    refine ⟨e, ?_, hne⟩
    unfold parse_mem_stats
    rw [he]
  · intro hn hd hm
    have := (ingestLoop_order_error msgs [] _ ingest_init hn).2
      (fun x hx => by cases hx) hd hm
    unfold parse_mem_stats
    rw [this]

/-- Witness for C26 (amended): a stream that starts with a record of vertex 1
fails with the ordering error. -/
theorem ingest_order_witness :
    ¬ StepsOk (-1) ([lineMsg 1 64].map (fun m => m.bb_id)) ∧
    parse_mem_stats [lineMsg 1 64] [] = .error .ordering :=
  ⟨by decide, (ingest_order [lineMsg 1 64]).2.2.2 (by decide) (by decide) (by decide)⟩

/-- C26 (counterexample): a stream that starts with a metadata record of
vertex -1 followed by a record of vertex 0 is accepted although its ids do not
start at 0; and a stream whose ids 0, 0, 5 jump by more than one fails with the
duplicate-line error, not with the ordering error, because the second record
repeats the line of the first. -/
theorem ingest_order_not_exact :
    parse_mem_stats [metaMsg (-1) 5, lineMsg 0 64] [] =
      .ok ([[(64, entryOf (lineMsg 0 64))]], [5]) ∧
    ¬ IdsFromZero ([metaMsg (-1) 5, lineMsg 0 64].map (fun m => m.bb_id)) ∧
    parse_mem_stats [lineMsg 0 64, lineMsg 0 64, lineMsg 5 8] [] = .error .duplicate ∧
    ¬ IdsFromZero ([lineMsg 0 64, lineMsg 0 64, lineMsg 5 8].map (fun m => m.bb_id)) := by
  decide

theorem stepsOk_sorted :
    ∀ (l : List Int) (c : Int), StepsOk c l →
      l.Pairwise (fun a b => a ≤ b) ∧ ∀ x ∈ l, c ≤ x := by
  intro l
  induction l with
  | nil => intro c _; exact ⟨List.Pairwise.nil, fun x hx => by cases hx⟩
  | cons i rest ih =>
    intro c h
    obtain ⟨h1, h2⟩ := h
    obtain ⟨k1, k2⟩ := ih i h2
    refine ⟨List.pairwise_cons.2 ⟨k2, k1⟩, ?_⟩
    intro x hx
    rcases List.mem_cons.1 hx with rfl | hx
    · omega
    · have := k2 x hx
      omega

/-- With non-negative, pairwise distinct vertex ids on the metadata records of
an accepted stream, the `p`-th metadata record belongs to vertex `p`. -/
theorem metadata_position {msgs : List TraceMsg} {ms : MemStats} {ex : List Nat}
    (h : parse_mem_stats msgs [] = .ok (ms, ex))
    (hd : ((metadataOf msgs).map (fun m => m.bb_id)).Nodup)
    (hnn : ∀ m ∈ metadataOf msgs, 0 ≤ m.bb_id) :
    (metadataOf msgs).length = ms.length ∧
    ∀ (p : Nat) (m : TraceMsg), (metadataOf msgs)[p]? = some m → m.bb_id = (p : Int) := by
  obtain ⟨c, hl, hlen⟩ := parse_mem_stats_parts h
  obtain ⟨k1, k2, _⟩ := ingestLoop_ok msgs [] _ _ ingest_init hl
  rw [List.nil_append] at k1
  have hex : ex = (metadataOf msgs).map (fun m => m.exec_cycles) := k1.exec
  have hML : (metadataOf msgs).length = ms.length := by
    rw [hlen, hex, List.length_map]
  have hsub : ((metadataOf msgs).map (fun m => m.bb_id)).Sublist
      (msgs.map (fun m => m.bb_id)) := (List.filter_sublist _).map _
  have hinc : ((metadataOf msgs).map (fun m => m.bb_id)).Pairwise (fun a b => a < b) :=
    (((stepsOk_sorted _ _ k2).1.sublist hsub).and hd).imp (fun k => lt_of_le_of_ne k.1 k.2)
  refine ⟨hML, ?_⟩
  intro p m hp
  have hplt : p < (metadataOf msgs).length := by
    by_contra hc
    rw [List.getElem?_eq_none (Nat.le_of_not_lt hc)] at hp
    cases hp
  have hkp : ((metadataOf msgs).map (fun m => m.bb_id))[p]? = some m.bb_id := by
    rw [List.getElem?_map, hp]; rfl
  have hlow := increasing_lower _ 0 hinc
    (fun x hx => by
      obtain ⟨y, hy, rfl⟩ := List.mem_map.1 hx
      exact hnn y hy) p _ hkp
  obtain ⟨lm, hlast⟩ : ∃ lm, (metadataOf msgs)[(metadataOf msgs).length - 1]? = some lm :=
    ⟨_, List.getElem?_eq_getElem (by omega)⟩
  have hlm : lm ∈ msgs := (List.mem_filter.1 (List.getElem?_mem hlast)).1
  have hle := k1.ids_le lm hlm
  have hc := k1.len
  simp only at hle hc
  have hkl : ((metadataOf msgs).map (fun m => m.bb_id))[(metadataOf msgs).length - 1]? =
      some lm.bb_id := by
    rw [List.getElem?_map, hlast]; rfl
  have hgap := increasing_gap _ hinc p ((metadataOf msgs).length - 1) _ _ (by omega) hkp hkl
  omega

/-- C27 (amended): whenever the primary `parse_mem_stats` succeeds,
`exec_cycles_map` has the length of `mem_stats` and holds the execution-cycle
counts of the metadata records in stream order; when the metadata records have
non-negative, pairwise distinct vertex ids, it is parallel to `mem_stats`:
every vertex `v` has a metadata record, and `exec_cycles_map[v]` is the count
carried by the metadata record whose vertex id is `v`. -/
theorem ingest_exec_parallel (msgs : List TraceMsg) (ms : MemStats) (ex : List Nat)
    (h : parse_mem_stats msgs [] = .ok (ms, ex))
    (hd : ((metadataOf msgs).map (fun m => m.bb_id)).Nodup)
    (hnn : ∀ m ∈ metadataOf msgs, 0 ≤ m.bb_id) :
    ex.length = ms.length ∧ ex = (metadataOf msgs).map (fun m => m.exec_cycles) ∧
    (∀ v, v < ms.length → ∃ m ∈ msgs, m.is_metadata = true ∧ m.bb_id = (v : Int) ∧
      ex.getD v 0 = m.exec_cycles) ∧
    (∀ m ∈ msgs, m.is_metadata = true →
      m.bb_id.toNat < ms.length ∧ ex.getD m.bb_id.toNat 0 = m.exec_cycles) := by
  obtain ⟨c, hl, hlen⟩ := parse_mem_stats_parts h
  obtain ⟨k1, _⟩ := ingestLoop_ok msgs [] _ _ ingest_init hl
  rw [List.nil_append] at k1
  have hex : ex = (metadataOf msgs).map (fun m => m.exec_cycles) := k1.exec
  obtain ⟨hML, hpos⟩ := metadata_position h hd hnn
  have hget : ∀ (p : Nat) (m : TraceMsg), (metadataOf msgs)[p]? = some m →
      ex.getD p 0 = m.exec_cycles := by
    intro p m hp
    rw [hex, List.getD_eq_getElem?_getD, List.getElem?_map, hp]
    rfl
  refine ⟨hlen.symm, hex, ?_, ?_⟩
  · intro v hv
    obtain ⟨m, hm⟩ : ∃ m, (metadataOf msgs)[v]? = some m :=
      ⟨_, List.getElem?_eq_getElem (by omega)⟩
    have hmem := List.mem_filter.1 (List.getElem?_mem hm)
    exact ⟨m, hmem.1, hmem.2, hpos v m hm, hget v m hm⟩
  · intro m hm hmeta
    have hmm : m ∈ metadataOf msgs := List.mem_filter.2 ⟨hm, hmeta⟩
    obtain ⟨p, hp⟩ := List.getElem?_of_mem hmm
    have hid := hpos p m hp
    have hplt : p < (metadataOf msgs).length := by
      by_contra hc
      rw [List.getElem?_eq_none (Nat.le_of_not_lt hc)] at hp
      cases hp
    have hpe : m.bb_id.toNat = p := by omega
    rw [hpe]
    exact ⟨by omega, hget p m hp⟩

/-- Witness for C27 (amended): two vertices with one metadata record each. -/
theorem ingest_exec_parallel_witness :
    parse_mem_stats [metaMsg 0 10, lineMsg 0 64, metaMsg 1 20, lineMsg 1 64] [] =
      .ok ([[(64, entryOf (lineMsg 0 64))], [(64, entryOf (lineMsg 1 64))]], [10, 20]) ∧
    ∀ v : Nat, v < 2 → ∃ m ∈ [metaMsg 0 10, lineMsg 0 64, metaMsg 1 20, lineMsg 1 64],
      m.is_metadata = true ∧ m.bb_id = (v : Int) ∧
      ([10, 20] : List Nat).getD v 0 = m.exec_cycles :=
  ⟨by decide,
    (ingest_exec_parallel [metaMsg 0 10, lineMsg 0 64, metaMsg 1 20, lineMsg 1 64]
      [[(64, entryOf (lineMsg 0 64))], [(64, entryOf (lineMsg 1 64))]] [10, 20]
      (by decide) (by decide) (by decide)).2.2.1⟩

/-- C27 (counterexample): a stream with two metadata records of vertex 0 and
none of vertex 1 is accepted, because only the two sizes are compared; then
`exec_cycles_map[1] = 20` is the count of the second metadata record of vertex
0, and no metadata record has vertex id 1. -/
theorem ingest_exec_not_parallel :
    parse_mem_stats [metaMsg 0 10, metaMsg 0 20, lineMsg 1 64] [] =
      .ok ([[], [(64, entryOf (lineMsg 1 64))]], [10, 20]) ∧
    ([10, 20] : List Nat).getD 1 0 = 20 ∧
    ¬ ∃ m ∈ [metaMsg 0 10, metaMsg 0 20, lineMsg 1 64],
      m.is_metadata = true ∧ m.bb_id = 1 := by
  decide

/-- The reading loop returns on a stream whose vertex ids advance by steps of
0 or 1, whose non-metadata records have non-negative ids and in which no
record repeats a line of its vertex; the counter ends at the id of the last
message. -/
theorem ingestLoop_returns :
    ∀ (l done : List TraceMsg) (st : IngestState), IngestInv done st →
      StepsOk st.bb_id_counter (l.map (fun m => m.bb_id)) →
      (∀ m ∈ l, m.is_metadata = false → 0 ≤ m.bb_id) →
      (∀ x ∈ done, ∀ y ∈ l, LineDistinct x y) → l.Pairwise LineDistinct →
      ∃ st', ingestLoop l st = .ok st' ∧ IngestInv (done ++ l) st' ∧
        st'.bb_id_counter = (l.map (fun m => m.bb_id)).getLastD st.bb_id_counter := by
  intro l
  induction l with
  | nil =>
    intro done st h _ _ _ _
    exact ⟨st, rfl, by rw [List.append_nil]; exact h, rfl⟩
  | cons msg l ih =>
    intro done st h hsteps hnn hd hp
    obtain ⟨hstep, hrest⟩ := hsteps
    rw [ingestLoop]
    cases hs : ingestStep st msg with
    | error e =>
      exfalso
      rcases ingestStep_error h hs with ⟨_, k⟩ | ⟨_, k1, k2⟩ | ⟨_, m, hm, k⟩
      · exact k hstep
      · have := hnn msg (List.mem_cons_self _ _) k1
        omega
      · exact k (hd m hm msg (List.mem_cons_self _ _))
    | ok st1 =>
      simp only
      obtain ⟨k1, k2, _, _⟩ := ingestStep_ok h hs
      obtain ⟨st', i1, i2, i3⟩ := ih (done ++ [msg]) st1 k1 (by rw [← k2]; exact hrest)
        (fun m hm => hnn m (List.mem_cons_of_mem _ hm))
        (by
          intro x hx y hy
          rcases List.mem_append.1 hx with hx | hx
          · exact hd x hx y (List.mem_cons_of_mem _ hy)
          · rw [List.mem_singleton] at hx
            rw [hx]
            exact (List.pairwise_cons.1 hp).1 y hy)
        (List.pairwise_cons.1 hp).2
      refine ⟨st', i1, ?_, ?_⟩
      · rw [List.append_assoc] at i2
        exact i2
      · rw [i3, ← k2, List.map_cons, List.getLastD_cons]

/-- The primary `parse_mem_stats` accepts a stream whose vertex ids advance by
steps of 0 or 1 from -1, whose non-metadata records have non-negative ids, in
which no record repeats a line of its vertex, and which has one metadata
record per vertex. -/
theorem parse_mem_stats_returns (msgs : List TraceMsg)
    (hsteps : StepsOk (-1) (msgs.map (fun m => m.bb_id)))
    (hnn : ∀ m ∈ msgs, m.is_metadata = false → 0 ≤ m.bb_id)
    (hd : NoRepeatedLine msgs)
    (hmeta : ((metadataOf msgs).length : Int) =
      (msgs.map (fun m => m.bb_id)).getLastD (-1) + 1) :
    ∃ ms ex, parse_mem_stats msgs [] = .ok (ms, ex) := by
  obtain ⟨st', h1, h2, h3⟩ := ingestLoop_returns msgs [] ⟨-1, [], []⟩ ingest_init hsteps hnn
    (fun x hx => by cases hx) hd
  rw [List.nil_append] at h2
  unfold parse_mem_stats
  rw [h1]
  simp only
  have hlen : st'.mem_stats.length = st'.exec_cycles_map.length := by
    have e1 := h2.len
    have e2 := congrArg List.length h2.exec
    rw [List.length_map] at e2
    simp only at h3
    omega
  rw [if_pos hlen]
  exact ⟨_, _, rfl⟩

/-- C28: the primary `parse_mem_stats` fails on every stream in which two
non-metadata records have the same vertex id and line address; when it
succeeds, for every vertex `v` the map `mem_stats[v]` has exactly as many
entries as the stream has non-metadata records of `v`, every entry is the pair
of the line address and the copied record of such a message, and the entry
found under a line address is the copy of the message of `v` with that address:
thread id, instruction flag, data region and the four counters unchanged,
`is_shared = false`. Metadata records contribute no entry. It succeeds on
every stream without such a repetition whose vertex ids advance by steps of 0
or 1 from -1, whose non-metadata records have non-negative ids and which has
one metadata record per vertex. -/
theorem ingest_content (msgs : List TraceMsg) :
    (¬ NoRepeatedLine msgs → ∃ e, parse_mem_stats msgs [] = .error e) ∧
    (∀ ms ex, parse_mem_stats msgs [] = .ok (ms, ex) →
      NoRepeatedLine msgs ∧
      ∀ v : Nat,
        (∀ a r, mfind (ms.getD v []) a = some r ↔
          ∃ m ∈ msgs, m.is_metadata = false ∧ m.bb_id = (v : Int) ∧ m.line_address = a ∧
            r = entryOf m) ∧
        (ms.getD v []).length = (recordsOf msgs v).length ∧
        (∀ e ∈ ms.getD v [], ∃ m ∈ msgs, m.is_metadata = false ∧ m.bb_id = (v : Int) ∧
          e = (m.line_address, entryOf m))) ∧
    (∀ m : TraceMsg, (entryOf m).thread_id = m.thread_id ∧
      (entryOf m).is_ifetch = m.is_ifetch ∧ (entryOf m).data_region = m.data_region ∧
      (entryOf m).num_local_l1_hit = m.num_local_l1_hit ∧
      (entryOf m).num_remote_l1_hit = m.num_remote_l1_hit ∧
      (entryOf m).num_l2_hit = m.num_l2_hit ∧
      (entryOf m).num_memory_access = m.num_memory_access ∧
      (entryOf m).line_address = m.line_address ∧ (entryOf m).is_shared = false) ∧
    (StepsOk (-1) (msgs.map (fun m => m.bb_id)) →
      (∀ m ∈ msgs, m.is_metadata = false → 0 ≤ m.bb_id) → NoRepeatedLine msgs →
      ((metadataOf msgs).length : Int) = (msgs.map (fun m => m.bb_id)).getLastD (-1) + 1 →
      ∃ ms ex, parse_mem_stats msgs [] = .ok (ms, ex)) := by
  have hok : ∀ ms ex, parse_mem_stats msgs [] = .ok (ms, ex) →
      NoRepeatedLine msgs ∧ IngestInv msgs ⟨(ms.length : Int) - 1, ms, ex⟩ := by
    intro ms ex h
    obtain ⟨c, hl, _⟩ := parse_mem_stats_parts h
    obtain ⟨k1, _, _, _, k5⟩ := ingestLoop_ok msgs [] _ _ ingest_init hl
    rw [List.nil_append] at k1
    have hc : c = (ms.length : Int) - 1 := by
      have := k1.len
      simp only at this
      omega
    rw [hc] at k1
    exact ⟨k5, k1⟩
  refine ⟨?_, ?_, fun m => ⟨rfl, rfl, rfl, rfl, rfl, rfl, rfl, rfl, rfl⟩,
    parse_mem_stats_returns msgs⟩
  · intro hn
    cases hr : parse_mem_stats msgs [] with
    | error e => exact ⟨e, rfl⟩
    | ok r =>
      obtain ⟨ms, ex⟩ := r
      exact absurd (hok ms ex hr).1 hn
  · intro ms ex h
    obtain ⟨k5, k1⟩ := hok ms ex h
    exact ⟨k5, fun v => ⟨k1.content v, k1.count v, k1.entries v⟩⟩

/-- Witness for C28: the stream `sampleStream` of two vertices is accepted;
`mem_stats[0]` holds the copies of its two records of vertex 0 under the line
addresses 64 and 128, `mem_stats[1]` the copy of the record of vertex 1, and
the two metadata records add no entry. A stream that repeats line 64 of
vertex 0 fails. -/
theorem ingest_content_witness :
    parse_mem_stats sampleStream [] =
      .ok ([[(64, entryOf (lineMsg 0 64)), (128, entryOf (lineMsg 0 128))],
        [(64, entryOf (lineMsg 1 64))]], [10, 20]) ∧
    (NoRepeatedLine sampleStream ∧
      ∀ v : Nat,
        (∀ a r, mfind (([[(64, entryOf (lineMsg 0 64)), (128, entryOf (lineMsg 0 128))],
            [(64, entryOf (lineMsg 1 64))]] : MemStats).getD v []) a = some r ↔
          ∃ m ∈ sampleStream, m.is_metadata = false ∧ m.bb_id = (v : Int) ∧
            m.line_address = a ∧ r = entryOf m) ∧
        (([[(64, entryOf (lineMsg 0 64)), (128, entryOf (lineMsg 0 128))],
            [(64, entryOf (lineMsg 1 64))]] : MemStats).getD v []).length =
          (recordsOf sampleStream v).length ∧
        (∀ e ∈ ([[(64, entryOf (lineMsg 0 64)), (128, entryOf (lineMsg 0 128))],
            [(64, entryOf (lineMsg 1 64))]] : MemStats).getD v [],
          ∃ m ∈ sampleStream, m.is_metadata = false ∧ m.bb_id = (v : Int) ∧
            e = (m.line_address, entryOf m))) ∧
    (∃ ms ex, parse_mem_stats sampleStream [] = .ok (ms, ex)) ∧
    ¬ NoRepeatedLine [lineMsg 0 64, lineMsg 0 64] ∧
    ∃ e, parse_mem_stats [lineMsg 0 64, lineMsg 0 64] [] = .error e :=
  ⟨by decide,
    (ingest_content sampleStream).2.1
      [[(64, entryOf (lineMsg 0 64)), (128, entryOf (lineMsg 0 128))],
        [(64, entryOf (lineMsg 1 64))]] [10, 20] (by decide),
    (ingest_content sampleStream).2.2.2 (by decide) (by decide) (by decide) (by decide),
    by decide, (ingest_content [lineMsg 0 64, lineMsg 0 64]).1 (by decide)⟩

/-! ## collect_statistics -/

theorem totalAccess_eq (r : AddrAccessStats) : totalAccess r = totalExact r % 2 ^ 64 := by
  unfold totalAccess totalExact add64
  omega

/-- A record is added to the counter of its kind and to no other counter. -/
theorem countRecord_class (c : AccessCounts) (r : AddrAccessStats) (k : AccessClass) :
    counter k (countRecord c r) =
      if classOf r = k then add64 (counter k c) (totalAccess r) else counter k c := by
  obtain ⟨bb, tid, a, la, f, l1, r1, l2, mem, reg, sh⟩ := r
  cases f <;> cases sh <;> cases reg <;> cases k <;> rfl

theorem collect_statistics_eq (ms : MemStats) :
    collect_statistics ms = (recordsIn ms).foldl countRecord ⟨0, 0, 0, 0, 0, 0⟩ := by
  unfold collect_statistics recordsIn
  generalize (⟨0, 0, 0, 0, 0, 0⟩ : AccessCounts) = c0
  induction ms generalizing c0 with
  | nil => rfl
  | cons m ms ih =>
    rw [List.foldl_cons, ih, List.flatten_cons, List.map_append, List.foldl_append]
    congr 1
    rw [List.foldl_map]

theorem counter_foldl (k : AccessClass) :
    ∀ (rs : List AddrAccessStats) (c : AccessCounts), counter k c < 2 ^ 64 →
      counter k (rs.foldl countRecord c) = (counter k c + classTotal k rs) % 2 ^ 64 := by
  intro rs
  induction rs with
  | nil =>
    intro c hc
    simp only [List.foldl_nil, classTotal, List.filter_nil, List.map_nil, List.sum_nil,
      Nat.add_zero]
    exact (Nat.mod_eq_of_lt hc).symm
  | cons r rs ih =>
    intro c hc
    have hstep := countRecord_class c r k
    rw [List.foldl_cons]
    by_cases hk : classOf r = k
    · rw [if_pos hk] at hstep
      have hlt : counter k (countRecord c r) < 2 ^ 64 := by
        rw [hstep]; exact Nat.mod_lt _ (by positivity)
      rw [ih _ hlt, hstep, totalAccess_eq]
      have : classTotal k (r :: rs) = totalExact r + classTotal k rs := by
        simp [classTotal, hk]
      rw [this]
      unfold add64
      omega
    · rw [if_neg hk] at hstep
      rw [ih _ (by rw [hstep]; exact hc), hstep]
      have : classTotal k (r :: rs) = classTotal k rs := by
        simp [classTotal, hk]
      rw [this]

/-- The six kinds partition the records. -/
theorem classTotal_sum (rs : List AddrAccessStats) :
    classTotal .private_inst rs + classTotal .private_stack rs + classTotal .private_heap rs +
      classTotal .shared_inst rs + classTotal .shared_stack rs + classTotal .shared_heap rs =
      (rs.map totalExact).sum := by
  induction rs with
  | nil => rfl
  | cons r rs ih =>
    have h : ∀ k, classTotal k (r :: rs) =
        (if classOf r = k then totalExact r else 0) + classTotal k rs := by
      intro k
      by_cases hk : classOf r = k <;> simp [classTotal, hk]
    rw [h, h, h, h, h, h, List.map_cons, List.sum_cons, ← ih]
    cases hc : classOf r <;> simp <;> omega

/-- C29: in `collect_statistics` the total access count of every record is
added to the counter of its kind (instruction records to shared or private
inst whatever their region, `STACK` data to shared or private stack, `GLOBAL`
and `HEAP` data to shared or private heap) and to no other counter; so every
counter is the sum of the access counts of the records of its kind and
`num_total_access` is the number of accesses of all records, in 64-bit
unsigned arithmetic; when the number of all accesses is below `2 ^ 64` the
counters are these sums and add up to it. -/
theorem collect_statistics_counts (ms : MemStats) :
    (∀ c r k, counter k (countRecord c r) =
      if classOf r = k then add64 (counter k c) (totalAccess r) else counter k c) ∧
    (∀ k, counter k (collect_statistics ms) = classTotal k (recordsIn ms) % 2 ^ 64) ∧
    num_total_access (collect_statistics ms) =
      ((recordsIn ms).map totalExact).sum % 2 ^ 64 ∧
    (((recordsIn ms).map totalExact).sum < 2 ^ 64 →
      (∀ k, counter k (collect_statistics ms) = classTotal k (recordsIn ms)) ∧
      (collect_statistics ms).num_private_inst + (collect_statistics ms).num_private_stack +
        (collect_statistics ms).num_private_heap + (collect_statistics ms).num_shared_inst +
        (collect_statistics ms).num_shared_stack + (collect_statistics ms).num_shared_heap =
        ((recordsIn ms).map totalExact).sum) := by
  have hk : ∀ k, counter k (collect_statistics ms) = classTotal k (recordsIn ms) % 2 ^ 64 := by
    intro k
    rw [collect_statistics_eq, counter_foldl k _ _ (by cases k <;> simp [counter])]
    cases k <;> simp [counter]
  have hsum := classTotal_sum (recordsIn ms)
  have h1 := hk .private_inst
  have h2 := hk .private_stack
  have h3 := hk .private_heap
  have h4 := hk .shared_inst
  have h5 := hk .shared_stack
  have h6 := hk .shared_heap
  simp only [counter] at h1 h2 h3 h4 h5 h6
  refine ⟨countRecord_class, hk, ?_, ?_⟩
  · unfold num_total_access add64
    rw [h1, h2, h3, h4, h5, h6, ← hsum]
    omega
  · intro hlt
    rw [← hsum] at hlt
    refine ⟨fun k => ?_, ?_⟩
    · rw [hk k]
      apply Nat.mod_eq_of_lt
      cases k <;> omega
    · rw [h1, h2, h3, h4, h5, h6, ← hsum]
      omega

/-! ## The checker -/

theorem sanityLoop_iff (cua : AddrMap) :
    ∀ l : AddrMap, Checker.sanityLoop cua l = true ↔
      ∀ p ∈ l, ∃ it ∈ mfind cua p.1, totalAccess it = totalAccess p.2 := by
  intro l
  induction l with
  | nil => simp [Checker.sanityLoop]
  | cons p l ih =>
    rw [Checker.sanityLoop, List.forall_mem_cons, ← ih]
    cases hf : mfind cua p.1 with
    | none => simp
    | some it =>
      by_cases ht : totalAccess it = totalAccess p.2
      · simp [ht]
      · simp [ht]

theorem propertyLoop_spec (cua : AddrMap) :
    ∀ (l : AddrMap) (f : CheckFlags), (∀ p ∈ l, (mfind cua p.1).isSome = true) →
      ∃ f', Checker.propertyLoop cua l f = some f' ∧
        (f'.private_data_detected = true ↔
          f.private_data_detected = true ∨ HasPrivateLine l cua) ∧
        (f'.shared_data_detected = true ↔
          f.shared_data_detected = true ∨ HasSharedLine l cua) ∧
        (f'.private_data_check_res = true ↔
          f.private_data_check_res = true ∧ PrivateIsolated l cua) ∧
        (f'.shared_data_check_res = true ↔
          f.shared_data_check_res = true ∧ SharedIsolated l cua) := by
  intro l
  induction l with
  | nil =>
    intro f _
    exact ⟨f, rfl, by simp [HasPrivateLine], by simp [HasSharedLine],
      by simp [PrivateIsolated], by simp [SharedIsolated]⟩
  | cons p l ih =>
    intro f hfound
    obtain ⟨it, hit⟩ := Option.isSome_iff_exists.mp (hfound p (List.mem_cons_self _ _))
    have hrest : ∀ q ∈ l, (mfind cua q.1).isSome = true :=
      fun q hq => hfound q (List.mem_cons_of_mem _ hq)
    have hP : HasPrivateLine (p :: l) cua ↔ it.is_shared = false ∨ HasPrivateLine l cua := by
      simp [HasPrivateLine, hit]
    have hS : HasSharedLine (p :: l) cua ↔ it.is_shared = true ∨ HasSharedLine l cua := by
      simp [HasSharedLine, hit]
    have hPI : PrivateIsolated (p :: l) cua ↔
        (it.is_shared = false → it.num_local_l1_hit = p.2.num_local_l1_hit ∧
          it.num_l2_hit = p.2.num_l2_hit) ∧ PrivateIsolated l cua := by
      simp [PrivateIsolated, hit]
    have hSI : SharedIsolated (p :: l) cua ↔
        (it.is_shared = true → it.num_memory_access = p.2.num_memory_access) ∧
          SharedIsolated l cua := by
      simp [SharedIsolated, hit]
    rw [Checker.propertyLoop, hit]
    by_cases hs : it.is_shared = true
    · obtain ⟨f', hf', h1, h2, h3, h4⟩ := ih
        { f with
          shared_data_detected := true
          shared_data_check_res :=
            if it.num_memory_access ≠ p.2.num_memory_access then false
            else f.shared_data_check_res } hrest
      refine ⟨f', by simpa [hs] using hf', ?_, ?_, ?_, ?_⟩
      · rw [h1, hP]; simp [hs]
      · rw [h2, hS]; simp [hs]
      · rw [h3, hPI]; simp [hs]
      · rw [h4, hSI]
        by_cases hm : it.num_memory_access = p.2.num_memory_access
        · simp [hs, hm]
        · simp [hs, hm]
    · have hs' : it.is_shared = false := by simpa using hs
      obtain ⟨f', hf', h1, h2, h3, h4⟩ := ih
        { f with
          private_data_detected := true
          private_data_check_res :=
            if p.2.num_local_l1_hit ≠ it.num_local_l1_hit ∨
                p.2.num_l2_hit ≠ it.num_l2_hit then false
            else f.private_data_check_res } hrest
      refine ⟨f', by simpa [hs'] using hf', ?_, ?_, ?_, ?_⟩
      · rw [h1, hP]; simp [hs']
      · rw [h2, hS]; simp [hs']
      · rw [h3, hPI]
        by_cases hm : p.2.num_local_l1_hit ≠ it.num_local_l1_hit ∨
            p.2.num_l2_hit ≠ it.num_l2_hit
        · rw [if_pos hm]
          simp only [hs', true_implies]
          constructor
          · rintro ⟨h, _⟩
            exact absurd h (by simp)
          · rintro ⟨_, ⟨e1, e2⟩, _⟩
            rcases hm with hm | hm
            · exact absurd e1.symm hm
            · exact absurd e2.symm hm
        · rw [if_neg hm]
          push_neg at hm
          simp [hs', hm.1, hm.2]
      · rw [h4, hSI]; simp [hs']

theorem wcrtLoop_returns (pe : Bool) :
    ∀ (l : AddrMap) (w : Nat), (∀ p ∈ l, p.2.num_remote_l1_hit = 0) →
      ∃ w', Checker.wcrtLoop pe l w = some w' := by
  intro l
  induction l with
  | nil => intro w _; exact ⟨w, rfl⟩
  | cons p l ih =>
    intro w h
    have h0 := h p (List.mem_cons_self _ _)
    have hstep : ∃ w1, Checker.wcrtStep pe w p.2 = some w1 := by
      unfold Checker.wcrtStep
      simp only [h0, ne_eq, not_true_eq_false, if_false]
      split
      · split <;> exact ⟨_, rfl⟩
      · exact ⟨_, rfl⟩
    obtain ⟨w1, hw1⟩ := hstep
    rw [Checker.wcrtLoop, hw1]
    exact ih w1 (fun q hq => h q (List.mem_cons_of_mem _ hq))

theorem check_of_match (iso_cua cua : AddrMap) (iso_rest rest : MemStats) (pe : Bool)
    (hm : TracesMatch iso_cua cua) (hp : HasPrivateLine iso_cua cua)
    (hs : HasSharedLine iso_cua cua) :
    Checker.check (iso_cua :: iso_rest) (cua :: rest) pe =
      if IsolationHolds iso_cua cua then (if pe = true then .returned else .exited 1)
      else (if pe = true then .exited 2 else .returned) := by
  have hsan := (sanityLoop_iff cua iso_cua).mpr hm.2
  have hfound : ∀ p ∈ iso_cua, (mfind cua p.1).isSome = true := by
    intro p hp'
    obtain ⟨it, hit, _⟩ := hm.2 p hp'
    rw [Option.mem_def] at hit
    rw [hit]; rfl
  obtain ⟨f, hf, h1, h2, h3, h4⟩ :=
    propertyLoop_spec cua iso_cua ⟨false, true, false, true⟩ hfound
  have hpd : f.private_data_detected = true := h1.mpr (Or.inr hp)
  have hsd : f.shared_data_detected = true := h2.mpr (Or.inr hs)
  have hres : (f.private_data_check_res = true ∧ f.shared_data_check_res = true) ↔
      IsolationHolds iso_cua cua := by
    rw [h3, h4]; simp [IsolationHolds]
  unfold Checker.check
  simp only [hm.1, ne_eq, not_true_eq_false, if_false, hsan, Bool.true_eq_false, hf, hpd, hsd]
  by_cases hi : IsolationHolds iso_cua cua
  · rw [if_pos (hres.mpr hi), if_pos hi]
    cases pe <;> rfl
  · rw [if_neg (fun h => hi (hres.mp h)), if_neg hi]

theorem check_of_mismatch (iso_cua cua : AddrMap) (iso_rest rest : MemStats) (pe : Bool)
    (hm : ¬ TracesMatch iso_cua cua) :
    Checker.check (iso_cua :: iso_rest) (cua :: rest) pe = .exited (-1) := by
  unfold Checker.check
  by_cases hl : cua.length = iso_cua.length
  · have hsan : Checker.sanityLoop cua iso_cua = false := by
      cases h : Checker.sanityLoop cua iso_cua with
      | false => rfl
      | true => exact absurd ⟨hl, (sanityLoop_iff cua iso_cua).mp h⟩ hm
    simp only [hl, ne_eq, not_true_eq_false, if_false, hsan, if_true]
  · simp only [ne_eq, hl, not_false_eq_true, if_true]

theorem main_of_check (iso ms0 : MemStats) (cua : AddrMap) (rest : MemStats) (pe : Bool)
    (ha : Checker.analyze_shared_access ms0 = some (cua :: rest))
    (h0 : ∀ p ∈ cua, p.2.num_remote_l1_hit = 0) :
    Checker.main iso ms0 pe =
      match Checker.check iso (cua :: rest) pe with
      | .returned => .exited 0
      | o => o := by
  obtain ⟨w, hw⟩ := wcrtLoop_returns pe cua 0 h0
  unfold Checker.main
  simp only [ha]
  cases hc : Checker.check iso (cua :: rest) pe with
  | returned => simp only [Checker.compute_wcrt, hw]
  | exited s => rfl
  | assert_failed => rfl
  | undefined => rfl

/-- C30: for two traces of core 0 that match and contain both a private and a
shared line: when the isolation property holds, `check` returns normally if
partitioning is enabled and calls `exit(1)` if it is disabled; on a mismatch
of the traces it calls `exit(-1)`; on a violation it calls `exit(2)` if
partitioning is enabled and returns normally if it is disabled. After a
normal return of `check`, `main` ends with status 0 when no record of core 0
counts a remote-L1 hit. -/
theorem check_outcome (iso_cua cua : AddrMap) (iso_rest rest : MemStats)
    (partition_enable : Bool) :
    (TracesMatch iso_cua cua → HasPrivateLine iso_cua cua → HasSharedLine iso_cua cua →
      IsolationHolds iso_cua cua →
      Checker.check (iso_cua :: iso_rest) (cua :: rest) partition_enable =
        if partition_enable = true then .returned else .exited 1) ∧
    (¬ TracesMatch iso_cua cua →
      Checker.check (iso_cua :: iso_rest) (cua :: rest) partition_enable = .exited (-1)) ∧
    (TracesMatch iso_cua cua → HasPrivateLine iso_cua cua → HasSharedLine iso_cua cua →
      ¬ IsolationHolds iso_cua cua →
      Checker.check (iso_cua :: iso_rest) (cua :: rest) partition_enable =
        if partition_enable = true then .exited 2 else .returned) ∧
    (∀ ms0, Checker.analyze_shared_access ms0 = some (cua :: rest) →
      (∀ p ∈ cua, p.2.num_remote_l1_hit = 0) →
      TracesMatch iso_cua cua → HasPrivateLine iso_cua cua → HasSharedLine iso_cua cua →
      IsolationHolds iso_cua cua →
      Checker.main (iso_cua :: iso_rest) ms0 partition_enable =
        if partition_enable = true then .exited 0 else .exited 1) := by
  refine ⟨?_, ?_, ?_, ?_⟩
  · intro hm hp hs hi
    rw [check_of_match iso_cua cua iso_rest rest partition_enable hm hp hs, if_pos hi]
  · intro hm
    exact check_of_mismatch iso_cua cua iso_rest rest partition_enable hm
  · intro hm hp hs hi
    rw [check_of_match iso_cua cua iso_rest rest partition_enable hm hp hs, if_neg hi]
  · intro ms0 ha h0 hm hp hs hi
    rw [main_of_check (iso_cua :: iso_rest) ms0 cua rest partition_enable ha h0,
      check_of_match iso_cua cua iso_rest rest partition_enable hm hp hs, if_pos hi]
    cases partition_enable <;> rfl

/-- Instances of C30: the matching traces `isoCua` and `candCua` satisfy the
isolation property, and the checker ends with status 0 with partitioning
enabled; `mismatchCua` is rejected with `exit(-1)`, and the violation in
`violatingCua` with `exit(2)`. -/
theorem check_outcome_witness :
    TracesMatch isoCua candCua ∧ HasPrivateLine isoCua candCua ∧
    HasSharedLine isoCua candCua ∧ IsolationHolds isoCua candCua ∧
    Checker.check [isoCua] [candCua, otherCore] true = .returned ∧
    Checker.main [isoCua] candStats true = .exited 0 ∧
    Checker.check [isoCua] [mismatchCua, otherCore] true = .exited (-1) ∧
    Checker.check [isoCua] [violatingCua, otherCore] true = .exited 2 :=
  ⟨by decide, by decide, by decide, by decide,
    (check_outcome isoCua candCua [] [otherCore] true).1 (by decide) (by decide) (by decide)
      (by decide),
    (check_outcome isoCua candCua [] [otherCore] true).2.2.2 candStats (by decide) (by decide)
      (by decide) (by decide) (by decide) (by decide),
    (check_outcome isoCua mismatchCua [] [otherCore] true).2.1 (by decide),
    (check_outcome isoCua violatingCua [] [otherCore] true).2.2.1 (by decide) (by decide)
      (by decide) (by decide)⟩

/-- The traces `isoCua` and `candCua` match, hold a private and a shared line
and satisfy the isolation property, but with partitioning disabled `check`
calls `exit(1)`, and so does the whole checker on `isoStats` and
`candStats`. -/
theorem check_exits_one_without_partition :
    TracesMatch isoCua candCua ∧ HasPrivateLine isoCua candCua ∧
    HasSharedLine isoCua candCua ∧ IsolationHolds isoCua candCua ∧
    Checker.analyze_shared_access candStats = some [candCua, otherCore] ∧
    Checker.check [isoCua] [candCua, otherCore] false = .exited 1 ∧
    Checker.main isoStats candStats false = .exited 1 := by
  decide

/-- Instance of C29 on `mixedStats`: an instruction record tagged `STACK` is
counted as a private instruction access, private `GLOBAL` data as a private
heap access, and the six counters add up to the 15 accesses of the five
records. -/
theorem collect_statistics_counts_witness :
    ((recordsIn mixedStats).map totalExact).sum < 2 ^ 64 ∧
    collect_statistics mixedStats = ⟨1, 3, 4, 2, 0, 5⟩ ∧
    ((∀ k, counter k (collect_statistics mixedStats) = classTotal k (recordsIn mixedStats)) ∧
      (collect_statistics mixedStats).num_private_inst +
        (collect_statistics mixedStats).num_private_stack +
        (collect_statistics mixedStats).num_private_heap +
        (collect_statistics mixedStats).num_shared_inst +
        (collect_statistics mixedStats).num_shared_stack +
        (collect_statistics mixedStats).num_shared_heap =
        ((recordsIn mixedStats).map totalExact).sum) :=
  ⟨by decide, by decide, (collect_statistics_counts mixedStats).2.2.2 (by decide)⟩

/-! ## The recurrence of the longest-path pass -/

theorem relaxVal_attained (w : Nat) (lp : List Nat) :
    ∀ (ts : List Vertex) (init : Nat), relaxVal w lp ts init = init ∨
      ∃ t ∈ ts, relaxVal w lp ts init = add64 w (lp.getD t 0) := by
  intro ts
  induction ts with
  | nil => intro init; exact Or.inl rfl
  | cons t ts ih =>
    intro init
    have hstep : relaxVal w lp (t :: ts) init =
        relaxVal w lp ts (max init (add64 w (lp.getD t 0))) := rfl
    rw [hstep]
    rcases ih (max init (add64 w (lp.getD t 0))) with h | ⟨t', ht', h⟩
    · rw [h]
      rcases le_total init (add64 w (lp.getD t 0)) with hle | hle
      · exact Or.inr ⟨t, List.mem_cons_self _ _, max_eq_right hle⟩
      · exact Or.inl (max_eq_left hle)
    · exact Or.inr ⟨t', List.mem_cons_of_mem _ ht', h⟩

/-- The pass for configuration `i` returns on every order produced by
`topological_sort` when the weight map has a row with an entry `i` for every
vertex, and its result satisfies the invariant of the loop. -/
theorem longest_path_returns {g : Graph} {wm : List (List Nat)} {i : Nat}
    {sv : List Vertex} (hnd : sv.Nodup) (hmem : ∀ v, v ∈ sv ↔ v < num_vertices g)
    (hto : TopoOrdered g sv) (hlen : wm.length = num_vertices g)
    (hrow : ∀ row ∈ wm, i < row.length) :
    ∃ lp, longest_path g wm sv i = some lp ∧ lp.length = num_vertices g ∧
      LpInv g wm i sv sv lp := by
  have hw : ∀ v ∈ sv, weightAt wm v i = some ((wm.getD v []).getD i 0) := by
    intro v hv
    have hvl : v < wm.length := by rw [hlen]; exact (hmem v).1 hv
    apply weightAt_eq hvl
    apply hrow
    rw [List.getD_eq_getElem _ _ hvl]
    exact List.getElem_mem _
  exact longestPathLoop_spec hnd hw (num_vertices g)
    (fun v hv => (hmem v).1 hv) sv [] (List.replicate (num_vertices g) 0) rfl hto (by simp)
    (LpInv.init g wm i sv _)

/-- C31: on a well-formed acyclic graph with a weight row for every vertex,
the inner pass of `compute_WCRTs` for configuration `i` returns, and in the
resulting vector every vertex `v` has `longest_path[v] = 0` when it has no
out-edge and otherwise the maximum over its out-edges `(v, t)` of
`weight_map[v][i] + longest_path[t]` (the sum as the code computes it, in
64-bit unsigned arithmetic): the value is at least every such sum and equals
one of them. When the weights of configuration `i` add up to less than
`2 ^ 64`, none of these sums wraps around. -/
theorem longest_path_recurrence (g : Graph) (wm : List (List Nat)) (i : Nat)
    (hg : g.wf) (hac : Acyclic g) (hlen : wm.length = num_vertices g)
    (hrow : ∀ row ∈ wm, i < row.length) :
    ∃ sv lp, topological_sort g = .ok sv ∧ longest_path g wm sv i = some lp ∧
      lp.length = num_vertices g ∧
      ∀ v, v < num_vertices g →
        (out_edges g v = [] → lp.getD v 0 = 0) ∧
        (∀ t ∈ out_edges g v,
          add64 ((wm.getD v []).getD i 0) (lp.getD t 0) ≤ lp.getD v 0) ∧
        (out_edges g v ≠ [] → ∃ t ∈ out_edges g v,
          lp.getD v 0 = add64 ((wm.getD v []).getD i 0) (lp.getD t 0)) ∧
        ((wm.map (fun row => row.getD i 0)).sum < 2 ^ 64 → ∀ t ∈ out_edges g v,
          add64 ((wm.getD v []).getD i 0) (lp.getD t 0) =
            (wm.getD v []).getD i 0 + lp.getD t 0) := by
  obtain ⟨sv, hts, hnd, hmem, hto⟩ := topological_sort_returns hg hac
  obtain ⟨lp, h1, h2, h3⟩ := longest_path_returns hnd hmem hto hlen hrow
  have hS : walkWeight wm i sv = (wm.map (fun row => row.getD i 0)).sum := by
    rw [walkWeight_perm wm i hnd hmem, ← hlen, walkWeight_range]
  refine ⟨sv, lp, hts, h1, h2, fun v hv => ?_⟩
  have hvs : v ∈ sv := (hmem v).2 hv
  have hex := h3.exact v hvs
  refine ⟨fun hnil => ?_, fun t ht => ?_, fun hne => ?_, fun hsum t ht => ?_⟩
  · rw [hex, hnil]; rfl
  · rw [hex]
    exact le_relaxVal_mem _ lp _ 0 t ht
  · rcases relaxVal_attained ((wm.getD v []).getD i 0) lp (out_edges g v) 0 with h0 | ⟨t, ht, h⟩
    · obtain ⟨t, ts, hts'⟩ := List.exists_cons_of_ne_nil hne
      have ht : t ∈ out_edges g v := by rw [hts']; exact List.mem_cons_self _ _
      have hle := le_relaxVal_mem ((wm.getD v []).getD i 0) lp (out_edges g v) 0 t ht
      rw [h0] at hle
      exact ⟨t, ht, by rw [hex, h0]; omega⟩
    · exact ⟨t, ht, by rw [hex, h]⟩
  · have hnw := h3.nowrap v hvs t ht
    rw [hS] at hnw
    exact add64_exact (by omega)

/-- Instance of C31 on Scenario A (the chain `0 → 1 → 2` with the weights 10,
5, 10): the pass yields `[15, 5, 0]`. -/
theorem longest_path_recurrence_witness :
    longest_path scenarioAGraph scenarioAWeights [2, 1, 0] 0 = some [15, 5, 0] ∧
    ∃ sv lp, topological_sort scenarioAGraph = .ok sv ∧
      longest_path scenarioAGraph scenarioAWeights sv 0 = some lp ∧
      lp.length = num_vertices scenarioAGraph ∧
      ∀ v, v < num_vertices scenarioAGraph →
        (out_edges scenarioAGraph v = [] → lp.getD v 0 = 0) ∧
        (∀ t ∈ out_edges scenarioAGraph v,
          add64 ((scenarioAWeights.getD v []).getD 0 0) (lp.getD t 0) ≤ lp.getD v 0) ∧
        (out_edges scenarioAGraph v ≠ [] → ∃ t ∈ out_edges scenarioAGraph v,
          lp.getD v 0 = add64 ((scenarioAWeights.getD v []).getD 0 0) (lp.getD t 0)) ∧
        ((scenarioAWeights.map (fun row => row.getD 0 0)).sum < 2 ^ 64 →
          ∀ t ∈ out_edges scenarioAGraph v,
            add64 ((scenarioAWeights.getD v []).getD 0 0) (lp.getD t 0) =
              (scenarioAWeights.getD v []).getD 0 0 + lp.getD t 0) :=
  ⟨by decide, longest_path_recurrence scenarioAGraph scenarioAWeights 0 (by decide)
    (acyclic_of_topological_sort (by decide)
      (show topological_sort scenarioAGraph = .ok [2, 1, 0] by decide))
    (by decide) (by decide)⟩

/-! ## The classifier on uniformly used lines -/

theorem mfind_some_mem : ∀ {m : AddrMap} {a : Addr} {r : AddrAccessStats},
    mfind m a = some r → (a, r) ∈ m := by
  intro m
  induction m with
  | nil => intro a r h; cases h
  | cons e m ih =>
    intro a r h
    obtain ⟨k, x⟩ := e
    by_cases hk : k = a
    · simp only [mfind, hk, if_true, Option.some.injEq] at h
      rw [hk, h]
      exact List.mem_cons_self _ _
    · simp only [mfind, hk, if_false] at h
      exact List.mem_cons_of_mem _ (ih h)

theorem getD_mem_of_mfind {ms : MemStats} {v : Vertex} {a : Addr} {r : AddrAccessStats}
    (h : mfind (ms.getD v []) a = some r) : ms.getD v [] ∈ ms := by
  have hv := mfind_some_lt h
  rw [List.getD_eq_getElem _ _ hv]
  exact List.getElem_mem _

/-- All flags are private when every stored record is private. -/
theorem flag_false_of_all {ms : MemStats}
    (h : ∀ m ∈ ms, ∀ e ∈ m, e.2.is_shared = false) : ∀ v a, flag ms v a = false := by
  intro v a
  unfold flag
  cases hf : mfind (ms.getD v []) a with
  | none => rfl
  | some r => exact h _ (getD_mem_of_mfind hf) _ (mfind_some_mem hf)

/-- The records of one line agree on `is_ifetch` when all stored entries with
equal keys do. -/
theorem uniform_of_all {ms : MemStats}
    (h : ∀ m ∈ ms, ∀ e ∈ m, ∀ m' ∈ ms, ∀ e' ∈ m', e.1 = e'.1 →
      e.2.is_ifetch = e'.2.is_ifetch) :
    ∀ a v w rv rw, mfind (ms.getD v []) a = some rv →
      mfind (ms.getD w []) a = some rw → rv.is_ifetch = rw.is_ifetch := by
  intro a v w rv rw hv hw
  exact h _ (getD_mem_of_mfind hv) _ (mfind_some_mem hv) _ (getD_mem_of_mfind hw) _
    (mfind_some_mem hw) rfl

/-- C32: let all flags be private on entry and let, for each line address, all
records of that address agree on `is_ifetch`. After `analyze_shared_access`
the record `mem_stats[u][a]` is still there, and it is shared if and only if
some vertex `p` parallel to `u` holds a record for `a` and either the record
is an instruction fetch or the thread id of `p` differs from the thread id of
`u` (the thread id of a vertex is that of the first record of its map). -/
theorem analyze_uniform_exact (ms ms' : MemStats) (g : Graph) (r e : Vertex) (fuel : Nat)
    (hg : g.wf) (h : analyze_shared_access ms g r e fuel = some ms')
    (hpriv : ∀ v a, flag ms v a = false)
    (huni : ∀ a v w rv rw, mfind (ms.getD v []) a = some rv →
      mfind (ms.getD w []) a = some rw → rv.is_ifetch = rw.is_ifetch)
    (u : Vertex) (a : Addr) (ru : AddrAccessStats) (hu : mfind (ms.getD u []) a = some ru) :
    sharedFlag ms' u a = some (flag ms' u a) ∧
    (sharedFlag ms' u a = some true ↔
      ∃ p rp, Parallel g u p ∧ mfind (ms.getD p []) a = some rp ∧
        (ru.is_ifetch = true ∨ vtid ms p ≠ vtid ms u)) := by
  obtain ⟨hshape, _, hsound, hown, _⟩ := analyze_summary hg h
  obtain ⟨hn, _, _⟩ := analyze_unfold hg h
  have hsf := sharedFlag_of_shape hshape hu
  refine ⟨hsf, ?_⟩
  rw [hsf]
  constructor
  · intro hf
    have hf' : flag ms' u a = true := by simpa using hf
    rcases hsound u a hf' with h0 | ⟨r1, p, hr1, _, hpar, hc⟩ | ⟨w, rw, hpar, hw, hc⟩
    · rw [hpriv u a] at h0; cases h0
    · rw [hu] at hr1
      cases hr1
      obtain ⟨hs, hk⟩ := cand_holds hc
      obtain ⟨rp, hrp⟩ := Option.isSome_iff_exists.mp hs
      refine ⟨p, rp, hpar, hrp, ?_⟩
      rcases hk with hk | hk
      · exact Or.inl hk
      · exact Or.inr (fun e => hk e.symm)
    · obtain ⟨_, hk⟩ := cand_holds hc
      refine ⟨w, rw, hpar.symm, hw, ?_⟩
      rcases hk with hk | hk
      · exact Or.inl (by rw [huni a u w ru rw hu hw]; exact hk)
      · exact Or.inr hk
  · rintro ⟨p, rp, hpar, hrp, hk⟩
    have hp : p < num_vertices g := by rw [hn]; exact mfind_some_lt hrp
    have hc : cand ms (vtid ms u) ru.is_ifetch a p = true := by
      apply cand_intro
      · rw [hrp]; rfl
      · rcases hk with hk | hk
        · exact Or.inl hk
        · exact Or.inr (fun e => hk e.symm)
    rw [hown u a ⟨ru, p, hu, hp, hpar, hc⟩]

/-- Instance of C32 on Scenario C: the data record of vertex 1 (thread 1) ends
shared because the parallel vertex 2 (thread 2) holds the line. -/
theorem analyze_uniform_exact_witness :
    analyze_shared_access scenarioC forkGraph 0 3 20 =
      some [[mkRecord 0 1 4096 false], [mkShared 1 1 4096 false], [mkShared 2 2 4096 false], []] ∧
    sharedFlag [[mkRecord 0 1 4096 false], [mkShared 1 1 4096 false],
      [mkShared 2 2 4096 false], []] 1 4096 = some true ∧
    (sharedFlag [[mkRecord 0 1 4096 false], [mkShared 1 1 4096 false],
        [mkShared 2 2 4096 false], []] 1 4096 = some true ↔
      ∃ p rp, Parallel forkGraph 1 p ∧ mfind (scenarioC.getD p []) 4096 = some rp ∧
        ((mkRecord 1 1 4096 false).2.is_ifetch = true ∨ vtid scenarioC p ≠ vtid scenarioC 1)) :=
  ⟨by decide, by decide,
    (analyze_uniform_exact scenarioC _ forkGraph 0 3 20 (by decide) (by decide)
      (flag_false_of_all (by decide)) (uniform_of_all (by decide))
      1 4096 (mkRecord 1 1 4096 false).2 (by decide)).2⟩

/-- C33 (the code differs): on `forkGraph` with `guessStats`, whose flags are
all private, `analyze_shared_access` leaves the data record of vertex 2
private, because the instruction record of vertex 1 is matched through the
guess vertex, which marks only the current record; the classifier without the
guess check scans, finds vertex 2 and marks both records. -/
theorem guess_changes_flags :
    (∀ v a, flag guessStats v a = false) ∧
    analyze_shared_access guessStats forkGraph 0 3 20 =
      some [[], [mkShared 1 1 4096 true], [mkRecord 2 1 4096 false], []] ∧
    analyze_without_guess guessStats forkGraph 0 3 20 =
      some [[], [mkShared 1 1 4096 true], [mkShared 2 1 4096 false], []] ∧
    sharedFlag [[], [mkShared 1 1 4096 true], [mkRecord 2 1 4096 false], []] 2 4096 =
      some false ∧
    sharedFlag [[], [mkShared 1 1 4096 true], [mkShared 2 1 4096 false], []] 2 4096 =
      some true :=
  ⟨flag_false_of_all (by decide), by decide, by decide, by decide, by decide⟩

/-! ## Order of the four weights -/

theorem selectLatency_order (n : Int) :
    (selectLatency n).wcl_l1 ≤ (selectLatency n).wcl_llc ∧
    (selectLatency n).wcl_llc ≤ (selectLatency n).wcl_mem := by
  unfold selectLatency
  split_ifs <;> decide

theorem observed_le_promoted (n : Int) (r : AddrAccessStats) :
    observedExact (selectLatency n) r ≤ promotedExact (selectLatency n) r := by
  obtain ⟨h1, _⟩ := selectLatency_order n
  unfold observedExact promotedExact
  nlinarith [Nat.mul_le_mul_left r.num_local_l1_hit h1]

theorem promoted_le_mem (n : Int) (r : AddrAccessStats) :
    promotedExact (selectLatency n) r ≤ totalExact r * (selectLatency n).wcl_mem := by
  obtain ⟨_, h2⟩ := selectLatency_order n
  unfold promotedExact totalExact
  nlinarith [Nat.mul_le_mul_left (r.num_local_l1_hit + r.num_remote_l1_hit + r.num_l2_hit) h2]

theorem parExact_le_cpi (n : Int) (r : AddrAccessStats) :
    parExact (selectLatency n) r ≤ cpiExact (selectLatency n) r := by
  unfold parExact cpiExact
  split
  · exact promoted_le_mem n r
  · exact le_refl _

theorem cpiExact_le_color (n : Int) (r : AddrAccessStats) :
    cpiExact (selectLatency n) r ≤ colorExact (selectLatency n) r := by
  unfold cpiExact colorExact
  by_cases hs : r.is_shared = true
  · by_cases hf : r.is_ifetch = false
    · rw [if_pos ⟨hs, hf⟩, if_pos hs]
    · rw [if_neg (fun h => hf h.2), if_pos hs]
      exact le_trans (observed_le_promoted n r) (promoted_le_mem n r)
  · rw [if_neg (fun h => hs h.1), if_neg hs]

theorem colorExact_le_mem (n : Int) (r : AddrAccessStats) :
    colorExact (selectLatency n) r ≤ totalExact r * (selectLatency n).wcl_mem := by
  unfold colorExact
  split
  · exact le_refl _
  · exact le_trans (observed_le_promoted n r) (promoted_le_mem n r)

theorem cpiCharge_exact (n : Int) (r : AddrAccessStats)
    (h : cpiExact (selectLatency n) r < 2 ^ 64) :
    cpiCharge (selectLatency n) r = cpiExact (selectLatency n) r := by
  unfold cpiCharge
  unfold cpiExact at h ⊢
  split
  · rename_i hc
    rw [if_pos hc] at h
    exact chargeMem_exact n r h
  · rename_i hc
    rw [if_neg hc] at h
    exact chargeObserved_exact n r h

theorem sumCharges_congr {f g : AddrAccessStats → Nat} :
    ∀ (rs : List AddrAccessStats) (a0 : Nat), (∀ r ∈ rs, f r = g r) →
      sumCharges f rs a0 = sumCharges g rs a0 := by
  intro rs
  induction rs with
  | nil => intro a0 _; rfl
  | cons r rs ih =>
    intro a0 h
    unfold sumCharges at ih ⊢
    rw [List.foldl_cons, List.foldl_cons, h r (List.mem_cons_self _ _)]
    exact ih _ (fun x hx => h x (List.mem_cons_of_mem _ hx))

/-- The four weights of a vertex as exact sums, ordered, when the exact
`SHARE` value fits in 64 bits. -/
theorem vertexWeights_ordered (n : Int) (m : AddrMap) (exec : Nat)
    (hfit : exec + (selectLatency n).wcl_mem * (m.map (fun e => totalExact e.2)).sum < 2 ^ 64) :
    ∃ ws wc wp wi, vertexWeights (selectLatency n) m exec = [ws, wc, wp, wi] ∧
      ws = exec + (selectLatency n).wcl_mem * (m.map (fun e => totalExact e.2)).sum ∧
      wp ≤ wi ∧ wi ≤ wc ∧ wc ≤ ws ∧ exec ≤ wp ∧
      ((∀ e ∈ m, e.2.is_shared = false) → wp = wc ∧ wi = wc) := by
  have hS : ((m.map Prod.snd).map (fun r => totalExact r * (selectLatency n).wcl_mem)).sum =
      (selectLatency n).wcl_mem * (m.map (fun e => totalExact e.2)).sum := by
    rw [sum_map_mul_const, List.map_map]
    rfl
  have h1 : ((m.map Prod.snd).map (colorExact (selectLatency n))).sum ≤
      ((m.map Prod.snd).map (fun r => totalExact r * (selectLatency n).wcl_mem)).sum :=
    List.sum_le_sum (fun r _ => colorExact_le_mem n r)
  have h2 : ((m.map Prod.snd).map (cpiExact (selectLatency n))).sum ≤
      ((m.map Prod.snd).map (colorExact (selectLatency n))).sum :=
    List.sum_le_sum (fun r _ => cpiExact_le_color n r)
  have h3 : ((m.map Prod.snd).map (parExact (selectLatency n))).sum ≤
      ((m.map Prod.snd).map (cpiExact (selectLatency n))).sum :=
    List.sum_le_sum (fun r _ => parExact_le_cpi n r)
  have es := sumCharges_exact (chargeMem (selectLatency n))
    (fun r => totalExact r * (selectLatency n).wcl_mem) (m.map Prod.snd) 0 (by omega)
    (fun r _ h => chargeMem_exact n r h)
  have ec := sumCharges_exact (colorCharge (selectLatency n)) (colorExact (selectLatency n))
    (m.map Prod.snd) 0 (by omega) (fun r _ h => colorCharge_exact n r h)
  have ep := sumCharges_exact (parCharge (selectLatency n)) (parExact (selectLatency n))
    (m.map Prod.snd) 0 (by omega) (fun r _ h => parCharge_exact n r h)
  have ei := sumCharges_exact (cpiCharge (selectLatency n)) (cpiExact (selectLatency n))
    (m.map Prod.snd) 0 (by omega) (fun r _ h => cpiCharge_exact n r h)
  rw [Nat.zero_add] at es ec ep ei
  refine ⟨_, _, _, _, vertexWeights_eq _ _ _, ?_, ?_, ?_, ?_, ?_, ?_⟩
  · rw [es, add64_exact (by omega)]; omega
  · rw [ep, ei, add64_exact (by omega), add64_exact (by omega)]; omega
  · rw [ei, ec, add64_exact (by omega), add64_exact (by omega)]; omega
  · rw [ec, es, add64_exact (by omega), add64_exact (by omega)]; omega
  · rw [ep, add64_exact (by omega)]; omega
  · intro hpriv
    have hr : ∀ r ∈ m.map Prod.snd, r.is_shared = false := by
      intro r hr
      obtain ⟨e, he, rfl⟩ := List.mem_map.1 hr
      exact hpriv e he
    have hpc : sumCharges (parCharge (selectLatency n)) (m.map Prod.snd) 0 =
        sumCharges (colorCharge (selectLatency n)) (m.map Prod.snd) 0 :=
      sumCharges_congr _ _ (fun r hx => by
        unfold parCharge colorCharge; simp [hr r hx])
    have hic : sumCharges (cpiCharge (selectLatency n)) (m.map Prod.snd) 0 =
        sumCharges (colorCharge (selectLatency n)) (m.map Prod.snd) 0 :=
      sumCharges_congr _ _ (fun r hx => by
        unfold cpiCharge colorCharge; simp [hr r hx])
    rw [hpc, hic]
    exact ⟨rfl, rfl⟩

/-- C34: `populate_vertex_weight` returns whenever the execution-cycle table
covers every vertex, and for every vertex whose exact `SHARE` value (the
largest one) is below `2 ^ 64` the four weights are ordered
`weights[PAR] ≤ weights[COLOR_PRIVATE_INST] ≤ weights[COLOR] ≤ weights[SHARE]`,
each is at least the execution-cycle count of the vertex, and `PAR`, `COLOR`
and `COLOR_PRIVATE_INST` coincide when none of its records is shared. -/
theorem weights_ordered (ms : MemStats) (ex : List Nat) (n : Int)
    (hlen : ms.length ≤ ex.length) :
    ∃ wm, populate_vertex_weight ms ex n = some wm ∧ wm.length = ms.length ∧
      ∀ v, v < ms.length →
        ex.getD v 0 + (selectLatency n).wcl_mem *
          ((ms.getD v []).map (fun e => totalExact e.2)).sum < 2 ^ 64 →
        (wm.getD v []).getD PAR 0 ≤ (wm.getD v []).getD COLOR_PRIVATE_INST 0 ∧
        (wm.getD v []).getD COLOR_PRIVATE_INST 0 ≤ (wm.getD v []).getD COLOR 0 ∧
        (wm.getD v []).getD COLOR 0 ≤ (wm.getD v []).getD SHARE 0 ∧
        ex.getD v 0 ≤ (wm.getD v []).getD PAR 0 ∧
        ((∀ e ∈ ms.getD v [], e.2.is_shared = false) →
          (wm.getD v []).getD PAR 0 = (wm.getD v []).getD COLOR 0 ∧
          (wm.getD v []).getD COLOR_PRIVATE_INST 0 = (wm.getD v []).getD COLOR 0) := by
  obtain ⟨wm, h⟩ := populate_returns ms ex n hlen
  refine ⟨wm, h, (populateLoop_get _ _ _ _ _ h).1, fun v hv hfit => ?_⟩
  obtain ⟨_, _, hrow⟩ := populate_row h hv
  obtain ⟨ws, wc, wp, wi, hw, _, h1, h2, h3, h4, h5⟩ :=
    vertexWeights_ordered n (ms.getD v []) (ex.getD v 0) hfit
  rw [hrow, hw]
  obtain ⟨g1, g2, g3, g4⟩ := getD_weights ws wc wp wi
  rw [g1, g2, g3, g4]
  exact ⟨h1, h2, h3, h4, h5⟩

/-- Instance of C34: one vertex with 100 execution cycles, a private data
record and a shared instruction record, on 2 cores: the weights are
`102 ≤ 102 ≤ 669 ≤ 1236`. -/
theorem weights_ordered_witness :
    populate_vertex_weight costStats [100] 2 = some [[1236, 669, 102, 102]] ∧
    ∃ wm, populate_vertex_weight costStats [100] 2 = some wm ∧
      wm.length = costStats.length ∧
      ∀ v, v < costStats.length →
        ([100] : List Nat).getD v 0 + (selectLatency 2).wcl_mem *
          ((costStats.getD v []).map (fun e => totalExact e.2)).sum < 2 ^ 64 →
        (wm.getD v []).getD PAR 0 ≤ (wm.getD v []).getD COLOR_PRIVATE_INST 0 ∧
        (wm.getD v []).getD COLOR_PRIVATE_INST 0 ≤ (wm.getD v []).getD COLOR 0 ∧
        (wm.getD v []).getD COLOR 0 ≤ (wm.getD v []).getD SHARE 0 ∧
        ([100] : List Nat).getD v 0 ≤ (wm.getD v []).getD PAR 0 ∧
        ((∀ e ∈ costStats.getD v [], e.2.is_shared = false) →
          (wm.getD v []).getD PAR 0 = (wm.getD v []).getD COLOR 0 ∧
          (wm.getD v []).getD COLOR_PRIVATE_INST 0 = (wm.getD v []).getD COLOR 0) :=
  ⟨by decide, weights_ordered costStats [100] 2 (by decide)⟩

/-! ## Bounds of compute_WCRTs -/

theorem volumeLoop_rows (i : Nat) : ∀ (wm : List (List Nat)) (v0 vol : Nat),
    volumeLoop i wm v0 = some vol → ∀ row ∈ wm, i < row.length := by
  intro wm
  induction wm with
  | nil => intro _ _ _ row hr; cases hr
  | cons r wm ih =>
    intro v0 vol h row hr
    unfold volumeLoop at h
    cases hg : r.get? i with
    | none => rw [hg] at h; cases h
    | some w =>
      rw [hg] at h
      rcases List.mem_cons.1 hr with rfl | hr
      · by_contra hc
        rw [List.get?_eq_none.2 (Nat.le_of_not_lt hc)] at hg
        cases hg
      · exact ih _ _ h row hr

/-- What a returning call of `compute_WCRTs` on a well-formed graph went
through: a topological order, and for every configuration a longest-path
vector whose entry 0 is the critical path. -/
theorem compute_WCRTs_paths {g : Graph} {wm : List (List Nat)} {n : Int} {res : WcrtResult}
    (hg : g.wf) (hlen : wm.length = num_vertices g) (h : compute_WCRTs g wm n = some res) :
    ∃ sv, topological_sort g = .ok sv ∧ sv.Nodup ∧ (∀ v, v ∈ sv ↔ v < num_vertices g) ∧
      TopoOrdered g sv ∧
      ∀ i, i < NUM_CONFIGS → (∀ row ∈ wm, i < row.length) ∧
        ∃ lp, longest_path g wm sv i = some lp ∧ LpInv g wm i sv sv lp ∧
          res.critical_paths.getD i 0 = lp.getD 0 0 ∧ 0 < res.critical_paths.getD i 0 := by
  obtain ⟨sv, h1, h2, h3, _⟩ := compute_WCRTs_parts h
  rw [allSome_eq_some] at h2 h3
  rcases topological_sort_spec hg with ⟨he, _⟩ | ⟨sv', hs, hnd, hmem, hto⟩
  · rw [he] at h1; cases h1
  rw [hs] at h1
  cases h1
  refine ⟨sv, hs, hnd, hmem, hto, fun i hi => ?_⟩
  have hri : (List.range NUM_CONFIGS)[i]? = some i := by
    rw [List.getElem?_range hi]
  have hrow : ∀ row ∈ wm, i < row.length :=
    volumeLoop_rows i wm 0 _
      (map_eq_map_some_getD (fun i => volumeLoop i wm 0) _ _ h3 i i hri 0)
  have hcp := map_eq_map_some_getD (criticalPath g wm sv) _ _ h2 i i hri 0
  obtain ⟨lp, hl1, _, hl3⟩ := longest_path_returns hnd hmem hto hlen hrow
  refine ⟨hrow, lp, hl1, hl3, ?_⟩
  unfold criticalPath at hcp
  rw [hl1] at hcp
  simp only at hcp
  cases hh : lp.head? with
  | none => rw [hh] at hcp; cases hcp
  | some front =>
    rw [hh] at hcp
    simp only at hcp
    have hfront : lp.getD 0 0 = front := by
      cases lp with
      | nil => cases hh
      | cons a l => simp only [List.head?_cons, Option.some.injEq] at hh; rw [← hh]; rfl
    by_cases hz : front = 0
    · rw [if_pos hz] at hcp; cases hcp
    · rw [if_neg hz] at hcp
      have := Option.some.inj hcp
      rw [hfront, ← this]
      exact ⟨rfl, Nat.pos_of_ne_zero hz⟩

/-- The bounds of one configuration whose weights add up to less than
`2 ^ 53`. -/
theorem wcrt_between {g : Graph} {wm : List (List Nat)} {n : Int} {res : WcrtResult}
    (hg : g.wf) (hlen : wm.length = num_vertices g) (hn : 1 ≤ n)
    (h : compute_WCRTs g wm n = some res) {i : Nat} (hi : i < NUM_CONFIGS)
    (hsum : (wm.map (fun row => row.getD i 0)).sum < 2 ^ 53) :
    res.volumes.getD i 0 = (wm.map (fun row => row.getD i 0)).sum ∧
    res.critical_paths.getD i 0 ≤ res.volumes.getD i 0 ∧
    res.critical_paths.getD i 0 ≤ res.wcrts.getD i 0 ∧
    res.wcrts.getD i 0 ≤ res.volumes.getD i 0 := by
  have hsum64 : (wm.map (fun row => row.getD i 0)).sum < 2 ^ 64 :=
    lt_trans hsum (by norm_num)
  obtain ⟨sv, _, hnd, hmem, _, hp⟩ := compute_WCRTs_paths hg hlen h
  obtain ⟨_, lp, _, hinv, hcp, _⟩ := hp i hi
  obtain ⟨_, _, hvol, hw⟩ := wcrt_of_returns g wm n res h i hi
  have hS : walkWeight wm i sv = (wm.map (fun row => row.getD i 0)).sum := by
    rw [walkWeight_perm wm i hnd hmem, ← hlen, walkWeight_range]
  have hle : res.critical_paths.getD i 0 ≤ res.volumes.getD i 0 := by
    rw [hvol hsum64, hcp, ← hS]
    exact hinv.upper 0
  obtain ⟨w, hw1, hw2, hw3⟩ := wcrtOf_bounds n hn _ _ hle (by rw [hvol hsum64]; exact hsum)
  rw [hw] at hw1
  have := Option.some.inj hw1
  subst this
  exact ⟨hvol hsum64, hle, hw2, hw3⟩

/-- The function returns on a well-formed acyclic graph whose vertex 0 has an
out-edge and positive weights, when every column adds up to less than
`2 ^ 53`. -/
theorem compute_WCRTs_returns {g : Graph} {wm : List (List Nat)} {n : Int}
    (hg : g.wf) (hac : Acyclic g) (hlen : wm.length = num_vertices g)
    (hrow : ∀ row ∈ wm, NUM_CONFIGS ≤ row.length) (hn : 1 ≤ n)
    (hroot : out_edges g 0 ≠ [])
    (hw0 : ∀ i, i < NUM_CONFIGS → 0 < (wm.getD 0 []).getD i 0)
    (hsum53 : ∀ i, i < NUM_CONFIGS → (wm.map (fun row => row.getD i 0)).sum < 2 ^ 53) :
    ∃ res, compute_WCRTs g wm n = some res := by
  have hsum : ∀ i, i < NUM_CONFIGS → (wm.map (fun row => row.getD i 0)).sum < 2 ^ 64 :=
    fun i hi => lt_trans (hsum53 i hi) (by norm_num)
  obtain ⟨sv, hts, hnd, hmem, hto⟩ := topological_sort_returns hg hac
  have hcp : ∀ i, i < NUM_CONFIGS →
      criticalPath g wm sv i = some ((criticalPath g wm sv i).getD 0) ∧
      (criticalPath g wm sv i).getD 0 ≤ (wm.map (fun row => row.getD i 0)).sum := by
    intro i hi
    obtain ⟨lp, _, _, _, h4, _, h6⟩ := criticalPath_spec hnd hmem hto hlen
      (fun row hr => Nat.lt_of_lt_of_le hi (hrow row hr)) hroot (hw0 i hi) (hsum i hi)
    rw [h4]
    exact ⟨rfl, h6⟩
  have hvol : ∀ i, i < NUM_CONFIGS →
      volumeLoop i wm 0 = some ((volumeLoop i wm 0).getD 0) ∧
      (volumeLoop i wm 0).getD 0 = (wm.map (fun row => row.getD i 0)).sum := by
    intro i hi
    obtain ⟨vol, hv⟩ := volumeLoop_returns i wm
      (fun row hr => Nat.lt_of_lt_of_le hi (hrow row hr)) 0
    have := volumeLoop_eq i wm 0 vol hv (by norm_num)
    rw [Nat.zero_add, Nat.mod_eq_of_lt (hsum i hi)] at this
    rw [hv]
    exact ⟨rfl, this⟩
  have hw : ∀ i, i < NUM_CONFIGS →
      wcrtOf n ((criticalPath g wm sv i).getD 0) ((volumeLoop i wm 0).getD 0) =
        some ((wcrtOf n ((criticalPath g wm sv i).getD 0)
          ((volumeLoop i wm 0).getD 0)).getD 0) := by
    intro i hi
    have h1 := (hcp i hi).2
    have h2 := (hvol i hi).2
    obtain ⟨w, hw1, _⟩ := wcrtOf_bounds n hn ((criticalPath g wm sv i).getD 0)
      ((volumeLoop i wm 0).getD 0) (by omega) (by rw [h2]; exact hsum53 i hi)
    rw [hw1]
    rfl
  exact ⟨_, compute_WCRTs_of_parts sv hts
    (allSome_map_range _ _ _ (fun i hi => (hcp i hi).1))
    (allSome_map_range _ _ _ (fun i hi => (hvol i hi).1))
    (by rw [zipWith_map_same]; exact allSome_map_range _ _ _ hw)⟩

/-- C36 (counterexample): on the chain `0 → 1 → 2` with the weights `2 ^ 63`,
`1`, `2 ^ 63` and two cores, `compute_WCRTs` returns the critical path
`2 ^ 63 + 1` and the volume 1 (the sum of the weights modulo `2 ^ 64`): the
critical path exceeds the volume, the unsigned subtraction wraps around, and
the reported WCRT is above the volume. With the weights `2 ^ 53 + 2`, `1`, `0`
and one core nothing wraps, critical path and volume are both `2 ^ 53 + 3`,
and the reported WCRT is `2 ^ 53 + 4`, above the volume: the conversion of the
critical path to `double` rounds it up. -/
theorem critical_path_above_volume :
    compute_WCRTs scenarioAGraph wrapWeights 2 =
      some ⟨[13835058055282163712, 13835058055282163712, 13835058055282163712,
          13835058055282163712],
        [9223372036854775809, 9223372036854775809, 9223372036854775809, 9223372036854775809],
        [1, 1, 1, 1]⟩ ∧
    wrapWeights.length = num_vertices scenarioAGraph ∧
    ¬ (9223372036854775809 ≤ 1) ∧
    sub64 1 9223372036854775809 = 9223372036854775808 ∧
    compute_WCRTs scenarioAGraph roundWeights 1 =
      some ⟨[9007199254740996, 9007199254740996, 9007199254740996, 9007199254740996],
        [9007199254740995, 9007199254740995, 9007199254740995, 9007199254740995],
        [9007199254740995, 9007199254740995, 9007199254740995, 9007199254740995]⟩ ∧
    roundWeights.length = num_vertices scenarioAGraph ∧
    (∀ i, i < NUM_CONFIGS → (roundWeights.map (fun row => row.getD i 0)).sum < 2 ^ 64) ∧
    ¬ (9007199254740996 ≤ 9007199254740995) :=
  ⟨compute_WCRTs_of_parts [2, 1, 0] (by decide) (by decide) (by decide)
      (by decide),
    by decide, by decide, by decide,
    compute_WCRTs_of_parts [2, 1, 0] (by decide) (by decide) (by decide)
      (by decide),
    by decide, by decide, by decide⟩

/-- C36 (amended): for a well-formed graph and a weight map with one row per
vertex whose columns each add up to less than `2 ^ 53`, every returning call
of `compute_WCRTs` with `num_cores ≥ 1` yields, for each configuration,
`critical_paths[i] ≤ volumes[i]` (the unsigned subtraction does not wrap
around) and `critical_paths[i] ≤ wcrts[i] ≤ volumes[i]`; the call returns when
the graph is acyclic, the rows have `NUM_CONFIGS` entries and vertex 0 has an
out-edge and positive weights. -/
theorem critical_path_le_volume (g : Graph) (wm : List (List Nat)) (n : Int)
    (hg : g.wf) (hlen : wm.length = num_vertices g) (hn : 1 ≤ n)
    (hsum : ∀ i, i < NUM_CONFIGS → (wm.map (fun row => row.getD i 0)).sum < 2 ^ 53) :
    (∀ res, compute_WCRTs g wm n = some res → ∀ i, i < NUM_CONFIGS →
      res.critical_paths.getD i 0 ≤ res.volumes.getD i 0 ∧
      sub64 (res.volumes.getD i 0) (res.critical_paths.getD i 0) =
        res.volumes.getD i 0 - res.critical_paths.getD i 0 ∧
      res.critical_paths.getD i 0 ≤ res.wcrts.getD i 0 ∧
      res.wcrts.getD i 0 ≤ res.volumes.getD i 0) ∧
    (Acyclic g → (∀ row ∈ wm, NUM_CONFIGS ≤ row.length) → out_edges g 0 ≠ [] →
      (∀ i, i < NUM_CONFIGS → 0 < (wm.getD 0 []).getD i 0) →
      ∃ res, compute_WCRTs g wm n = some res) := by
  refine ⟨fun res h i hi => ?_, fun hac hrow hroot hw0 =>
    compute_WCRTs_returns hg hac hlen hrow hn hroot hw0 hsum⟩
  obtain ⟨hv, hle, h1, h2⟩ := wcrt_between hg hlen hn h hi (hsum i hi)
  refine ⟨hle, ?_, h1, h2⟩
  have h3 := hsum i hi
  have h4 : (2 : Nat) ^ 53 < 2 ^ 64 := by norm_num
  exact sub64_of_le hle (by omega)

/-- Instance of C36 (amended) on Scenario A with two cores: critical path 15,
WCRT 20, volume 25. -/
theorem critical_path_le_volume_witness :
    compute_WCRTs scenarioAGraph scenarioAWeights 2 =
      some ⟨[20, 20, 20, 20], [15, 15, 15, 15], [25, 25, 25, 25]⟩ ∧
    ∀ i, i < NUM_CONFIGS →
      ([15, 15, 15, 15] : List Nat).getD i 0 ≤ ([25, 25, 25, 25] : List Nat).getD i 0 ∧
      sub64 (([25, 25, 25, 25] : List Nat).getD i 0) (([15, 15, 15, 15] : List Nat).getD i 0) =
        ([25, 25, 25, 25] : List Nat).getD i 0 - ([15, 15, 15, 15] : List Nat).getD i 0 ∧
      ([15, 15, 15, 15] : List Nat).getD i 0 ≤ ([20, 20, 20, 20] : List Nat).getD i 0 ∧
      ([20, 20, 20, 20] : List Nat).getD i 0 ≤ ([25, 25, 25, 25] : List Nat).getD i 0 :=
  ⟨compute_WCRTs_of_parts [2, 1, 0] (by decide) (by decide) (by decide)
      (by decide),
    (critical_path_le_volume scenarioAGraph scenarioAWeights 2 (by decide) (by decide)
      (by decide) (by decide)).1 ⟨[20, 20, 20, 20], [15, 15, 15, 15], [25, 25, 25, 25]⟩
      (compute_WCRTs_of_parts [2, 1, 0] (by decide) (by decide) (by decide)
        (by decide))⟩

/-! ## Order of the bounds across configurations -/

theorem set_getD_same {α : Type} (l : List α) (i : Nat) (d : α) :
    l.set i (l.getD i d) = l := by
  apply List.ext_getElem?
  intro j
  rw [List.getElem?_set]
  split
  · rename_i hij
    subst hij
    split
    · rename_i h
      simp [h, List.getD_eq_getElem?_getD]
    · rename_i h
      rw [List.getElem?_eq_none (Nat.le_of_not_lt h)]
  · rfl

theorem getD_replicate_same {α : Type} (n j : Nat) (a : α) :
    (List.replicate n a).getD j a = a := by
  rw [List.getD_eq_getElem?_getD]
  by_cases hj : j < n
  · rw [List.getElem?_eq_getElem (by simpa using hj)]; simp
  · rw [List.getElem?_eq_none (by simpa using hj)]; rfl

/-- With `BB_Counter = MAX_NUM_BB - 1` and room for one more task,
`omptr_task` stores to `BBs[MAX_NUM_BB]`. -/
theorem omptr_task_past_table (st : OmptrState) (bb_id : Int) (h1 : inBB bb_id)
    (h2 : inTasks (blockAt st bb_id.toNat).taskID)
    (h3 : st.Task_Counter + 1 < MAX_NUM_TASK) (h4 : st.BB_Counter + 1 = MAX_NUM_BB) :
    omptr_task st bb_id = .error (.bb_out_of_range MAX_NUM_BB) := by
  unfold blockAt at h2
  have h5 : ¬ inBB (st.BB_Counter + 1) := by
    unfold inBB; omega
  have h6 : ¬ (st.Task_Counter + 1 ≥ MAX_NUM_TASK) := by omega
  unfold omptr_task
  simp only [h1, h2, not_true_eq_false, if_false]
  rw [if_neg h6, if_pos h5, h4]

theorem waitInv_init : WaitInv 0 omptr_init :=
  ⟨rfl, rfl, rfl, fun j => by
    show ((List.replicate MAX_NUM_BB initBB).getD j initBB).taskID = 0
    rw [getD_replicate_same]; rfl⟩

/-- The state after a call of `omptr_task_wait` that returns. -/
theorem omptr_task_wait_ok {st : OmptrState} {bb_id : Int} {r : OmptrState × Int}
    (h : omptr_task_wait st bb_id = .ok r) :
    inBB bb_id ∧ inTasks (blockAt st bb_id.toNat).taskID ∧ inBB (st.BB_Counter + 1) ∧
    (taskAt st (blockAt st bb_id.toNat).taskID.toNat).numChildren ≤ MAX_TASK_CHILDREN ∧
    r.2 = st.BB_Counter + 1 ∧
    r.1.BBs = st.BBs.set (st.BB_Counter + 1).toNat
      { taskID := (blockAt st bb_id.toNat).taskID
        nodeID := (blockAt st bb_id.toNat).nodeID + 1
        taskCreated := (blockAt st (st.BB_Counter + 1).toNat).taskCreated
        numTasksWaitingFor := (taskAt st (blockAt st bb_id.toNat).taskID.toNat).numChildren
        waitFor := (taskAt st (blockAt st bb_id.toNat).taskID.toNat).children.take
            (taskAt st (blockAt st bb_id.toNat).taskID.toNat).numChildren.toNat ++
          (blockAt st (st.BB_Counter + 1).toNat).waitFor.drop
            (taskAt st (blockAt st bb_id.toNat).taskID.toNat).numChildren.toNat } ∧
    r.1.Tasks = st.Tasks.set (blockAt st bb_id.toNat).taskID.toNat
      { numChildren := 0
        children := (taskAt st (blockAt st bb_id.toNat).taskID.toNat).children } ∧
    r.1.Task_Counter = st.Task_Counter ∧ r.1.BB_Counter = st.BB_Counter + 1 := by
  unfold omptr_task_wait at h
  simp only at h
  split at h
  · cases h
  rename_i c1
  split at h
  · cases h
  rename_i c2
  split at h
  · cases h
  rename_i c3
  split at h
  · cases h
  rename_i c4
  split at h
  · cases h
  rename_i c5
  cases h
  exact ⟨not_not.1 c1, not_not.1 c2, not_not.1 c4, not_lt.1 c5, rfl, rfl, rfl, rfl, rfl⟩

/-- A call of `omptr_task_wait` returns when its accesses are in range and
the block table has room for one more block. -/
theorem omptr_task_wait_returns {st : OmptrState} {bb_id : Int} (h1 : inBB bb_id)
    (h2 : inTasks (blockAt st bb_id.toNat).taskID) (h3 : inBB (st.BB_Counter + 1))
    (h4 : (taskAt st (blockAt st bb_id.toNat).taskID.toNat).numChildren ≤ MAX_TASK_CHILDREN) :
    ∃ r, omptr_task_wait st bb_id = .ok r := by
  cases hr : omptr_task_wait st bb_id with
  | ok r => exact ⟨r, rfl⟩
  | error e =>
    exfalso
    unfold blockAt taskAt at *
    unfold omptr_task_wait at hr
    simp only at hr
    rw [if_neg (not_not.2 h1), if_neg (not_not.2 h2), if_neg (not_le.2 h3.2),
      if_neg (not_not.2 h3), if_neg (not_lt.2 h4)] at hr
    cases hr

theorem waitInv_step {k : Nat} {st : OmptrState} (h : WaitInv k st) (hk : k + 1 < MAX_NUM_BB)
    (id : Int) (hid : inBB id) :
    ∃ st', omptr_task_wait st id = .ok (st', ((k + 1 : Nat) : Int)) ∧ WaitInv (k + 1) st' := by
  have ht : (blockAt st id.toNat).taskID = 0 := h.tid id.toNat
  have htask : taskAt st (0 : Int).toNat = initTask := by
    unfold taskAt
    rw [h.tasks, getD_replicate_same]
  obtain ⟨r, hr⟩ := @omptr_task_wait_returns st id hid
    (by rw [ht]; unfold inTasks MAX_NUM_TASK; omega)
    (by unfold inBB; rw [h.bbc]; omega)
    (by rw [ht, htask]; decide)
  obtain ⟨_, _, _, _, e1, e2, e3, e4, e5⟩ := omptr_task_wait_ok hr
  obtain ⟨st', idr⟩ := r
  simp only at e1 e2 e3 e4 e5
  have eid : idr = ((k + 1 : Nat) : Int) := by rw [e1, h.bbc]; rfl
  subst eid
  refine ⟨st', hr, ?_, ?_, ?_, ?_⟩
  · rw [e5, h.bbc]; rfl
  · rw [e4, h.tc]
  · rw [e3, ht, htask]
    have : ({ numChildren := 0, children := initTask.children } : OmptrTask) =
        st.Tasks.getD (0 : Int).toNat initTask := by
      have := htask
      unfold taskAt at this
      rw [this]; rfl
    rw [this, set_getD_same, h.tasks]
  · intro j
    unfold blockAt
    rw [e2, getD_list_set]
    split
    · exact ht
    · exact h.tid j

theorem waitChain_returns : ∀ (k c : Nat) (st : OmptrState) (id : Int), WaitInv c st →
    inBB id → c + k < MAX_NUM_BB →
    ∃ st' id', waitChain k st id = .ok (st', id') ∧ WaitInv (c + k) st' ∧ inBB id' := by
  intro k
  induction k with
  | zero => intro c st id h hid _; exact ⟨st, id, rfl, h, hid⟩
  | succ k ih =>
    intro c st id h hid hk
    obtain ⟨st1, h1, hinv⟩ := waitInv_step h (by omega) id hid
    have hid1 : inBB ((c + 1 : Nat) : Int) := by unfold inBB; omega
    obtain ⟨st', id', h2, hinv', hid'⟩ := ih (c + 1) st1 _ hinv hid1 (by omega)
    refine ⟨st', id', ?_, by rw [show c + (k + 1) = c + 1 + k by omega]; exact hinv', hid'⟩
    unfold waitChain
    rw [h1]
    exact h2

/-- C39 (the code differs): after `omptr_init` and `MAX_NUM_BB - 1 = 9999`
calls of `omptr_task_wait`, none of which exits, `BB_Counter` is 9999 and no
task has been created; the next call of `omptr_task` stores the task id of the
child block to `BBs[10000]`, one cell past the table, before it compares any
block index with `MAX_NUM_BB`. The same happens in every state with
`BB_Counter = MAX_NUM_BB - 1` and room for one more task. -/
theorem omptr_task_writes_past_table :
    (∃ st id, waitChain 9999 omptr_init 0 = .ok (st, id) ∧ st.BB_Counter = 9999 ∧
      st.Task_Counter = 0 ∧ omptr_task st id = .error (.bb_out_of_range 10000)) ∧
    ((10000 : Int) = MAX_NUM_BB) ∧
    ∀ (st : OmptrState) (bb_id : Int), inBB bb_id → inTasks (blockAt st bb_id.toNat).taskID →
      st.Task_Counter + 1 < MAX_NUM_TASK → st.BB_Counter + 1 = MAX_NUM_BB →
      omptr_task st bb_id = .error (.bb_out_of_range MAX_NUM_BB) := by
  refine ⟨?_, rfl, omptr_task_past_table⟩
  obtain ⟨st, id, h, hinv, hid⟩ := waitChain_returns 9999 0 omptr_init 0 waitInv_init
    (by decide) (by decide)
  refine ⟨st, id, h, ?_, hinv.tc, ?_⟩
  · rw [hinv.bbc]; rfl
  · have := omptr_task_past_table st id hid
      (by rw [hinv.tid]; decide) (by rw [hinv.tc]; decide) (by rw [hinv.bbc]; rfl)
    exact this

/-! ## The trace producer: the table invariant -/

/-- The state after a call of `omptr_task` that returns. -/
theorem omptr_task_ok {st : OmptrState} {bb_id : Int} {r : OmptrState × Int × Int}
    (h : omptr_task st bb_id = .ok r) :
    inBB bb_id ∧ inTasks (blockAt st bb_id.toNat).taskID ∧
    st.Task_Counter + 1 < MAX_NUM_TASK ∧ inBB (st.BB_Counter + 1) ∧
    inBB (st.BB_Counter + 2) ∧
    (0 ≤ (taskAt st (blockAt st bb_id.toNat).taskID.toNat).numChildren ∧
      (taskAt st (blockAt st bb_id.toNat).taskID.toNat).numChildren < MAX_TASK_CHILDREN) ∧
    r.2.1 = st.BB_Counter + 1 ∧ r.2.2 = st.BB_Counter + 2 ∧
    r.1.BBs =
      ((st.BBs.set (st.BB_Counter + 1).toNat
          { st.BBs.getD (st.BB_Counter + 1).toNat initBB with
            taskID := st.Task_Counter + 1 }).set (st.BB_Counter + 2).toNat
        { (st.BBs.set (st.BB_Counter + 1).toNat
              { st.BBs.getD (st.BB_Counter + 1).toNat initBB with
                taskID := st.Task_Counter + 1 }).getD (st.BB_Counter + 2).toNat initBB with
          taskID := ((st.BBs.set (st.BB_Counter + 1).toNat
              { st.BBs.getD (st.BB_Counter + 1).toNat initBB with
                taskID := st.Task_Counter + 1 }).getD bb_id.toNat initBB).taskID
          nodeID := ((st.BBs.set (st.BB_Counter + 1).toNat
              { st.BBs.getD (st.BB_Counter + 1).toNat initBB with
                taskID := st.Task_Counter + 1 }).getD bb_id.toNat initBB).nodeID + 1 }).set
        bb_id.toNat
        { ((st.BBs.set (st.BB_Counter + 1).toNat
              { st.BBs.getD (st.BB_Counter + 1).toNat initBB with
                taskID := st.Task_Counter + 1 }).set (st.BB_Counter + 2).toNat
            { (st.BBs.set (st.BB_Counter + 1).toNat
                  { st.BBs.getD (st.BB_Counter + 1).toNat initBB with
                    taskID := st.Task_Counter + 1 }).getD (st.BB_Counter + 2).toNat initBB with
              taskID := ((st.BBs.set (st.BB_Counter + 1).toNat
                  { st.BBs.getD (st.BB_Counter + 1).toNat initBB with
                    taskID := st.Task_Counter + 1 }).getD bb_id.toNat initBB).taskID
              nodeID := ((st.BBs.set (st.BB_Counter + 1).toNat
                  { st.BBs.getD (st.BB_Counter + 1).toNat initBB with
                    taskID := st.Task_Counter + 1 }).getD bb_id.toNat initBB).nodeID + 1 }).getD
            bb_id.toNat initBB with
          taskCreated := st.Task_Counter + 1 } ∧
    r.1.Tasks = st.Tasks.set (blockAt st bb_id.toNat).taskID.toNat
      { numChildren := (taskAt st (blockAt st bb_id.toNat).taskID.toNat).numChildren + 1
        children := (taskAt st (blockAt st bb_id.toNat).taskID.toNat).children.set
          (taskAt st (blockAt st bb_id.toNat).taskID.toNat).numChildren.toNat
          (st.Task_Counter + 1) } ∧
    r.1.Task_Counter = st.Task_Counter + 1 ∧ r.1.BB_Counter = st.BB_Counter + 2 := by
  unfold omptr_task at h
  simp only at h
  split at h
  · cases h
  rename_i c1
  split at h
  · cases h
  rename_i c2
  split at h
  · cases h
  rename_i c3
  split at h
  · cases h
  rename_i c4
  split at h
  · cases h
  rename_i c5
  split at h
  · cases h
  rename_i c6
  split at h
  · cases h
  rename_i c7
  split at h
  · cases h
  rename_i c8
  cases h
  exact ⟨not_not.1 c1, not_not.1 c2, not_le.1 c3, not_not.1 c4, not_not.1 c6, not_not.1 c7,
    rfl, rfl, rfl, rfl, rfl, rfl⟩

/-- The blocks after a returning call of `omptr_task` on an existing block
`i`, in a state whose cells past `BB_Counter` are untouched. -/
theorem omptr_task_blocks {st : OmptrState} {bb_id : Int} {r : OmptrState × Int × Int}
    {cN i : Nat} (hinv : OmptrInv st) (hc : st.BB_Counter = (cN : Int))
    (hb : bb_id = (i : Int)) (hi : i ≤ cN) (h : omptr_task st bb_id = .ok r) :
    ∀ j, blockAt r.1 j =
      if j = i then { blockAt st i with taskCreated := st.Task_Counter + 1 }
      else if j = cN + 2 then
        { initBB with
          taskID := (blockAt st i).taskID
          nodeID := (blockAt st i).nodeID + 1 }
      else if j = cN + 1 then { initBB with taskID := st.Task_Counter + 1 }
      else blockAt st j := by
  obtain ⟨_, _, _, _, h5, _, _, _, eB, _, _, _⟩ := omptr_task_ok h
  have t1 : (st.BB_Counter + 1).toNat = cN + 1 := by omega
  have t2 : (st.BB_Counter + 2).toNat = cN + 2 := by omega
  have t3 : bb_id.toNat = i := by omega
  have f1 : st.BBs.getD (cN + 1) initBB = initBB := hinv.fresh (cN + 1) (by omega)
  have f2 : st.BBs.getD (cN + 2) initBB = initBB := hinv.fresh (cN + 2) (by omega)
  have hl : cN + 2 < st.BBs.length := by
    rw [hinv.len_bb]
    have := h5.2
    omega
  have g1 : ∀ B, (st.BBs.set (cN + 1) B).getD (cN + 2) initBB = initBB := by
    intro B
    rw [getD_list_set, if_neg (by omega), f2]
  have g2 : ∀ B, (st.BBs.set (cN + 1) B).getD i initBB = blockAt st i := by
    intro B
    rw [getD_list_set, if_neg (by omega)]
    rfl
  have g3 : ∀ B B', ((st.BBs.set (cN + 1) B).set (cN + 2) B').getD i initBB = blockAt st i := by
    intro B B'
    rw [getD_list_set, if_neg (by omega), g2]
  rw [t1, t2, t3, f1, g1, g2, g3] at eB
  intro j
  unfold blockAt at eB ⊢
  rw [eB, getD_list_set, getD_list_set, getD_list_set]
  by_cases hji : j = i
  · rw [if_pos ⟨hji, by simp only [List.length_set]; omega⟩, if_pos hji]
  · rw [if_neg (fun hh => hji hh.1), if_neg hji]
    by_cases hj2 : j = cN + 2
    · rw [if_pos ⟨hj2, by simp only [List.length_set]; omega⟩, if_pos hj2]
    · rw [if_neg (fun hh => hj2 hh.1), if_neg hj2]
      by_cases hj1 : j = cN + 1
      · rw [if_pos ⟨hj1, by omega⟩, if_pos hj1]
      · rw [if_neg (fun hh => hj1 hh.1), if_neg hj1]

/-- The blocks after a returning call of `omptr_task_wait` on an existing
block `i`. -/
theorem omptr_task_wait_blocks {st : OmptrState} {bb_id : Int} {r : OmptrState × Int}
    {cN i : Nat} (hinv : OmptrInv st) (hc : st.BB_Counter = (cN : Int))
    (hb : bb_id = (i : Int)) (h : omptr_task_wait st bb_id = .ok r) :
    ∀ j, blockAt r.1 j =
      if j = cN + 1 then
        { taskID := (blockAt st i).taskID
          nodeID := (blockAt st i).nodeID + 1
          taskCreated := -1
          numTasksWaitingFor := (taskAt st (blockAt st i).taskID.toNat).numChildren
          waitFor := (taskAt st (blockAt st i).taskID.toNat).children.take
              (taskAt st (blockAt st i).taskID.toNat).numChildren.toNat ++
            initBB.waitFor.drop (taskAt st (blockAt st i).taskID.toNat).numChildren.toNat }
      else blockAt st j := by
  obtain ⟨_, _, h3, _, _, eB, _, _, _⟩ := omptr_task_wait_ok h
  have t1 : (st.BB_Counter + 1).toNat = cN + 1 := by omega
  have t3 : bb_id.toNat = i := by omega
  have f1 : blockAt st (cN + 1) = initBB := hinv.fresh (cN + 1) (by omega)
  have hl : cN + 1 < st.BBs.length := by
    rw [hinv.len_bb]
    have := h3.2
    omega
  rw [t1, t3, f1] at eB
  intro j
  unfold blockAt at eB ⊢
  rw [eB, getD_list_set]
  by_cases hj : j = cN + 1
  · rw [if_pos ⟨hj, hl⟩, if_pos hj]
    rfl
  · rw [if_neg (fun hh => hj hh.1), if_neg hj]

theorem omptr_init_inv : OmptrInv omptr_init := by
  have hb : ∀ j, blockAt omptr_init j = initBB := fun j => getD_replicate_same _ _ _
  have ht : ∀ t, taskAt omptr_init t = initTask := fun t => getD_replicate_same _ _ _
  have hc : omptr_init.BB_Counter = 0 := rfl
  have htc : omptr_init.Task_Counter = 0 := rfl
  refine ⟨⟨?_, ?_, ?_, ?_, ?_, ?_, ?_⟩, ?_, ?_, ?_, ?_, ?_, ?_, ?_, ?_, ?_, ?_⟩
  · intro j _; rw [hb, htc]; decide
  · intro t h0 h1
    rw [htc] at h1
    exact ⟨0, by rw [hc]; rfl, by rw [hb]; show (0 : Int) = t; omega⟩
  · intro j _; rw [hb]; decide
  · intro j k hj hk _ _
    rw [hc] at hj hk
    omega
  · intro j _ m h0 h1
    rw [hb] at h1
    have : initBB.nodeID = 0 := rfl
    omega
  · intro t h1 h2
    rw [htc] at h2
    omega
  · intro j _ w hw
    rw [hb] at hw
    cases hw
  · simp [omptr_init]
  · simp [omptr_init]
  · rw [hc]; decide
  · rw [htc]; decide
  · intro j _; exact hb j
  · intro j _; rw [hb]; exact Or.inl rfl
  · intro j _ hne; rw [hb] at hne; exact absurd rfl hne
  · intro t; rw [ht]; simp [initTask]
  · intro t; rw [ht, htc]; decide
  · intro t w hw
    rw [ht] at hw
    cases hw

/-- The most recently created block of a task creates no task yet. -/
theorem latest_creates_nothing {st : OmptrState} (hinv : OmptrInv st) {cN i : Nat}
    (hc : st.BB_Counter = (cN : Int)) (hi : i ≤ cN)
    (hL : ∀ j, j ≤ cN → (blockAt st j).taskID = (blockAt st i).taskID →
      (blockAt st j).nodeID ≤ (blockAt st i).nodeID) :
    (blockAt st i).taskCreated = -1 := by
  by_contra hne
  obtain ⟨k, hk, hk1, hk2⟩ := hinv.created_not_latest i (by omega) hne
  have := hL k (by omega) hk1
  omega

/-- Unfolded form of `LatestOfTask`. -/
theorem latestOfTask_nat {st : OmptrState} {bb_id : Int} (hinv : OmptrInv st)
    (h : LatestOfTask st bb_id) :
    ∃ cN i : Nat, st.BB_Counter = (cN : Int) ∧ bb_id = (i : Int) ∧ i ≤ cN ∧
      ∀ j, j ≤ cN → (blockAt st j).taskID = (blockAt st i).taskID →
        (blockAt st j).nodeID ≤ (blockAt st i).nodeID := by
  obtain ⟨cN, hc⟩ := Int.eq_ofNat_of_zero_le hinv.bbc.1
  obtain ⟨i, hi⟩ := Int.eq_ofNat_of_zero_le h.1
  refine ⟨cN, i, hc, hi, by have := h.2.1; omega, fun j hj => ?_⟩
  have := h.2.2 j (by omega)
  rw [hi] at this
  exact this

/-- A returning call of `omptr_task` on the most recently created block of a
task keeps the invariant. -/
theorem omptr_task_inv {st : OmptrState} {bb_id : Int} {r : OmptrState × Int × Int}
    (hinv : OmptrInv st) (hlat : LatestOfTask st bb_id) (h : omptr_task st bb_id = .ok r) :
    OmptrInv r.1 := by
  obtain ⟨cN, i, hc, hb, hi, hL⟩ := latestOfTask_nat hinv hlat
  have hB := omptr_task_blocks hinv hc hb hi h
  obtain ⟨_, q2, q3, _, q5, q6, _, _, eB, eT, eTC, eBC⟩ := omptr_task_ok h
  have t3 : bb_id.toNat = i := by omega
  rw [t3] at q2 q6 eT
  have hcr := latest_creates_nothing hinv hc hi hL
  have htc := hinv.tc
  have hti := hinv.table.tid_range i (by omega)
  have pOld : ∀ j, j ≤ cN → (blockAt r.1 j).taskID = (blockAt st j).taskID ∧
      (blockAt r.1 j).nodeID = (blockAt st j).nodeID ∧
      printedWaitFor (blockAt r.1 j) = printedWaitFor (blockAt st j) ∧
      (j ≠ i → (blockAt r.1 j).taskCreated = (blockAt st j).taskCreated) := by
    intro j hj
    rw [hB j]
    by_cases hji : j = i
    · subst hji
      rw [if_pos rfl]
      exact ⟨rfl, rfl, rfl, fun hh => absurd rfl hh⟩
    · rw [if_neg hji, if_neg (by omega), if_neg (by omega)]
      exact ⟨rfl, rfl, rfl, fun _ => rfl⟩
  have pI : (blockAt r.1 i).taskCreated = st.Task_Counter + 1 := by
    rw [hB i, if_pos rfl]
  have p1 : blockAt r.1 (cN + 1) = { initBB with taskID := st.Task_Counter + 1 } := by
    rw [hB, if_neg (by omega), if_neg (by omega), if_pos rfl]
  have p2 : blockAt r.1 (cN + 2) =
      { initBB with
        taskID := (blockAt st i).taskID
        nodeID := (blockAt st i).nodeID + 1 } := by
    rw [hB, if_neg (by omega), if_pos rfl]
  have pFar : ∀ j, cN + 2 < j → blockAt r.1 j = blockAt st j := by
    intro j hj
    rw [hB, if_neg (by omega), if_neg (by omega), if_neg (by omega)]
  have split3 : ∀ j : Nat, (j : Int) ≤ r.1.BB_Counter → j ≤ cN ∨ j = cN + 1 ∨ j = cN + 2 := by
    intro j hj
    rw [eBC, hc] at hj
    omega
  have hnid1 : (blockAt r.1 (cN + 1)).nodeID = 0 := by rw [p1]; rfl
  have htid1 : (blockAt r.1 (cN + 1)).taskID = st.Task_Counter + 1 := by rw [p1]
  have hnid2 : (blockAt r.1 (cN + 2)).nodeID = (blockAt st i).nodeID + 1 := by rw [p2]
  have htid2 : (blockAt r.1 (cN + 2)).taskID = (blockAt st i).taskID := by rw [p2]
  have hcr1 : (blockAt r.1 (cN + 1)).taskCreated = -1 := by rw [p1]; rfl
  have hcr2 : (blockAt r.1 (cN + 2)).taskCreated = -1 := by rw [p2]; rfl
  have hw1 : printedWaitFor (blockAt r.1 (cN + 1)) = [] := by rw [p1]; rfl
  have hw2 : printedWaitFor (blockAt r.1 (cN + 2)) = [] := by rw [p2]; rfl
  have hni := hinv.table.nid_nonneg i (by omega)
  -- the task table
  have htl : (blockAt st i).taskID.toNat < st.Tasks.length := by
    rw [hinv.len_task]
    have := q2.2
    omega
  have hT : ∀ t, taskAt r.1 t =
      if t = (blockAt st i).taskID.toNat then
        { numChildren := (taskAt st (blockAt st i).taskID.toNat).numChildren + 1
          children := (taskAt st (blockAt st i).taskID.toNat).children.set
            (taskAt st (blockAt st i).taskID.toNat).numChildren.toNat
            (st.Task_Counter + 1) }
      else taskAt st t := by
    intro t
    unfold taskAt at eT ⊢
    rw [eT, getD_list_set]
    by_cases ht : t = (blockAt st i).taskID.toNat
    · rw [if_pos ⟨ht, htl⟩, if_pos ht]
    · rw [if_neg (fun hh => ht hh.1), if_neg ht]
  refine ⟨⟨?_, ?_, ?_, ?_, ?_, ?_, ?_⟩, ?_, ?_, ?_, ?_, ?_, ?_, ?_, ?_, ?_, ?_⟩
  · -- tid_range
    intro j hj
    rw [eTC]
    rcases split3 j hj with h0 | rfl | rfl
    · rw [(pOld j h0).1]
      have := hinv.table.tid_range j (by omega)
      omega
    · rw [htid1]; omega
    · rw [htid2]; omega
  · -- tid_all
    intro t h0 h1
    rw [eTC] at h1
    by_cases ht : t = st.Task_Counter + 1
    · exact ⟨cN + 1, by rw [eBC, hc]; omega, by rw [htid1, ht]⟩
    · obtain ⟨j, hj, hjt⟩ := hinv.table.tid_all t h0 (by omega)
      exact ⟨j, by rw [eBC]; omega, by rw [(pOld j (by omega)).1, hjt]⟩
  · -- nid_nonneg
    intro j hj
    rcases split3 j hj with h0 | rfl | rfl
    · rw [(pOld j h0).2.1]
      exact hinv.table.nid_nonneg j (by omega)
    · rw [hnid1]
    · rw [hnid2]; omega
  · -- nid_inj
    intro j k hj hk ht hn
    rcases split3 j hj with hj0 | rfl | rfl <;> rcases split3 k hk with hk0 | rfl | rfl
    · rw [(pOld j hj0).1, (pOld k hk0).1] at ht
      rw [(pOld j hj0).2.1, (pOld k hk0).2.1] at hn
      exact hinv.table.nid_inj j k (by omega) (by omega) ht hn
    · rw [(pOld j hj0).1, htid1] at ht
      have := hinv.table.tid_range j (by omega)
      omega
    · rw [(pOld j hj0).1, htid2] at ht
      rw [(pOld j hj0).2.1, hnid2] at hn
      have := hL j hj0 ht
      omega
    · rw [(pOld k hk0).1, htid1] at ht
      have := hinv.table.tid_range k (by omega)
      omega
    · rfl
    · rw [htid1, htid2] at ht
      omega
    · rw [(pOld k hk0).1, htid2] at ht
      rw [(pOld k hk0).2.1, hnid2] at hn
      have := hL k hk0 ht.symm
      omega
    · rw [htid1, htid2] at ht
      omega
    · rfl
  · -- nid_down
    intro j hj m h0 h1
    rcases split3 j hj with hj0 | rfl | rfl
    · rw [(pOld j hj0).2.1] at h1
      obtain ⟨k, hk, hk1, hk2⟩ := hinv.table.nid_down j (by omega) m h0 h1
      exact ⟨k, by rw [eBC]; omega,
        by rw [(pOld k (by omega)).1, (pOld j hj0).1, hk1],
        by rw [(pOld k (by omega)).2.1, hk2]⟩
    · rw [hnid1] at h1; omega
    · rw [hnid2] at h1
      by_cases hm : m = (blockAt st i).nodeID
      · exact ⟨i, by rw [eBC]; omega, by rw [(pOld i hi).1, htid2],
          by rw [(pOld i hi).2.1, hm]⟩
      · obtain ⟨k, hk, hk1, hk2⟩ := hinv.table.nid_down i (by omega) m h0 (by omega)
        exact ⟨k, by rw [eBC]; omega, by rw [(pOld k (by omega)).1, htid2, hk1],
          by rw [(pOld k (by omega)).2.1, hk2]⟩
  · -- created_one
    intro t h1 h2
    rw [eTC] at h2
    by_cases ht : t = st.Task_Counter + 1
    · refine ⟨i, by rw [eBC]; omega, by rw [pI, ht], fun k hk hkt => ?_⟩
      rcases split3 k hk with hk0 | rfl | rfl
      · by_contra hki
        rw [(pOld k hk0).2.2.2 hki] at hkt
        have := hinv.created_range k (by omega)
        omega
      · rw [hcr1] at hkt; omega
      · rw [hcr2] at hkt; omega
    · obtain ⟨j, hj, hjt, huniq⟩ := hinv.table.created_one t h1 (by omega)
      have hji : j ≠ i := by
        intro e
        rw [e, hcr] at hjt
        omega
      refine ⟨j, by rw [eBC]; omega, by rw [(pOld j (by omega)).2.2.2 hji, hjt],
        fun k hk hkt => ?_⟩
      rcases split3 k hk with hk0 | rfl | rfl
      · by_cases hki : k = i
        · rw [hki, pI] at hkt
          exact absurd hkt.symm ht
        · rw [(pOld k hk0).2.2.2 hki] at hkt
          exact huniq k (by omega) hkt
      · rw [hcr1] at hkt; omega
      · rw [hcr2] at hkt; omega
  · -- wait_range
    intro j hj w hw
    rw [eTC]
    rcases split3 j hj with hj0 | rfl | rfl
    · rw [(pOld j hj0).2.2.1] at hw
      have := hinv.table.wait_range j (by omega) w hw
      omega
    · rw [hw1] at hw; cases hw
    · rw [hw2] at hw; cases hw
  · -- len_bb
    rw [eB]
    simp only [List.length_set]
    exact hinv.len_bb
  · rw [eT]
    simp only [List.length_set]
    exact hinv.len_task
  · rw [eBC]
    exact ⟨by omega, q5.2⟩
  · rw [eTC]
    exact ⟨by omega, q3⟩
  · -- fresh
    intro j hj
    rw [eBC, hc] at hj
    rw [pFar j (by omega)]
    exact hinv.fresh j (by omega)
  · -- created_range
    intro j hj
    rw [eTC]
    rcases split3 j hj with hj0 | rfl | rfl
    · by_cases hji : j = i
      · rw [hji, pI]
        exact Or.inr ⟨by omega, le_refl _⟩
      · rw [(pOld j hj0).2.2.2 hji]
        rcases hinv.created_range j (by omega) with hh | hh
        · exact Or.inl hh
        · exact Or.inr ⟨hh.1, by omega⟩
    · exact Or.inl hcr1
    · exact Or.inl hcr2
  · -- created_not_latest
    intro j hj hne
    rcases split3 j hj with hj0 | rfl | rfl
    · by_cases hji : j = i
      · exact ⟨cN + 2, by rw [eBC, hc]; omega, by rw [htid2, hji, (pOld i hi).1],
          by rw [hnid2, hji, (pOld i hi).2.1]; omega⟩
      · rw [(pOld j hj0).2.2.2 hji] at hne
        obtain ⟨k, hk, hk1, hk2⟩ := hinv.created_not_latest j (by omega) hne
        exact ⟨k, by rw [eBC]; omega, by rw [(pOld k (by omega)).1, (pOld j hj0).1, hk1],
          by rw [(pOld k (by omega)).2.1, (pOld j hj0).2.1]; exact hk2⟩
    · exact absurd hcr1 hne
    · exact absurd hcr2 hne
  · -- child_len
    intro t
    rw [hT t]
    split
    · simp only [List.length_set]
      exact hinv.child_len _
    · exact hinv.child_len t
  · -- child_count
    intro t
    rw [hT t, eTC]
    split
    · have := hinv.child_count (blockAt st i).taskID.toNat
      exact ⟨by show 0 ≤ _ + 1; omega, by show _ + 1 ≤ _; omega⟩
    · have := hinv.child_count t
      omega
  · -- child_range
    intro t w hw
    rw [eTC]
    rw [hT t] at hw
    split at hw
    · have hcl := hinv.child_len (blockAt st i).taskID.toNat
      have hcc := hinv.child_count (blockAt st i).taskID.toNat
      obtain ⟨n, hn⟩ := Int.eq_ofNat_of_zero_le hcc.1
      simp only [hn] at hw
      have e1 : ((n : Int) + 1).toNat = n + 1 := by omega
      have e2 : ((n : Int)).toNat = n := by omega
      rw [e1, e2] at hw
      obtain ⟨k, hk, hkw⟩ := List.getElem_of_mem hw
      simp only [List.length_take, List.length_set] at hk
      rw [List.getElem_take, List.getElem_set] at hkw
      split at hkw
      · omega
      · have hmem : w ∈ (taskAt st (blockAt st i).taskID.toNat).children.take
            (taskAt st (blockAt st i).taskID.toNat).numChildren.toNat := by
          rw [hn, e2, ← hkw]
          rename_i hne
          have hkn : k < n := by omega
          rw [List.mem_iff_getElem]
          exact ⟨k, by simp only [List.length_take]; omega, by rw [List.getElem_take]⟩
        have := hinv.child_range _ w hmem
        omega
    · have := hinv.child_range t w hw
      omega

/-- A returning call of `omptr_task_wait` on the most recently created block
of a task keeps the invariant. -/
theorem omptr_task_wait_inv {st : OmptrState} {bb_id : Int} {r : OmptrState × Int}
    (hinv : OmptrInv st) (hlat : LatestOfTask st bb_id)
    (h : omptr_task_wait st bb_id = .ok r) : OmptrInv r.1 := by
  obtain ⟨cN, i, hc, hb, hi, hL⟩ := latestOfTask_nat hinv hlat
  have hB := omptr_task_wait_blocks hinv hc hb h
  obtain ⟨_, q2, q3, q4, _, eB, eT, eTC, eBC⟩ := omptr_task_wait_ok h
  have t3 : bb_id.toNat = i := by omega
  rw [t3] at q2 q4 eT
  have htc := hinv.tc
  have hti := hinv.table.tid_range i (by omega)
  have hni := hinv.table.nid_nonneg i (by omega)
  have pOld : ∀ j, j ≤ cN → blockAt r.1 j = blockAt st j := by
    intro j hj
    rw [hB j, if_neg (by omega)]
  have pFar : ∀ j, cN + 1 < j → blockAt r.1 j = blockAt st j := by
    intro j hj
    rw [hB j, if_neg (by omega)]
  have p1 := hB (cN + 1)
  rw [if_pos rfl] at p1
  have htid1 : (blockAt r.1 (cN + 1)).taskID = (blockAt st i).taskID := by rw [p1]
  have hnid1 : (blockAt r.1 (cN + 1)).nodeID = (blockAt st i).nodeID + 1 := by rw [p1]
  have hcr1 : (blockAt r.1 (cN + 1)).taskCreated = -1 := by rw [p1]
  have hcl := hinv.child_len (blockAt st i).taskID.toNat
  have hcc := hinv.child_count (blockAt st i).taskID.toNat
  have hw1 : printedWaitFor (blockAt r.1 (cN + 1)) =
      (taskAt st (blockAt st i).taskID.toNat).children.take
        (taskAt st (blockAt st i).taskID.toNat).numChildren.toNat := by
    rw [p1]
    unfold printedWaitFor
    simp only
    rw [List.take_append_of_le_length (by
      simp only [List.length_take]
      have : (taskAt st (blockAt st i).taskID.toNat).numChildren.toNat ≤ MAX_TASK_CHILDREN := by
        have := htc.2
        unfold MAX_NUM_TASK at this
        unfold MAX_TASK_CHILDREN
        omega
      omega)]
    rw [List.take_take, Nat.min_self]
  have split2 : ∀ j : Nat, (j : Int) ≤ r.1.BB_Counter → j ≤ cN ∨ j = cN + 1 := by
    intro j hj
    rw [eBC, hc] at hj
    omega
  have htl : (blockAt st i).taskID.toNat < st.Tasks.length := by
    rw [hinv.len_task]
    have := q2.2
    omega
  have hT : ∀ t, taskAt r.1 t =
      if t = (blockAt st i).taskID.toNat then
        { numChildren := 0
          children := (taskAt st (blockAt st i).taskID.toNat).children }
      else taskAt st t := by
    intro t
    unfold taskAt at eT ⊢
    rw [eT, getD_list_set]
    by_cases ht : t = (blockAt st i).taskID.toNat
    · rw [if_pos ⟨ht, htl⟩, if_pos ht]
    · rw [if_neg (fun hh => ht hh.1), if_neg ht]
  refine ⟨⟨?_, ?_, ?_, ?_, ?_, ?_, ?_⟩, ?_, ?_, ?_, ?_, ?_, ?_, ?_, ?_, ?_, ?_⟩
  · intro j hj
    rw [eTC]
    rcases split2 j hj with h0 | rfl
    · rw [pOld j h0]
      exact hinv.table.tid_range j (by omega)
    · rw [htid1]; exact hti
  · intro t h0 h1
    rw [eTC] at h1
    obtain ⟨j, hj, hjt⟩ := hinv.table.tid_all t h0 h1
    exact ⟨j, by rw [eBC]; omega, by rw [pOld j (by omega), hjt]⟩
  · intro j hj
    rcases split2 j hj with h0 | rfl
    · rw [pOld j h0]
      exact hinv.table.nid_nonneg j (by omega)
    · rw [hnid1]; omega
  · intro j k hj hk ht hn
    rcases split2 j hj with hj0 | rfl <;> rcases split2 k hk with hk0 | rfl
    · rw [pOld j hj0, pOld k hk0] at ht hn
      exact hinv.table.nid_inj j k (by omega) (by omega) ht hn
    · rw [pOld j hj0, htid1] at ht
      rw [pOld j hj0, hnid1] at hn
      have := hL j hj0 ht
      omega
    · rw [pOld k hk0, htid1] at ht
      rw [pOld k hk0, hnid1] at hn
      have := hL k hk0 ht.symm
      omega
    · rfl
  · intro j hj m h0 h1
    rcases split2 j hj with hj0 | rfl
    · rw [pOld j hj0] at h1
      obtain ⟨k, hk, hk1, hk2⟩ := hinv.table.nid_down j (by omega) m h0 h1
      exact ⟨k, by rw [eBC]; omega, by rw [pOld k (by omega), pOld j hj0, hk1],
        by rw [pOld k (by omega), hk2]⟩
    · rw [hnid1] at h1
      by_cases hm : m = (blockAt st i).nodeID
      · exact ⟨i, by rw [eBC]; omega, by rw [pOld i hi, htid1], by rw [pOld i hi, hm]⟩
      · obtain ⟨k, hk, hk1, hk2⟩ := hinv.table.nid_down i (by omega) m h0 (by omega)
        exact ⟨k, by rw [eBC]; omega, by rw [pOld k (by omega), htid1, hk1],
          by rw [pOld k (by omega), hk2]⟩
  · intro t h1 h2
    rw [eTC] at h2
    obtain ⟨j, hj, hjt, huniq⟩ := hinv.table.created_one t h1 h2
    refine ⟨j, by rw [eBC]; omega, by rw [pOld j (by omega), hjt], fun k hk hkt => ?_⟩
    rcases split2 k hk with hk0 | rfl
    · rw [pOld k hk0] at hkt
      exact huniq k (by omega) hkt
    · rw [hcr1] at hkt; omega
  · intro j hj w hw
    rw [eTC]
    rcases split2 j hj with hj0 | rfl
    · rw [pOld j hj0] at hw
      exact hinv.table.wait_range j (by omega) w hw
    · rw [hw1] at hw
      have := hinv.child_range _ w hw
      omega
  · rw [eB]
    simp only [List.length_set]
    exact hinv.len_bb
  · rw [eT]
    simp only [List.length_set]
    exact hinv.len_task
  · rw [eBC]
    exact ⟨by omega, q3.2⟩
  · rw [eTC]
    exact htc
  · intro j hj
    rw [eBC, hc] at hj
    rw [pFar j (by omega)]
    exact hinv.fresh j (by omega)
  · intro j hj
    rw [eTC]
    rcases split2 j hj with hj0 | rfl
    · rw [pOld j hj0]
      exact hinv.created_range j (by omega)
    · exact Or.inl hcr1
  · intro j hj hne
    rcases split2 j hj with hj0 | rfl
    · rw [pOld j hj0] at hne
      obtain ⟨k, hk, hk1, hk2⟩ := hinv.created_not_latest j (by omega) hne
      exact ⟨k, by rw [eBC]; omega, by rw [pOld k (by omega), pOld j hj0, hk1],
        by rw [pOld k (by omega), pOld j hj0]; exact hk2⟩
    · exact absurd hcr1 hne
  · intro t
    rw [hT t]
    split
    · exact hcl
    · exact hinv.child_len t
  · intro t
    rw [hT t, eTC]
    split
    · exact ⟨le_refl _, htc.1⟩
    · exact hinv.child_count t
  · intro t w hw
    rw [eTC]
    rw [hT t] at hw
    split at hw
    · cases hw
    · exact hinv.child_range t w hw

/-- Every run of calls on most recently created blocks keeps the invariant. -/
theorem omptr_run_inv : ∀ (calls : List OmptrCall) (st st' : OmptrState), OmptrInv st →
    ValidCalls calls st → omptr_run calls st = .ok st' → OmptrInv st' := by
  intro calls
  induction calls with
  | nil =>
    intro st st' hinv _ h
    cases h
    exact hinv
  | cons c cs ih =>
    intro st st' hinv hv h
    unfold omptr_run at h
    unfold ValidCalls at hv
    obtain ⟨hlat, hrest⟩ := hv
    cases hs : omptr_step st c with
    | error e => rw [hs] at h; cases h
    | ok st1 =>
      rw [hs] at h hrest
      simp only at h hrest
      refine ih st1 st' ?_ hrest h
      cases c with
      | task i =>
        change (omptr_task st i).map Prod.fst = .ok st1 at hs
        cases hr : omptr_task st i with
        | error e => rw [hr] at hs; cases hs
        | ok r =>
          rw [hr] at hs
          cases hs
          exact omptr_task_inv hinv hlat hr
      | task_wait i =>
        change (omptr_task_wait st i).map Prod.fst = .ok st1 at hs
        cases hr : omptr_task_wait st i with
        | error e => rw [hr] at hs; cases hs
        | ok r =>
          rw [hr] at hs
          cases hs
          exact omptr_task_wait_inv hinv hlat hr

/-- In a state that satisfies the invariant, a call on an existing block
returns when the counters stay below the capacities. -/
theorem omptr_step_returns {st : OmptrState} (hinv : OmptrInv st) (c : OmptrCall)
    (h0 : 0 ≤ c.bb_id) (h1 : c.bb_id ≤ st.BB_Counter)
    (h2 : st.Task_Counter + 1 < MAX_NUM_TASK) (h3 : st.BB_Counter + 2 < MAX_NUM_BB) :
    ∃ st', omptr_step st c = .ok st' := by
  obtain ⟨i, hi⟩ := Int.eq_ofNat_of_zero_le h0
  have hbb := hinv.bbc
  have t3 : c.bb_id.toNat = i := by omega
  have hti := hinv.table.tid_range i (by omega)
  have hcc := hinv.child_count (blockAt st i).taskID.toNat
  have hin : inBB c.bb_id := ⟨h0, by omega⟩
  have hit : inTasks (blockAt st c.bb_id.toNat).taskID := by
    rw [t3]; exact ⟨hti.1, by omega⟩
  have hM : (MAX_TASK_CHILDREN : Int) = MAX_NUM_TASK := rfl
  cases c with
  | task b =>
    have hb : OmptrCall.bb_id (.task b) = b := rfl
    rw [hb] at hin hit t3
    cases hr : omptr_task st b with
    | ok r => exact ⟨r.1, by show (omptr_task st b).map Prod.fst = _; rw [hr]; rfl⟩
    | error e =>
      exfalso
      unfold blockAt taskAt at *
      unfold omptr_task at hr
      simp only at hr
      rw [if_neg (not_not.2 hin), if_neg (not_not.2 hit), if_neg (by omega),
        if_neg (not_not.2 ⟨by omega, by omega⟩), if_neg (by omega),
        if_neg (not_not.2 ⟨by omega, by omega⟩)] at hr
      rw [t3] at hr
      rw [if_neg (not_not.2 ⟨hcc.1, by omega⟩), if_neg (by omega)] at hr
      cases hr
  | task_wait b =>
    have hb : OmptrCall.bb_id (.task_wait b) = b := rfl
    rw [hb] at hin hit t3
    obtain ⟨r, hr⟩ := @omptr_task_wait_returns st b hin hit ⟨by omega, by omega⟩
      (by rw [t3]; omega)
    exact ⟨r.1, by show (omptr_task_wait st b).map Prod.fst = _; rw [hr]; rfl⟩

/-- C38: after `omptr_init`, every run of `omptr_task` and `omptr_task_wait`
calls that all return (no capacity limit is hit) and that are each given the
most recently created block of a task leaves a table `BBs[0..BB_Counter]`
whose task ids are exactly `0..Task_Counter`, whose node indices are, within
each task, non-negative, pairwise distinct and without a gap (so they are
`0, 1, …, n - 1`), in which every task other than 0 is the `taskCreated` of
exactly one block, and in which every printed `waitFor` entry is the id of an
existing task. From such a state a further call on an existing block returns
as long as the counters stay below the capacities. -/
theorem omptr_table_wellformed (calls : List OmptrCall) (st : OmptrState)
    (h : omptr_run calls omptr_init = .ok st) (hv : ValidCalls calls omptr_init) :
    TableOK st ∧
    ∀ c : OmptrCall, 0 ≤ c.bb_id → c.bb_id ≤ st.BB_Counter →
      st.Task_Counter + 1 < MAX_NUM_TASK → st.BB_Counter + 2 < MAX_NUM_BB →
      ∃ st', omptr_step st c = .ok st' := by
  have hinv := omptr_run_inv calls omptr_init st omptr_init_inv hv h
  exact ⟨hinv.table, fun c => omptr_step_returns hinv c⟩

/-- Instance of C38: the root block creates task 1 and then waits for it. The
counters end at 3 and 1, and the table holds the blocks 0 (task 0, node 0,
creates task 1), 1 (task 1, node 0), 2 (task 0, node 1) and 3 (task 0, node 2,
waits for task 1), listed as task id, node index, created task, awaited
tasks. -/
theorem omptr_table_wellformed_witness :
    ValidCalls [.task 0, .task_wait 2] omptr_init ∧
    (omptr_run [.task 0, .task_wait 2] omptr_init).map
      (fun st => [st.BB_Counter, st.Task_Counter] :: (List.range 4).map (fun j =>
        [(blockAt st j).taskID, (blockAt st j).nodeID, (blockAt st j).taskCreated] ++
          printedWaitFor (blockAt st j))) =
      .ok [[3, 1], [0, 0, 1], [1, 0, -1], [0, 1, -1], [0, 2, -1, 1]] ∧
    ∃ st, omptr_run [.task 0, .task_wait 2] omptr_init = .ok st ∧ TableOK st := by
  refine ⟨by decide, by decide, ?_⟩
  cases h : omptr_run [.task 0, .task_wait 2] omptr_init with
  | error e =>
    have hb : (omptr_run [.task 0, .task_wait 2] omptr_init).toBool = true := by decide
    rw [h] at hb
    cases hb
  | ok st =>
    exact ⟨st, rfl, (omptr_table_wellformed [.task 0, .task_wait 2] st h (by decide)).1⟩

/-! ## The partitioned replacement policy -/

theorem replaceFirst_spec {old new : Int} :
    ∀ (l l' : List Int), Par.replaceFirst old new l = some l' →
      l'.length = l.length ∧
      (∀ x, l'.count x + (if x = old then 1 else 0) = l.count x + (if x = new then 1 else 0)) ∧
      (∀ x ∈ l', x = new ∨ x ∈ l) := by
  intro l
  induction l with
  | nil => intro l' h; cases h
  | cons a l ih =>
    intro l' h
    unfold Par.replaceFirst at h
    by_cases ha : a = old
    · rw [if_pos ha] at h
      cases h
      refine ⟨rfl, fun x => ?_, fun x hx => ?_⟩
      · rw [List.count_cons, List.count_cons]
        subst ha
        have e1 : ∀ y : Int, (if (y == x) = true then 1 else 0 : Nat) = if x = y then 1 else 0 := by
          intro y
          by_cases h : x = y
          · rw [if_pos h, if_pos (by rw [h]; exact beq_self_eq_true y)]
          · rw [if_neg h, if_neg (fun hb => h (eq_of_beq hb).symm)]
        rw [e1, e1]
        omega
      · rcases List.mem_cons.1 hx with hx | hx
        · exact Or.inl hx
        · exact Or.inr (List.mem_cons_of_mem _ hx)
    · rw [if_neg ha] at h
      cases hr : Par.replaceFirst old new l with
      | none => rw [hr] at h; cases h
      | some xs =>
        rw [hr] at h
        cases h
        obtain ⟨i1, i2, i3⟩ := ih xs hr
        refine ⟨by simp [i1], fun x => ?_, fun x hx => ?_⟩
        · rw [List.count_cons, List.count_cons]
          have := i2 x
          omega
        · rcases List.mem_cons.1 hx with hx | hx
          · exact Or.inr (by rw [hx]; exact List.mem_cons_self _ _)
          · rcases i3 x hx with h1 | h1
            · exact Or.inl h1
            · exact Or.inr (List.mem_cons_of_mem _ h1)

theorem replaceFirst_returns {old new : Int} :
    ∀ l : List Int, old ∈ l → ∃ l', Par.replaceFirst old new l = some l' := by
  intro l
  induction l with
  | nil => intro h; cases h
  | cons a l ih =>
    intro h
    unfold Par.replaceFirst
    by_cases ha : a = old
    · rw [if_pos ha]; exact ⟨_, rfl⟩
    · rw [if_neg ha]
      rcases List.mem_cons.1 h with h1 | h1
      · exact absurd h1.symm ha
      · obtain ⟨l', hl⟩ := ih h1
        rw [hl]; exact ⟨_, rfl⟩

theorem countLinked_add (row : List Int) :
    Par.countLinked row + ((row.count (-1) : Nat) : Int) = ((row.length : Nat) : Int) := by
  unfold Par.countLinked
  induction row with
  | nil => rfl
  | cons a l ih =>
    by_cases ha : a = -1
    · subst ha
      simp only [List.filter_cons, ne_eq, not_true_eq_false, decide_False, List.count_cons_self,
        List.length_cons]
      simp only [ne_eq] at ih
      push_cast
      omega
    · have hc : List.count (-1) (a :: l) = List.count (-1) l := by
        rw [List.count_cons]
        simp [ha]
      simp only [List.filter_cons, ne_eq, ha, not_false_eq_true, decide_True, if_true,
        List.length_cons, hc]
      simp only [ne_eq] at ih
      push_cast
      omega

theorem count_set_true : ∀ (own : List Bool) (w : Nat), w < own.length →
    own.getD w false = false → (own.set w true).count true = own.count true + 1 := by
  intro own
  induction own with
  | nil => intro w h; cases h
  | cons b l ih =>
    intro w hw hb
    cases w with
    | zero =>
      have : b = false := hb
      subst this
      simp
    | succ w =>
      have h1 := ih w (by simpa using hw) hb
      simp only [List.set_cons_succ, List.count_cons, h1]
      omega

theorem count_set_false : ∀ (own : List Bool) (w : Nat), w < own.length →
    own.getD w false = true → (own.set w false).count true + 1 = own.count true := by
  intro own
  induction own with
  | nil => intro w h; cases h
  | cons b l ih =>
    intro w hw hb
    cases w with
    | zero =>
      have : b = true := hb
      subst this
      simp
    | succ w =>
      have h1 := ih w (by simpa using hw) hb
      simp only [List.set_cons_succ, List.count_cons]
      omega

/-- Linking an unowned way keeps the rows of a partition consistent. -/
theorem rowInv_link {size nw : Int} {row row' : List Int} {own : List Bool} {w : Nat}
    (h : RowInv size nw row own) (hw : w < own.length) (hown : own.getD w false = false)
    (hr : Par.replaceFirst (-1) (w : Int) row = some row') :
    RowInv size nw row' (own.set w true) := by
  obtain ⟨r1, r2, r3⟩ := replaceFirst_spec row row' hr
  have hcw : row.count (w : Int) = 0 := by
    rw [h.linked w hw, hown]; rfl
  refine ⟨by rw [r1, h.len_row], by rw [List.length_set, h.len_own], ?_, ?_, ?_⟩
  · intro x hx
    rw [List.length_set]
    rcases r3 x hx with hx1 | hx1
    · right; rw [hx1]; exact ⟨by omega, by omega⟩
    · exact h.entries x hx1
  · intro v hv
    rw [List.length_set] at hv
    have hc := r2 (v : Int)
    rw [if_neg (by omega)] at hc
    rw [getD_list_set]
    by_cases hvw : v = w
    · subst hvw
      rw [if_pos (show v = v ∧ v < own.length from ⟨rfl, hw⟩), if_pos rfl]
      rw [if_pos rfl, hcw] at hc
      omega
    · rw [if_neg (show ¬ (v = w ∧ w < own.length) from fun hh => hvw hh.1)]
      rw [if_neg (show ¬ ((v : Int) = (w : Int)) by omega)] at hc
      rw [← h.linked v hv]
      omega
  · have hc := r2 (-1)
    rw [if_pos rfl, if_neg (by omega)] at hc
    have e1 := countLinked_add row
    have e2 := countLinked_add row'
    rw [count_set_true own w hw hown]
    have := h.count
    push_cast
    omega

/-- Unlinking an owned way keeps the rows of a partition consistent. -/
theorem rowInv_unlink {size nw : Int} {row row' : List Int} {own : List Bool} {w : Nat}
    (h : RowInv size nw row own) (hw : w < own.length) (hown : own.getD w false = true)
    (hr : Par.replaceFirst (w : Int) (-1) row = some row') :
    RowInv size nw row' (own.set w false) := by
  obtain ⟨r1, r2, r3⟩ := replaceFirst_spec row row' hr
  have hcw : row.count (w : Int) = 1 := by
    rw [h.linked w hw, hown]; rfl
  refine ⟨by rw [r1, h.len_row], by rw [List.length_set, h.len_own], ?_, ?_, ?_⟩
  · intro x hx
    rw [List.length_set]
    rcases r3 x hx with hx1 | hx1
    · exact Or.inl hx1
    · exact h.entries x hx1
  · intro v hv
    rw [List.length_set] at hv
    have hc := r2 (v : Int)
    rw [if_neg (show ¬ ((v : Int) = -1) by omega)] at hc
    rw [getD_list_set]
    by_cases hvw : v = w
    · subst hvw
      rw [if_pos (show v = v ∧ v < own.length from ⟨rfl, hw⟩),
        if_neg (show ¬ (false = true) from Bool.false_ne_true)]
      rw [if_pos rfl, hcw] at hc
      omega
    · rw [if_neg (show ¬ (v = w ∧ w < own.length) from fun hh => hvw hh.1)]
      rw [if_neg (show ¬ ((v : Int) = (w : Int)) by omega)] at hc
      rw [← h.linked v hv]
      omega
  · have hc := r2 (-1)
    rw [if_neg (by omega), if_pos rfl] at hc
    have e1 := countLinked_add row
    have e2 := countLinked_add row'
    have e3 := count_set_false own w hw hown
    have := h.count
    omega

theorem getD_of_get_some {α : Type} {l : List α} {i : Nat} {x d : α} (h : l.get? i = some x) :
    l.getD i d = x ∧ i < l.length := by
  rw [List.get?_eq_getElem?] at h
  have hi : i < l.length := by
    by_contra hc
    rw [List.getElem?_eq_none (Nat.le_of_not_lt hc)] at h
    cases h
  rw [List.getD_eq_getElem?_getD, h]
  exact ⟨rfl, hi⟩

/-- A row update changes no row of another partition. -/
theorem parUpdate_frame {t t' : ParTables} {q w : Nat} {b : Bool} {old new : Int}
    (h : ParUpdate t q w b old new t') (q' : Nat) (hq : q' ≠ q) :
    t'.par_table.getD q' [] = t.par_table.getD q' [] ∧
    t'.owner_table.getD q' [] = t.owner_table.getD q' [] := by
  obtain ⟨row, row', _, _, _, _, rfl⟩ := h
  simp only [getD_list_set]
  rw [if_neg (fun hh => hq hh.1), if_neg (fun hh => hq hh.1)]
  exact ⟨rfl, rfl⟩

/-- A row update that links an unowned way or unlinks an owned way keeps the
tables consistent. -/
theorem parUpdate_inv {p : ParParams} {t t' : ParTables} {q w : Nat} {b : Bool}
    {old new : Int} (hinv : ParInv p t) (h : ParUpdate t q w b old new t')
    (hk : (b = true ∧ old = -1 ∧ new = (w : Int)) ∨ (b = false ∧ old = (w : Int) ∧ new = -1)) :
    ParInv p t' := by
  have hframe := parUpdate_frame h
  obtain ⟨row, row', h1, h2, h3, h4, rfl⟩ := h
  obtain ⟨e1, hq⟩ := @getD_of_get_some _ _ _ _ [] h1
  obtain ⟨e2, hw⟩ := @getD_of_get_some _ _ _ _ false h2
  rw [hinv.len_par] at hq
  have hrow := hinv.rows q hq
  rw [e1] at hrow
  refine ⟨by simp only [List.length_set]; exact hinv.len_par,
    by simp only [List.length_set]; exact hinv.len_own, fun q' hq' => ?_⟩
  by_cases hqq : q' = q
  · rw [hqq, getD_list_set, getD_list_set,
      if_pos (show q = q ∧ q < t.par_table.length from ⟨rfl, by rw [hinv.len_par]; exact hq⟩),
      if_pos (show q = q ∧ q < t.owner_table.length from ⟨rfl, h3⟩)]
    rcases hk with ⟨rfl, rfl, rfl⟩ | ⟨rfl, rfl, rfl⟩
    · exact rowInv_link hrow hw e2 h4
    · exact rowInv_unlink hrow hw e2 h4
  · obtain ⟨f1, f2⟩ := hframe q' hqq
    rw [f1, f2]
    exact hinv.rows q' hq'

theorem noOwner_true {way : Int} : ∀ (rows : List (List Bool)),
    Par.noOwner way rows = some true → ∀ row ∈ rows, 0 ≤ way ∧ row.get? way.toNat = some false := by
  intro rows
  induction rows with
  | nil => intro _ row hr; cases hr
  | cons r rows ih =>
    intro h row hr
    unfold Par.noOwner at h
    split at h
    · rename_i h0
      cases hg : r.get? way.toNat with
      | none => rw [hg] at h; cases h
      | some b =>
        rw [hg] at h
        simp only at h
        cases hn : Par.noOwner way rows with
        | none => rw [hn] at h; cases h
        | some x =>
          rw [hn] at h
          simp only [Option.some.injEq, Bool.and_eq_true, Bool.not_eq_true'] at h
          rcases List.mem_cons.1 hr with rfl | hr
          · exact ⟨h0, by rw [hg, h.1]⟩
          · exact ih (by rw [hn, h.2]) row hr
    · cases h

theorem ownerAt_some {t : ParTables} {par_id way : Int} {b : Bool}
    (h : Par.ownerAt t par_id way = some b) :
    0 ≤ way ∧ (t.owner_table.getD par_id.toNat []).get? way.toNat = some b ∧
      par_id.toNat < t.owner_table.length := by
  unfold Par.ownerAt at h
  split at h
  · rename_i h0
    cases hg : t.owner_table.get? par_id.toNat with
    | none => rw [hg] at h; cases h
    | some row =>
      rw [hg] at h
      obtain ⟨e, hl⟩ := @getD_of_get_some _ _ _ _ [] hg
      rw [e]
      exact ⟨h0.2, h, hl⟩
  · cases h

/-- What a returning call of `touch` does. -/
theorem touch_some {p : ParParams} {t t' : ParTables} {way par_id : Int}
    (h : Par.touch p t way par_id = some t') :
    Par.validPar p par_id ∧
    (t' = t ∨ (0 ≤ way ∧ ParUpdate t par_id.toNat way.toNat true (-1) way t')) := by
  unfold Par.touch at h
  split at h
  · cases h
  rename_i hv
  refine ⟨not_not.1 hv, ?_⟩
  cases ho : Par.ownerAt t par_id way with
  | none => rw [ho] at h; cases h
  | some b =>
    rw [ho] at h
    obtain ⟨h0, hg, hl⟩ := ownerAt_some ho
    cases hp : t.par_table.get? par_id.toNat with
    | none => rw [hp] at h; cases b <;> cases h
    | some row =>
      rw [hp] at h
      cases b with
      | true =>
        simp only at h
        split at h
        · cases h; exact Or.inl rfl
        · cases h
      | false =>
        simp only at h
        split at h
        · cases h
        cases hr : Par.replaceFirst (-1) way row with
        | none => rw [hr] at h; cases h
        | some row' =>
          rw [hr] at h
          simp only at h
          split at h
          · cases h
            exact Or.inr ⟨h0, row, row', hp, hg, hl, hr, rfl⟩
          · cases h

/-- What a returning call of `reset` does. -/
theorem reset_some {p : ParParams} {t t' : ParTables} {way par_id : Int}
    (h : Par.reset p t way par_id = some t') :
    Par.validPar p par_id ∧ 0 ≤ way ∧
      ParUpdate t par_id.toNat way.toNat true (-1) way t' := by
  unfold Par.reset at h
  split at h
  · cases h
  rename_i hv
  cases hn : Par.noOwner way t.owner_table with
  | none => rw [hn] at h; cases h
  | some b =>
    rw [hn] at h
    cases b with
    | false => cases h
    | true =>
      simp only at h
      cases hp : t.par_table.get? par_id.toNat with
      | none => rw [hp] at h; cases h
      | some row =>
        rw [hp] at h
        simp only at h
        split at h
        · cases h
        split at h
        · cases h
        rename_i hl
        have hl' : par_id.toNat < t.owner_table.length := not_not.1 hl
        cases hr : Par.replaceFirst (-1) way row with
        | none => rw [hr] at h; cases h
        | some row' =>
          rw [hr] at h
          cases h
          have hmem : t.owner_table.getD par_id.toNat [] ∈ t.owner_table := by
            rw [List.getD_eq_getElem _ _ hl']
            exact List.getElem_mem _
          obtain ⟨h0, hg⟩ := noOwner_true _ hn _ hmem
          exact ⟨not_not.1 hv, h0, row, row', hp, hg, hl', hr, rfl⟩

/-- What a returning call of `invalidate` does. -/
theorem invalidate_some {p : ParParams} {t t' : ParTables} {way par_id : Int}
    (h : Par.invalidate p t way par_id = some t') :
    Par.validPar p par_id ∧ 0 ≤ way ∧
      ParUpdate t par_id.toNat way.toNat false way (-1) t' := by
  unfold Par.invalidate at h
  split at h
  · cases h
  rename_i hv
  cases ho : Par.ownerAt t par_id way with
  | none => rw [ho] at h; cases h
  | some b =>
    rw [ho] at h
    obtain ⟨h0, hg, hl⟩ := ownerAt_some ho
    cases b with
    | false => cases h
    | true =>
      simp only at h
      cases hp : t.par_table.get? par_id.toNat with
      | none => rw [hp] at h; cases h
      | some row =>
        rw [hp] at h
        simp only at h
        cases hr : Par.replaceFirst way (-1) row with
        | none => rw [hr] at h; cases h
        | some row' =>
          rw [hr] at h
          cases h
          exact ⟨not_not.1 hv, h0, row, row', hp, hg, hl, hr, rfl⟩

/-- A returning call keeps the tables consistent and changes no row of
another partition. -/
theorem par_step_inv {p : ParParams} {t t' : ParTables} {c : ParCall}
    (h : Par.step p t c = some t') :
    (ParInv p t → ParInv p t') ∧
    ∀ q, q ≠ c.par_id.toNat →
      t'.par_table.getD q [] = t.par_table.getD q [] ∧
      t'.owner_table.getD q [] = t.owner_table.getD q [] := by
  cases c with
  | touch w q =>
    obtain ⟨_, h1 | ⟨h0, h1⟩⟩ := touch_some h
    · subst h1
      exact ⟨fun hi => hi, fun _ _ => ⟨rfl, rfl⟩⟩
    · exact ⟨fun hi => parUpdate_inv hi h1 (Or.inl ⟨rfl, rfl, by omega⟩),
        fun q' hq' => parUpdate_frame h1 q' hq'⟩
  | reset w q =>
    obtain ⟨_, h0, h1⟩ := reset_some h
    exact ⟨fun hi => parUpdate_inv hi h1 (Or.inl ⟨rfl, rfl, by omega⟩),
      fun q' hq' => parUpdate_frame h1 q' hq'⟩
  | invalidate w q =>
    obtain ⟨_, h0, h1⟩ := invalidate_some h
    exact ⟨fun hi => parUpdate_inv hi h1 (Or.inr ⟨rfl, by omega, rfl⟩),
      fun q' hq' => parUpdate_frame h1 q' hq'⟩

theorem par_run_inv {p : ParParams} : ∀ (calls : List ParCall) (t t' : ParTables),
    ParInv p t → Par.run p calls t = some t' → ParInv p t' := by
  intro calls
  induction calls with
  | nil => intro t t' hi h; cases h; exact hi
  | cons c cs ih =>
    intro t t' hi h
    unfold Par.run at h
    cases hs : Par.step p t c with
    | none => rw [hs] at h; cases h
    | some t1 =>
      rw [hs] at h
      exact ih t1 t' ((par_step_inv hs).1 hi) h

theorem getD_map_nil {α β : Type} (f : α → List β) (l : List α) (q : Nat) (d : α)
    (hq : q < l.length) : (l.map f).getD q [] = f (l.getD q d) := by
  rw [List.getD_eq_getElem?_getD, List.getD_eq_getElem?_getD, List.getElem?_map,
    List.getElem?_eq_getElem hq]
  rfl

/-- The tables built by `instantiateEntry` are consistent. -/
theorem newTables_inv (p : ParParams) : ParInv p (Par.newTables p) := by
  refine ⟨by simp [Par.newTables], by simp [Par.newTables], fun q hq => ?_⟩
  have e1 : (Par.newTables p).par_table.getD q [] =
      List.replicate (p.par_config.getD q 0).toNat (-1) :=
    getD_map_nil _ _ q 0 hq
  have e2 : (Par.newTables p).owner_table.getD q [] = List.replicate p.num_way.toNat false :=
    getD_map_nil _ _ q 0 hq
  rw [e1, e2]
  refine ⟨by simp, by simp, ?_, ?_, ?_⟩
  · intro x hx
    exact Or.inl (List.eq_of_mem_replicate hx)
  · intro w hw
    rw [getD_replicate_same]
    simp only [Bool.false_eq_true, if_false]
    rw [List.count_replicate]
    rw [if_neg]
    simp only [beq_iff_eq]
    omega
  · unfold Par.countLinked
    have h1 : (List.replicate (p.par_config.getD q 0).toNat (-1 : Int)).filter
        (fun x => decide (x ≠ -1)) = [] := by
      rw [List.filter_eq_nil_iff]
      intro a ha
      rw [List.eq_of_mem_replicate ha]
      simp
    have h2 : (List.replicate p.num_way.toNat false).count true = 0 := by
      rw [List.count_replicate]
      simp
    rw [h1, h2]
    rfl

/-- C37: starting from the tables built by `instantiateEntry`, after every
sequence of partition-aware `touch`, `reset` and `invalidate` calls whose
assertions pass, every partition `q` still has the number of entries it was
built with (`par_config[q]`, none for a negative size) and a row of `num_way`
owner bits; for every way `w` the bit `owner_table[q][w]` is true if and only
if exactly one entry of `par_table[q]` has `way_index = w`, and no way is
linked by two entries; `parAvail(q)` returns true if and only if fewer than
`par_config[q]` ways are owned by `q`. A call on a partition changes no row of
another partition. -/
theorem par_tables_consistent (p : ParParams) (calls : List ParCall) (t : ParTables)
    (h : Par.run p calls (Par.newTables p) = some t) :
    t.par_table.length = p.par_config.length ∧
    t.owner_table.length = p.par_config.length ∧
    (∀ q, q < p.par_config.length →
      (t.par_table.getD q []).length = (p.par_config.getD q 0).toNat ∧
      (t.owner_table.getD q []).length = p.num_way.toNat ∧
      (∀ w : Nat, w < p.num_way.toNat →
        ((t.owner_table.getD q []).getD w false = true ↔
          (t.par_table.getD q []).count (w : Int) = 1) ∧
        (t.par_table.getD q []).count (w : Int) ≤ 1) ∧
      (Par.parAvail p t (q : Int) = some true ↔
        (((t.owner_table.getD q []).count true : Nat) : Int) < p.par_config.getD q 0)) ∧
    (∀ (t0 t1 : ParTables) (c : ParCall), Par.step p t0 c = some t1 →
      ∀ q, q ≠ c.par_id.toNat →
        t1.par_table.getD q [] = t0.par_table.getD q [] ∧
        t1.owner_table.getD q [] = t0.owner_table.getD q []) := by
  have hinv := par_run_inv calls _ t (newTables_inv p) h
  refine ⟨hinv.len_par, hinv.len_own, fun q hq => ?_, fun t0 t1 c hs => (par_step_inv hs).2⟩
  have hrow := hinv.rows q hq
  refine ⟨hrow.len_row, hrow.len_own, fun w hw => ?_, ?_⟩
  · have hl := hrow.linked w (by rw [hrow.len_own]; exact hw)
    by_cases ho : (t.owner_table.getD q []).getD w false = true
    · rw [if_pos ho] at hl
      exact ⟨⟨fun _ => hl, fun _ => ho⟩, by omega⟩
    · rw [if_neg ho] at hl
      exact ⟨⟨fun hh => absurd hh ho, fun hh => by omega⟩, by omega⟩
  · have hv : Par.validPar p (q : Int) := ⟨by omega, by simpa using hq⟩
    have hg : t.par_table.get? ((q : Int)).toNat = some (t.par_table.getD q []) := by
      have : ((q : Int)).toNat = q := by omega
      rw [this, List.get?_eq_getElem?, List.getD_eq_getElem?_getD,
        List.getElem?_eq_getElem (by rw [hinv.len_par]; exact hq)]
      rfl
    have hq' : ((q : Int)).toNat = q := by omega
    unfold Par.parAvail
    rw [if_neg (not_not.2 hv), hg]
    simp only
    rw [hq', hrow.count]
    by_cases hle : (((t.owner_table.getD q []).count true : Nat) : Int) ≤ p.par_config.getD q 0
    · rw [if_neg (not_not.2 hle)]
      simp only [Option.some.injEq, decide_eq_true_eq]
    · rw [if_pos hle]
      constructor
      · intro hh; cases hh
      · intro hh; omega

/-- Instance of C37 with two partitions of sizes 1 and 2 over 3 ways:
partition 1 takes the ways 0 and 2, partition 0 shares way 0, partition 1
gives way 0 up; then partition 0 is full and partition 1 has a free entry. -/
theorem par_tables_consistent_witness :
    Par.run parExample [.reset 0 1, .touch 2 1, .touch 0 0, .invalidate 0 1]
      (Par.newTables parExample) = some ⟨[[0], [-1, 2]], [[true, false, false],
        [false, false, true]]⟩ ∧
    Par.parAvail parExample ⟨[[0], [-1, 2]], [[true, false, false], [false, false, true]]⟩ 0 =
      some false ∧
    Par.parAvail parExample ⟨[[0], [-1, 2]], [[true, false, false], [false, false, true]]⟩ 1 =
      some true ∧
    ∀ q, q < parExample.par_config.length →
      (([[0], [-1, 2]] : List (List Int)).getD q []).length =
        (parExample.par_config.getD q 0).toNat ∧
      (([[true, false, false], [false, false, true]] : List (List Bool)).getD q []).length =
        parExample.num_way.toNat ∧
      (∀ w : Nat, w < parExample.num_way.toNat →
        ((([[true, false, false], [false, false, true]] : List (List Bool)).getD q []).getD w
            false = true ↔
          (([[0], [-1, 2]] : List (List Int)).getD q []).count (w : Int) = 1) ∧
        (([[0], [-1, 2]] : List (List Int)).getD q []).count (w : Int) ≤ 1) ∧
      (Par.parAvail parExample
          ⟨[[0], [-1, 2]], [[true, false, false], [false, false, true]]⟩ (q : Int) =
          some true ↔
        ((((([[true, false, false], [false, false, true]] : List (List Bool)).getD q []).count
          true : Nat) : Int) < parExample.par_config.getD q 0)) :=
  ⟨by decide, by decide, by decide,
    (par_tables_consistent parExample [.reset 0 1, .touch 2 1, .touch 0 0, .invalidate 0 1]
      ⟨[[0], [-1, 2]], [[true, false, false], [false, false, true]]⟩ (by decide)).2.2.1⟩

/-- A list that `std::sort` may leave behind is left unchanged by the sort that
keeps equal blocks in place. -/
theorem sortBlocks_of_result {blocks sorted : List BasicBlock}
    (hs : StdSortResult blocks sorted) : sortBlocks sorted = sorted :=
  List.Sorted.insertionSort_eq hs.2

theorem sortBlocks_result (blocks : List BasicBlock) :
    StdSortResult blocks (sortBlocks blocks) :=
  ⟨sortBlocks_perm blocks, sortBlocks_sorted blocks⟩

theorem taskIdsAre_perm {a b : List BasicBlock} (h : a.Perm b) (k : Nat) :
    TaskIdsAre a k ↔ TaskIdsAre b k := by
  unfold TaskIdsAre
  constructor
  · intro H t
    rw [← H t]
    exact ⟨fun ⟨x, hx, e⟩ => ⟨x, h.mem_iff.2 hx, e⟩, fun ⟨x, hx, e⟩ => ⟨x, h.mem_iff.1 hx, e⟩⟩
  · intro H t
    rw [← H t]
    exact ⟨fun ⟨x, hx, e⟩ => ⟨x, h.mem_iff.1 hx, e⟩, fun ⟨x, hx, e⟩ => ⟨x, h.mem_iff.2 hx, e⟩⟩

theorem minTaskZero_perm {a b : List BasicBlock} (h : a.Perm b) :
    MinTaskZero a ↔ MinTaskZero b := by
  unfold MinTaskZero
  constructor
  · rintro ⟨⟨x, hx, e⟩, H⟩
    exact ⟨⟨x, h.mem_iff.1 hx, e⟩, fun y hy => H y (h.mem_iff.2 hy)⟩
  · rintro ⟨⟨x, hx, e⟩, H⟩
    exact ⟨⟨x, h.mem_iff.2 hx, e⟩, fun y hy => H y (h.mem_iff.1 hy)⟩

/-- C24: whichever ascending rearrangement `std::sort` leaves behind, the
grouping step of `parse_dag` succeeds exactly when the task ids of the
description are `0, 1, …, k - 1` for some `k ≥ 1`; it then returns `k` groups,
and group `t` holds exactly the blocks of task `t` (as a multiset; it is the
subsequence of the sorted vector with that task id), in non-decreasing
node-index order. It fails with the empty-input error on an empty list, with
the first-task error when the smallest task id is not 0, and with the gap
error in every other case. -/
theorem grouping_spec (blocks sorted : List BasicBlock) (hs : StdSortResult blocks sorted) :
    ((∃ gs, groupBlocks sorted = .ok gs) ↔ ∃ k, 1 ≤ k ∧ TaskIdsAre blocks k) ∧
    (∀ gs, groupBlocks sorted = .ok gs →
      1 ≤ gs.length ∧ TaskIdsAre blocks gs.length ∧
      ∀ t, t < gs.length →
        gs.getD t [] = sorted.filter (fun b => decide (b.taskID = (t : Int))) ∧
        (gs.getD t []).Perm (blocks.filter (fun b => decide (b.taskID = (t : Int)))) ∧
        (gs.getD t []).Pairwise (fun a b => a.nodeID ≤ b.nodeID)) ∧
    (blocks = [] → groupBlocks sorted = .error .empty_input) ∧
    (blocks ≠ [] → ¬ MinTaskZero blocks →
      groupBlocks sorted = .error .first_task_not_zero) ∧
    (MinTaskZero blocks → (¬ ∃ k, 1 ≤ k ∧ TaskIdsAre blocks k) →
      groupBlocks sorted = .error .task_gap) := by
  obtain ⟨h1, h2, h3, h4, h5⟩ := grouping_of_sortBlocks sorted
  rw [sortBlocks_of_result hs] at h1 h2 h3 h4 h5
  have hk : (∃ k, 1 ≤ k ∧ TaskIdsAre sorted k) ↔ ∃ k, 1 ≤ k ∧ TaskIdsAre blocks k :=
    ⟨fun ⟨k, a, b⟩ => ⟨k, a, (taskIdsAre_perm hs.1 k).1 b⟩,
      fun ⟨k, a, b⟩ => ⟨k, a, (taskIdsAre_perm hs.1 k).2 b⟩⟩
  refine ⟨h1.trans hk, ?_, ?_, ?_, ?_⟩
  · intro gs hg
    obtain ⟨a, b, c⟩ := h2 gs hg
    refine ⟨a, (taskIdsAre_perm hs.1 _).1 b, fun t ht => ?_⟩
    obtain ⟨c1, c2, c3⟩ := c t ht
    refine ⟨?_, c2.trans (hs.1.filter _), c3⟩
    rw [c1]
    unfold taskSeq
    rw [sortBlocks_of_result hs]
  · intro hb
    apply h3
    subst hb
    exact List.perm_nil.1 hs.1
  · intro hne hmin
    apply h4
    · intro hc
      apply hne
      rw [hc] at hs
      exact List.nil_perm.1 hs.1
    · exact fun k => hmin ((minTaskZero_perm hs.1).1 k)
  · intro hmin hno
    exact h5 ((minTaskZero_perm hs.1).2 hmin) (fun k => hno (hk.1 k))

/-- Instance of C24 on a description with a tie: `tieSorted` is a result of the
sort of `tieBlocks` (which has the blocks 3 and 2 of equal rank in the other
order), it is split into the groups of the tasks 0 and 1, and the empty
description is rejected. -/
theorem grouping_spec_witness :
    StdSortResult tieBlocks tieSorted ∧ sortBlocks tieBlocks ≠ tieSorted ∧
    groupBlocks tieSorted =
      .ok [[mkBlock 0 0 0 (-1) [], mkBlock 1 0 1 (-1) [], mkBlock 2 0 2 1 [],
        mkBlock 3 0 2 (-1) [1]], [mkBlock 4 1 0 (-1) []]] ∧
    (1 ≤ 2 ∧ TaskIdsAre tieBlocks 2) ∧
    groupBlocks [] = .error .empty_input :=
  ⟨by decide, by decide, by decide,
    ⟨((grouping_spec tieBlocks tieSorted (by decide)).2.1
        [[mkBlock 0 0 0 (-1) [], mkBlock 1 0 1 (-1) [], mkBlock 2 0 2 1 [],
          mkBlock 3 0 2 (-1) [1]], [mkBlock 4 1 0 (-1) []]] (by decide)).1,
      ((grouping_spec tieBlocks tieSorted (by decide)).2.1
        [[mkBlock 0 0 0 (-1) [], mkBlock 1 0 1 (-1) [], mkBlock 2 0 2 1 [],
          mkBlock 3 0 2 (-1) [1]], [mkBlock 4 1 0 (-1) []]] (by decide)).2.1⟩,
    (grouping_spec [] [] (by decide)).2.2.1 rfl⟩

/-- C23: whichever ascending rearrangement `std::sort` leaves behind, for
every description accepted on it the returned root is the id of a block of
task 0 whose node index is the smallest of task 0 (the first block of task 0
in the sorted vector), the returned exit is the id of a block of task 0 whose
node index is the largest (the last block of task 0 in the sorted vector), and
`num_tasks` is the number of distinct task ids of the description. The ids
are converted from `int` to `Vertex`; a non-negative id is unchanged. -/
theorem parse_dag_root_exit (blocks sorted : List BasicBlock) (pd : ParsedDag)
    (hs : StdSortResult blocks sorted) (h : parse_dag_sorted sorted = .ok pd) :
    (∃ first ∈ blocks, first.taskID = 0 ∧
      (∀ b ∈ blocks, b.taskID = 0 → first.nodeID ≤ b.nodeID) ∧ pd.r = toVertex first.ID ∧
      (0 ≤ first.ID → first.ID < 2 ^ 64 → (pd.r : Int) = first.ID) ∧
      (sorted.filter (fun b => decide (b.taskID = 0))).head? = some first) ∧
    (∃ last ∈ blocks, last.taskID = 0 ∧
      (∀ b ∈ blocks, b.taskID = 0 → b.nodeID ≤ last.nodeID) ∧ pd.e = toVertex last.ID ∧
      (0 ≤ last.ID → last.ID < 2 ^ 64 → (pd.e : Int) = last.ID) ∧
      (sorted.filter (fun b => decide (b.taskID = 0))).getLast? = some last) ∧
    pd.num_tasks = (blocks.map (fun b => b.taskID)).toFinset.card := by
  have h' : parse_dag sorted = .ok pd := by
    unfold parse_dag
    rw [sortBlocks_of_result hs]
    exact h
  obtain ⟨⟨f, hf, f1, f2, f3, f4, f5⟩, ⟨l, hl, l1, l2, l3, l4, l5⟩, hn⟩ :=
    root_exit_of_sortBlocks sorted pd h'
  have hseq : taskSeq sorted 0 = sorted.filter (fun b => decide (b.taskID = 0)) := by
    unfold taskSeq
    rw [sortBlocks_of_result hs]
  rw [hseq] at f1 l1
  refine ⟨⟨f, hs.1.mem_iff.1 hf, f2, fun b hb => f3 b (hs.1.mem_iff.2 hb), f4, f5, f1⟩,
    ⟨l, hs.1.mem_iff.1 hl, l2, fun b hb => l3 b (hs.1.mem_iff.2 hb), l4, l5, l1⟩, ?_⟩
  rw [hn]
  congr 1
  exact List.toFinset_eq_of_perm _ _ (hs.1.map _)

/-- Witness for C23 on a description with a tie: on the result `tieSorted` of
the sort `tieBlocks` is accepted with root 0, exit 3 (block 3 shares the
largest node index of task 0 with block 2) and two tasks. -/
theorem parse_dag_root_exit_witness :
    StdSortResult tieBlocks tieSorted ∧
    parse_dag_sorted tieSorted = .ok ⟨⟨[[1], [2, 3], [4], [], [3]]⟩, 0, 3, 2⟩ ∧
    (∃ last ∈ tieBlocks, last.taskID = 0 ∧
      (∀ b ∈ tieBlocks, b.taskID = 0 → b.nodeID ≤ last.nodeID) ∧
      (3 : Vertex) = toVertex last.ID ∧
      (0 ≤ last.ID → last.ID < 2 ^ 64 → ((3 : Vertex) : Int) = last.ID) ∧
      (tieSorted.filter (fun b => decide (b.taskID = 0))).getLast? = some last) ∧
    (2 : Nat) = (tieBlocks.map (fun b => b.taskID)).toFinset.card :=
  have w := parse_dag_root_exit tieBlocks tieSorted ⟨⟨[[1], [2, 3], [4], [], [3]]⟩, 0, 3, 2⟩
    (by decide) (by decide)
  ⟨by decide, by decide, w.2.1, w.2.2⟩

/-! ## Connectivity of the graph of a complete description -/

theorem addEdgeInt_preserves (Q : Graph → Prop)
    (hQ : ∀ a b g, Q g → Q (add_edge a b g)) {a b : Int} {g g' : Graph} (hg : Q g)
    (h : addEdgeInt a b g = .ok g') : Q g' := by
  unfold addEdgeInt at h
  split at h
  · cases h; exact hQ _ _ _ hg
  · cases h

theorem addJoinEdges_preserves (Q : Graph → Prop)
    (hQ : ∀ a b g, Q g → Q (add_edge a b g)) (bbs2d : List (List BasicBlock))
    (bb : BasicBlock) :
    ∀ (ws : List Int) (g g' : Graph), Q g → addJoinEdges bbs2d bb ws g = .ok g' → Q g' := by
  intro ws
  induction ws with
  | nil => intro g g' hg h; cases h; exact hg
  | cons t ws ih =>
    intro g g' hg h
    unfold addJoinEdges at h
    split at h
    · cases h
    · split at h
      · cases h
      · split at h
        · cases h
        · rename_i g1 he
          exact ih g1 g' (addEdgeInt_preserves Q hQ hg he) h

theorem addBlockEdges_preserves (Q : Graph → Prop)
    (hQ : ∀ a b g, Q g → Q (add_edge a b g)) {bbs2d : List (List BasicBlock)}
    {bb : BasicBlock} {g g' : Graph} (hg : Q g) (h : addBlockEdges bbs2d bb g = .ok g') :
    Q g' := by
  unfold addBlockEdges at h
  simp only at h
  split at h
  · cases h
  · rename_i g1 h1
    have hg1 : Q g1 := by
      split at h1
      · split at h1
        · cases h1
        · split at h1
          · cases h1
          · exact addEdgeInt_preserves Q hQ hg h1
      · cases h1; exact hg
    split at h
    · cases h
    · rename_i g2 h2
      have hg2 : Q g2 := by
        split at h2
        · split at h2
          · cases h2
          · split at h2
            · cases h2
            · exact addEdgeInt_preserves Q hQ hg1 h2
        · cases h2; exact hg1
      exact addJoinEdges_preserves Q hQ _ _ _ _ _ hg2 h

theorem addAllEdges_preserves (Q : Graph → Prop)
    (hQ : ∀ a b g, Q g → Q (add_edge a b g)) (bbs2d : List (List BasicBlock)) :
    ∀ (bbs : List BasicBlock) (g g' : Graph), Q g → addAllEdges bbs2d bbs g = .ok g' →
      Q g' := by
  intro bbs
  induction bbs with
  | nil => intro g g' hg h; cases h; exact hg
  | cons bb bbs ih =>
    intro g g' hg h
    unfold addAllEdges at h
    split at h
    · cases h
    · rename_i g1 h1
      exact ih g1 g' (addBlockEdges_preserves Q hQ hg h1) h

/-- The vertex set that `add_edge` grows reaches no further than the largest
end point of an edge. -/
theorem add_edge_cover (a b : Vertex) (g : Graph)
    (hq : ∀ w, w < num_vertices g → ∃ x y, Edge g x y ∧ w ≤ max x y) :
    ∀ w, w < num_vertices (add_edge a b g) →
      ∃ x y, Edge (add_edge a b g) x y ∧ w ≤ max x y := by
  intro w hw
  by_cases hlt : w < num_vertices g
  · obtain ⟨x, y, e, hle⟩ := hq w hlt
    exact ⟨x, y, (edge_add_edge a b g x y).2 (Or.inl e), hle⟩
  · refine ⟨a, b, (edge_add_edge a b g a b).2 (Or.inr ⟨rfl, rfl⟩), ?_⟩
    unfold num_vertices add_edge at hw
    simp only [List.length_set, List.length_append, List.length_replicate] at hw
    unfold num_vertices at hlt
    omega

/-- Every vertex of the graph of an accepted description is at most an end
point of one of its edges. -/
theorem parse_dag_cover {blocks : List BasicBlock} {pd : ParsedDag}
    (h : parse_dag blocks = .ok pd) :
    ∀ w, w < num_vertices pd.g → ∃ x y, Edge pd.g x y ∧ w ≤ max x y := by
  obtain ⟨gs, _, _, _, _, _, h2, _⟩ := parse_dag_parts h
  exact addAllEdges_preserves
    (fun g => ∀ w, w < num_vertices g → ∃ x y, Edge g x y ∧ w ≤ max x y)
    (fun a b g hg => add_edge_cover a b g hg) gs gs.flatten ⟨[]⟩ pd.g
    (fun w hw => absurd hw (by unfold num_vertices; simp)) h2

/-- In an accepted description with non-negative, distinct node indices the
edges of the graph are the prescribed ones. -/
theorem edge_iff_specEdge {blocks : List BasicBlock} {pd : ParsedDag}
    (h : parse_dag blocks = .ok pd) (hd : NodeIdsDistinct blocks) (u v : Vertex) :
    Edge pd.g u v ↔ SpecEdge blocks u v := by
  have hpos := node_is_position h hd
  obtain ⟨gs, _, _, _, _, h1, h2, _⟩ := parse_dag_parts h
  rw [(edge_addAllEdges gs gs.flatten ⟨[]⟩ pd.g h2).1 u v, blockEdge_iff_specEdge h1 hpos]
  constructor
  · rintro (k | k)
    · exact absurd k (by unfold Edge out_edges; simp)
    · exact k
  · exact fun k => Or.inr k

/-- Both end points of a prescribed edge are ids of blocks. -/
theorem specEdge_ids {blocks : List BasicBlock} {u v : Vertex} (h : SpecEdge blocks u v) :
    (∃ b ∈ blocks, (u : Int) = b.ID) ∧ ∃ b ∈ blocks, (v : Int) = b.ID := by
  rcases h with ⟨t, p, a, b, ha, hb, hu, hv⟩ | ⟨b, hb, _, c, hc, hu, hv⟩ |
    ⟨b, hb, t, _, l, hl, hu, hv⟩
  · exact ⟨⟨a, (mem_taskSeq.1 (List.getElem?_mem ha)).1, hu⟩,
      ⟨b, (mem_taskSeq.1 (List.getElem?_mem hb)).1, hv⟩⟩
  · exact ⟨⟨b, hb, hu⟩, ⟨c, (mem_taskSeq.1 (List.mem_of_mem_head? hc)).1, hv⟩⟩
  · exact ⟨⟨l, (mem_taskSeq.1 (List.mem_of_getLast?_eq_some hl)).1, hu⟩, ⟨b, hb, hv⟩⟩

/-- In a graph ranked by a topological order, a set of vertices each of which
other than `r` has a predecessor in the set is reachable from `r`. -/
theorem reach_from_source {g : Graph} {sv : List Vertex} (P : Vertex → Prop) (r : Vertex)
    (hmem : ∀ u t, Edge g u t → u ∈ sv)
    (hidx : ∀ u ∈ sv, ∀ t, Edge g u t → sv.indexOf t < sv.indexOf u)
    (hpred : ∀ v, P v → v ≠ r → ∃ u, P u ∧ Edge g u v) :
    ∀ v, P v → v = r ∨ Path g r v := by
  have key : ∀ n v, P v → sv.length - sv.indexOf v ≤ n → v = r ∨ Path g r v := by
    intro n
    induction n with
    | zero =>
      intro v hv hn
      by_cases hvr : v = r
      · exact Or.inl hvr
      · obtain ⟨u, _, e⟩ := hpred v hv hvr
        have h1 := hidx u (hmem u v e) v e
        have h2 := List.indexOf_lt_length.2 (hmem u v e)
        omega
    | succ n ih =>
      intro v hv hn
      by_cases hvr : v = r
      · exact Or.inl hvr
      · obtain ⟨u, hu, e⟩ := hpred v hv hvr
        have h1 := hidx u (hmem u v e) v e
        have h2 := List.indexOf_lt_length.2 (hmem u v e)
        rcases ih u hu (by omega) with hur | hp
        · right; rw [← hur]; exact Relation.TransGen.single e
        · right; exact Relation.TransGen.tail hp e
  exact fun v hv => key _ v hv (le_refl _)

/-- In a graph ranked by a topological order, a set of vertices each of which
other than `e` has a successor in the set reaches `e`. -/
theorem reach_to_sink {g : Graph} {sv : List Vertex} (P : Vertex → Prop) (e : Vertex)
    (hmem : ∀ u t, Edge g u t → u ∈ sv)
    (hidx : ∀ u ∈ sv, ∀ t, Edge g u t → sv.indexOf t < sv.indexOf u)
    (hsucc : ∀ v, P v → v ≠ e → ∃ w, P w ∧ Edge g v w) :
    ∀ v, P v → v = e ∨ Path g v e := by
  have key : ∀ n v, P v → sv.indexOf v ≤ n → v = e ∨ Path g v e := by
    intro n
    induction n with
    | zero =>
      intro v hv hn
      by_cases hve : v = e
      · exact Or.inl hve
      · obtain ⟨w, _, ed⟩ := hsucc v hv hve
        have h1 := hidx v (hmem v w ed) w ed
        omega
    | succ n ih =>
      intro v hv hn
      by_cases hve : v = e
      · exact Or.inl hve
      · obtain ⟨w, hw, ed⟩ := hsucc v hv hve
        have h1 := hidx v (hmem v w ed) w ed
        rcases ih w hw (by omega) with hwe | hp
        · right; rw [← hwe]; exact Relation.TransGen.single ed
        · right; exact Relation.TransGen.head ed hp
  exact fun v hv => key _ v hv (le_refl _)
/-- A description is complete when its block ids are `0, …, n - 1` for its `n`
blocks, its node indices are non-negative and distinct within every task, and
every task other than 0 is created by a block and awaited by a block. In the
graph of a complete accepted description every vertex other than the root is
reachable from the root and every vertex other than the exit reaches the
exit. -/
theorem complete_description_connected {blocks : List BasicBlock} {pd : ParsedDag}
    (h : parse_dag blocks = .ok pd) (hn : blocks.length < 2 ^ 31)
    (hid : ∀ b ∈ blocks, 0 ≤ b.ID ∧ b.ID < blocks.length)
    (hcov : ∀ u : Nat, u < blocks.length → ∃ b ∈ blocks, b.ID = u)
    (hd : NodeIdsDistinct blocks)
    (hcreated : ∀ b ∈ blocks, b.taskID ≠ 0 → ∃ c ∈ blocks, c.taskCreated = b.taskID)
    (hawaited : ∀ b ∈ blocks, b.taskID ≠ 0 → ∃ c ∈ blocks, b.taskID ∈ c.waitFor) :
    (∀ u, u < num_vertices pd.g → u ≠ pd.r → Path pd.g pd.r u) ∧
    (∀ u, u < num_vertices pd.g → u ≠ pd.e → Path pd.g u pd.e) := by
  have hg := parse_dag_wf h
  obtain ⟨gs, _, _, _, container, h1, _, _, _, _, h6, _⟩ := parse_dag_parts h
  obtain ⟨⟨first, hfm, hfh, hft, _, hfr, _⟩, ⟨last, hlm, hll, hlt, _, hle, _⟩, _⟩ :=
    root_exit_of_sortBlocks blocks pd h
  have hids := taskIds_of_groupBlocks h1
  have hsv : (∀ v, v ∈ container ↔ v < num_vertices pd.g) ∧ TopoOrdered pd.g container := by
    rcases topological_sort_spec hg with ⟨he, _⟩ | ⟨sv, hs, _, hm, hto⟩
    · rw [he] at h6; cases h6
    · rw [hs] at h6
      cases h6
      exact ⟨hm, hto⟩
  have hmem : ∀ u t, Edge pd.g u t → u ∈ container :=
    fun u t e => (hsv.1 u).2 (edge_lt hg e).1
  have hidx : ∀ u ∈ container, ∀ t, Edge pd.g u t →
      container.indexOf t < container.indexOf u := by
    intro u hu t e
    rcases topoOrderedFrom_index container [] hsv.2 u hu t e with k | k
    · cases k
    · exact k
  have hcast : ∀ b ∈ blocks, ((toVertex b.ID : Nat) : Int) = b.ID := by
    intro b hb
    apply toVertex_of_nonneg (hid b hb).1
    have h2 := (hid b hb).2
    have h3 : ((blocks.length : Nat) : Int) < 2 ^ 31 := by exact_mod_cast hn
    have h4 : (2 : Int) ^ 31 < 2 ^ 64 := by norm_num
    omega
  have hedge := edge_iff_specEdge h hd
  -- the vertex of a block
  have hvx : ∀ b ∈ blocks, ∃ v : Vertex, (v : Int) = b.ID :=
    fun b hb => ⟨b.ID.toNat, Int.toNat_of_nonneg (hid b hb).1⟩
  have hpos : ∀ b ∈ blocks, ∃ p, (taskSeq blocks b.taskID)[p]? = some b :=
    fun b hb => List.getElem?_of_mem (mem_taskSeq.2 ⟨hb, rfl⟩)
  have hP : ∀ u, u < num_vertices pd.g → ∃ b ∈ blocks, (u : Int) = b.ID := by
    intro u hu
    obtain ⟨x, y, e, hle⟩ := parse_dag_cover h u hu
    obtain ⟨⟨bx, hbx, ex⟩, ⟨by', hby, ey⟩⟩ := specEdge_ids ((hedge x y).1 e)
    have hx := (hid bx hbx).2
    have hy := (hid by' hby).2
    have hul : u < blocks.length := by
      rcases le_max_iff.1 hle with k | k <;> omega
    obtain ⟨b, hb, eb⟩ := hcov u hul
    exact ⟨b, hb, eb.symm⟩
  constructor
  · intro u hu hne
    have := reach_from_source (fun v => ∃ b ∈ blocks, (v : Int) = b.ID) pd.r hmem hidx
      (by
        rintro v ⟨b, hb, hv⟩ hvr
        obtain ⟨p, hp⟩ := hpos b hb
        cases p with
        | zero =>
          have hhead : (taskSeq blocks b.taskID).head? = some b := by
            rw [List.head?_eq_getElem?]; exact hp
          by_cases ht : b.taskID = 0
          · exfalso
            rw [ht, hfh] at hhead
            have hbf : first = b := Option.some.inj hhead
            apply hvr
            have hc1 := hcast first hfm
            rw [← hfr, hbf] at hc1
            exact Int.ofNat.inj (hv.trans hc1.symm)
          · obtain ⟨c, hc, hct⟩ := hcreated b hb ht
            obtain ⟨u', hu'⟩ := hvx c hc
            refine ⟨u', ⟨c, hc, hu'⟩, (hedge u' v).2 (Or.inr (Or.inl ⟨c, hc, ?_, b, ?_, hu', hv⟩))⟩
            · rw [hct]
              have := ((hids b.taskID).1 ⟨b, hb, rfl⟩).1
              omega
            · rw [hct]; exact hhead
        | succ q =>
          have hq : q < (taskSeq blocks b.taskID).length := by
            have := (List.getElem?_eq_some_iff.1 hp).1
            omega
          have ha : (taskSeq blocks b.taskID)[q]? = some (taskSeq blocks b.taskID)[q] :=
            List.getElem?_eq_getElem hq
          have ham : (taskSeq blocks b.taskID)[q] ∈ blocks :=
            (mem_taskSeq.1 (List.getElem_mem _)).1
          obtain ⟨u', hu'⟩ := hvx _ ham
          exact ⟨u', ⟨_, ham, hu'⟩,
            (hedge u' v).2 (Or.inl ⟨b.taskID, q, _, b, ha, hp, hu', hv⟩)⟩)
      u (hP u hu)
    exact this.resolve_left hne
  · intro u hu hne
    have := reach_to_sink (fun v => ∃ b ∈ blocks, (v : Int) = b.ID) pd.e hmem hidx
      (by
        rintro v ⟨b, hb, hv⟩ hve
        obtain ⟨p, hp⟩ := hpos b hb
        have hpl := (List.getElem?_eq_some_iff.1 hp).1
        by_cases hnext : p + 1 < (taskSeq blocks b.taskID).length
        · have hc : (taskSeq blocks b.taskID)[p + 1]? =
              some (taskSeq blocks b.taskID)[p + 1] := List.getElem?_eq_getElem hnext
          have hcm : (taskSeq blocks b.taskID)[p + 1] ∈ blocks :=
            (mem_taskSeq.1 (List.getElem_mem _)).1
          obtain ⟨w, hw⟩ := hvx _ hcm
          exact ⟨w, ⟨_, hcm, hw⟩,
            (hedge v w).2 (Or.inl ⟨b.taskID, p, b, _, hp, hc, hv, hw⟩)⟩
        · have hlast : (taskSeq blocks b.taskID).getLast? = some b := by
            rw [List.getLast?_eq_getElem?]
            have : (taskSeq blocks b.taskID).length - 1 = p := by omega
            rw [this]
            exact hp
          by_cases ht : b.taskID = 0
          · exfalso
            rw [ht, hll] at hlast
            have hbl : last = b := Option.some.inj hlast
            apply hve
            have hc1 := hcast last hlm
            rw [← hle, hbl] at hc1
            exact Int.ofNat.inj (hv.trans hc1.symm)
          · obtain ⟨c, hc, hct⟩ := hawaited b hb ht
            obtain ⟨w, hw⟩ := hvx c hc
            exact ⟨w, ⟨c, hc, hw⟩,
              (hedge v w).2 (Or.inr (Or.inr ⟨c, hc, b.taskID, hct, b, hlast, hv, hw⟩))⟩)
      u (hP u hu)
    exact this.resolve_left hne

/-- C3 (amended): take a description whose block ids are `0, …, n - 1` for its
`n` blocks, whose node indices are non-negative and distinct within every
task, and in which every task other than 0 is the `taskCreated` of a block and
occurs in the `waitFor` list of a block. If `parse_dag` accepts it (on
whichever ascending rearrangement `std::sort` leaves behind), then in the
returned graph every vertex other than the root is reachable from the root and
every vertex other than the exit reaches the exit, and whenever
`connected_components` finishes, the post-condition checks at the start of
`analyze_shared_access` pass. -/
theorem parse_dag_postcondition (blocks sorted : List BasicBlock) (pd : ParsedDag)
    (fuel : Nat) (c : ComponentsMap) (hs : StdSortResult blocks sorted)
    (hp : parse_dag_sorted sorted = .ok pd) (hn : blocks.length < 2 ^ 31)
    (hid : ∀ b ∈ blocks, 0 ≤ b.ID ∧ b.ID < blocks.length)
    (hcov : ∀ u : Nat, u < blocks.length → ∃ b ∈ blocks, b.ID = u)
    (hd : NodeIdsDistinct blocks)
    (hcreated : ∀ b ∈ blocks, b.taskID ≠ 0 → ∃ c ∈ blocks, c.taskCreated = b.taskID)
    (hawaited : ∀ b ∈ blocks, b.taskID ≠ 0 → ∃ c ∈ blocks, b.taskID ∈ c.waitFor)
    (hcc : connected_components pd.g pd.r (emptyMap (num_vertices pd.g)) fuel = some c) :
    (∀ u, u < num_vertices pd.g → u ≠ pd.r → Path pd.g pd.r u) ∧
    (∀ u, u < num_vertices pd.g → u ≠ pd.e → Path pd.g u pd.e) ∧
    checkComponents (num_vertices pd.g) c pd.r pd.e = true := by
  have hp' : parse_dag sorted = .ok pd := by
    unfold parse_dag
    rw [sortBlocks_of_result hs]
    exact hp
  have hl := hs.1.length_eq
  have hm : ∀ b, b ∈ sorted ↔ b ∈ blocks := fun b => hs.1.mem_iff
  have hconn := complete_description_connected hp' (by rw [hl]; exact hn)
    (fun b hb => by rw [hl]; exact hid b ((hm b).1 hb))
    (fun u hu => by
      obtain ⟨b, hb, e⟩ := hcov u (by rw [← hl]; exact hu)
      exact ⟨b, (hm b).2 hb, e⟩)
    ⟨fun b hb => hd.1 b ((hm b).1 hb),
      hs.1.symm.pairwise hd.2 (fun hab e k => hab e.symm k.symm)⟩
    (fun b hb ht => by
      obtain ⟨x, hx, e⟩ := hcreated b ((hm b).1 hb) ht
      exact ⟨x, (hm x).2 hx, e⟩)
    (fun b hb ht => by
      obtain ⟨x, hx, e⟩ := hawaited b ((hm b).1 hb) ht
      exact ⟨x, (hm x).2 hx, e⟩)
  exact ⟨hconn.1, hconn.2, postcondition_of_paths sorted pd fuel c hp' hconn.1 hconn.2 hcc⟩

/-- Witness for C3 (amended): `forkJoinBlocks` has the ids 0, 1, 2, distinct
node indices, and its task 1 is created by block 0 and awaited by block 2; it
is accepted, the reachability loop finishes and the checks pass. -/
theorem parse_dag_postcondition_witness :
    StdSortResult forkJoinBlocks
      [mkBlock 0 0 0 1 [], mkBlock 2 0 1 (-1) [1], mkBlock 1 1 0 (-1) []] ∧
    parse_dag_sorted [mkBlock 0 0 0 1 [], mkBlock 2 0 1 (-1) [1], mkBlock 1 1 0 (-1) []] =
      .ok forkJoinDag ∧
    connected_components forkJoinDag.g 0 (emptyMap 3) 10 =
      some [[false, true, true], [false, false, true], [false, false, false]] ∧
    (∀ u, u < num_vertices forkJoinDag.g → u ≠ forkJoinDag.r →
      Path forkJoinDag.g forkJoinDag.r u) ∧
    (∀ u, u < num_vertices forkJoinDag.g → u ≠ forkJoinDag.e →
      Path forkJoinDag.g u forkJoinDag.e) ∧
    checkComponents 3 [[false, true, true], [false, false, true], [false, false, false]] 0 2 =
      true :=
  ⟨by decide, by decide, by decide,
    parse_dag_postcondition forkJoinBlocks
      [mkBlock 0 0 0 1 [], mkBlock 2 0 1 (-1) [1], mkBlock 1 1 0 (-1) []] forkJoinDag 10
      [[false, true, true], [false, false, true], [false, false, false]]
      (by decide) (by decide) (by decide) (by decide) (by decide) (by decide) (by decide)
      (by decide) (by decide)⟩

end Parrp
